import Mathlib

/-!
# CPU scheduling simulator: FCFS, non-preemptive SJF and Round-Robin

A shallow embedding of `scheduler.c` / `scheduler.h`.

Modelling conventions.

* The program is embedded twice.  The definitions that carry the names of the
  source (`cmp_arrival_pid`, `fcfs_step`, `sjf_pass`, `rr_pass`, `make_metrics`,
  ..) take a C `int` as a Lean `Int` with exact arithmetic and the averages as
  exact rationals: they describe the runs of the program in which no signed
  addition or subtraction overflows.  The definitions with the suffix `32`
  (`cmp_arrival_pid32`, `fcfs_step32`, `sjf_pass32`, `rr_pass32`,
  `make_metrics32`, ..) are the same functions with every `int` addition and
  subtraction reduced to 32 bits (`wrap32`, two-complement wrap-around) and with
  the averages computed as `float` values (`Fp`, `fp_cast`).  The theorems
  `fcfs_run32_eq`, `sjf_run32_eq` and `rr_run32_eq` show that the two readings
  agree on the inputs that `no_overflow` and `pids_fit` describe.
* Statements that do not depend on the range of `int` (the selection rule of
  SJF, the queue, termination, the shape of the Round-Robin state) or that carry
  a no-overflow proviso are made on the exact definitions; statements about
  times, sums and averages for arbitrary `int` inputs are made on the 32-bit
  definitions.  The constant `INT_MAX` is the sentinel of the SJF scan.
* A `size_t` counter is a `Nat`; an array is a `List`.
* A `double` sum of `int` values is the integer sum: the additions are exact as
  long as the sum is below `2^53` in absolute value, which it is for fewer than
  `2^22` processes.  In the exact definitions the three averages are exact
  rationals (the quotient `sum / n`, before the final rounding to `float`); for
  `n = 0` the C quotient is `0.0 / 0`, not a number, which the rational
  `0 / 0 = 0` does not stand for.  In the 32-bit definitions an average is
  `fp_avg sum n`: the quotient rounded to `double` and then to `float` (to
  nearest, ties to even), an infinity from `2^128` on, and not-a-number for
  `0.0 / 0`; numbers below the normal range of `float` do not occur.
* `malloc`, `calloc` and `realloc` succeed, and copying an array is the identity.
* A call of `exit` and a read outside an array are results of type `Fault`.
  The two loops whose termination depends on the data (`sjf_metrics` and
  `rr_metrics`) take a number of passes `fuel`; `Fault.outOfFuel` means that the
  loop was still running after that many passes.
* The field `log` of a simulation state is ghost: it records what each pass did
  and is never read by the simulation.
-/

namespace Scheduler

/-! ## Data model (`scheduler.h`) -/

/-- Process control block for simulation. -/
structure Process where
  pid : Int
  arrivalTime : Int
  burstTime : Int
  remainingTime : Int
  startTime : Int
  completionTime : Int
deriving DecidableEq, Repr

/-- Aggregated metrics returned by each algorithm. -/
structure Metrics where
  avgTurnaround : ℚ
  avgWaiting : ℚ
  avgResponse : ℚ
deriving DecidableEq

/-- Ways in which a run does not return `Metrics`. -/
inductive Fault where
  /-- `rr_metrics`: "Quantum must be > 0", then `exit(EXIT_FAILURE)`. -/
  | quantum
  /-- `q_pop` on an empty queue: "underflow", then `exit(1)`. -/
  | underflow
  /-- A read outside the bounds of an array (undefined behaviour in C). -/
  | outOfBounds
  /-- The loop was still running when the fuel ran out. -/
  | outOfFuel
deriving DecidableEq, Repr

/-- The value of `INT_MAX` from `<limits.h>` for a 32-bit `int`. -/
def INT_MAX : Int := 2147483647

/-! ## Internal helpers -/

/-- Compare by arrivalTime, then pid. -/
def cmp_arrival_pid (p q : Process) : Int :=
  if p.arrivalTime ≠ q.arrivalTime then p.arrivalTime - q.arrivalTime
  else p.pid - q.pid

/-- The library routine `qsort`, as a stable insertion sort driven by the
comparator: `a` stays before `b` when `cmp a b ≤ 0`.  (C leaves the relative
order of records that compare equal unspecified; the model keeps their input
order.) -/
def qsort (cmp : Process → Process → Int) (l : List Process) : List Process :=
  l.insertionSort (fun a b => cmp a b ≤ 0)

/-- Make a private copy of the proc array. -/
def duplicate_proc_array (src : List Process) : List Process := src

/-- Package sums into Metrics. -/
def make_metrics (sumTa sumWait sumResp : Int) (n : Nat) : Metrics :=
  { avgTurnaround := (sumTa : ℚ) / (n : ℚ)
    avgWaiting := (sumWait : ℚ) / (n : ℚ)
    avgResponse := (sumResp : ℚ) / (n : ℚ) }

/-! ## FCFS -/

/-- Loop state of `fcfs_metrics`: `out` is the part `p[0..i)` of the working
copy that the loop has already written. -/
structure FcfsState where
  out : List Process
  current : Int
  sumTa : Int
  sumWait : Int
  sumResp : Int
deriving DecidableEq, Repr

/-- State before the `for` loop of `fcfs_metrics`. -/
def fcfs_init : FcfsState :=
  { out := [], current := 0, sumTa := 0, sumWait := 0, sumResp := 0 }

/-- One iteration of the `for` loop of `fcfs_metrics`, on the record `p[i]`. -/
def fcfs_step (s : FcfsState) (pi : Process) : FcfsState :=
  let current := if s.current < pi.arrivalTime then pi.arrivalTime else s.current
  let p1 := { pi with startTime := current }
  let p2 := { p1 with completionTime := current + p1.burstTime }
  let ta := p2.completionTime - p2.arrivalTime
  let wt := p2.startTime - p2.arrivalTime
  { out := s.out ++ [p2]
    current := p2.completionTime
    sumTa := s.sumTa + ta
    sumWait := s.sumWait + wt
    sumResp := s.sumResp + wt }

/-- The `for` loop of `fcfs_metrics` over the sorted working copy. -/
def fcfs_loop (p : List Process) : FcfsState :=
  p.foldl fcfs_step fcfs_init

/-- Ghost record of one pass of the `while` loop of `sjf_metrics`. -/
inductive SjfEvent where
  /-- No process was ready: the cursor moved from `t0` to `t1`. -/
  | idle (t0 t1 : Int)
  /-- Process `p[idx]` was executed to completion from time `t`. -/
  | dispatch (idx : Nat) (t : Int)
deriving DecidableEq, Repr

/-- Loop state of `sjf_metrics`. -/
structure SjfState where
  p : List Process
  done : List Bool
  completed : Nat
  current : Int
  sumTa : Int
  sumWait : Int
  sumResp : Int
  log : List SjfEvent
deriving DecidableEq, Repr

/-- State before the `while` loop of `sjf_metrics`; `calloc` clears `done`. -/
def sjf_init (proc : List Process) : SjfState :=
  { p := duplicate_proc_array proc
    done := List.replicate proc.length false
    completed := 0, current := 0, sumTa := 0, sumWait := 0, sumResp := 0
    log := [] }

/-- Body of the selection scan for index `i`; `acc` is `(best, bestBurst)`.
The conditions are evaluated in the order of the C expression, so
`p[best].arrivalTime` is read only when the two bursts are equal. -/
def sjf_scan_step (p : List Process) (done : List Bool) (current : Int)
    (acc : Int × Int) (i : Nat) : Except Fault (Int × Int) :=
  match p[i]?, done[i]? with
  | some pi, some d =>
    if d = false ∧ pi.arrivalTime ≤ current then
      if pi.burstTime < acc.2 then .ok ((i : Int), pi.burstTime)
      else if pi.burstTime = acc.2 then
        if acc.1 < 0 then .error Fault.outOfBounds
        else
          match p[acc.1.toNat]? with
          | some pb =>
            if pi.arrivalTime < pb.arrivalTime then .ok ((i : Int), pi.burstTime)
            else .ok acc
          | none => .error Fault.outOfBounds
      else .ok acc
    else .ok acc
  | _, _ => .error Fault.outOfBounds

/-- The selection scan of `sjf_metrics`: returns `(best, bestBurst)`. -/
def sjf_select (p : List Process) (done : List Bool) (current : Int) :
    Except Fault (Int × Int) :=
  (List.range p.length).foldlM (sjf_scan_step p done current) (-1, INT_MAX)

/-- The scan of the idle branch: the least `arrivalTime` of a process that is
not done, starting from `INT_MAX`. -/
def sjf_next_arrival (p : List Process) (done : List Bool) : Int :=
  (List.zip p done).foldl
    (fun nxt pd => if pd.2 = false ∧ pd.1.arrivalTime < nxt then pd.1.arrivalTime else nxt)
    INT_MAX

/-- One pass of the `while` loop of `sjf_metrics`. -/
def sjf_pass (s : SjfState) : Except Fault SjfState :=
  match sjf_select s.p s.done s.current with
  | .error e => .error e
  | .ok (best, _) =>
    if best < 0 then
      let nxt := sjf_next_arrival s.p s.done
      .ok { s with current := nxt, log := s.log ++ [SjfEvent.idle s.current nxt] }
    else
      match s.p[best.toNat]? with
      | none => .error Fault.outOfBounds
      | some pb =>
        let p1 := { pb with startTime := s.current }
        let p2 := { p1 with completionTime := s.current + p1.burstTime }
        let ta := p2.completionTime - p2.arrivalTime
        let wt := p2.startTime - p2.arrivalTime
        .ok { p := s.p.set best.toNat p2
              done := s.done.set best.toNat true
              completed := s.completed + 1
              current := p2.completionTime
              sumTa := s.sumTa + ta
              sumWait := s.sumWait + wt
              sumResp := s.sumResp + wt
              log := s.log ++ [SjfEvent.dispatch best.toNat s.current] }

/-- The `while (completed < n)` loop of `sjf_metrics`, for at most `fuel`
passes. -/
def sjf_loop : Nat → SjfState → Except Fault SjfState
  | 0, s => if s.completed < s.p.length then .error Fault.outOfFuel else .ok s
  | fuel + 1, s =>
    if s.completed < s.p.length then
      match sjf_pass s with
      | .ok s1 => sjf_loop fuel s1
      | .error e => .error e
    else .ok s

/-- Non-preemptive Shortest-Job-First. -/
def sjf_metrics (fuel : Nat) (proc : List Process) : Except Fault Metrics :=
  match sjf_loop fuel (sjf_init proc) with
  | .ok s => .ok (make_metrics s.sumTa s.sumWait s.sumResp proc.length)
  | .error e => .error e

/-! ## Round-Robin with dynamic queue -/

/-- The growable buffer of `int` values; cells that `realloc` leaves
uninitialised hold `0`. -/
structure Queue where
  buf : List Int
  cap : Nat
  head : Nat
  tail : Nat
deriving DecidableEq, Repr

/-- Geometric growth of the buffer: capacity 16, then doubling. -/
def q_grow (q : Queue) : Queue :=
  let newCap := if q.cap ≠ 0 then q.cap * 2 else 16
  { q with buf := q.buf ++ List.replicate (newCap - q.cap) 0, cap := newCap }

/-- The empty queue without a buffer. -/
def q_create : Queue := { buf := [], cap := 0, head := 0, tail := 0 }

/-- Emptiness test `head == tail`. -/
def q_empty (q : Queue) : Bool := q.head == q.tail

/-- Store `v` at `buf[tail++]`, growing first when the buffer is full. -/
def q_push (q : Queue) (v : Int) : Queue :=
  let q1 := if q.tail = q.cap then q_grow q else q
  { q1 with buf := q1.buf.set q1.tail v, tail := q1.tail + 1 }

/-- Return `buf[head++]`; fatal on an empty queue. -/
def q_pop (q : Queue) : Except Fault (Int × Queue) :=
  if q_empty q then .error Fault.underflow
  else
    match q.buf[q.head]? with
    | some v => .ok (v, { q with head := q.head + 1 })
    | none => .error Fault.outOfBounds

/-- Ghost record of one pass of the `while` loop of `rr_metrics`. -/
inductive RrEvent where
  /-- The queue was empty: the cursor moved from `t0` to `t1`. -/
  | idle (t0 t1 : Int)
  /-- Process `p[idx]` ran from time `t` for `slice` units; `fin` tells whether
  it completed at the end of the slice. -/
  | run (idx : Nat) (t slice : Int) (fin : Bool)
deriving DecidableEq, Repr

/-- Loop state of `rr_metrics`. -/
structure RrState where
  p : List Process
  rq : Queue
  nextArr : Nat
  finished : Nat
  current : Int
  sumTa : Int
  sumWait : Int
  sumResp : Int
  log : List RrEvent
deriving DecidableEq, Repr

/-- The loop `while (nextArr < n && p[nextArr].arrivalTime <= current)
q_push(&rq, (int)nextArr++)`, over the part `p[nextArr..n)` of the array. -/
def rr_enqueue (current : Int) : List Process → Queue → Nat → Queue × Nat
  | [], rq, nextArr => (rq, nextArr)
  | pn :: rest, rq, nextArr =>
    if pn.arrivalTime ≤ current then
      rr_enqueue current rest (q_push rq (nextArr : Int)) (nextArr + 1)
    else (rq, nextArr)

/-- The initialisation loop of `rr_metrics` on one record. -/
def rr_reset (x : Process) : Process :=
  { x with remainingTime := x.burstTime, startTime := -1 }

/-- State before the `while` loop of `rr_metrics`. -/
def rr_init (proc : List Process) : RrState :=
  { p := qsort cmp_arrival_pid ((duplicate_proc_array proc).map rr_reset)
    rq := q_create
    nextArr := 0, finished := 0, current := 0
    sumTa := 0, sumWait := 0, sumResp := 0
    log := [] }

/-- One pass of the `while (finished < n)` loop of `rr_metrics`. -/
def rr_pass (quantum : Int) (s : RrState) : Except Fault RrState :=
  match rr_enqueue s.current (s.p.drop s.nextArr) s.rq s.nextArr with
  | (rq1, nextArr1) =>
    if q_empty rq1 then
      match s.p[nextArr1]? with
      | none => .error Fault.outOfBounds
      | some pn =>
        .ok { s with rq := rq1, nextArr := nextArr1, current := pn.arrivalTime
                     log := s.log ++ [RrEvent.idle s.current pn.arrivalTime] }
    else
      match q_pop rq1 with
      | .error e => .error e
      | .ok (idx, rq2) =>
        if idx < 0 then .error Fault.outOfBounds
        else
          match s.p[idx.toNat]? with
          | none => .error Fault.outOfBounds
          | some cur =>
            let first := decide (cur.startTime < 0)
            let cur1 := if first then { cur with startTime := s.current } else cur
            let sumResp1 :=
              if first then s.sumResp + (cur1.startTime - cur1.arrivalTime) else s.sumResp
            let slice := if cur1.remainingTime > quantum then quantum else cur1.remainingTime
            let cur2 := { cur1 with remainingTime := cur1.remainingTime - slice }
            let current1 := s.current + slice
            let p1 := s.p.set idx.toNat cur2
            match rr_enqueue current1 (p1.drop nextArr1) rq2 nextArr1 with
            | (rq3, nextArr2) =>
              if cur2.remainingTime > 0 then
                .ok { p := p1, rq := q_push rq3 idx, nextArr := nextArr2
                      finished := s.finished, current := current1
                      sumTa := s.sumTa, sumWait := s.sumWait, sumResp := sumResp1
                      log := s.log ++ [RrEvent.run idx.toNat s.current slice false] }
              else
                let cur3 := { cur2 with completionTime := current1 }
                let ta := cur3.completionTime - cur3.arrivalTime
                let wt := ta - cur3.burstTime
                .ok { p := s.p.set idx.toNat cur3, rq := rq3, nextArr := nextArr2
                      finished := s.finished + 1, current := current1
                      sumTa := s.sumTa + ta, sumWait := s.sumWait + wt, sumResp := sumResp1
                      log := s.log ++ [RrEvent.run idx.toNat s.current slice true] }

/-- The `while (finished < n)` loop of `rr_metrics`, for at most `fuel`
passes. -/
def rr_loop (quantum : Int) : Nat → RrState → Except Fault RrState
  | 0, s => if s.finished < s.p.length then .error Fault.outOfFuel else .ok s
  | fuel + 1, s =>
    if s.finished < s.p.length then
      match rr_pass quantum s with
      | .ok s1 => rr_loop quantum fuel s1
      | .error e => .error e
    else .ok s

/-- Round-Robin with given time quantum. -/
def rr_metrics (fuel : Nat) (proc : List Process) (quantum : Int) :
    Except Fault Metrics :=
  if quantum ≤ 0 then .error Fault.quantum
  else
    match rr_loop quantum fuel (rr_init proc) with
    | .ok s => .ok (make_metrics s.sumTa s.sumWait s.sumResp proc.length)
    | .error e => .error e

/-! ## Specification-level and proof-level definitions -/

/-- The order "ascending (arrivalTime, pid)" in the words of the specification. -/
def spec_before (a b : Process) : Prop :=
  a.arrivalTime < b.arrivalTime ∨ (a.arrivalTime = b.arrivalTime ∧ a.pid ≤ b.pid)

instance spec_before_decidable : DecidableRel spec_before := fun a b => by
  unfold spec_before; exact inferInstance

/-- One line of the schedule of the specification. -/
structure SpecSlot where
  arrival : Int
  burst : Int
  start : Int
  completion : Int
deriving DecidableEq, Repr

/-- The FCFS schedule in the words of the specification. -/
def spec_fcfs_schedule : Int → List Process → List SpecSlot
  | _, [] => []
  | cursor, x :: rest =>
    let start := max cursor x.arrivalTime
    let completion := start + x.burstTime
    { arrival := x.arrivalTime, burst := x.burstTime, start := start, completion := completion }
      :: spec_fcfs_schedule completion rest

/-- An input record: the three fields that the caller supplies, the
scheduler-owned fields cleared. -/
def mkProc (pid arrival burst : Int) : Process :=
  { pid := pid, arrivalTime := arrival, burstTime := burst, remainingTime := 0, startTime := 0, completionTime := 0 }

/-- Process `x = p[j]` is not done and has arrived by time `current`. -/
def sjf_ready (p : List Process) (done : List Bool) (current : Int) (j : Nat)
    (x : Process) : Prop :=
  p[j]? = some x ∧ done[j]? = some false ∧ x.arrivalTime ≤ current

instance sjf_ready_decidable (p : List Process) (done : List Bool) (current : Int) (j : Nat)
    (x : Process) : Decidable (sjf_ready p done current j x) := by
  unfold sjf_ready; exact inferInstance

/-- Loop invariant of the selection scan after the indices below `k`. -/
def sjf_scan_inv (p : List Process) (done : List Bool) (current : Int) (k : Nat)
    (acc : Int × Int) : Prop :=
  (acc.1 = -1 ∧ acc.2 = INT_MAX ∧ ∀ j x, j < k → ¬ sjf_ready p done current j x) ∨
  (∃ (b : Nat) (pb : Process), acc.1 = (b : Int) ∧ b < k ∧ sjf_ready p done current b pb ∧
    acc.2 = pb.burstTime ∧
    ∀ j x, j < k → sjf_ready p done current j x →
      (pb.burstTime < x.burstTime ∨
        (pb.burstTime = x.burstTime ∧ pb.arrivalTime ≤ x.arrivalTime)) ∧
      (j < b → pb.burstTime < x.burstTime ∨
        (pb.burstTime = x.burstTime ∧ pb.arrivalTime < x.arrivalTime)))

/-- The state after the idle branch of a pass of `sjf_metrics`. -/
def sjf_idle_state (s : SjfState) : SjfState :=
  { s with current := sjf_next_arrival s.p s.done
           log := s.log ++ [SjfEvent.idle s.current (sjf_next_arrival s.p s.done)] }

/-- The state after a pass of `sjf_metrics` that executes `pb = p[b]`. -/
def sjf_dispatch_state (s : SjfState) (b : Nat) (pb : Process) : SjfState :=
  { p := s.p.set b { pb with startTime := s.current
                             completionTime := s.current + pb.burstTime }
    done := s.done.set b true
    completed := s.completed + 1
    current := s.current + pb.burstTime
    sumTa := s.sumTa + (s.current + pb.burstTime - pb.arrivalTime)
    sumWait := s.sumWait + (s.current - pb.arrivalTime)
    sumResp := s.sumResp + (s.current - pb.arrivalTime)
    log := s.log ++ [SjfEvent.dispatch b s.current] }

/-- The selected process is least in (burstTime, arrivalTime) among the ready
ones, and strictly so among those of lower index. -/
def sjf_least (s : SjfState) (b : Nat) (pb : Process) : Prop :=
  ∀ j x, sjf_ready s.p s.done s.current j x →
    (pb.burstTime < x.burstTime ∨
      (pb.burstTime = x.burstTime ∧ pb.arrivalTime ≤ x.arrivalTime)) ∧
    (j < b → pb.burstTime < x.burstTime ∨
      (pb.burstTime = x.burstTime ∧ pb.arrivalTime < x.arrivalTime))

/-- The fields of a record that the caller supplies and no engine writes. -/
def same_input (x y : Process) : Prop :=
  x.pid = y.pid ∧ x.arrivalTime = y.arrivalTime ∧ x.burstTime = y.burstTime

instance same_input_decidable (x y : Process) : Decidable (same_input x y) := by
  unfold same_input; exact inferInstance

/-- Indices of the processes that the log reports as dispatched, in order. -/
def sjf_dispatched : List SjfEvent → List Nat
  | [] => []
  | SjfEvent.idle _ _ :: rest => sjf_dispatched rest
  | SjfEvent.dispatch idx _ :: rest => idx :: sjf_dispatched rest

/-- Invariant of the `while` loop of `sjf_metrics` on input `proc`. -/
structure SjfInv (proc : List Process) (s : SjfState) : Prop where
  len_p : s.p.length = proc.length
  len_done : s.done.length = proc.length
  input : ∀ (k : Nat) (x : Process), s.p[k]? = some x → ∃ y, proc[k]? = some y ∧ same_input x y
  count : s.completed = s.done.count true
  finished : ∀ (k : Nat) (x : Process), s.p[k]? = some x → s.done[k]? = some true →
    x.arrivalTime ≤ x.startTime ∧ x.completionTime = x.startTime + x.burstTime
  disp_nodup : (sjf_dispatched s.log).Nodup
  disp_done : ∀ k : Nat, k ∈ sjf_dispatched s.log ↔ s.done[k]? = some true
  disp_start : ∀ (k : Nat) (t : Int), SjfEvent.dispatch k t ∈ s.log →
    ∃ x, s.p[k]? = some x ∧ x.startTime = t

/-- States that the `while` loop of `sjf_metrics` can be in at the top of a pass. -/
inductive SjfReach (proc : List Process) : SjfState → Prop where
  | init : SjfReach proc (sjf_init proc)
  | step (s s1 : SjfState) : SjfReach proc s → s.completed < s.p.length →
      sjf_pass s = .ok s1 → SjfReach proc s1

/-- What a run of the `while` loop of `sjf_metrics` from `s` delivers with `fuel`
passes: a final state that satisfies the invariant, with every process
completed. -/
def SjfRuns (proc : List Process) (fuel : Nat) (s : SjfState) : Prop :=
  ∃ s1, sjf_loop fuel s = .ok s1 ∧ SjfInv proc s1 ∧ s1.completed = proc.length

/-- The live part `buf[head..tail)` of the queue, oldest element first. -/
def q_contents (q : Queue) : List Int :=
  (q.buf.drop q.head).take (q.tail - q.head)

/-- Well-formedness of the queue record. -/
def q_wf (q : Queue) : Prop :=
  q.head ≤ q.tail ∧ q.tail ≤ q.cap ∧ q.buf.length = q.cap

instance q_wf_decidable (q : Queue) : Decidable (q_wf q) := by
  unfold q_wf; exact inferInstance

/-- CPU time that the log grants to process `k`. -/
def rr_granted : List RrEvent → Nat → Int
  | [], _ => 0
  | RrEvent.idle _ _ :: rest, k => rr_granted rest k
  | RrEvent.run idx _ slice _ :: rest, k =>
    (if idx = k then slice else 0) + rr_granted rest k

/-- Number of times the log reports that process `k` completed (the branch that
writes `completionTime`). -/
def rr_completions : List RrEvent → Nat → Nat
  | [], _ => 0
  | RrEvent.idle _ _ :: rest, k => rr_completions rest k
  | RrEvent.run idx _ _ fin :: rest, k =>
    (if idx = k ∧ fin = true then 1 else 0) + rr_completions rest k

/-- Total cursor advance caused by dispatches. -/
def rr_total : List RrEvent → Int
  | [] => 0
  | RrEvent.idle _ _ :: rest => rr_total rest
  | RrEvent.run _ _ slice _ :: rest => slice + rr_total rest

/-- Total cursor advance caused by idle passes. -/
def rr_gaps : List RrEvent → Int
  | [] => 0
  | RrEvent.idle t0 t1 :: rest => (t1 - t0) + rr_gaps rest
  | RrEvent.run _ _ _ _ :: rest => rr_gaps rest

/-- Facts about one record `x = p[k]` of the working copy of `rr_metrics`, at
cursor value `current` and with `nextArr` processes enqueued so far. -/
structure RrProcOk (current : Int) (nextArr : Nat) (k : Nat) (x : Process) : Prop where
  burst_pos : 0 < x.burstTime
  rem_nonneg : 0 ≤ x.remainingTime
  rem_le : x.remainingTime ≤ x.burstTime
  arrived : k < nextArr → x.arrivalTime ≤ current
  unqueued : nextArr ≤ k → x.startTime = -1 ∧ x.remainingTime = x.burstTime
  fresh : x.startTime < 0 → x.startTime = -1 ∧ x.remainingTime = x.burstTime
  started : 0 ≤ x.startTime → x.arrivalTime ≤ x.startTime ∧
    x.startTime + (x.burstTime - x.remainingTime) ≤ current ∧
    x.remainingTime < x.burstTime
  completed : x.remainingTime = 0 →
    x.startTime + x.burstTime ≤ x.completionTime ∧ x.completionTime ≤ current

/-- Invariant of the `while` loop of `rr_metrics`; `p0` is the sorted working
copy before the loop and `ks` the indices in the ready queue, oldest first. -/
structure RrInv (quantum : Int) (p0 : List Process) (s : RrState) (ks : List Nat) : Prop where
  wf : q_wf s.rq
  contents : q_contents s.rq = ks.map (fun (k : Nat) => (k : Int))
  nodup : ks.Nodup
  queued : ∀ k : Nat, k ∈ ks ↔ k < s.nextArr ∧ ∃ x, s.p[k]? = some x ∧ 0 < x.remainingTime
  next_le : s.nextArr ≤ s.p.length
  count : s.finished + ks.length = s.nextArr
  len : s.p.length = p0.length
  input : ∀ (k : Nat) (x : Process), s.p[k]? = some x → ∃ y, p0[k]? = some y ∧ same_input x y
  cur_nonneg : 0 ≤ s.current
  procs : ∀ (k : Nat) (x : Process), s.p[k]? = some x → RrProcOk s.current s.nextArr k x
  log_run : ∀ (i : Nat) (t sl : Int) (fin : Bool), RrEvent.run i t sl fin ∈ s.log →
    1 ≤ sl ∧ sl ≤ quantum ∧ i < s.p.length
  log_idle : ∀ a b : Int, RrEvent.idle a b ∈ s.log → a < b
  granted : ∀ (k : Nat) (x : Process), s.p[k]? = some x →
    rr_granted s.log k = x.burstTime - x.remainingTime
  completions : ∀ (k : Nat) (x : Process), s.p[k]? = some x →
    rr_completions s.log k = if x.remainingTime = 0 then 1 else 0
  total : rr_total s.log = (s.p.map fun x => x.burstTime - x.remainingTime).sum
  clock : s.current = rr_total s.log + rr_gaps s.log
  sum_ta : s.sumTa =
    (s.p.map fun x => if x.remainingTime = 0 then x.completionTime - x.arrivalTime else 0).sum
  sum_wait : s.sumWait =
    (s.p.map fun x =>
      if x.remainingTime = 0 then x.completionTime - x.arrivalTime - x.burstTime else 0).sum
  sum_resp : s.sumResp =
    (s.p.map fun x => if 0 ≤ x.startTime then x.startTime - x.arrivalTime else 0).sum

/-- Whether the next process to enqueue has arrived: `0` when `p[nextArr]` exists
with `arrivalTime <= current`, and `1` otherwise. -/
def rr_next_flag (p : List Process) (nextArr : Nat) (current : Int) : Nat :=
  match p[nextArr]? with
  | some x => if x.arrivalTime ≤ current then 0 else 1
  | none => 1

/-- Number of passes that the `while` loop of `rr_metrics` can still make from
`s`: the outstanding CPU time, two per process not yet enqueued, and one when
the next process has not arrived. -/
def rr_measure (s : RrState) : Nat :=
  (s.p.map fun x => x.remainingTime.toNat).sum + 2 * (s.p.length - s.nextArr) +
    rr_next_flag s.p s.nextArr s.current

/-- States that the `while` loop of `rr_metrics` can be in at the top of a pass. -/
inductive RrReach (quantum : Int) (proc : List Process) : RrState → Prop where
  | init : RrReach quantum proc (rr_init proc)
  | step (s s1 : RrState) : RrReach quantum proc s → s.finished < s.p.length →
      rr_pass quantum s = .ok s1 → RrReach quantum proc s1

/-- The slice `min(remainingTime, quantum)` that a dispatch grants to `cur`. -/
def rr_slice (quantum : Int) (cur : Process) : Int :=
  if cur.remainingTime > quantum then quantum else cur.remainingTime

/-- The record `*cur` after a dispatch at time `current`: `startTime` is set on
the first dispatch, `remainingTime` loses the slice, and `completionTime` is
set when nothing remains. -/
def rr_ran (quantum : Int) (current : Int) (cur : Process) : Process :=
  { cur with
    startTime := if cur.startTime < 0 then current else cur.startTime
    remainingTime := cur.remainingTime - rr_slice quantum cur
    completionTime :=
      if cur.remainingTime - rr_slice quantum cur > 0 then cur.completionTime
      else current + rr_slice quantum cur }

/-- The state after a pass of `rr_metrics` that runs `cur = p[i]`; `rq3` and
`nextArr2` are the queue and the counter after the second enqueue loop. -/
def rr_run_state (quantum : Int) (s : RrState) (i : Nat) (cur : Process) (rq3 : Queue)
    (nextArr2 : Nat) : RrState :=
  let fin := decide (¬ (cur.remainingTime - rr_slice quantum cur > 0))
  { p := s.p.set i (rr_ran quantum s.current cur)
    rq := if fin then rq3 else q_push rq3 (i : Int)
    nextArr := nextArr2
    finished := if fin then s.finished + 1 else s.finished
    current := s.current + rr_slice quantum cur
    sumTa := if fin then
        s.sumTa + (s.current + rr_slice quantum cur - cur.arrivalTime) else s.sumTa
    sumWait := if fin then
        s.sumWait + (s.current + rr_slice quantum cur - cur.arrivalTime - cur.burstTime)
      else s.sumWait
    sumResp := if cur.startTime < 0 then s.sumResp + (s.current - cur.arrivalTime)
      else s.sumResp
    log := s.log ++ [RrEvent.run i s.current (rr_slice quantum cur) fin] }

/-- The state after an idle pass of `rr_metrics` that jumps to the arrival of `pn`. -/
def rr_idle_state (s : RrState) (rq1 : Queue) (nextArr1 : Nat) (pn : Process) : RrState :=
  { s with rq := rq1, nextArr := nextArr1, current := pn.arrivalTime
           log := s.log ++ [RrEvent.idle s.current pn.arrivalTime] }

/-- A number of passes that suffices for `rr_metrics` on `proc`. -/
def rr_fuel (proc : List Process) : Nat :=
  (proc.map fun x => x.burstTime.toNat).sum + 2 * proc.length + 1

/-- The relations between the time fields of a record that the specification
requires after a simulation. -/
def times_ok (x : Process) : Prop :=
  x.completionTime ≥ x.startTime ∧ x.startTime ≥ x.arrivalTime ∧ x.arrivalTime ≥ 0 ∧
    x.completionTime - x.arrivalTime ≥ x.burstTime

instance times_ok_decidable (x : Process) : Decidable (times_ok x) := by
  unfold times_ok; exact inferInstance

/-- The state after the first pass of `rr_metrics` on `{(1,0,4),(2,1,2)}` with
quantum 2: process 0 ran for one quantum and was queued again behind process 1. -/
def rr_example_pass1 : RrState :=
  { p := [⟨1, 0, 4, 2, 0, 0⟩, ⟨2, 1, 2, 2, -1, 0⟩]
    rq := ⟨[0, 1, 0, 0, 0, 0, 0, 0, 0, 0, 0, 0, 0, 0, 0, 0], 16, 1, 3⟩
    nextArr := 2, finished := 0, current := 2
    sumTa := 0, sumWait := 0, sumResp := 0
    log := [RrEvent.run 0 0 2 false] }

/-- Sum of `f` over the records of `p` whose `done` flag is set. -/
def sum_done (f : Process → Int) : List Process → List Bool → Int
  | x :: p, d :: done => (if d = true then f x else 0) + sum_done f p done
  | _, _ => 0

/-- What the three sums of `sjf_metrics` hold: contributions of the processes
that are done; response and waiting are the same sum. -/
structure SjfSums (s : SjfState) : Prop where
  resp_wait : s.sumResp = s.sumWait
  wait : s.sumWait = sum_done (fun x => x.startTime - x.arrivalTime) s.p s.done
  ta : s.sumTa = sum_done (fun x => x.completionTime - x.arrivalTime) s.p s.done

/-- One call on the ready queue: `q_push(q, v)` or `q_pop(q)`. -/
inductive QOp where
  | push (v : Int)
  | pop
deriving DecidableEq, Repr

/-- Run a sequence of queue calls from `q`, collecting the values returned by
`q_pop`; the run ends at the first fatal error, as the program does. -/
def q_run : List QOp → Queue → Except Fault (Queue × List Int)
  | [], q => .ok (q, [])
  | QOp.push v :: ops, q => q_run ops (q_push q v)
  | QOp.pop :: ops, q =>
    match q_pop q with
    | .error e => .error e
    | .ok (v, q1) =>
      match q_run ops q1 with
      | .error e => .error e
      | .ok (q2, out) => .ok (q2, v :: out)

/-- The list model of the specification: push appends at the tail, pop on a
non-empty list returns and removes the oldest element, pop on the empty list is
the underflow error. -/
def fifo_run : List QOp → List Int → Except Fault (List Int × List Int)
  | [], m => .ok (m, [])
  | QOp.push v :: ops, m => fifo_run ops (m ++ [v])
  | QOp.pop :: _, [] => .error Fault.underflow
  | QOp.pop :: ops, x :: m =>
    match fifo_run ops m with
    | .error e => .error e
    | .ok (m1, out) => .ok (m1, x :: out)

/-- The values pushed by a sequence of calls, in call order. -/
def q_pushed : List QOp → List Int
  | [] => []
  | QOp.push v :: ops => v :: q_pushed ops
  | QOp.pop :: ops => q_pushed ops

/-- Abstraction of a queue run: the live contents and the popped values. -/
def q_abs (r : Except Fault (Queue × List Int)) : Except Fault (List Int × List Int) :=
  match r with
  | .error e => .error e
  | .ok (q, out) => .ok (q_contents q, out)

/-- The part of the loop invariant of `rr_metrics` that needs no assumption on
the input: the queue record is well formed, it holds indices below `nextArr`,
and every enqueued process is in the queue or finished. -/
def RrShape (s : RrState) : Prop :=
  q_wf s.rq ∧ s.nextArr ≤ s.p.length ∧
    s.finished + (q_contents s.rq).length = s.nextArr ∧
    ∀ v ∈ q_contents s.rq, 0 ≤ v ∧ v.toNat < s.nextArr

/-- What one pass of `rr_metrics` does at its three guarded operations, from the
queue and counter left by the first enqueue loop: in the idle branch the read
`p[nextArr]` is in bounds, and otherwise `q_pop` returns an index of `p`. -/
def rr_pass_safe (s : RrState) : Prop :=
  (q_empty (rr_enqueue s.current (s.p.drop s.nextArr) s.rq s.nextArr).1 = true →
    (rr_enqueue s.current (s.p.drop s.nextArr) s.rq s.nextArr).2 < s.p.length) ∧
  (q_empty (rr_enqueue s.current (s.p.drop s.nextArr) s.rq s.nextArr).1 = false →
    ∃ (idx : Int) (rq2 : Queue),
      q_pop (rr_enqueue s.current (s.p.drop s.nextArr) s.rq s.nextArr).1 = .ok (idx, rq2) ∧
      0 ≤ idx ∧ idx.toNat < s.p.length)

/-- The value of a 32-bit `int` that holds `x` modulo `2^32` (two-complement
wrap-around of an out-of-range result). -/
def wrap32 (x : Int) : Int := (x + 2147483648) % 4294967296 - 2147483648

/-- The comparator `cmp_arrival_pid` with its two subtractions taken as 32-bit
arithmetic. -/
def cmp_arrival_pid32 (a b : Process) : Int :=
  if a.arrivalTime ≠ b.arrivalTime then wrap32 (a.arrivalTime - b.arrivalTime)
  else wrap32 (a.pid - b.pid)

/-- The field `x` is a 32-bit `int`. -/
def is_int32 (x : Int) : Prop := -2147483648 ≤ x ∧ x ≤ INT_MAX

instance is_int32_decidable (x : Int) : Decidable (is_int32 x) := by
  unfold is_int32; exact inferInstance

/-- The body of the selection scan of `sjf_metrics` at index `i`, entered with
`acc = (best, bestBurst)`, evaluates the operand `p[best].arrivalTime`: process
`i` is not done and has arrived, `p[i].burstTime < bestBurst` is false and
`p[i].burstTime == bestBurst` is true. -/
def sjf_reads_best (p : List Process) (done : List Bool) (current : Int)
    (acc : Int × Int) (i : Nat) : Prop :=
  ∃ x, sjf_ready p done current i x ∧ ¬ x.burstTime < acc.2 ∧ x.burstTime = acc.2

/-- Single-CPU exclusivity in the loop of `fcfs_metrics`: the records written so
far ran one after the other, each on a non-empty interval that ended by the
cursor. -/
def FcfsExcl (s : FcfsState) : Prop :=
  List.Pairwise (fun x y => x.completionTime ≤ y.startTime) s.out ∧
    ∀ x ∈ s.out, x.startTime < x.completionTime ∧ x.completionTime ≤ s.current

/-- Single-CPU exclusivity in the loop of `sjf_metrics`: the processes that are
done ran on disjoint intervals that ended by the cursor, in the order in which
the log reports their dispatch. -/
structure SjfExcl (s : SjfState) : Prop where
  done_le : ∀ (k : Nat) (x : Process), s.p[k]? = some x → s.done[k]? = some true →
    x.startTime < x.completionTime ∧ x.completionTime ≤ s.current
  disjoint : ∀ (i j : Nat) (xi xj : Process), i ≠ j → s.p[i]? = some xi → s.p[j]? = some xj →
    s.done[i]? = some true → s.done[j]? = some true →
    xi.completionTime ≤ xj.startTime ∨ xj.completionTime ≤ xi.startTime
  order : List.Pairwise
    (fun i j => ∃ xi xj, s.p[i]? = some xi ∧ s.p[j]? = some xj ∧
      xi.completionTime ≤ xj.startTime) (sjf_dispatched s.log)

/-- Indices of the processes that the log reports as dispatched, in order. -/
def rr_dispatched : List RrEvent → List Nat
  | [] => []
  | RrEvent.idle _ _ :: rest => rr_dispatched rest
  | RrEvent.run idx _ _ _ :: rest => idx :: rr_dispatched rest

/-- The state `s2` is reached from `s` by passes of the loop of `rr_metrics`. -/
inductive RrSteps (quantum : Int) (s : RrState) : RrState → Prop where
  | refl : RrSteps quantum s s
  | step (s1 s2 : RrState) : RrSteps quantum s s1 → s1.finished < s1.p.length →
      rr_pass quantum s1 = .ok s2 → RrSteps quantum s s2

/-- Simulation of `fcfs_metrics` by the loop of `rr_metrics` when no dispatch is
preempted; `P` is the sorted input.  With `k = finished`: the processes below
`k` are finished, the queue holds `k, k+1, .., nextArr - 1`, the records from
`k` on are untouched, the three sums are those of the `for` loop of
`fcfs_metrics` after `k` iterations, and the cursor is the cursor of that loop,
or the arrival time of `P[k]` when the CPU idled until then. -/
structure RrFcfsSim (P : List Process) (s : RrState) : Prop where
  wf : q_wf s.rq
  len : s.p.length = P.length
  fin_le : s.finished ≤ s.nextArr
  next_le : s.nextArr ≤ P.length
  contents : q_contents s.rq =
    (List.range' s.finished (s.nextArr - s.finished)).map (fun (k : Nat) => (k : Int))
  fresh : ∀ (j : Nat) (x : Process), s.finished ≤ j → P[j]? = some x →
    s.p[j]? = some (rr_reset x)
  arrived : ∀ (j : Nat) (x : Process), s.finished ≤ j → j < s.nextArr → P[j]? = some x →
    x.arrivalTime ≤ s.current
  sum_ta : s.sumTa = (fcfs_loop (P.take s.finished)).sumTa
  sum_wait : s.sumWait = (fcfs_loop (P.take s.finished)).sumWait
  sum_resp : s.sumResp = (fcfs_loop (P.take s.finished)).sumResp
  cursor : s.current = (fcfs_loop (P.take s.finished)).current ∨
    ∃ x, P[s.finished]? = some x ∧
      (fcfs_loop (P.take s.finished)).current < x.arrivalTime ∧ s.current = x.arrivalTime

/-- The two input fields that `sjf_metrics` reads: (arrivalTime, burstTime). -/
def sjf_key (x : Process) : Int × Int := (x.arrivalTime, x.burstTime)

/-- The (arrivalTime, burstTime) pairs of the processes that are not done, in
array order. -/
def sjf_pending : List Process → List Bool → List (Int × Int)
  | x :: p, d :: done =>
    if d = false then sjf_key x :: sjf_pending p done else sjf_pending p done
  | _, _ => []

/-- Two states of the loop of `sjf_metrics`, on two inputs, that agree on the
cursor, the counters and sums, and on the multiset of (arrivalTime, burstTime)
pairs of the processes that are not done. -/
structure SjfSame (s t : SjfState) : Prop where
  current : s.current = t.current
  completed : s.completed = t.completed
  len : s.p.length = t.p.length
  sum_ta : s.sumTa = t.sumTa
  sum_wait : s.sumWait = t.sumWait
  sum_resp : s.sumResp = t.sumResp
  pending : (sjf_pending s.p s.done).Perm (sjf_pending t.p t.done)

/-! ## The program with 32-bit `int` arithmetic and `float` averages -/

/-- A value of a C floating type: not-a-number, an infinity, or a finite number. -/
inductive Fp where
  | nan
  | inf (neg : Bool)
  | fin (x : ℚ)
deriving DecidableEq

/-- Round to the nearest integer, ties to the even one. -/
def round_half_even (x : ℚ) : Int :=
  if x - ⌊x⌋ < 1 / 2 then ⌊x⌋
  else if 1 / 2 < x - ⌊x⌋ then ⌊x⌋ + 1
  else if ⌊x⌋ % 2 = 0 then ⌊x⌋ else ⌊x⌋ + 1

/-- The number with `p` significant bits nearest to `x`, ties to even: the
rounding of IEEE 754 arithmetic within the range of the normal numbers. -/
def fp_round (p : Nat) (x : ℚ) : ℚ :=
  if x = 0 then 0
  else round_half_even (x / 2 ^ (Int.log 2 |x| - (p - 1))) * 2 ^ (Int.log 2 |x| - (p - 1))

/-- The `float` that the cast `(float)` makes of the `double` nearest to `x`:
53 significant bits, then 24, and an infinity from `2^128` on. -/
def fp_cast (x : ℚ) : Fp :=
  if (2 : ℚ) ^ 128 ≤ |fp_round 24 (fp_round 53 x)| then Fp.inf (decide (x < 0))
  else Fp.fin (fp_round 24 (fp_round 53 x))

/-- The expression `(float)(sum / n)` of `make_metrics`, for a `double` sum that
holds the integer `sum`: `0.0 / 0` is not a number, `sum / 0` an infinity. -/
def fp_avg (sum : Int) (n : Nat) : Fp :=
  if n = 0 then (if sum = 0 then Fp.nan else Fp.inf (decide (sum < 0)))
  else fp_cast ((sum : ℚ) / (n : ℚ))

/-- Aggregated metrics returned by each algorithm, with `float` fields. -/
structure Metrics32 where
  avgTurnaround : Fp
  avgWaiting : Fp
  avgResponse : Fp
deriving DecidableEq

/-- Package sums into Metrics, with the casts to `float`. -/
def make_metrics32 (sumTa sumWait sumResp : Int) (n : Nat) : Metrics32 :=
  { avgTurnaround := fp_avg sumTa n
    avgWaiting := fp_avg sumWait n
    avgResponse := fp_avg sumResp n }

/-- One iteration of the `for` loop of `fcfs_metrics` with 32-bit `int`
arithmetic. -/
def fcfs_step32 (s : FcfsState) (pi : Process) : FcfsState :=
  let current := if s.current < pi.arrivalTime then pi.arrivalTime else s.current
  let p1 := { pi with startTime := current }
  let p2 := { p1 with completionTime := wrap32 (current + p1.burstTime) }
  let ta := wrap32 (p2.completionTime - p2.arrivalTime)
  let wt := wrap32 (p2.startTime - p2.arrivalTime)
  { out := s.out ++ [p2]
    current := p2.completionTime
    sumTa := s.sumTa + ta
    sumWait := s.sumWait + wt
    sumResp := s.sumResp + wt }

/-- The `for` loop of `fcfs_metrics` with 32-bit `int` arithmetic. -/
def fcfs_loop32 (p : List Process) : FcfsState :=
  p.foldl fcfs_step32 fcfs_init

/-- First-Come-First-Served, with 32-bit `int` arithmetic and `float` averages. -/
def fcfs_metrics32 (proc : List Process) : Metrics32 :=
  let p := qsort cmp_arrival_pid32 (duplicate_proc_array proc)
  let s := fcfs_loop32 p
  make_metrics32 s.sumTa s.sumWait s.sumResp proc.length

/-- One pass of the `while` loop of `sjf_metrics` with 32-bit `int` arithmetic. -/
def sjf_pass32 (s : SjfState) : Except Fault SjfState :=
  match sjf_select s.p s.done s.current with
  | .error e => .error e
  | .ok (best, _) =>
    if best < 0 then
      let nxt := sjf_next_arrival s.p s.done
      .ok { s with current := nxt, log := s.log ++ [SjfEvent.idle s.current nxt] }
    else
      match s.p[best.toNat]? with
      | none => .error Fault.outOfBounds
      | some pb =>
        let p1 := { pb with startTime := s.current }
        let p2 := { p1 with completionTime := wrap32 (s.current + p1.burstTime) }
        let ta := wrap32 (p2.completionTime - p2.arrivalTime)
        let wt := wrap32 (p2.startTime - p2.arrivalTime)
        .ok { p := s.p.set best.toNat p2
              done := s.done.set best.toNat true
              completed := s.completed + 1
              current := p2.completionTime
              sumTa := s.sumTa + ta
              sumWait := s.sumWait + wt
              sumResp := s.sumResp + wt
              log := s.log ++ [SjfEvent.dispatch best.toNat s.current] }

/-- The `while (completed < n)` loop of `sjf_metrics` with 32-bit `int`
arithmetic, for at most `fuel` passes. -/
def sjf_loop32 : Nat → SjfState → Except Fault SjfState
  | 0, s => if s.completed < s.p.length then .error Fault.outOfFuel else .ok s
  | fuel + 1, s =>
    if s.completed < s.p.length then
      match sjf_pass32 s with
      | .ok s1 => sjf_loop32 fuel s1
      | .error e => .error e
    else .ok s

/-- Non-preemptive Shortest-Job-First, with 32-bit `int` arithmetic and `float`
averages. -/
def sjf_metrics32 (fuel : Nat) (proc : List Process) : Except Fault Metrics32 :=
  match sjf_loop32 fuel (sjf_init proc) with
  | .ok s => .ok (make_metrics32 s.sumTa s.sumWait s.sumResp proc.length)
  | .error e => .error e

/-- State before the `while` loop of `rr_metrics`, the array sorted by the
32-bit comparator. -/
def rr_init32 (proc : List Process) : RrState :=
  { p := qsort cmp_arrival_pid32 ((duplicate_proc_array proc).map rr_reset)
    rq := q_create
    nextArr := 0, finished := 0, current := 0
    sumTa := 0, sumWait := 0, sumResp := 0
    log := [] }

/-- One pass of the `while (finished < n)` loop of `rr_metrics` with 32-bit
`int` arithmetic. -/
def rr_pass32 (quantum : Int) (s : RrState) : Except Fault RrState :=
  match rr_enqueue s.current (s.p.drop s.nextArr) s.rq s.nextArr with
  | (rq1, nextArr1) =>
    if q_empty rq1 then
      match s.p[nextArr1]? with
      | none => .error Fault.outOfBounds
      | some pn =>
        .ok { s with rq := rq1, nextArr := nextArr1, current := pn.arrivalTime
                     log := s.log ++ [RrEvent.idle s.current pn.arrivalTime] }
    else
      match q_pop rq1 with
      | .error e => .error e
      | .ok (idx, rq2) =>
        if idx < 0 then .error Fault.outOfBounds
        else
          match s.p[idx.toNat]? with
          | none => .error Fault.outOfBounds
          | some cur =>
            let first := decide (cur.startTime < 0)
            let cur1 := if first then { cur with startTime := s.current } else cur
            let sumResp1 :=
              if first then s.sumResp + wrap32 (cur1.startTime - cur1.arrivalTime)
              else s.sumResp
            let slice := if cur1.remainingTime > quantum then quantum else cur1.remainingTime
            let cur2 := { cur1 with remainingTime := wrap32 (cur1.remainingTime - slice) }
            let current1 := wrap32 (s.current + slice)
            let p1 := s.p.set idx.toNat cur2
            match rr_enqueue current1 (p1.drop nextArr1) rq2 nextArr1 with
            | (rq3, nextArr2) =>
              if cur2.remainingTime > 0 then
                .ok { p := p1, rq := q_push rq3 idx, nextArr := nextArr2
                      finished := s.finished, current := current1
                      sumTa := s.sumTa, sumWait := s.sumWait, sumResp := sumResp1
                      log := s.log ++ [RrEvent.run idx.toNat s.current slice false] }
              else
                let cur3 := { cur2 with completionTime := current1 }
                let ta := wrap32 (cur3.completionTime - cur3.arrivalTime)
                let wt := wrap32 (ta - cur3.burstTime)
                .ok { p := s.p.set idx.toNat cur3, rq := rq3, nextArr := nextArr2
                      finished := s.finished + 1, current := current1
                      sumTa := s.sumTa + ta, sumWait := s.sumWait + wt, sumResp := sumResp1
                      log := s.log ++ [RrEvent.run idx.toNat s.current slice true] }

/-- The `while (finished < n)` loop of `rr_metrics` with 32-bit `int`
arithmetic, for at most `fuel` passes. -/
def rr_loop32 (quantum : Int) : Nat → RrState → Except Fault RrState
  | 0, s => if s.finished < s.p.length then .error Fault.outOfFuel else .ok s
  | fuel + 1, s =>
    if s.finished < s.p.length then
      match rr_pass32 quantum s with
      | .ok s1 => rr_loop32 quantum fuel s1
      | .error e => .error e
    else .ok s

/-- Round-Robin with given time quantum, with 32-bit `int` arithmetic and
`float` averages. -/
def rr_metrics32 (fuel : Nat) (proc : List Process) (quantum : Int) :
    Except Fault Metrics32 :=
  if quantum ≤ 0 then .error Fault.quantum
  else
    match rr_loop32 quantum fuel (rr_init32 proc) with
    | .ok s => .ok (make_metrics32 s.sumTa s.sumWait s.sumResp proc.length)
    | .error e => .error e

/-- The largest `arrivalTime` of the list, and 0 for the empty list. -/
def max_arrival : List Process → Int
  | [] => 0
  | x :: rest => max x.arrivalTime (max_arrival rest)

/-- No `int` addition of the simulation overflows: the cursor never exceeds the
largest arrivalTime plus the sum of all bursts, and that fits an `int`. -/
def no_overflow (proc : List Process) : Prop :=
  max_arrival proc + (proc.map fun x => x.burstTime).sum ≤ INT_MAX

instance no_overflow_decidable (proc : List Process) : Decidable (no_overflow proc) := by
  unfold no_overflow; exact inferInstance

/-- The difference of any two pids of the list fits an `int`, so that the
subtraction in `cmp_arrival_pid` does not overflow. -/
def pids_fit (proc : List Process) : Prop :=
  ∀ x ∈ proc, ∀ y ∈ proc, is_int32 (x.pid - y.pid)

instance pids_fit_decidable (proc : List Process) : Decidable (pids_fit proc) := by
  unfold pids_fit; exact inferInstance

/-! ## Proof-level definitions for the 32-bit program -/

/-- States that the 32-bit loop of `sjf_metrics` can be in at the top of a pass. -/
inductive SjfReach32 (proc : List Process) : SjfState → Prop where
  | init : SjfReach32 proc (sjf_init proc)
  | step (s s1 : SjfState) : SjfReach32 proc s → s.completed < s.p.length →
      sjf_pass32 s = .ok s1 → SjfReach32 proc s1

/-- Bound on the cursor of `sjf_metrics`: it is at most the largest arrivalTime
plus the bursts of the processes that are done. -/
def SjfBound (proc : List Process) (s : SjfState) : Prop :=
  0 ≤ s.current ∧
    s.current ≤ max_arrival proc + sum_done (fun x => x.burstTime) s.p s.done

/-- States that the 32-bit loop of `rr_metrics` can be in at the top of a pass. -/
inductive RrReach32 (quantum : Int) (proc : List Process) : RrState → Prop where
  | init : RrReach32 quantum proc (rr_init32 proc)
  | step (s s1 : RrState) : RrReach32 quantum proc s → s.finished < s.p.length →
      rr_pass32 quantum s = .ok s1 → RrReach32 quantum proc s1

/-- Ranges of the fields of a state of `rr_metrics` under which no `int`
operation of a pass overflows. -/
def RrRange (s : RrState) : Prop :=
  0 ≤ s.current ∧ ∀ x ∈ s.p, 0 ≤ x.arrivalTime ∧ 0 ≤ x.burstTime ∧
    x.arrivalTime + x.burstTime ≤ INT_MAX ∧ 0 ≤ x.remainingTime ∧
    s.current + x.remainingTime ≤ INT_MAX

/-- State in which the loop of `rr_metrics` ends on `{(1,0,INT_MAX),(2,0,1)}`
with quantum `INT_MAX`: the cursor `INT_MAX + 1` is held as `-2147483648`. -/
def rr_overflow_final : RrState :=
  { p := [⟨1, 0, 2147483647, 0, 0, 2147483647⟩, ⟨2, 0, 1, 0, 2147483647, -2147483648⟩]
    rq := ⟨[0, 1, 0, 0, 0, 0, 0, 0, 0, 0, 0, 0, 0, 0, 0, 0], 16, 2, 2⟩
    nextArr := 2, finished := 2, current := -2147483648
    sumTa := -1, sumWait := 2147483647, sumResp := 2147483647
    log := [RrEvent.run 0 0 2147483647 true, RrEvent.run 1 2147483647 1 true] }

/-- What the loop of `rr_metrics` keeps true of a state when no `int` operation
overflows: the invariant `RrInv` of the exact loop, over the working copy that
the 32-bit comparator has sorted, and idle gaps that stay below the largest
arrivalTime. -/
def RrOk32 (quantum : Int) (proc : List Process) (s : RrState) : Prop :=
  ∃ ks, RrInv quantum (rr_init32 proc).p s ks ∧ rr_gaps s.log ≤ max_arrival proc

/-- The comparison `==` of two floating values: a not-a-number is equal to
nothing, itself included. -/
def fp_eq (a b : Fp) : Prop := a = b ∧ a ≠ Fp.nan

instance fp_eq_decidable (a b : Fp) : Decidable (fp_eq a b) := by
  unfold fp_eq; exact inferInstance

/-- State in which the loop of `rr_metrics` ends on `{(1,0,INT_MAX),(2,0,1),(3,0,1)}`
with quantum `INT_MAX`: the cursor wraps to `-2147483648` after the second
dispatch, and the third process is dispatched there. -/
def rr_wrap_final : RrState :=
  { p := [⟨1, 0, 2147483647, 0, 0, 2147483647⟩, ⟨2, 0, 1, 0, 2147483647, -2147483648⟩,
          ⟨3, 0, 1, 0, -2147483648, -2147483647⟩]
    rq := ⟨[0, 1, 2, 0, 0, 0, 0, 0, 0, 0, 0, 0, 0, 0, 0, 0], 16, 3, 3⟩
    nextArr := 3, finished := 3, current := -2147483647
    sumTa := -2147483648, sumWait := -1, sumResp := -1
    log := [RrEvent.run 0 0 2147483647 true, RrEvent.run 1 2147483647 1 true,
            RrEvent.run 2 (-2147483648) 1 true] }

/-- State after the first pass of `rr_metrics` on
`{(5,0,4),(INT_MIN,1,1),(1,1,1)}` with quantum 2: the process of pid 5 ran on
`[0,2)` and was preempted; the two processes that arrived at 1 were enqueued
before it, the one of pid 1 first. -/
def rr_pid_order_pass1 : RrState :=
  { p := [⟨5, 0, 4, 2, 0, 0⟩, ⟨1, 1, 1, 1, -1, 0⟩, ⟨-2147483648, 1, 1, 1, -1, 0⟩]
    rq := ⟨[0, 1, 2, 0, 0, 0, 0, 0, 0, 0, 0, 0, 0, 0, 0, 0], 16, 1, 4⟩
    nextArr := 3, finished := 0, current := 2
    sumTa := 0, sumWait := 0, sumResp := 0
    log := [RrEvent.run 0 0 2 false] }

/-- The state after the first pass of `rr_metrics` on `{(1,0,4),(2,2,2)}` with
quantum 2: process 0 ran on `[0,2)` and was preempted; process 1 arrived at 2. -/
def rr_example_newcomer : RrState :=
  { p := [⟨1, 0, 4, 2, 0, 0⟩, ⟨2, 2, 2, 2, -1, 0⟩]
    rq := ⟨[0, 1, 0, 0, 0, 0, 0, 0, 0, 0, 0, 0, 0, 0, 0, 0], 16, 1, 3⟩
    nextArr := 2, finished := 0, current := 2, sumTa := 0, sumWait := 0, sumResp := 0
    log := [RrEvent.run 0 0 2 false] }

/-- The state `s2` is reached from `s` by passes of the loop of `rr_metrics`
with 32-bit `int` arithmetic. -/
inductive RrSteps32 (quantum : Int) (s : RrState) : RrState → Prop where
  | refl : RrSteps32 quantum s s
  | step (s1 s2 : RrState) : RrSteps32 quantum s s1 → s1.finished < s1.p.length →
      rr_pass32 quantum s1 = .ok s2 → RrSteps32 quantum s s2

theorem cmp_le_iff_spec_before (a b : Process) :
    cmp_arrival_pid a b ≤ 0 ↔ spec_before a b := by
  unfold cmp_arrival_pid spec_before
  split_ifs with h
  · constructor
    · intro h1; left; omega
    · rintro (h1 | ⟨h1, _⟩)
      · omega
      · exact absurd h1 h
  · simp only [ne_eq, not_not] at h
    constructor
    · intro h1; right; exact ⟨h, by omega⟩
    · rintro (h1 | ⟨_, h1⟩) <;> omega

theorem qsort_eq_spec_order (l : List Process) :
    qsort cmp_arrival_pid l = l.insertionSort spec_before := by
  unfold qsort
  induction l with
  | nil => rfl
  | cons a l ih =>
    simp only [List.insertionSort]
    rw [ih]
    generalize l.insertionSort spec_before = m
    induction m with
    | nil => rfl
    | cons b m ihm =>
      simp only [List.orderedInsert, cmp_le_iff_spec_before]

theorem foldlM_range_succ {β : Type} (f : β → Nat → Except Fault β) (init : β) (k : Nat) :
    (List.range (k + 1)).foldlM f init =
      (List.range k).foldlM f init >>= fun acc => f acc k := by
  rw [List.range_succ, List.foldlM_append]
  congr 1
  funext acc
  simp [List.foldlM_cons, List.foldlM_nil]

theorem sjf_scan_step_inv (p : List Process) (done : List Bool) (current : Int)
    (hlen : done.length = p.length) (hb : ∀ x ∈ p, x.burstTime < INT_MAX)
    (k : Nat) (hk : k < p.length) (acc : Int × Int)
    (hinv : sjf_scan_inv p done current k acc) :
    ∃ acc1, sjf_scan_step p done current acc k = .ok acc1 ∧
      sjf_scan_inv p done current (k + 1) acc1 := by
  have hk2 : k < done.length := by omega
  have hpk : p[k]? = some p[k] := List.getElem?_eq_getElem hk
  have hdk : done[k]? = some done[k] := List.getElem?_eq_getElem hk2
  have hbk : p[k].burstTime < INT_MAX := hb _ (List.getElem_mem hk)
  unfold sjf_scan_step
  rw [hpk, hdk]
  simp only
  by_cases hready : done[k] = false ∧ p[k].arrivalTime ≤ current
  · have hr : sjf_ready p done current k p[k] := ⟨hpk, by rw [hdk, hready.1], hready.2⟩
    rw [if_pos hready]
    rcases hinv with ⟨h1, h2, h3⟩ | ⟨b, pb, h1, h2, h3, h4, h5⟩
    · rw [h2, if_pos hbk]
      refine ⟨_, rfl, Or.inr ⟨k, p[k], rfl, by omega, hr, rfl, ?_⟩⟩
      intro j x hj hx
      rcases Nat.lt_succ_iff_lt_or_eq.mp hj with hj | hj
      · exact absurd hx (h3 j x hj)
      · subst hj
        have : x = p[j] := by
          have := hx.1; rw [hpk] at this; exact (Option.some.inj this).symm
        subst this
        exact ⟨Or.inr ⟨rfl, le_refl _⟩, fun h => absurd h (lt_irrefl _)⟩
    · have hnn : ¬ (acc.1 < 0) := by rw [h1]; exact not_lt.mpr (Int.ofNat_nonneg b)
      have hbn : acc.1.toNat = b := by rw [h1]; exact Int.toNat_ofNat b
      by_cases hlt : p[k].burstTime < acc.2
      · rw [if_pos hlt]
        refine ⟨_, rfl, Or.inr ⟨k, p[k], rfl, by omega, hr, rfl, ?_⟩⟩
        intro j x hj hx
        rcases Nat.lt_succ_iff_lt_or_eq.mp hj with hj | hj
        · have := (h5 j x hj hx).1
          rw [h4] at hlt
          refine ⟨Or.inl (by omega), fun _ => Or.inl (by omega)⟩
        · subst hj
          have : x = p[j] := by
            have := hx.1; rw [hpk] at this; exact (Option.some.inj this).symm
          subst this
          exact ⟨Or.inr ⟨rfl, le_refl _⟩, fun h => absurd h (lt_irrefl _)⟩
      · rw [if_neg hlt]
        by_cases heq : p[k].burstTime = acc.2
        · rw [if_pos heq, if_neg hnn, hbn, h3.1]
          simp only
          by_cases harr : p[k].arrivalTime < pb.arrivalTime
          · rw [if_pos harr]
            refine ⟨_, rfl, Or.inr ⟨k, p[k], rfl, by omega, hr, rfl, ?_⟩⟩
            intro j x hj hx
            rcases Nat.lt_succ_iff_lt_or_eq.mp hj with hj | hj
            · have := (h5 j x hj hx).1
              rw [h4] at heq
              refine ⟨?_, fun _ => ?_⟩ <;>
              · rcases this with h | ⟨h, h'⟩
                · left; omega
                · right; constructor <;> omega
            · subst hj
              have : x = p[j] := by
                have := hx.1; rw [hpk] at this; exact (Option.some.inj this).symm
              subst this
              exact ⟨Or.inr ⟨rfl, le_refl _⟩, fun h => absurd h (lt_irrefl _)⟩
          · rw [if_neg harr]
            refine ⟨_, rfl, Or.inr ⟨b, pb, h1, by omega, h3, h4, ?_⟩⟩
            intro j x hj hx
            rcases Nat.lt_succ_iff_lt_or_eq.mp hj with hj | hj
            · exact h5 j x hj hx
            · subst hj
              have : x = p[j] := by
                have := hx.1; rw [hpk] at this; exact (Option.some.inj this).symm
              subst this
              rw [h4] at heq
              exact ⟨Or.inr ⟨heq.symm, not_lt.mp harr⟩, fun h => absurd h (by omega)⟩
        · rw [if_neg heq]
          refine ⟨_, rfl, Or.inr ⟨b, pb, h1, by omega, h3, h4, ?_⟩⟩
          intro j x hj hx
          rcases Nat.lt_succ_iff_lt_or_eq.mp hj with hj | hj
          · exact h5 j x hj hx
          · subst hj
            have : x = p[j] := by
              have := hx.1; rw [hpk] at this; exact (Option.some.inj this).symm
            subst this
            rw [h4] at heq hlt
            exact ⟨Or.inl (by omega), fun h => absurd h (by omega)⟩
  · rw [if_neg hready]
    refine ⟨acc, rfl, ?_⟩
    have hnot : ∀ x, ¬ sjf_ready p done current k x := by
      rintro x ⟨hx1, hx2, hx3⟩
      rw [hpk] at hx1; rw [hdk] at hx2
      have e1 := Option.some.inj hx1
      have e2 := Option.some.inj hx2
      subst e1
      exact hready ⟨e2, hx3⟩
    rcases hinv with ⟨h1, h2, h3⟩ | ⟨b, pb, h1, h2, h3, h4, h5⟩
    · refine Or.inl ⟨h1, h2, ?_⟩
      intro j x hj
      rcases Nat.lt_succ_iff_lt_or_eq.mp hj with hj | hj
      · exact h3 j x hj
      · subst hj; exact hnot x
    · refine Or.inr ⟨b, pb, h1, by omega, h3, h4, ?_⟩
      intro j x hj hx
      rcases Nat.lt_succ_iff_lt_or_eq.mp hj with hj | hj
      · exact h5 j x hj hx
      · subst hj; exact absurd hx (hnot x)

theorem sjf_scan_prefix (p : List Process) (done : List Bool) (current : Int)
    (hlen : done.length = p.length) (hb : ∀ x ∈ p, x.burstTime < INT_MAX)
    (k : Nat) (hk : k ≤ p.length) :
    ∃ acc, (List.range k).foldlM (sjf_scan_step p done current) (-1, INT_MAX) = .ok acc ∧
      sjf_scan_inv p done current k acc := by
  induction k with
  | zero =>
    refine ⟨(-1, INT_MAX), rfl, Or.inl ⟨rfl, rfl, ?_⟩⟩
    intro j x hj; omega
  | succ k ih =>
    obtain ⟨acc, h1, h2⟩ := ih (by omega)
    obtain ⟨acc1, h3, h4⟩ := sjf_scan_step_inv p done current hlen hb k (by omega) acc h2
    refine ⟨acc1, ?_, h4⟩
    rw [foldlM_range_succ, h1]
    exact h3

theorem sjf_select_spec (p : List Process) (done : List Bool) (current : Int)
    (hlen : done.length = p.length) (hb : ∀ x ∈ p, x.burstTime < INT_MAX) :
    ∃ acc, sjf_select p done current = .ok acc ∧
      sjf_scan_inv p done current p.length acc :=
  sjf_scan_prefix p done current hlen hb p.length (le_refl _)

theorem sjf_ready_lt {p : List Process} {done : List Bool} {current : Int} {j : Nat}
    {x : Process} (h : sjf_ready p done current j x) : j < p.length := by
  have := h.1
  rw [List.getElem?_eq_some] at this
  exact this.1

theorem sjf_pass_cases (s : SjfState) (hlen : s.done.length = s.p.length)
    (hb : ∀ x ∈ s.p, x.burstTime < INT_MAX) :
    ((∀ j x, ¬ sjf_ready s.p s.done s.current j x) ∧
      sjf_pass s = .ok (sjf_idle_state s)) ∨
    (∃ b pb, sjf_ready s.p s.done s.current b pb ∧ sjf_least s b pb ∧
      sjf_pass s = .ok (sjf_dispatch_state s b pb)) := by
  obtain ⟨acc, hsel, hinv⟩ := sjf_select_spec s.p s.done s.current hlen hb
  obtain ⟨best, bb⟩ := acc
  rcases hinv with ⟨h1, _, h3⟩ | ⟨b, pb, h1, h2, h3, h4, h5⟩
  · left
    simp only at h1
    refine ⟨fun j x hx => h3 j x (sjf_ready_lt hx) hx, ?_⟩
    unfold sjf_pass
    rw [hsel]
    simp only [h1]
    rfl
  · right
    simp only at h1
    refine ⟨b, pb, h3, fun j x hx => h5 j x (sjf_ready_lt hx) hx, ?_⟩
    unfold sjf_pass
    rw [hsel]
    have hnn : ¬ (best < 0) := by rw [h1]; exact not_lt.mpr (Int.ofNat_nonneg b)
    have hbn : best.toNat = b := by rw [h1]; exact Int.toNat_ofNat b
    simp only [if_neg hnn, hbn, h3.1]
    rfl

theorem sjf_scan_step_ok (p : List Process) (done : List Bool) (current : Int)
    (acc acc1 : Int × Int) (k : Nat)
    (h : sjf_scan_step p done current acc k = .ok acc1)
    (hacc : acc.1 = -1 ∨ ∃ (b : Nat) (pb : Process), acc.1 = (b : Int) ∧
      sjf_ready p done current b pb) :
    acc1.1 = -1 ∨ ∃ (b : Nat) (pb : Process), acc1.1 = (b : Int) ∧
      sjf_ready p done current b pb := by
  unfold sjf_scan_step at h
  cases hp : p[k]? with
  | none => rw [hp] at h; cases h
  | some pk =>
    cases hd : done[k]? with
    | none => rw [hp, hd] at h; cases h
    | some d =>
      rw [hp, hd] at h
      simp only at h
      have hnew : ∀ a : Int × Int, (d = false ∧ pk.arrivalTime ≤ current) →
          a = ((k : Int), pk.burstTime) →
          a.1 = -1 ∨ ∃ (b : Nat) (pb : Process), a.1 = (b : Int) ∧
            sjf_ready p done current b pb := by
        intro a hr ha
        subst ha
        exact Or.inr ⟨k, pk, rfl, hp, by rw [hd, hr.1], hr.2⟩
      have hkeep : ∀ a : Int × Int, a = acc →
          a.1 = -1 ∨ ∃ (b : Nat) (pb : Process), a.1 = (b : Int) ∧
            sjf_ready p done current b pb := by
        intro a ha; subst ha; exact hacc
      by_cases h1 : d = false ∧ pk.arrivalTime ≤ current
      · rw [if_pos h1] at h
        by_cases h2 : pk.burstTime < acc.2
        · rw [if_pos h2] at h
          exact hnew _ h1 (Except.ok.inj h).symm
        · rw [if_neg h2] at h
          by_cases h3 : pk.burstTime = acc.2
          · rw [if_pos h3] at h
            by_cases h4 : acc.1 < 0
            · rw [if_pos h4] at h; cases h
            · rw [if_neg h4] at h
              cases hpb : p[acc.1.toNat]? with
              | none => rw [hpb] at h; cases h
              | some pb =>
                rw [hpb] at h
                simp only at h
                by_cases h5 : pk.arrivalTime < pb.arrivalTime
                · rw [if_pos h5] at h
                  exact hnew _ h1 (Except.ok.inj h).symm
                · rw [if_neg h5] at h
                  exact hkeep _ (Except.ok.inj h).symm
          · rw [if_neg h3] at h
            exact hkeep _ (Except.ok.inj h).symm
      · rw [if_neg h1] at h
        exact hkeep _ (Except.ok.inj h).symm

theorem sjf_select_ok (p : List Process) (done : List Bool) (current : Int)
    (acc : Int × Int) (h : sjf_select p done current = .ok acc) :
    acc.1 = -1 ∨ ∃ (b : Nat) (pb : Process), acc.1 = (b : Int) ∧
      sjf_ready p done current b pb := by
  have key : ∀ (k : Nat) (a : Int × Int),
      (List.range k).foldlM (sjf_scan_step p done current) (-1, INT_MAX) = .ok a →
      a.1 = -1 ∨ ∃ (b : Nat) (pb : Process), a.1 = (b : Int) ∧
        sjf_ready p done current b pb := by
    intro k
    induction k with
    | zero =>
      intro a ha
      cases ha
      exact Or.inl rfl
    | succ k ih =>
      intro a ha
      rw [foldlM_range_succ] at ha
      cases hf : (List.range k).foldlM (sjf_scan_step p done current) (-1, INT_MAX) with
      | error e => rw [hf] at ha; cases ha
      | ok a0 =>
        rw [hf] at ha
        exact sjf_scan_step_ok p done current a0 a k ha (ih a0 hf)
  exact key p.length acc h

theorem sjf_pass_ok_cases (s s1 : SjfState) (h : sjf_pass s = .ok s1) :
    s1 = sjf_idle_state s ∨
    ∃ b pb, sjf_ready s.p s.done s.current b pb ∧ s1 = sjf_dispatch_state s b pb := by
  unfold sjf_pass at h
  cases hsel : sjf_select s.p s.done s.current with
  | error e => rw [hsel] at h; cases h
  | ok acc =>
    obtain ⟨best, bb⟩ := acc
    rw [hsel] at h
    simp only at h
    rcases sjf_select_ok s.p s.done s.current _ hsel with h1 | ⟨b, pb, h1, h2⟩
    · simp only at h1
      subst h1
      simp only [Int.reduceNeg, Left.neg_neg_iff, zero_lt_one, if_true] at h
      left
      exact (Except.ok.inj h).symm
    · simp only at h1
      subst h1
      have hnn : ¬ ((b : Int) < 0) := not_lt.mpr (Int.ofNat_nonneg b)
      have hbn : (b : Int).toNat = b := Int.toNat_ofNat b
      simp only [if_neg hnn, hbn, h2.1] at h
      right
      exact ⟨b, pb, h2, (Except.ok.inj h).symm⟩

theorem sjf_dispatched_append (l1 l2 : List SjfEvent) :
    sjf_dispatched (l1 ++ l2) = sjf_dispatched l1 ++ sjf_dispatched l2 := by
  induction l1 with
  | nil => rfl
  | cons e rest ih =>
    cases e with
    | idle a b => simpa [sjf_dispatched] using ih
    | dispatch i t => simp [sjf_dispatched, ih]

theorem getElem?_set_some {α : Type} {l : List α} {i j : Nat} {a x : α}
    (h : (l.set i a)[j]? = some x) :
    (i = j ∧ i < l.length ∧ x = a) ∨ (i ≠ j ∧ l[j]? = some x) := by
  by_cases hij : i = j
  · subst hij
    by_cases hi : i < l.length
    · rw [List.getElem?_set_self hi] at h
      exact Or.inl ⟨rfl, hi, (Option.some.inj h).symm⟩
    · rw [List.set_eq_of_length_le (not_lt.mp hi), List.getElem?_eq_none (not_lt.mp hi)] at h
      cases h
  · rw [List.getElem?_set_ne hij] at h
    exact Or.inr ⟨hij, h⟩

theorem sjf_dispatched_mem {log : List SjfEvent} {k : Nat} {t : Int}
    (h : SjfEvent.dispatch k t ∈ log) : k ∈ sjf_dispatched log := by
  induction log with
  | nil => cases h
  | cons e rest ih =>
    rcases List.mem_cons.mp h with h1 | h1
    · subst h1; simp [sjf_dispatched]
    · cases e with
      | idle a c => simpa [sjf_dispatched] using ih h1
      | dispatch i u => simp [sjf_dispatched, ih h1]

theorem sjf_init_inv (proc : List Process) : SjfInv proc (sjf_init proc) where
  len_p := rfl
  len_done := by simp [sjf_init]
  input := fun k x hx => ⟨x, hx, rfl, rfl, rfl⟩
  count := by simp [sjf_init, List.count_replicate]
  finished := by
    intro k x _ hd
    simp only [sjf_init, List.getElem?_replicate] at hd
    split_ifs at hd
    simp at hd
  disp_nodup := by simp [sjf_init, sjf_dispatched]
  disp_done := by
    intro k
    simp only [sjf_init, sjf_dispatched, List.getElem?_replicate]
    constructor
    · intro h; simp at h
    · intro h; split_ifs at h; simp at h
  disp_start := by intro k t h; simp [sjf_init] at h

theorem sjf_inv_bursts {proc : List Process} {s : SjfState} (hinv : SjfInv proc s)
    (hb : ∀ x ∈ proc, x.burstTime < INT_MAX) : ∀ x ∈ s.p, x.burstTime < INT_MAX := by
  intro x hx
  obtain ⟨k, hk⟩ := List.mem_iff_getElem?.mp hx
  obtain ⟨y, hy, _, _, h3⟩ := hinv.input k x hk
  rw [h3]
  exact hb y (List.mem_iff_getElem?.mpr ⟨k, hy⟩)

theorem sjf_idle_inv {proc : List Process} {s : SjfState} (hinv : SjfInv proc s) :
    SjfInv proc (sjf_idle_state s) where
  len_p := hinv.len_p
  len_done := hinv.len_done
  input := hinv.input
  count := hinv.count
  finished := hinv.finished
  disp_nodup := by
    simp only [sjf_idle_state, sjf_dispatched_append, sjf_dispatched, List.append_nil]
    exact hinv.disp_nodup
  disp_done := by
    intro k
    simp only [sjf_idle_state, sjf_dispatched_append, sjf_dispatched, List.append_nil]
    exact hinv.disp_done k
  disp_start := by
    intro k t h
    simp only [sjf_idle_state, List.mem_append, List.mem_singleton] at h
    rcases h with h | h
    · exact hinv.disp_start k t h
    · cases h

theorem sjf_dispatch_inv {proc : List Process} {s : SjfState} (hinv : SjfInv proc s)
    {b : Nat} {pb : Process} (hr : sjf_ready s.p s.done s.current b pb) :
    SjfInv proc (sjf_dispatch_state s b pb) where
  len_p := by simp [sjf_dispatch_state, hinv.len_p]
  len_done := by simp [sjf_dispatch_state, hinv.len_done]
  input := by
    intro k x hx
    simp only [sjf_dispatch_state] at hx
    rcases getElem?_set_some hx with ⟨h1, _, h3⟩ | ⟨_, h2⟩
    · subst h1 h3
      obtain ⟨y, hy, e1, e2, e3⟩ := hinv.input b pb hr.1
      exact ⟨y, hy, e1, e2, e3⟩
    · exact hinv.input k x h2
  count := by
    have hbl : b < s.done.length := by
      have := sjf_ready_lt hr; rw [hinv.len_p] at this; rw [hinv.len_done]; exact this
    have hget : s.done[b] = false := by
      have := hr.2.1
      rw [List.getElem?_eq_getElem hbl] at this
      exact Option.some.inj this
    simp only [sjf_dispatch_state]
    rw [List.count_set _ _ _ _ hbl, hget, hinv.count]
    simp
  finished := by
    intro k x hx hd
    simp only [sjf_dispatch_state] at hx hd ⊢
    rcases getElem?_set_some hx with ⟨_, _, h3⟩ | ⟨h1, h2⟩
    · subst h3
      exact ⟨hr.2.2, rfl⟩
    · rw [List.getElem?_set_ne h1] at hd
      exact hinv.finished k x h2 hd
  disp_nodup := by
    simp only [sjf_dispatch_state, sjf_dispatched_append, sjf_dispatched]
    rw [List.nodup_append]
    refine ⟨hinv.disp_nodup, List.nodup_singleton b, ?_⟩
    rw [List.disjoint_singleton]
    intro hmem
    have := (hinv.disp_done b).mp hmem
    rw [hr.2.1] at this
    cases this
  disp_done := by
    intro k
    have hbl : b < s.done.length := by
      have := sjf_ready_lt hr; rw [hinv.len_p] at this; rw [hinv.len_done]; exact this
    simp only [sjf_dispatch_state, sjf_dispatched_append, sjf_dispatched, List.mem_append,
      List.mem_singleton, List.getElem?_set]
    by_cases hkb : b = k
    · subst hkb; simp [hbl]
    · rw [if_neg hkb, hinv.disp_done k]
      constructor
      · rintro (h | h)
        · exact h
        · exact absurd h.symm hkb
      · intro h; exact Or.inl h
  disp_start := by
    intro k t h
    have hbl : b < s.p.length := sjf_ready_lt hr
    simp only [sjf_dispatch_state, List.mem_append, List.mem_singleton] at h
    simp only [sjf_dispatch_state, List.getElem?_set]
    rcases h with h | h
    · by_cases hkb : b = k
      · exfalso
        subst hkb
        have h1 : b ∈ sjf_dispatched s.log := sjf_dispatched_mem h
        have := (hinv.disp_done b).mp h1
        rw [hr.2.1] at this
        cases this
      · rw [if_neg hkb]; exact hinv.disp_start k t h
    · cases h
      simp [hbl]

theorem sjf_next_fold (l : List (Process × Bool)) (init : Int) :
    (l.foldl (fun nxt pd =>
        if pd.2 = false ∧ pd.1.arrivalTime < nxt then pd.1.arrivalTime else nxt) init ≤ init) ∧
    (∀ pd ∈ l, pd.2 = false →
      l.foldl (fun nxt pd =>
        if pd.2 = false ∧ pd.1.arrivalTime < nxt then pd.1.arrivalTime else nxt) init
        ≤ pd.1.arrivalTime) ∧
    (l.foldl (fun nxt pd =>
        if pd.2 = false ∧ pd.1.arrivalTime < nxt then pd.1.arrivalTime else nxt) init = init ∨
      ∃ pd ∈ l, pd.2 = false ∧ pd.1.arrivalTime =
        l.foldl (fun nxt pd =>
          if pd.2 = false ∧ pd.1.arrivalTime < nxt then pd.1.arrivalTime else nxt) init) := by
  induction l generalizing init with
  | nil => simp
  | cons a rest ih =>
    simp only [List.foldl_cons]
    obtain ⟨h1, h2, h3⟩ := ih (if a.2 = false ∧ a.1.arrivalTime < init then a.1.arrivalTime else init)
    have hstep : (if a.2 = false ∧ a.1.arrivalTime < init then a.1.arrivalTime else init) ≤ init := by
      split_ifs with h
      · exact le_of_lt h.2
      · exact le_refl _
    refine ⟨le_trans h1 hstep, ?_, ?_⟩
    · intro pd hpd hf
      rcases List.mem_cons.mp hpd with e | e
      · subst e
        refine le_trans h1 ?_
        split_ifs with h
        · exact le_refl _
        · have : ¬ pd.1.arrivalTime < init := fun hh => h ⟨hf, hh⟩
          exact not_lt.mp this
      · exact h2 pd e hf
    · rcases h3 with e | ⟨pd, hpd, hf, e⟩
      · by_cases h : a.2 = false ∧ a.1.arrivalTime < init
        · rw [if_pos h] at e ⊢
          exact Or.inr ⟨a, List.mem_cons_self _ _, h.1, e.symm⟩
        · rw [if_neg h] at e ⊢
          exact Or.inl e
      · exact Or.inr ⟨pd, List.mem_cons_of_mem _ hpd, hf, e⟩

theorem sjf_next_arrival_le (p : List Process) (done : List Bool) (j : Nat) (x : Process)
    (hx : p[j]? = some x) (hd : done[j]? = some false) :
    sjf_next_arrival p done ≤ x.arrivalTime := by
  have hmem : (x, false) ∈ List.zip p done :=
    List.mem_iff_getElem?.mpr ⟨j, List.getElem?_zip_eq_some.mpr ⟨hx, hd⟩⟩
  exact (sjf_next_fold (List.zip p done) INT_MAX).2.1 (x, false) hmem rfl

theorem sjf_next_arrival_attained (p : List Process) (done : List Bool) (j : Nat)
    (x : Process) (hx : p[j]? = some x) (hd : done[j]? = some false)
    (hmax : x.arrivalTime ≤ INT_MAX) :
    ∃ (i : Nat) (y : Process), p[i]? = some y ∧ done[i]? = some false ∧
      y.arrivalTime = sjf_next_arrival p done := by
  rcases (sjf_next_fold (List.zip p done) INT_MAX).2.2 with e | ⟨pd, hpd, hf, e⟩
  · refine ⟨j, x, hx, hd, ?_⟩
    have := sjf_next_arrival_le p done j x hx hd
    unfold sjf_next_arrival at this ⊢
    rw [e] at this ⊢
    omega
  · obtain ⟨i, hi⟩ := List.mem_iff_getElem?.mp hpd
    obtain ⟨h1, h2⟩ := List.getElem?_zip_eq_some.mp hi
    rw [hf] at h2
    exact ⟨i, pd.1, h1, h2, e⟩

theorem exists_false_of_count_lt (done : List Bool) (h : done.count true < done.length) :
    ∃ k : Nat, done[k]? = some false := by
  by_contra hne
  have hall : ∀ b ∈ done, true = b := by
    intro b hb
    obtain ⟨k, hk⟩ := List.mem_iff_getElem?.mp hb
    cases b with
    | true => rfl
    | false => exact absurd ⟨k, hk⟩ hne
  have := List.count_eq_length.mpr hall
  omega

theorem sjf_loop_done (proc : List Process) (s : SjfState) (hinv : SjfInv proc s)
    (hc : ¬ s.completed < s.p.length) (fuel : Nat) : SjfRuns proc fuel s := by
  have hle : s.completed ≤ s.done.length := by
    rw [hinv.count]; exact List.count_le_length _ _
  have hlen := hinv.len_p
  have hlen2 := hinv.len_done
  refine ⟨s, ?_, hinv, by omega⟩
  cases fuel with
  | zero => simp [sjf_loop, hc]
  | succ f => simp [sjf_loop, hc]

theorem sjf_runs_of_ready (proc : List Process) (hb : ∀ x ∈ proc, x.burstTime < INT_MAX)
    (m : Nat)
    (ih : ∀ s, SjfInv proc s → proc.length - s.completed = m →
      ∀ fuel, 2 * m ≤ fuel → SjfRuns proc fuel s)
    (s : SjfState) (hinv : SjfInv proc s) (hm : proc.length - s.completed = m + 1)
    (hready : ∃ j x, sjf_ready s.p s.done s.current j x)
    (fuel : Nat) (hfuel : 2 * m + 1 ≤ fuel) : SjfRuns proc fuel s := by
  have hlen : s.done.length = s.p.length := by rw [hinv.len_done, hinv.len_p]
  obtain ⟨f, rfl⟩ : ∃ f, fuel = f + 1 := ⟨fuel - 1, by omega⟩
  have hc : s.completed < s.p.length := by rw [hinv.len_p]; omega
  rcases sjf_pass_cases s hlen (sjf_inv_bursts hinv hb) with ⟨hno, _⟩ | ⟨b, pb, hr, _, hpass⟩
  · obtain ⟨j, x, hx⟩ := hready
    exact absurd hx (hno j x)
  · have hinv1 := sjf_dispatch_inv hinv hr
    have hm1 : proc.length - (sjf_dispatch_state s b pb).completed = m := by
      simp only [sjf_dispatch_state]; omega
    obtain ⟨s1, h1, h2, h3⟩ := ih _ hinv1 hm1 f (by omega)
    refine ⟨s1, ?_, h2, h3⟩
    simp only [sjf_loop, hc, if_true, hpass]
    exact h1

theorem sjf_runs (proc : List Process)
    (hb : ∀ x ∈ proc, x.burstTime < INT_MAX ∧ x.arrivalTime ≤ INT_MAX) (m : Nat) :
    ∀ s, SjfInv proc s → proc.length - s.completed = m →
      ∀ fuel, 2 * m ≤ fuel → SjfRuns proc fuel s := by
  induction m with
  | zero =>
    intro s hinv hm fuel _
    exact sjf_loop_done proc s hinv (by rw [hinv.len_p]; omega) fuel
  | succ m ih =>
    intro s hinv hm fuel hfuel
    have hlen : s.done.length = s.p.length := by rw [hinv.len_done, hinv.len_p]
    have hc : s.completed < s.p.length := by rw [hinv.len_p]; omega
    rcases sjf_pass_cases s hlen (sjf_inv_bursts hinv (fun x hx => (hb x hx).1)) with
      ⟨hno, hpass⟩ | ⟨b, pb, hr, _, _⟩
    · obtain ⟨f, rfl⟩ : ∃ f, fuel = f + 1 := ⟨fuel - 1, by omega⟩
      have hcnt : s.done.count true < s.done.length := by
        rw [← hinv.count, hinv.len_done]; omega
      obtain ⟨k, hk⟩ := exists_false_of_count_lt s.done hcnt
      have hkl : k < s.p.length := by
        have := (List.getElem?_eq_some.mp hk).1; omega
      have hpk : s.p[k]? = some s.p[k] := List.getElem?_eq_getElem hkl
      have hkmax : s.p[k].arrivalTime ≤ INT_MAX := by
        obtain ⟨y, hy, _, e2, _⟩ := hinv.input k _ hpk
        rw [e2]; exact (hb y (List.mem_iff_getElem?.mpr ⟨k, hy⟩)).2
      obtain ⟨i, y, hy1, hy2, hy3⟩ :=
        sjf_next_arrival_attained s.p s.done k _ hpk hk hkmax
      have hinv1 := sjf_idle_inv hinv
      have hr1 : ∃ j x, sjf_ready (sjf_idle_state s).p (sjf_idle_state s).done
          (sjf_idle_state s).current j x :=
        ⟨i, y, hy1, hy2, le_of_eq hy3⟩
      obtain ⟨s1, h1, h2, h3⟩ := sjf_runs_of_ready proc (fun x hx => (hb x hx).1) m ih
        (sjf_idle_state s) hinv1 hm hr1 f (by omega)
      refine ⟨s1, ?_, h2, h3⟩
      simp only [sjf_loop, hc, if_true, hpass]
      exact h1
    · exact sjf_runs_of_ready proc (fun x hx => (hb x hx).1) m ih s hinv hm
        ⟨b, pb, hr⟩ fuel (by omega)

theorem sjf_reach_inv (proc : List Process) (s : SjfState) (hreach : SjfReach proc s) :
    SjfInv proc s := by
  induction hreach with
  | init => exact sjf_init_inv proc
  | step s s1 _ _ hpass ih =>
    rcases sjf_pass_ok_cases s s1 hpass with e | ⟨b, pb, hr, e⟩
    · subst e; exact sjf_idle_inv ih
    · subst e; exact sjf_dispatch_inv ih hr

theorem sjf_loop_reach (proc : List Process) (fuel : Nat) :
    ∀ (s s1 : SjfState), SjfReach proc s → sjf_loop fuel s = .ok s1 →
      SjfReach proc s1 ∧ ¬ s1.completed < s1.p.length := by
  induction fuel with
  | zero =>
    intro s s1 hreach h
    by_cases hc : s.completed < s.p.length
    · simp [sjf_loop, hc] at h
    · simp only [sjf_loop, hc, if_false] at h
      cases h
      exact ⟨hreach, hc⟩
  | succ f ih =>
    intro s s1 hreach h
    by_cases hc : s.completed < s.p.length
    · simp only [sjf_loop, hc, if_true] at h
      cases hp : sjf_pass s with
      | error e => rw [hp] at h; cases h
      | ok s2 =>
        rw [hp] at h
        exact ih s2 s1 (SjfReach.step s s2 hreach hc hp) h
    · simp only [sjf_loop, hc, if_false] at h
      cases h
      exact ⟨hreach, hc⟩

theorem q_contents_length (q : Queue) (h : q_wf q) :
    (q_contents q).length = q.tail - q.head := by
  obtain ⟨h1, h2, h3⟩ := h
  simp only [q_contents, List.length_take, List.length_drop]
  omega

theorem q_create_wf : q_wf q_create := ⟨le_refl _, le_refl _, rfl⟩

theorem q_create_contents : q_contents q_create = [] := rfl

theorem q_empty_iff (q : Queue) (h : q_wf q) :
    q_empty q = true ↔ q_contents q = [] := by
  have hl := q_contents_length q h
  obtain ⟨h1, h2, h3⟩ := h
  simp only [q_empty, beq_iff_eq]
  constructor
  · intro e
    apply List.eq_nil_of_length_eq_zero
    omega
  · intro e
    rw [e] at hl
    simp only [List.length_nil] at hl
    omega

theorem take_drop_set_snoc {α : Type} (l : List α) (h t : Nat) (v : α) (hht : h ≤ t)
    (htl : t < l.length) :
    ((l.set t v).drop h).take (t + 1 - h) = (l.drop h).take (t - h) ++ [v] := by
  apply List.ext_getElem?
  intro i
  by_cases hi : i < t - h
  · rw [List.getElem?_take_of_lt (by omega), List.getElem?_drop,
      List.getElem?_set_ne (by omega), List.getElem?_append_left
        (by simp only [List.length_take, List.length_drop]; omega),
      List.getElem?_take_of_lt hi, List.getElem?_drop]
  · by_cases hi2 : i = t - h
    · subst hi2
      have e : h + (t - h) = t := by omega
      rw [List.getElem?_take_of_lt (by omega), List.getElem?_drop, e,
        List.getElem?_set_self htl, List.getElem?_append_right
          (by simp only [List.length_take, List.length_drop]; omega)]
      simp only [List.length_take, List.length_drop]
      have : t - h - min (t - h) (l.length - h) = 0 := by omega
      rw [this]
      rfl
    · rw [List.getElem?_eq_none (by
          simp only [List.length_take, List.length_drop, List.length_set]; omega),
        List.getElem?_eq_none (by
          simp only [List.length_append, List.length_take, List.length_drop,
            List.length_singleton]; omega)]

theorem q_grow_spec (q : Queue) (h : q_wf q) (hfull : q.tail = q.cap) :
    q_wf (q_grow q) ∧ (q_grow q).tail < (q_grow q).cap ∧
      q_contents (q_grow q) = q_contents q ∧ (q_grow q).head = q.head ∧
      (q_grow q).tail = q.tail := by
  obtain ⟨h1, h2, h3⟩ := h
  have hcap : q.cap < (if q.cap ≠ 0 then q.cap * 2 else 16) := by
    split_ifs with hc <;> omega
  refine ⟨⟨h1, ?_, ?_⟩, ?_, ?_, rfl, rfl⟩
  · simp only [q_grow]; omega
  · simp only [q_grow, List.length_append, List.length_replicate]; omega
  · simp only [q_grow]; omega
  · simp only [q_contents, q_grow]
    rw [List.drop_append_of_le_length (by omega),
      List.take_append_of_le_length (by simp only [List.length_drop]; omega)]

theorem q_push_spec (q : Queue) (v : Int) (h : q_wf q) :
    q_wf (q_push q v) ∧ q_contents (q_push q v) = q_contents q ++ [v] := by
  have key : ∀ q1 : Queue, q_wf q1 → q1.tail < q1.cap →
      q_wf { q1 with buf := q1.buf.set q1.tail v, tail := q1.tail + 1 } ∧
      q_contents { q1 with buf := q1.buf.set q1.tail v, tail := q1.tail + 1 } =
        q_contents q1 ++ [v] := by
    intro q1 hw hlt
    obtain ⟨h1, h2, h3⟩ := hw
    refine ⟨⟨?_, ?_, ?_⟩, ?_⟩
    · show q1.head ≤ q1.tail + 1
      omega
    · show q1.tail + 1 ≤ q1.cap
      omega
    · show (q1.buf.set q1.tail v).length = q1.cap
      rw [List.length_set]; exact h3
    · show ((q1.buf.set q1.tail v).drop q1.head).take (q1.tail + 1 - q1.head) = _
      exact take_drop_set_snoc q1.buf q1.head q1.tail v h1 (by omega)
  unfold q_push
  by_cases hfull : q.tail = q.cap
  · obtain ⟨g1, g2, g3, _, _⟩ := q_grow_spec q h hfull
    simp only [hfull, if_true]
    have := key (q_grow q) g1 g2
    rw [g3] at this
    exact this
  · simp only [hfull, if_false]
    exact key q h (by obtain ⟨_, h2, _⟩ := h; omega)

theorem q_pop_spec (q : Queue) (h : q_wf q) (hne : q_empty q = false) :
    ∃ v q1, q_pop q = .ok (v, q1) ∧ q_wf q1 ∧ q_contents q = v :: q_contents q1 := by
  obtain ⟨h1, h2, h3⟩ := h
  have hlt : q.head < q.tail := by
    simp only [q_empty, beq_eq_false_iff_ne, ne_eq] at hne
    omega
  have hb : q.head < q.buf.length := by omega
  refine ⟨q.buf[q.head], { q with head := q.head + 1 }, ?_, ⟨?_, h2, h3⟩, ?_⟩
  · unfold q_pop
    rw [hne, List.getElem?_eq_getElem hb]
    rfl
  · show q.head + 1 ≤ q.tail
    omega
  · show (q.buf.drop q.head).take (q.tail - q.head) =
      q.buf[q.head] :: (q.buf.drop (q.head + 1)).take (q.tail - (q.head + 1))
    rw [List.drop_eq_getElem_cons hb]
    have : q.tail - q.head = (q.tail - (q.head + 1)) + 1 := by omega
    rw [this, List.take_succ_cons]

theorem rr_enqueue_spec (current : Int) (suffix : List Process) (rq : Queue) (k : Nat)
    (hwf : q_wf rq) :
    ∃ (j : Nat) (rq1 : Queue), rr_enqueue current suffix rq k = (rq1, k + j) ∧
      j ≤ suffix.length ∧ q_wf rq1 ∧
      q_contents rq1 = q_contents rq ++ (List.range' k j).map (fun (i : Nat) => (i : Int)) ∧
      (∀ i x, i < j → suffix[i]? = some x → x.arrivalTime ≤ current) ∧
      (∀ x, suffix[j]? = some x → current < x.arrivalTime) := by
  induction suffix generalizing rq k with
  | nil =>
    refine ⟨0, rq, rfl, le_refl _, hwf, by simp, ?_, ?_⟩
    · intro i x hi; omega
    · intro x hx; simp at hx
  | cons pn rest ih =>
    by_cases harr : pn.arrivalTime ≤ current
    · obtain ⟨hw1, hc1⟩ := q_push_spec rq (k : Int) hwf
      obtain ⟨j, rq1, h1, h2, h3, h4, h5, h6⟩ := ih (q_push rq (k : Int)) (k + 1) hw1
      refine ⟨j + 1, rq1, ?_, ?_, h3, ?_, ?_, ?_⟩
      · simp only [rr_enqueue, harr, if_true]
        rw [h1]
        congr 1
        omega
      · simp only [List.length_cons]; omega
      · rw [h4, hc1, List.range'_succ, List.map_cons, List.append_assoc]
        rfl
      · intro i x hi hx
        cases i with
        | zero =>
          simp only [List.getElem?_cons_zero] at hx
          cases hx
          exact harr
        | succ i =>
          simp only [List.getElem?_cons_succ] at hx
          exact h5 i x (by omega) hx
      · intro x hx
        simp only [List.getElem?_cons_succ] at hx
        exact h6 x hx
    · refine ⟨0, rq, ?_, Nat.zero_le _, hwf, by simp, ?_, ?_⟩
      · simp only [rr_enqueue, harr, if_false]
        rfl
      · intro i x hi; omega
      · intro x hx
        simp only [List.getElem?_cons_zero] at hx
        cases hx
        omega

theorem sum_map_set_int {α : Type} (f : α → Int) (l : List α) (i : Nat) (a : α)
    (h : i < l.length) :
    ((l.set i a).map f).sum = (l.map f).sum - f l[i] + f a := by
  induction l generalizing i with
  | nil => simp at h
  | cons b rest ih =>
    cases i with
    | zero => simp only [List.set_cons_zero, List.map_cons, List.sum_cons,
        List.getElem_cons_zero]; ring
    | succ i =>
      simp only [List.set_cons_succ, List.map_cons, List.sum_cons, List.getElem_cons_succ]
      rw [ih i (by simpa using h)]
      ring

theorem sum_map_set_nat {α : Type} (f : α → Nat) (l : List α) (i : Nat) (a : α)
    (h : i < l.length) :
    ((l.set i a).map f).sum + f l[i] = (l.map f).sum + f a := by
  induction l generalizing i with
  | nil => simp at h
  | cons b rest ih =>
    cases i with
    | zero => simp only [List.set_cons_zero, List.map_cons, List.sum_cons,
        List.getElem_cons_zero]; omega
    | succ i =>
      simp only [List.set_cons_succ, List.map_cons, List.sum_cons, List.getElem_cons_succ]
      have := ih i (by simpa using h)
      omega

theorem rr_granted_append (l1 l2 : List RrEvent) (k : Nat) :
    rr_granted (l1 ++ l2) k = rr_granted l1 k + rr_granted l2 k := by
  induction l1 with
  | nil => simp [rr_granted]
  | cons e rest ih =>
    cases e with
    | idle a b => simpa [rr_granted] using ih
    | run i t sl fin => simp only [List.cons_append, rr_granted, List.append_eq, ih]; ring

theorem rr_completions_append (l1 l2 : List RrEvent) (k : Nat) :
    rr_completions (l1 ++ l2) k = rr_completions l1 k + rr_completions l2 k := by
  induction l1 with
  | nil => simp [rr_completions]
  | cons e rest ih =>
    cases e with
    | idle a b => simpa [rr_completions] using ih
    | run i t sl fin => simp only [List.cons_append, rr_completions, List.append_eq, ih]; omega

theorem rr_total_append (l1 l2 : List RrEvent) :
    rr_total (l1 ++ l2) = rr_total l1 + rr_total l2 := by
  induction l1 with
  | nil => simp [rr_total]
  | cons e rest ih =>
    cases e with
    | idle a b => simpa [rr_total] using ih
    | run i t sl fin => simp only [List.cons_append, rr_total, List.append_eq, ih]; ring

theorem rr_gaps_append (l1 l2 : List RrEvent) :
    rr_gaps (l1 ++ l2) = rr_gaps l1 + rr_gaps l2 := by
  induction l1 with
  | nil => simp [rr_gaps]
  | cons e rest ih =>
    cases e with
    | idle a b => simp only [List.cons_append, rr_gaps, List.append_eq, ih]; ring
    | run i t sl fin => simpa [rr_gaps] using ih

theorem rr_pass_idle_eq (quantum : Int) (s : RrState) (rq1 : Queue) (nextArr1 : Nat)
    (pn : Process)
    (he : rr_enqueue s.current (s.p.drop s.nextArr) s.rq s.nextArr = (rq1, nextArr1))
    (hempty : q_empty rq1 = true) (hpn : s.p[nextArr1]? = some pn) :
    rr_pass quantum s = .ok (rr_idle_state s rq1 nextArr1 pn) := by
  unfold rr_pass
  rw [he]
  simp only [hempty, if_true, hpn]
  rfl

theorem set_set_same {α : Type} (l : List α) (i : Nat) (a b : α) :
    (l.set i a).set i b = l.set i b := by
  induction l generalizing i with
  | nil => rfl
  | cons x rest ih =>
    cases i with
    | zero => rfl
    | succ i => simp only [List.set_cons_succ, ih]

theorem rr_pass_run_eq (quantum : Int) (s : RrState) (rq1 rq2 rq3 : Queue)
    (nextArr1 nextArr2 : Nat) (i : Nat) (cur : Process)
    (he : rr_enqueue s.current (s.p.drop s.nextArr) s.rq s.nextArr = (rq1, nextArr1))
    (hempty : q_empty rq1 = false) (hpop : q_pop rq1 = .ok ((i : Int), rq2))
    (hcur : s.p[i]? = some cur) (hi : i < nextArr1)
    (he2 : rr_enqueue (s.current + rr_slice quantum cur) (s.p.drop nextArr1) rq2 nextArr1 =
        (rq3, nextArr2)) :
    rr_pass quantum s = .ok (rr_run_state quantum s i cur rq3 nextArr2) := by
  have hnn : ¬ ((i : Int) < 0) := not_lt.mpr (Int.ofNat_nonneg i)
  have hbn : (i : Int).toNat = i := Int.toNat_ofNat i
  unfold rr_slice at he2
  unfold rr_pass
  rw [he]
  simp only [hempty, hpop, if_neg hnn, hbn, hcur, Bool.false_eq_true, if_false]
  by_cases hfirst : cur.startTime < 0
  · simp only [hfirst, decide_True, if_true, List.drop_set_of_lt _ _ hi, he2]
    by_cases hrem : cur.remainingTime -
        (if cur.remainingTime > quantum then quantum else cur.remainingTime) > 0
    · simp only [hrem, if_true, rr_run_state, rr_ran, rr_slice, not_true_eq_false,
        decide_False, Bool.false_eq_true, if_false, hfirst]
    · simp only [hrem, if_false, rr_run_state, rr_ran, rr_slice, not_false_eq_true,
        decide_True, if_true, hfirst]
  · simp only [hfirst, decide_False, Bool.false_eq_true, if_false, List.drop_set_of_lt _ _ hi,
      he2]
    by_cases hrem : cur.remainingTime -
        (if cur.remainingTime > quantum then quantum else cur.remainingTime) > 0
    · simp only [hrem, if_true, rr_run_state, rr_ran, rr_slice, not_true_eq_false,
        decide_False, Bool.false_eq_true, if_false, hfirst]
    · simp only [hrem, if_false, rr_run_state, rr_ran, rr_slice, not_false_eq_true,
        decide_True, if_true, hfirst]

theorem rr_slice_bounds (quantum : Int) (hq : 0 < quantum) (cur : Process)
    (hrem : 0 < cur.remainingTime) :
    1 ≤ rr_slice quantum cur ∧ rr_slice quantum cur ≤ quantum ∧
      rr_slice quantum cur ≤ cur.remainingTime ∧
      rr_slice quantum cur = min cur.remainingTime quantum := by
  unfold rr_slice
  split_ifs with h
  · refine ⟨by omega, le_refl _, by omega, ?_⟩
    rw [min_eq_right (by omega)]
  · refine ⟨by omega, by omega, le_refl _, ?_⟩
    rw [min_eq_left (by omega)]

theorem rr_procs_mono {c c1 : Int} {n n1 k : Nat} {x : Process}
    (h : RrProcOk c n k x) (hc : c ≤ c1) (_hn : n ≤ n1)
    (hnew : n ≤ k → k < n1 → x.arrivalTime ≤ c1) : RrProcOk c1 n1 k x where
  burst_pos := h.burst_pos
  rem_nonneg := h.rem_nonneg
  rem_le := h.rem_le
  arrived := by
    intro hk
    by_cases hkn : k < n
    · exact le_trans (h.arrived hkn) hc
    · exact hnew (by omega) hk
  unqueued := fun hk => h.unqueued (by omega)
  fresh := h.fresh
  started := by
    intro hs
    obtain ⟨h1, h2, h3⟩ := h.started hs
    exact ⟨h1, by omega, h3⟩
  completed := by
    intro hr
    obtain ⟨h1, h2⟩ := h.completed hr
    exact ⟨h1, by omega⟩

theorem rr_ran_ok (quantum : Int) (hq : 0 < quantum) {c : Int} (hc : 0 ≤ c)
    {n n1 i : Nat} {cur : Process} (h : RrProcOk c n i cur) (hi : i < n) (hn : n ≤ n1)
    (hrem : 0 < cur.remainingTime) :
    RrProcOk (c + rr_slice quantum cur) n1 i (rr_ran quantum c cur) := by
  obtain ⟨s1, s2, s3, _⟩ := rr_slice_bounds quantum hq cur hrem
  have harr := h.arrived hi
  have hstart : 0 ≤ (rr_ran quantum c cur).startTime ∧
      cur.arrivalTime ≤ (rr_ran quantum c cur).startTime ∧
      (rr_ran quantum c cur).startTime + (cur.burstTime - cur.remainingTime) ≤ c := by
    simp only [rr_ran]
    by_cases hf : cur.startTime < 0
    · rw [if_pos hf]
      have := (h.fresh hf).2
      exact ⟨hc, harr, by omega⟩
    · rw [if_neg hf]
      obtain ⟨h1, h2, _⟩ := h.started (not_lt.mp hf)
      exact ⟨not_lt.mp hf, h1, h2⟩
  constructor
  · exact h.burst_pos
  · show 0 ≤ cur.remainingTime - rr_slice quantum cur
    omega
  · show cur.remainingTime - rr_slice quantum cur ≤ cur.burstTime
    have := h.rem_le
    omega
  · intro _
    show cur.arrivalTime ≤ c + rr_slice quantum cur
    omega
  · intro hk; omega
  · intro hneg
    exact absurd hstart.1 (not_le.mpr hneg)
  · intro _
    refine ⟨hstart.2.1, ?_, ?_⟩
    · show (rr_ran quantum c cur).startTime +
        (cur.burstTime - (cur.remainingTime - rr_slice quantum cur)) ≤ c + rr_slice quantum cur
      have := hstart.2.2
      omega
    · show cur.remainingTime - rr_slice quantum cur < cur.burstTime
      have := h.rem_le
      omega
  · intro hz
    have hz1 : cur.remainingTime - rr_slice quantum cur = 0 := hz
    have hcomp : (rr_ran quantum c cur).completionTime = c + rr_slice quantum cur := by
      simp only [rr_ran]
      rw [if_neg (by omega)]
    rw [hcomp]
    refine ⟨?_, le_refl _⟩
    show (rr_ran quantum c cur).startTime + cur.burstTime ≤ c + rr_slice quantum cur
    have := hstart.2.2
    omega

theorem rr_ran_input (quantum c : Int) (cur : Process) :
    same_input (rr_ran quantum c cur) cur := ⟨rfl, rfl, rfl⟩

theorem rr_idle_inv (quantum : Int) (p0 : List Process) (s : RrState) (rq1 : Queue)
    (pn : Process) (hinv : RrInv quantum p0 s [])
    (hw1 : q_wf rq1) (hc1 : q_contents rq1 = [])
    (hlt : s.current < pn.arrivalTime) :
    RrInv quantum p0 (rr_idle_state s rq1 s.nextArr pn) [] where
  wf := hw1
  contents := by simpa using hc1
  nodup := List.nodup_nil
  queued := hinv.queued
  next_le := hinv.next_le
  count := hinv.count
  len := hinv.len
  input := hinv.input
  cur_nonneg := le_trans hinv.cur_nonneg (le_of_lt hlt)
  procs := by
    intro k x hx
    refine rr_procs_mono (hinv.procs k x hx) (le_of_lt hlt) (le_refl _) ?_
    intro h1 h2
    exact absurd h2 (not_lt.mpr h1)
  log_run := by
    intro i t sl fin hmem
    simp only [rr_idle_state, List.mem_append, List.mem_singleton] at hmem
    rcases hmem with hmem | hmem
    · exact hinv.log_run i t sl fin hmem
    · cases hmem
  log_idle := by
    intro a b hmem
    simp only [rr_idle_state, List.mem_append, List.mem_singleton] at hmem
    rcases hmem with hmem | hmem
    · exact hinv.log_idle a b hmem
    · cases hmem
      exact hlt
  granted := by
    intro k x hx
    simp only [rr_idle_state, rr_granted_append, rr_granted, add_zero]
    exact hinv.granted k x hx
  completions := by
    intro k x hx
    simp only [rr_idle_state, rr_completions_append, rr_completions, add_zero]
    exact hinv.completions k x hx
  total := by
    simp only [rr_idle_state, rr_total_append, rr_total, add_zero]
    exact hinv.total
  clock := by
    simp only [rr_idle_state, rr_total_append, rr_total, add_zero, rr_gaps_append, rr_gaps]
    have := hinv.clock
    omega
  sum_ta := hinv.sum_ta
  sum_wait := hinv.sum_wait
  sum_resp := hinv.sum_resp

theorem rr_run_inv (quantum : Int) (hq : 0 < quantum) (p0 : List Process) (s : RrState)
    (ks ks2 : List Nat) (i : Nat) (cur : Process) (rq3 : Queue) (j1 j2 : Nat)
    (hinv : RrInv quantum p0 s ks)
    (hks1 : ks ++ List.range' s.nextArr j1 = i :: ks2)
    (hn1le : s.nextArr + j1 ≤ s.p.length)
    (ha1 : ∀ (k : Nat) (x : Process), s.nextArr ≤ k → k < s.nextArr + j1 →
      s.p[k]? = some x → x.arrivalTime ≤ s.current)
    (hcur : s.p[i]? = some cur)
    (hw3 : q_wf rq3)
    (hc3 : q_contents rq3 =
      (ks2 ++ List.range' (s.nextArr + j1) j2).map (fun (k : Nat) => (k : Int)))
    (hn2le : s.nextArr + j1 + j2 ≤ s.p.length)
    (ha2 : ∀ (k : Nat) (x : Process), s.nextArr + j1 ≤ k → k < s.nextArr + j1 + j2 →
      s.p[k]? = some x → x.arrivalTime ≤ s.current + rr_slice quantum cur) :
    0 < cur.remainingTime ∧ i < s.nextArr + j1 ∧
    RrInv quantum p0 (rr_run_state quantum s i cur rq3 (s.nextArr + j1 + j2))
      (ks2 ++ List.range' (s.nextArr + j1) j2 ++
        (if cur.remainingTime - rr_slice quantum cur > 0 then [i] else [])) := by
  have hilen : i < s.p.length := (List.getElem?_eq_some.mp hcur).1
  have hget : s.p[i] = cur := (List.getElem?_eq_some.mp hcur).2
  -- the queue after the first enqueue loop
  have hQ1 : ∀ k : Nat, k ∈ i :: ks2 ↔
      k < s.nextArr + j1 ∧ ∃ x, s.p[k]? = some x ∧ 0 < x.remainingTime := by
    intro k
    rw [← hks1, List.mem_append, List.mem_range'_1]
    constructor
    · rintro (h | ⟨h1, h2⟩)
      · obtain ⟨h1, h2⟩ := (hinv.queued k).mp h
        exact ⟨by omega, h2⟩
      · have hkl : k < s.p.length := by omega
        have hk := List.getElem?_eq_getElem hkl
        have hu := (hinv.procs k _ hk).unqueued h1
        have hb := (hinv.procs k _ hk).burst_pos
        exact ⟨h2, _, hk, by omega⟩
    · rintro ⟨h1, h2⟩
      by_cases hk : k < s.nextArr
      · exact Or.inl ((hinv.queued k).mpr ⟨hk, h2⟩)
      · exact Or.inr ⟨by omega, h1⟩
  have hnd1 : (i :: ks2).Nodup := by
    rw [← hks1, List.nodup_append]
    refine ⟨hinv.nodup, List.nodup_range' _ _, ?_⟩
    intro a ha hb
    have h1 := ((hinv.queued a).mp ha).1
    have h2 := (List.mem_range'_1.mp hb).1
    omega
  have hi_notin : i ∉ ks2 := (List.nodup_cons.mp hnd1).1
  have hnd2 : ks2.Nodup := (List.nodup_cons.mp hnd1).2
  obtain ⟨hi1, x, hx, hrem⟩ := (hQ1 i).mp (List.mem_cons_self _ _)
  rw [hcur] at hx
  cases hx
  have hP1 : ∀ (k : Nat) (x : Process), s.p[k]? = some x →
      RrProcOk s.current (s.nextArr + j1) k x := by
    intro k x hx
    exact rr_procs_mono (hinv.procs k x hx) (le_refl _) (by omega)
      (fun h1 h2 => ha1 k x h1 h2 hx)
  obtain ⟨sl1, sl2, sl3, _⟩ := rr_slice_bounds quantum hq cur hrem
  have hPi := rr_ran_ok quantum hq hinv.cur_nonneg (hP1 i cur hcur) hi1
    (show s.nextArr + j1 ≤ s.nextArr + j1 + j2 by omega) hrem
  have hlenks : ks.length + j1 = ks2.length + 1 := by
    have := congrArg List.length hks1
    simpa using this
  refine ⟨hrem, hi1, ?_⟩
  have hfin_iff : (decide (¬ (cur.remainingTime - rr_slice quantum cur > 0)) = true) ↔
      ¬ (cur.remainingTime - rr_slice quantum cur > 0) := by simp
  constructor
  · -- wf
    simp only [rr_run_state]
    split_ifs with h
    · exact hw3
    · exact (q_push_spec rq3 _ hw3).1
  · -- contents
    simp only [rr_run_state]
    by_cases h : cur.remainingTime - rr_slice quantum cur > 0
    · simp only [h, not_true_eq_false, decide_False, Bool.false_eq_true, if_false, if_true]
      rw [(q_push_spec rq3 _ hw3).2, hc3]
      simp
    · simp only [h, not_false_eq_true, decide_True, if_true, if_false, List.append_nil]
      exact hc3
  · -- nodup
    have hnd3 : (ks2 ++ List.range' (s.nextArr + j1) j2).Nodup := by
      rw [List.nodup_append]
      refine ⟨hnd2, List.nodup_range' _ _, ?_⟩
      intro a ha hb
      have h1 := ((hQ1 a).mp (List.mem_cons_of_mem _ ha)).1
      have h2 := (List.mem_range'_1.mp hb).1
      omega
    split_ifs with h
    · rw [List.nodup_append]
      refine ⟨hnd3, List.nodup_singleton _, ?_⟩
      rw [List.disjoint_singleton]
      rw [List.mem_append, List.mem_range'_1]
      rintro (h1 | ⟨h1, _⟩)
      · exact hi_notin h1
      · omega
    · simpa using hnd3
  · -- queued
    intro k
    simp only [rr_run_state]
    by_cases hki : i = k
    · subst hki
      rw [List.getElem?_set_self hilen]
      have hnot : i ∉ ks2 ++ List.range' (s.nextArr + j1) j2 := by
        rw [List.mem_append, List.mem_range'_1]
        rintro (h1 | ⟨h1, _⟩)
        · exact hi_notin h1
        · omega
      constructor
      · intro hmem
        rw [List.mem_append] at hmem
        rcases hmem with hmem | hmem
        · exact absurd hmem hnot
        · split_ifs at hmem with h
          · exact ⟨by omega, _, rfl, h⟩
          · cases hmem
      · rintro ⟨_, x, hx, hpos⟩
        cases hx
        have hpos1 : cur.remainingTime - rr_slice quantum cur > 0 := hpos
        rw [if_pos hpos1]
        simp
    · rw [List.getElem?_set_ne hki]
      have hnt : k ∉ (if cur.remainingTime - rr_slice quantum cur > 0 then [i] else []) := by
        split_ifs
        · simp only [List.mem_singleton]; exact fun e => hki e.symm
        · simp
      rw [List.mem_append, List.mem_append, List.mem_range'_1]
      constructor
      · rintro ((h | ⟨h1, h2⟩) | h)
        · obtain ⟨h1, h2⟩ := (hQ1 k).mp (List.mem_cons_of_mem _ h)
          exact ⟨by omega, h2⟩
        · have hkl : k < s.p.length := by omega
          have hk := List.getElem?_eq_getElem hkl
          have hu := (hP1 k _ hk).unqueued h1
          have hb := (hP1 k _ hk).burst_pos
          exact ⟨h2, _, hk, by omega⟩
        · exact absurd h hnt
      · rintro ⟨h1, h2⟩
        left
        by_cases hk : k < s.nextArr + j1
        · have := (hQ1 k).mpr ⟨hk, h2⟩
          rcases List.mem_cons.mp this with e | e
          · exact absurd e.symm hki
          · exact Or.inl e
        · exact Or.inr ⟨by omega, h1⟩
  · -- next_le
    simp only [rr_run_state, List.length_set]
    exact hn2le
  · -- count
    have hc := hinv.count
    simp only [rr_run_state]
    by_cases h : cur.remainingTime - rr_slice quantum cur > 0
    · simp only [h, not_true_eq_false, decide_False, Bool.false_eq_true, if_false, if_true,
        List.length_append, List.length_range', List.length_singleton]
      omega
    · simp only [h, not_false_eq_true, decide_True, if_true, if_false,
        List.length_append, List.length_range', List.length_nil]
      omega
  · -- len
    simp only [rr_run_state, List.length_set]
    exact hinv.len
  · -- input
    intro k x hx
    simp only [rr_run_state] at hx
    rcases getElem?_set_some hx with ⟨h1, _, h3⟩ | ⟨_, h2⟩
    · subst h1 h3
      obtain ⟨y, hy, e1, e2, e3⟩ := hinv.input i cur hcur
      exact ⟨y, hy, e1, e2, e3⟩
    · exact hinv.input k x h2
  · -- cur_nonneg
    simp only [rr_run_state]
    have := hinv.cur_nonneg
    omega
  · -- procs
    intro k x hx
    simp only [rr_run_state] at hx ⊢
    rcases getElem?_set_some hx with ⟨h1, _, h3⟩ | ⟨_, h2⟩
    · subst h1 h3
      exact hPi
    · exact rr_procs_mono (hP1 k x h2) (by omega) (by omega)
        (fun h3 h4 => ha2 k x h3 h4 h2)
  · -- log_run
    intro i1 t sl fin hmem
    simp only [rr_run_state, List.mem_append, List.mem_singleton, List.length_set] at hmem ⊢
    rcases hmem with hmem | hmem
    · exact hinv.log_run i1 t sl fin hmem
    · cases hmem
      exact ⟨sl1, sl2, hilen⟩
  · -- log_idle
    intro a b hmem
    simp only [rr_run_state, List.mem_append, List.mem_singleton] at hmem
    rcases hmem with hmem | hmem
    · exact hinv.log_idle a b hmem
    · cases hmem
  · -- granted
    intro k x hx
    simp only [rr_run_state] at hx ⊢
    rw [rr_granted_append]
    simp only [rr_granted, add_zero]
    rcases getElem?_set_some hx with ⟨h1, _, h3⟩ | ⟨h1, h2⟩
    · subst h1 h3
      rw [hinv.granted i cur hcur, if_pos rfl]
      show cur.burstTime - cur.remainingTime + rr_slice quantum cur =
        cur.burstTime - (cur.remainingTime - rr_slice quantum cur)
      ring
    · rw [hinv.granted k x h2, if_neg h1, add_zero]
  · -- completions
    intro k x hx
    simp only [rr_run_state] at hx ⊢
    rw [rr_completions_append]
    simp only [rr_completions, add_zero]
    rcases getElem?_set_some hx with ⟨h1, _, h3⟩ | ⟨h1, h2⟩
    · subst h1 h3
      rw [hinv.completions i cur hcur, if_neg (by omega)]
      show 0 + (if i = i ∧ decide (¬ (cur.remainingTime - rr_slice quantum cur > 0)) = true
          then 1 else 0) =
        if cur.remainingTime - rr_slice quantum cur = 0 then 1 else 0
      by_cases h : cur.remainingTime - rr_slice quantum cur > 0
      · rw [if_neg (by simp [h]), if_neg (by omega)]
      · rw [if_pos (by simp [h]), if_pos (by omega)]
    · rw [hinv.completions k x h2]
      have e : (if i = k ∧ decide (¬ (cur.remainingTime - rr_slice quantum cur > 0)) = true
          then 1 else 0) = 0 := if_neg (fun h => h1 h.1)
      rw [e, add_zero]
  · -- total
    simp only [rr_run_state]
    rw [rr_total_append, sum_map_set_int _ _ _ _ hilen, hget, hinv.total]
    simp only [rr_total, add_zero]
    show _ = _ - _ + (cur.burstTime - (cur.remainingTime - rr_slice quantum cur))
    ring
  · -- clock
    simp only [rr_run_state]
    rw [rr_total_append, rr_gaps_append]
    simp only [rr_total, rr_gaps, add_zero]
    have := hinv.clock
    omega
  · -- sum_ta
    have e1 : (if cur.remainingTime = 0 then cur.completionTime - cur.arrivalTime else 0) = 0 :=
      if_neg (by omega)
    simp only [rr_run_state]
    rw [sum_map_set_int _ _ _ _ hilen, hget, ← hinv.sum_ta, e1]
    by_cases h : cur.remainingTime - rr_slice quantum cur > 0
    · have hz : ¬ (cur.remainingTime - rr_slice quantum cur = 0) := by omega
      simp only [rr_ran, h, hz, not_true_eq_false, decide_False, Bool.false_eq_true, if_false]
      ring
    · have hz : cur.remainingTime - rr_slice quantum cur = 0 := by omega
      simp only [rr_ran, hz, gt_iff_lt, lt_self_iff_false, not_false_eq_true, decide_True,
        if_true, if_false]
      ring
  · -- sum_wait
    have e1 : (if cur.remainingTime = 0 then
        cur.completionTime - cur.arrivalTime - cur.burstTime else 0) = 0 :=
      if_neg (by omega)
    simp only [rr_run_state]
    rw [sum_map_set_int _ _ _ _ hilen, hget, ← hinv.sum_wait, e1]
    by_cases h : cur.remainingTime - rr_slice quantum cur > 0
    · have hz : ¬ (cur.remainingTime - rr_slice quantum cur = 0) := by omega
      simp only [rr_ran, h, hz, not_true_eq_false, decide_False, Bool.false_eq_true, if_false]
      ring
    · have hz : cur.remainingTime - rr_slice quantum cur = 0 := by omega
      simp only [rr_ran, hz, gt_iff_lt, lt_self_iff_false, not_false_eq_true, decide_True,
        if_true, if_false]
      ring
  · -- sum_resp
    simp only [rr_run_state]
    rw [sum_map_set_int _ _ _ _ hilen, hget, ← hinv.sum_resp]
    show _ = _ - _ + (if 0 ≤ (if cur.startTime < 0 then s.current else cur.startTime) then
      (if cur.startTime < 0 then s.current else cur.startTime) - cur.arrivalTime else 0)
    by_cases hf : cur.startTime < 0
    · rw [if_pos hf, if_neg (by omega), if_pos hf, if_pos hinv.cur_nonneg]
      ring
    · rw [if_neg hf, if_pos (by omega), if_neg hf, if_pos (by omega)]
      ring

theorem rr_pass_spec (quantum : Int) (hq : 0 < quantum) (p0 : List Process) (s : RrState)
    (ks : List Nat) (hinv : RrInv quantum p0 s ks) (hfin : s.finished < s.p.length) :
    ∃ s1 ks1, rr_pass quantum s = .ok s1 ∧ RrInv quantum p0 s1 ks1 ∧
      rr_measure s1 < rr_measure s ∧
      ((∃ rq1 pn, ks = [] ∧ ks1 = [] ∧ s.p[s.nextArr]? = some pn ∧
          s.current < pn.arrivalTime ∧ s1 = rr_idle_state s rq1 s.nextArr pn) ∨
       (∃ i cur rq3 j1 j2 ks2, s.p[i]? = some cur ∧ 0 < cur.remainingTime ∧
          ks ++ List.range' s.nextArr j1 = i :: ks2 ∧
          ks1 = ks2 ++ List.range' (s.nextArr + j1) j2 ++
            (if cur.remainingTime - rr_slice quantum cur > 0 then [i] else []) ∧
          (∀ (k : Nat) (x : Process), s.nextArr ≤ k → k < s.nextArr + j1 + j2 →
            s.p[k]? = some x → x.arrivalTime ≤ s.current + rr_slice quantum cur) ∧
          (∀ x : Process, s.p[s.nextArr + j1 + j2]? = some x →
            s.current + rr_slice quantum cur < x.arrivalTime) ∧
          s1 = rr_run_state quantum s i cur rq3 (s.nextArr + j1 + j2))) := by
  obtain ⟨j1, rq1, he1, hj1, hw1, hc1, ha1, hn1⟩ :=
    rr_enqueue_spec s.current (s.p.drop s.nextArr) s.rq s.nextArr hinv.wf
  have hnl := hinv.next_le
  have hj1' : s.nextArr + j1 ≤ s.p.length := by
    simp only [List.length_drop] at hj1; omega
  rw [hinv.contents, ← List.map_append] at hc1
  have ha1' : ∀ (k : Nat) (x : Process), s.nextArr ≤ k → k < s.nextArr + j1 →
      s.p[k]? = some x → x.arrivalTime ≤ s.current := by
    intro k x h1 h2 hx
    refine ha1 (k - s.nextArr) x (by omega) ?_
    rw [List.getElem?_drop]
    have : s.nextArr + (k - s.nextArr) = k := by omega
    rw [this]; exact hx
  have hn1' : ∀ x : Process, s.p[s.nextArr + j1]? = some x → s.current < x.arrivalTime := by
    intro x hx
    refine hn1 x ?_
    rw [List.getElem?_drop]; exact hx
  by_cases hempty : q_empty rq1 = true
  · -- idle pass
    have hnil := (q_empty_iff rq1 hw1).mp hempty
    rw [hnil] at hc1
    have hks : ks ++ List.range' s.nextArr j1 = [] := by
      have := congrArg List.length hc1
      simp only [List.length_nil, List.length_map] at this
      exact List.eq_nil_of_length_eq_zero this.symm
    obtain ⟨hk0, hr0⟩ := List.append_eq_nil.mp hks
    have hj0 : j1 = 0 := by
      have := congrArg List.length hr0
      simpa using this
    subst hk0 hj0
    have hcnt := hinv.count
    simp only [List.length_nil, add_zero] at hcnt
    have hlt : s.nextArr < s.p.length := by omega
    have hpn : s.p[s.nextArr]? = some s.p[s.nextArr] := List.getElem?_eq_getElem hlt
    have harr := hn1' _ hpn
    simp only [add_zero] at he1
    refine ⟨rr_idle_state s rq1 s.nextArr s.p[s.nextArr], [],
      rr_pass_idle_eq quantum s rq1 s.nextArr _ he1 hempty hpn,
      rr_idle_inv quantum p0 s rq1 _ hinv hw1 hnil harr, ?_,
      Or.inl ⟨rq1, _, rfl, rfl, hpn, harr, rfl⟩⟩
    simp only [rr_measure, rr_idle_state, rr_next_flag, hpn]
    rw [if_pos (le_refl _), if_neg (not_le.mpr harr)]
    omega
  · -- dispatch pass
    have hempty' : q_empty rq1 = false := by
      cases h : q_empty rq1
      · rfl
      · exact absurd h hempty
    obtain ⟨v, rq2, hpop, hw2, hc2⟩ := q_pop_spec rq1 hw1 hempty'
    rw [hc1] at hc2
    obtain ⟨i, ks2, hks1, hv, hc2'⟩ : ∃ i ks2, ks ++ List.range' s.nextArr j1 = i :: ks2 ∧
        v = (i : Int) ∧ q_contents rq2 = ks2.map (fun (k : Nat) => (k : Int)) := by
      cases hl : ks ++ List.range' s.nextArr j1 with
      | nil => rw [hl] at hc2; simp at hc2
      | cons i ks2 =>
        rw [hl] at hc2
        simp only [List.map_cons, List.cons.injEq] at hc2
        exact ⟨i, ks2, rfl, hc2.1.symm, hc2.2.symm⟩
    subst hv
    have hmem : i ∈ ks ++ List.range' s.nextArr j1 := by rw [hks1]; exact List.mem_cons_self _ _
    have hi1 : i < s.nextArr + j1 := by
      rcases List.mem_append.mp hmem with h | h
      · have := ((hinv.queued i).mp h).1; omega
      · exact (List.mem_range'_1.mp h).2
    have hilen : i < s.p.length := by omega
    have hcur : s.p[i]? = some s.p[i] := List.getElem?_eq_getElem hilen
    obtain ⟨j2, rq3, he2, hj2, hw3, hc3, ha2, hn2⟩ :=
      rr_enqueue_spec (s.current + rr_slice quantum s.p[i]) (s.p.drop (s.nextArr + j1)) rq2
        (s.nextArr + j1) hw2
    have hj2' : s.nextArr + j1 + j2 ≤ s.p.length := by
      simp only [List.length_drop] at hj2; omega
    rw [hc2', ← List.map_append] at hc3
    have ha2' : ∀ (k : Nat) (x : Process), s.nextArr + j1 ≤ k → k < s.nextArr + j1 + j2 →
        s.p[k]? = some x → x.arrivalTime ≤ s.current + rr_slice quantum s.p[i] := by
      intro k x h1 h2 hx
      refine ha2 (k - (s.nextArr + j1)) x (by omega) ?_
      rw [List.getElem?_drop]
      have : s.nextArr + j1 + (k - (s.nextArr + j1)) = k := by omega
      rw [this]; exact hx
    have hn2' : ∀ x : Process, s.p[s.nextArr + j1 + j2]? = some x →
        s.current + rr_slice quantum s.p[i] < x.arrivalTime := by
      intro x hx
      refine hn2 x ?_
      rw [List.getElem?_drop]; exact hx
    obtain ⟨hrem, _, hinv1⟩ := rr_run_inv quantum hq p0 s ks ks2 i s.p[i] rq3 j1 j2 hinv hks1
      hj1' ha1' hcur hw3 hc3 hj2' ha2'
    obtain ⟨sl1, _, sl3, _⟩ := rr_slice_bounds quantum hq s.p[i] hrem
    refine ⟨_, _, rr_pass_run_eq quantum s rq1 rq2 rq3 _ _ i _ he1 hempty' hpop hcur hi1 he2,
      hinv1, ?_, Or.inr ⟨i, _, rq3, j1, j2, ks2, hcur, hrem, hks1, rfl, ?_, hn2', rfl⟩⟩
    · -- the measure decreases
      have hsum := sum_map_set_nat (fun x : Process => x.remainingTime.toNat) s.p i
        (rr_ran quantum s.current s.p[i]) hilen
      have hran : (rr_ran quantum s.current s.p[i]).remainingTime.toNat + 1 ≤
          (s.p[i]).remainingTime.toNat := by
        show (s.p[i].remainingTime - rr_slice quantum s.p[i]).toNat + 1 ≤ _
        omega
      have hflag1 : rr_next_flag (s.p.set i (rr_ran quantum s.current s.p[i]))
          (s.nextArr + j1 + j2) (s.current + rr_slice quantum s.p[i]) = 1 := by
        unfold rr_next_flag
        rw [List.getElem?_set_ne (by omega)]
        cases hx : s.p[s.nextArr + j1 + j2]? with
        | none => rfl
        | some x =>
          simp only
          rw [if_neg (not_le.mpr (hn2' x hx))]
      have hflag0 : j1 = 0 → rr_next_flag s.p s.nextArr s.current = 1 := by
        intro hj
        subst hj
        unfold rr_next_flag
        cases hx : s.p[s.nextArr]? with
        | none => rfl
        | some x =>
          simp only
          rw [if_neg (not_le.mpr (hn1' x hx))]
      have hflag2 : rr_next_flag s.p s.nextArr s.current ≤ 1 := by
        unfold rr_next_flag
        cases s.p[s.nextArr]? with
        | none => exact le_refl _
        | some x => simp only; split_ifs <;> omega
      simp only [rr_measure, rr_run_state, List.length_set]
      rw [hflag1]
      by_cases hj : j1 = 0
      · rw [hflag0 hj]
        omega
      · omega
    · intro k x h1 h2 hx
      by_cases hk : k < s.nextArr + j1
      · have := ha1' k x h1 hk hx
        omega
      · exact ha2' k x (by omega) h2 hx

theorem sum_map_eq_zero {α : Type} (f : α → Int) (l : List α) (h : ∀ x ∈ l, f x = 0) :
    (l.map f).sum = 0 := by
  induction l with
  | nil => rfl
  | cons a rest ih =>
    simp only [List.map_cons, List.sum_cons]
    rw [h a (List.mem_cons_self _ _), ih (fun x hx => h x (List.mem_cons_of_mem _ hx))]
    rfl

theorem qsort_perm (cmp : Process → Process → Int) (l : List Process) :
    (qsort cmp l).Perm l :=
  List.perm_insertionSort _ l

theorem rr_init_mem (proc : List Process) (x : Process) (hx : x ∈ (rr_init proc).p) :
    ∃ y ∈ proc, x = rr_reset y := by
  have h1 : x ∈ (duplicate_proc_array proc).map rr_reset :=
    (qsort_perm cmp_arrival_pid _).mem_iff.mp hx
  obtain ⟨y, hy, e⟩ := List.mem_map.mp h1
  exact ⟨y, hy, e.symm⟩

theorem rr_init_inv (quantum : Int) (proc : List Process)
    (hpos : ∀ x ∈ proc, 0 < x.burstTime) :
    RrInv quantum (rr_init proc).p (rr_init proc) [] := by
  have hmem : ∀ (k : Nat) (x : Process), (rr_init proc).p[k]? = some x →
      0 < x.burstTime ∧ x.remainingTime = x.burstTime ∧ x.startTime = -1 := by
    intro k x hx
    obtain ⟨y, hy, e⟩ := rr_init_mem proc x (List.mem_iff_getElem?.mpr ⟨k, hx⟩)
    subst e
    exact ⟨hpos y hy, rfl, rfl⟩
  have hmem' : ∀ x ∈ (rr_init proc).p,
      0 < x.burstTime ∧ x.remainingTime = x.burstTime ∧ x.startTime = -1 := by
    intro x hx
    obtain ⟨k, hk⟩ := List.mem_iff_getElem?.mp hx
    exact hmem k x hk
  constructor
  · exact q_create_wf
  · exact q_create_contents
  · exact List.nodup_nil
  · intro k
    constructor
    · intro h; cases h
    · rintro ⟨h, _⟩
      exact absurd h (Nat.not_lt_zero k)
  · exact Nat.zero_le _
  · rfl
  · rfl
  · intro k x hx
    exact ⟨x, hx, rfl, rfl, rfl⟩
  · exact le_refl _
  · intro k x hx
    obtain ⟨h1, h2, h3⟩ := hmem k x hx
    constructor
    · exact h1
    · omega
    · omega
    · intro h; exact absurd h (Nat.not_lt_zero k)
    · intro _; exact ⟨h3, h2⟩
    · intro _; exact ⟨h3, h2⟩
    · intro h; omega
    · intro h; omega
  · intro i t sl fin h; cases h
  · intro a b h; cases h
  · intro k x hx
    obtain ⟨_, h2, _⟩ := hmem k x hx
    show (0 : Int) = _
    omega
  · intro k x hx
    obtain ⟨h1, h2, _⟩ := hmem k x hx
    rw [if_neg (by omega)]
    rfl
  · show (0 : Int) = _
    rw [sum_map_eq_zero]
    intro x hx
    obtain ⟨_, h2, _⟩ := hmem' x hx
    omega
  · rfl
  · show (0 : Int) = _
    rw [sum_map_eq_zero]
    intro x hx
    obtain ⟨h1, h2, _⟩ := hmem' x hx
    rw [if_neg (by omega)]
  · show (0 : Int) = _
    rw [sum_map_eq_zero]
    intro x hx
    obtain ⟨h1, h2, _⟩ := hmem' x hx
    rw [if_neg (by omega)]
  · show (0 : Int) = _
    rw [sum_map_eq_zero]
    intro x hx
    obtain ⟨_, _, h3⟩ := hmem' x hx
    rw [if_neg (by omega)]

theorem rr_init_length (proc : List Process) : (rr_init proc).p.length = proc.length := by
  have := (qsort_perm cmp_arrival_pid ((duplicate_proc_array proc).map rr_reset)).length_eq
  simpa [rr_init, duplicate_proc_array] using this

theorem rr_init_measure (proc : List Process) : rr_measure (rr_init proc) ≤ rr_fuel proc := by
  have hperm := qsort_perm cmp_arrival_pid ((duplicate_proc_array proc).map rr_reset)
  have h1 : ((rr_init proc).p.map fun x => x.remainingTime.toNat).sum =
      (proc.map fun x => x.burstTime.toNat).sum := by
    have := (hperm.map (fun x : Process => x.remainingTime.toNat)).sum_eq
    simp only [rr_init]
    rw [this]
    simp only [duplicate_proc_array, List.map_map]
    rfl
  have h2 : rr_next_flag (rr_init proc).p (rr_init proc).nextArr (rr_init proc).current ≤ 1 := by
    unfold rr_next_flag
    cases (rr_init proc).p[(rr_init proc).nextArr]? with
    | none => exact le_refl _
    | some x => simp only; split_ifs <;> omega
  have h3 := rr_init_length proc
  simp only [rr_measure, rr_fuel]
  rw [h1, h3]
  omega

theorem rr_runs (quantum : Int) (hq : 0 < quantum) (proc p0 : List Process) (fuel : Nat) :
    ∀ (s : RrState) (ks : List Nat), RrInv quantum p0 s ks → RrReach quantum proc s →
      rr_measure s ≤ fuel →
      ∃ s1 ks1, rr_loop quantum fuel s = .ok s1 ∧ RrInv quantum p0 s1 ks1 ∧
        RrReach quantum proc s1 ∧ ¬ s1.finished < s1.p.length := by
  induction fuel with
  | zero =>
    intro s ks hinv hreach hm
    by_cases hfin : s.finished < s.p.length
    · obtain ⟨s1, ks1, _, _, hlt, _⟩ := rr_pass_spec quantum hq p0 s ks hinv hfin
      omega
    · exact ⟨s, ks, by simp [rr_loop, hfin], hinv, hreach, hfin⟩
  | succ f ih =>
    intro s ks hinv hreach hm
    by_cases hfin : s.finished < s.p.length
    · obtain ⟨s1, ks1, hpass, hinv1, hlt, _⟩ := rr_pass_spec quantum hq p0 s ks hinv hfin
      obtain ⟨s2, ks2, h1, h2, h3, h4⟩ := ih s1 ks1 hinv1
        (RrReach.step s s1 hreach hfin hpass) (by omega)
      refine ⟨s2, ks2, ?_, h2, h3, h4⟩
      simp only [rr_loop, hfin, if_true, hpass]
      exact h1
    · exact ⟨s, ks, by simp [rr_loop, hfin], hinv, hreach, hfin⟩

theorem rr_reach_inv (quantum : Int) (hq : 0 < quantum) (proc : List Process)
    (hpos : ∀ x ∈ proc, 0 < x.burstTime) (s : RrState) (hreach : RrReach quantum proc s) :
    ∃ ks, RrInv quantum (rr_init proc).p s ks := by
  induction hreach with
  | init => exact ⟨[], rr_init_inv quantum proc hpos⟩
  | step s s1 _ hfin hpass ih =>
    obtain ⟨ks, hinv⟩ := ih
    obtain ⟨s2, ks2, hpass2, hinv2, _, _⟩ := rr_pass_spec quantum hq _ s ks hinv hfin
    rw [hpass] at hpass2
    cases hpass2
    exact ⟨ks2, hinv2⟩

theorem rr_final (quantum : Int) (p0 : List Process) (s : RrState) (ks : List Nat)
    (hinv : RrInv quantum p0 s ks) (hfin : ¬ s.finished < s.p.length) :
    ks = [] ∧ s.nextArr = s.p.length ∧ s.finished = s.p.length ∧
      ∀ (k : Nat) (x : Process), s.p[k]? = some x →
        x.remainingTime = 0 ∧ x.arrivalTime ≤ x.startTime ∧
        x.startTime + x.burstTime ≤ x.completionTime ∧ 0 < x.burstTime ∧
        x.completionTime ≤ s.current := by
  have h1 := hinv.count
  have h2 := hinv.next_le
  have hks : ks = [] := List.eq_nil_of_length_eq_zero (by omega)
  subst hks
  simp only [List.length_nil, add_zero] at h1
  refine ⟨rfl, by omega, by omega, ?_⟩
  intro k x hx
  have hk : k < s.nextArr := by
    have := (List.getElem?_eq_some.mp hx).1; omega
  have hP := hinv.procs k x hx
  have hrem : x.remainingTime = 0 := by
    by_contra hne
    have hpos : 0 < x.remainingTime := by
      have := hP.rem_nonneg; omega
    have := (hinv.queued k).mpr ⟨hk, x, hx, hpos⟩
    cases this
  have hb := hP.burst_pos
  have hst : 0 ≤ x.startTime := by
    by_contra hneg
    have := (hP.fresh (not_le.mp hneg)).2
    omega
  obtain ⟨c1, c2⟩ := hP.completed hrem
  exact ⟨hrem, (hP.started hst).1, c1, hb, c2⟩

theorem rr_loop_mono (quantum : Int) (fuel : Nat) :
    ∀ (s s1 : RrState), rr_loop quantum fuel s = .ok s1 →
      ∀ fuel1, fuel ≤ fuel1 → rr_loop quantum fuel1 s = .ok s1 := by
  induction fuel with
  | zero =>
    intro s s1 h fuel1 _
    by_cases hfin : s.finished < s.p.length
    · simp [rr_loop, hfin] at h
    · cases fuel1 with
      | zero => exact h
      | succ f => simpa [rr_loop, hfin] using h
  | succ f ih =>
    intro s s1 h fuel1 hle
    obtain ⟨f1, rfl⟩ : ∃ f1, fuel1 = f1 + 1 := ⟨fuel1 - 1, by omega⟩
    by_cases hfin : s.finished < s.p.length
    · simp only [rr_loop, hfin, if_true] at h ⊢
      cases hp : rr_pass quantum s with
      | error e => rw [hp] at h; cases h
      | ok s2 =>
        rw [hp] at h
        exact ih s2 s1 h f1 (by omega)
    · simpa [rr_loop, hfin] using h

theorem sjf_loop_mono (fuel : Nat) :
    ∀ (s s1 : SjfState), sjf_loop fuel s = .ok s1 →
      ∀ fuel1, fuel ≤ fuel1 → sjf_loop fuel1 s = .ok s1 := by
  induction fuel with
  | zero =>
    intro s s1 h fuel1 _
    by_cases hfin : s.completed < s.p.length
    · simp [sjf_loop, hfin] at h
    · cases fuel1 with
      | zero => exact h
      | succ f => simpa [sjf_loop, hfin] using h
  | succ f ih =>
    intro s s1 h fuel1 hle
    obtain ⟨f1, rfl⟩ : ∃ f1, fuel1 = f1 + 1 := ⟨fuel1 - 1, by omega⟩
    by_cases hfin : s.completed < s.p.length
    · simp only [sjf_loop, hfin, if_true] at h ⊢
      cases hp : sjf_pass s with
      | error e => rw [hp] at h; cases h
      | ok s2 =>
        rw [hp] at h
        exact ih s2 s1 h f1 (by omega)
    · simpa [sjf_loop, hfin] using h

/-- The run of `rr_metrics` on a valid input: from `rr_fuel proc` passes on, the
loop returns a state that satisfies the invariant with every process finished. -/
theorem rr_loop_total (quantum : Int) (hq : 0 < quantum) (proc : List Process)
    (hpos : ∀ x ∈ proc, 0 < x.burstTime) :
    ∃ s, (∀ fuel, rr_fuel proc ≤ fuel → rr_loop quantum fuel (rr_init proc) = .ok s) ∧
      RrInv quantum (rr_init proc).p s [] ∧ RrReach quantum proc s ∧
      s.finished = proc.length ∧ s.p.length = proc.length := by
  obtain ⟨s1, ks1, h1, h2, h3, h4⟩ := rr_runs quantum hq proc (rr_init proc).p (rr_fuel proc)
    (rr_init proc) [] (rr_init_inv quantum proc hpos) RrReach.init (rr_init_measure proc)
  obtain ⟨e1, _, e3, _⟩ := rr_final quantum _ s1 ks1 h2 h4
  subst e1
  have hlen : s1.p.length = proc.length := by rw [h2.len, rr_init_length]
  refine ⟨s1, ?_, h2, h3, by omega, hlen⟩
  intro fuel hfuel
  exact rr_loop_mono quantum _ _ _ h1 fuel hfuel

theorem fcfs_fold_out (l : List Process) (s : FcfsState) :
    (l.foldl fcfs_step s).out.length = s.out.length + l.length ∧
    ∀ x ∈ (l.foldl fcfs_step s).out, x ∈ s.out ∨
      ∃ y ∈ l, same_input x y ∧ x.arrivalTime ≤ x.startTime ∧
        x.completionTime = x.startTime + x.burstTime := by
  induction l generalizing s with
  | nil => exact ⟨rfl, fun x hx => Or.inl hx⟩
  | cons a rest ih =>
    obtain ⟨h1, h2⟩ := ih (fcfs_step s a)
    simp only [List.foldl_cons]
    refine ⟨?_, ?_⟩
    · rw [h1]
      have : (fcfs_step s a).out.length = s.out.length + 1 := by
        simp [fcfs_step]
      rw [this, List.length_cons]
      omega
    · intro x hx
      rcases h2 x hx with h | ⟨y, hy, h⟩
      · simp only [fcfs_step, List.mem_append, List.mem_singleton] at h
        rcases h with h | h
        · exact Or.inl h
        · refine Or.inr ⟨a, List.mem_cons_self _ _, ?_⟩
          subst h
          refine ⟨⟨rfl, rfl, rfl⟩, ?_, rfl⟩
          show a.arrivalTime ≤ if s.current < a.arrivalTime then a.arrivalTime else s.current
          split_ifs with hc
          · exact le_refl _
          · exact not_lt.mp hc
      · exact Or.inr ⟨y, List.mem_cons_of_mem _ hy, h⟩

theorem sjf_final (proc : List Process) (s : SjfState) (hinv : SjfInv proc s)
    (hc : ¬ s.completed < s.p.length) :
    ∀ x ∈ s.p, ∃ y ∈ proc, same_input x y ∧ x.arrivalTime ≤ x.startTime ∧
      x.completionTime = x.startTime + x.burstTime := by
  have hle : s.done.count true ≤ s.done.length := List.count_le_length _ _
  have hcnt : s.done.count true = s.done.length := by
    have h1 := hinv.count
    have h2 := hinv.len_p
    have h3 := hinv.len_done
    omega
  have hall := List.count_eq_length.mp hcnt
  intro x hx
  obtain ⟨k, hk⟩ := List.mem_iff_getElem?.mp hx
  have hkl : k < s.done.length := by
    have := (List.getElem?_eq_some.mp hk).1
    rw [hinv.len_done, ← hinv.len_p]; exact this
  have hd : s.done[k]? = some true := by
    rw [List.getElem?_eq_getElem hkl]
    exact congrArg some (hall _ (List.getElem_mem hkl)).symm
  obtain ⟨y, hy, hin⟩ := hinv.input k x hk
  exact ⟨y, List.mem_iff_getElem?.mpr ⟨k, hy⟩, hin, hinv.finished k x hk hd⟩

theorem sjf_loop_total (proc : List Process)
    (hb : ∀ x ∈ proc, x.burstTime < INT_MAX ∧ x.arrivalTime ≤ INT_MAX) :
    ∃ s, (∀ fuel, 2 * proc.length ≤ fuel → sjf_loop fuel (sjf_init proc) = .ok s) ∧
      SjfInv proc s ∧ s.completed = proc.length := by
  obtain ⟨s, h1, h2, h3⟩ := sjf_runs proc hb proc.length (sjf_init proc) (sjf_init_inv proc)
    (by simp [sjf_init]) (2 * proc.length) (le_refl _)
  exact ⟨s, fun fuel hf => sjf_loop_mono _ _ _ h1 fuel hf, h2, h3⟩

theorem spec_before_total (a b : Process) : spec_before a b ∨ spec_before b a := by
  unfold spec_before; omega

theorem spec_before_trans (a b c : Process) (h1 : spec_before a b) (h2 : spec_before b c) :
    spec_before a c := by
  unfold spec_before at *; omega

theorem qsort_sorted_arrival (l : List Process) :
    (qsort cmp_arrival_pid l).Pairwise (fun a b => a.arrivalTime ≤ b.arrivalTime) := by
  rw [qsort_eq_spec_order]
  haveI : IsTotal Process spec_before := ⟨spec_before_total⟩
  haveI : IsTrans Process spec_before := ⟨spec_before_trans⟩
  have h : (l.insertionSort spec_before).Pairwise spec_before :=
    List.sorted_insertionSort spec_before l
  refine h.imp ?_
  intro a b hab
  unfold spec_before at hab
  omega

theorem rr_sorted (quantum : Int) (proc : List Process) (s : RrState) (ks : List Nat)
    (hinv : RrInv quantum (rr_init proc).p s ks) (i j : Nat) (x y : Process) (hij : i ≤ j)
    (hx : s.p[i]? = some x) (hy : s.p[j]? = some y) : x.arrivalTime ≤ y.arrivalTime := by
  obtain ⟨x0, hx0, _, ex, _⟩ := hinv.input i x hx
  obtain ⟨y0, hy0, _, ey, _⟩ := hinv.input j y hy
  rw [ex, ey]
  rcases Nat.lt_or_eq_of_le hij with hlt | heq
  · have hs : (rr_init proc).p.Pairwise (fun a b => a.arrivalTime ≤ b.arrivalTime) :=
      qsort_sorted_arrival _
    obtain ⟨hi, e1⟩ := List.getElem?_eq_some.mp hx0
    obtain ⟨hj, e2⟩ := List.getElem?_eq_some.mp hy0
    have := List.pairwise_iff_getElem.mp hs i j hi hj hlt
    rw [e1, e2] at this
    exact this
  · subst heq
    rw [hx0] at hy0
    cases hy0
    exact le_refl _

theorem rr_input_valid (quantum : Int) (proc : List Process) (s : RrState) (ks : List Nat)
    (hinv : RrInv quantum (rr_init proc).p s ks) (x : Process) (hx : x ∈ s.p) :
    ∃ y ∈ proc, same_input x y := by
  obtain ⟨k, hk⟩ := List.mem_iff_getElem?.mp hx
  obtain ⟨x0, hx0, e1, e2, e3⟩ := hinv.input k x hk
  obtain ⟨y, hy, e⟩ := rr_init_mem proc x0 (List.mem_iff_getElem?.mpr ⟨k, hx0⟩)
  subst e
  exact ⟨y, hy, e1, e2, e3⟩

/-- C9. For a valid input and a positive quantum the loop of `rr_metrics`
terminates (from `rr_fuel proc` passes on it returns the same state) with
`finished = n`; every process has `remainingTime = 0` and the log holds exactly
one completion of it; and a pass that finds the queue empty moves the cursor
strictly forward, to the arrival time of `p[nextArr]`, which is the least
arrival time of the processes not yet enqueued. -/
theorem rr_loop_terminates (proc : List Process) (quantum : Int) (hq : 0 < quantum)
    (hvalid : ∀ x ∈ proc, 0 ≤ x.arrivalTime ∧ 0 < x.burstTime) :
    (∃ s, (∀ fuel, rr_fuel proc ≤ fuel → rr_loop quantum fuel (rr_init proc) = .ok s) ∧
      s.finished = proc.length ∧ s.p.length = proc.length ∧
      (∀ x ∈ s.p, x.remainingTime = 0) ∧
      (∀ k, k < proc.length → rr_completions s.log k = 1)) ∧
    (∀ (s s1 : RrState) (a b : Int), RrReach quantum proc s → s.finished < s.p.length →
      rr_pass quantum s = .ok s1 → s1.log = s.log ++ [RrEvent.idle a b] →
      a = s.current ∧ b = s1.current ∧ s.current < s1.current ∧
      s1.nextArr = s.nextArr ∧ s1.finished = s.finished ∧
      ∃ pn, s.p[s.nextArr]? = some pn ∧ s1.current = pn.arrivalTime ∧
        ∀ (k : Nat) (x : Process), s.nextArr ≤ k → s.p[k]? = some x →
          pn.arrivalTime ≤ x.arrivalTime) := by
  have hpos : ∀ x ∈ proc, 0 < x.burstTime := fun x hx => (hvalid x hx).2
  constructor
  · obtain ⟨s, h1, hinv, _, hfin, hlen⟩ := rr_loop_total quantum hq proc hpos
    obtain ⟨_, _, _, hall⟩ := rr_final quantum _ s [] hinv (by omega)
    refine ⟨s, h1, hfin, hlen, ?_, ?_⟩
    · intro x hx
      obtain ⟨k, hk⟩ := List.mem_iff_getElem?.mp hx
      exact (hall k x hk).1
    · intro k hk
      have hkl : k < s.p.length := by omega
      have hx := List.getElem?_eq_getElem hkl
      rw [hinv.completions k _ hx, if_pos (hall k _ hx).1]
  · intro s s1 a b hreach hfin hpass hlog
    obtain ⟨ks, hinv⟩ := rr_reach_inv quantum hq proc hpos s hreach
    obtain ⟨s2, ks2, hpass2, _, _, hdesc⟩ := rr_pass_spec quantum hq _ s ks hinv hfin
    rw [hpass] at hpass2
    cases hpass2
    rcases hdesc with ⟨rq1, pn, _, _, hpn, hlt, e⟩ | ⟨i, cur, rq3, j1, j2, ks3, _, _, _, _, _, _, e⟩
    · subst e
      simp only [rr_idle_state] at hlog
      have := List.append_cancel_left hlog
      simp only [List.cons.injEq, RrEvent.idle.injEq, and_true] at this
      refine ⟨this.1.symm, this.2.symm, hlt, rfl, rfl, pn, hpn, rfl, ?_⟩
      intro k x hk hx
      exact rr_sorted quantum proc s ks hinv s.nextArr k pn x hk hpn hx
    · subst e
      simp only [rr_run_state] at hlog
      have := List.append_cancel_left hlog
      simp at this

theorem rr_bursts_eq (quantum : Int) (p0 : List Process) (s : RrState) (ks : List Nat)
    (hinv : RrInv quantum p0 s ks) :
    (s.p.map fun x => x.burstTime) = p0.map fun x => x.burstTime := by
  apply List.ext_getElem?
  intro k
  simp only [List.getElem?_map]
  cases hk : s.p[k]? with
  | none =>
    have h1 : s.p.length ≤ k := List.getElem?_eq_none_iff.mp hk
    rw [List.getElem?_eq_none (by rw [← hinv.len]; exact h1)]
  | some x =>
    obtain ⟨y, hy, _, _, e3⟩ := hinv.input k x hk
    rw [hy]
    simp only [Option.map_some', e3]

theorem rr_init_bursts (proc : List Process) :
    ((rr_init proc).p.map fun x => x.burstTime).sum = (proc.map fun x => x.burstTime).sum := by
  have hperm := qsort_perm cmp_arrival_pid ((duplicate_proc_array proc).map rr_reset)
  have := (hperm.map (fun x : Process => x.burstTime)).sum_eq
  simp only [rr_init]
  rw [this]
  simp only [duplicate_proc_array, List.map_map]
  rfl

/-- C4. `rr_metrics` fails with the quantum error for every process list and
every number of passes whenever `quantum <= 0` (so no pass of the loop has run);
for `quantum > 0` and a valid input it returns `Metrics`, from `rr_fuel proc`
passes on. -/
theorem rr_metrics_quantum_guard (proc : List Process) (quantum : Int) :
    (quantum ≤ 0 → ∀ fuel, rr_metrics fuel proc quantum = .error Fault.quantum) ∧
    (0 < quantum → (∀ x ∈ proc, 0 ≤ x.arrivalTime ∧ 0 < x.burstTime) →
      ∃ m, ∀ fuel, rr_fuel proc ≤ fuel → rr_metrics fuel proc quantum = .ok m) := by
  constructor
  · intro hq fuel
    simp only [rr_metrics, hq, if_true]
  · intro hq hvalid
    obtain ⟨s, h1, _⟩ := rr_loop_total quantum hq proc (fun x hx => (hvalid x hx).2)
    refine ⟨make_metrics s.sumTa s.sumWait s.sumResp proc.length, ?_⟩
    intro fuel hfuel
    simp only [rr_metrics, if_neg (not_le.mpr hq), h1 fuel hfuel]

/-- C3. At every state that the loop of `sjf_metrics` reaches on an input with
`arrivalTime >= 0` and `0 < burstTime < INT_MAX`, the pass does not fault, and
when it dispatches `p[i]` at cursor value `t`, then `t` is the cursor,
`p[i]` is not done and has `arrivalTime <= t`, and every other process that is
not done and has arrived by `t` has a burst that is at least as long and, when
the bursts are equal, an arrival time that is not earlier. -/
theorem sjf_dispatch_is_shortest (proc : List Process)
    (hvalid : ∀ x ∈ proc, 0 ≤ x.arrivalTime ∧ 0 < x.burstTime ∧ x.burstTime < INT_MAX)
    (s : SjfState) (hreach : SjfReach proc s) :
    (∃ s1, sjf_pass s = .ok s1) ∧
    ∀ (s1 : SjfState) (i : Nat) (t : Int), sjf_pass s = .ok s1 →
      s1.log = s.log ++ [SjfEvent.dispatch i t] →
      t = s.current ∧ ∃ x, s.p[i]? = some x ∧ s.done[i]? = some false ∧
        x.arrivalTime ≤ t ∧
        ∀ (j : Nat) (y : Process), j ≠ i → s.p[j]? = some y → s.done[j]? = some false →
          y.arrivalTime ≤ t →
          x.burstTime ≤ y.burstTime ∧
            (y.burstTime = x.burstTime → x.arrivalTime ≤ y.arrivalTime) := by
  have hinv := sjf_reach_inv proc s hreach
  have hlen : s.done.length = s.p.length := by rw [hinv.len_done, hinv.len_p]
  have hb := sjf_inv_bursts hinv (fun x hx => (hvalid x hx).2.2)
  rcases sjf_pass_cases s hlen hb with ⟨_, hp⟩ | ⟨b, pb, hr, hleast, hp⟩
  · refine ⟨⟨_, hp⟩, ?_⟩
    intro s1 i t hs1 hlog
    rw [hp] at hs1
    cases hs1
    simp only [sjf_idle_state] at hlog
    have := List.append_cancel_left hlog
    simp at this
  · refine ⟨⟨_, hp⟩, ?_⟩
    intro s1 i t hs1 hlog
    rw [hp] at hs1
    cases hs1
    simp only [sjf_dispatch_state] at hlog
    have := List.append_cancel_left hlog
    simp only [List.cons.injEq, SjfEvent.dispatch.injEq, and_true] at this
    obtain ⟨e1, e2⟩ := this
    subst e1 e2
    refine ⟨rfl, pb, hr.1, hr.2.1, hr.2.2, ?_⟩
    intro j y _ hy hd harr
    have := (hleast j y ⟨hy, hd, harr⟩).1
    constructor
    · omega
    · intro he; omega

/-- The run of the Round-Robin example of the specification: three passes. -/
theorem rr_example_run (k : Nat) :
    rr_metrics (3 + k) [mkProc 1 0 4, mkProc 2 1 2] 2 =
      .ok { avgTurnaround := 9 / 2, avgWaiting := 3 / 2, avgResponse := 1 / 2 } := by
  have h3 : rr_loop 2 3 (rr_init [mkProc 1 0 4, mkProc 2 1 2]) =
      .ok { p := [⟨1, 0, 4, 0, 0, 6⟩, ⟨2, 1, 2, 0, 2, 4⟩]
            rq := ⟨[0, 1, 0, 0, 0, 0, 0, 0, 0, 0, 0, 0, 0, 0, 0, 0], 16, 3, 3⟩
            nextArr := 2, finished := 2, current := 6
            sumTa := 9, sumWait := 3, sumResp := 1
            log := [RrEvent.run 0 0 2 false, RrEvent.run 1 2 2 true,
              RrEvent.run 0 4 2 true] } := by rfl
  have h := rr_loop_mono 2 3 _ _ h3 (3 + k) (by omega)
  simp only [rr_metrics, h, make_metrics]
  norm_num

/-- C2, as amended. On `{(pid=1,arr=0,burst=4),(pid=2,arr=1,burst=2)}` with
quantum 2, `rr_metrics` returns avgTurnaround 4.5, avgWaiting 1.5 and
avgResponse 0.5 as soon as it is given the three passes that the run takes; two
passes are not enough. -/
theorem rr_metrics_example (k : Nat) :
    rr_metrics (3 + k) [mkProc 1 0 4, mkProc 2 1 2] 2 =
      .ok { avgTurnaround := 9 / 2, avgWaiting := 3 / 2, avgResponse := 1 / 2 } ∧
    rr_metrics 2 [mkProc 1 0 4, mkProc 2 1 2] 2 = .error Fault.outOfFuel :=
  ⟨rr_example_run k, by rfl⟩

/-- C2, as stated, fails: no number of passes makes `rr_metrics` return
avgTurnaround 4.5, avgWaiting 1.5 and avgResponse 1.0 on
`{(pid=1,arr=0,burst=4),(pid=2,arr=1,burst=2)}` with quantum 2. -/
theorem rr_metrics_example_response_not_one :
    ¬ ∃ fuel, rr_metrics fuel [mkProc 1 0 4, mkProc 2 1 2] 2 =
      .ok { avgTurnaround := 9 / 2, avgWaiting := 3 / 2, avgResponse := 1 } := by
  rintro ⟨fuel, h⟩
  rcases Nat.lt_or_ge fuel 3 with hlt | hge
  · have e : rr_metrics fuel [mkProc 1 0 4, mkProc 2 1 2] 2 = .error Fault.outOfFuel := by
      interval_cases fuel <;> rfl
    rw [e] at h
    cases h
  · obtain ⟨k, rfl⟩ : ∃ k, fuel = 3 + k := ⟨fuel - 3, by omega⟩
    rw [rr_example_run k] at h
    have h1 := congrArg Metrics.avgResponse (Except.ok.inj h)
    norm_num at h1

/-- C8, at the input `{(pid=1, arr=0, burst=INT_MAX)}`: the loop of
`sjf_metrics` does not dispatch the process; its first pass reads
`p[best].arrivalTime` with `best = -1`, whatever the number of passes allowed. -/
theorem sjf_loop_int_max_burst (k : Nat) :
    sjf_loop (k + 1) (sjf_init [mkProc 1 0 INT_MAX]) = .error Fault.outOfBounds ∧
    sjf_loop 0 (sjf_init [mkProc 1 0 INT_MAX]) = .error Fault.outOfFuel := by
  have hp : sjf_pass (sjf_init [mkProc 1 0 INT_MAX]) = .error Fault.outOfBounds := by rfl
  have hc : (sjf_init [mkProc 1 0 INT_MAX]).completed <
      (sjf_init [mkProc 1 0 INT_MAX]).p.length := by decide
  refine ⟨?_, by rfl⟩
  simp only [sjf_loop, hc, if_true, hp]

/-- Instance of C3 at the first pass on `{(1,0,3),(2,0,1)}`. -/
theorem sjf_dispatch_is_shortest_witness :
    (∃ s1, sjf_pass (sjf_init [mkProc 1 0 3, mkProc 2 0 1]) = .ok s1) ∧
    ∀ (s1 : SjfState) (i : Nat) (t : Int),
      sjf_pass (sjf_init [mkProc 1 0 3, mkProc 2 0 1]) = .ok s1 →
      s1.log = (sjf_init [mkProc 1 0 3, mkProc 2 0 1]).log ++ [SjfEvent.dispatch i t] →
      t = (sjf_init [mkProc 1 0 3, mkProc 2 0 1]).current ∧
      ∃ x, (sjf_init [mkProc 1 0 3, mkProc 2 0 1]).p[i]? = some x ∧
        (sjf_init [mkProc 1 0 3, mkProc 2 0 1]).done[i]? = some false ∧
        x.arrivalTime ≤ t ∧
        ∀ (j : Nat) (y : Process), j ≠ i →
          (sjf_init [mkProc 1 0 3, mkProc 2 0 1]).p[j]? = some y →
          (sjf_init [mkProc 1 0 3, mkProc 2 0 1]).done[j]? = some false →
          y.arrivalTime ≤ t →
          x.burstTime ≤ y.burstTime ∧
            (y.burstTime = x.burstTime → x.arrivalTime ≤ y.arrivalTime) :=
  sjf_dispatch_is_shortest [mkProc 1 0 3, mkProc 2 0 1] (by decide)
    (sjf_init [mkProc 1 0 3, mkProc 2 0 1]) SjfReach.init

/-- Instance of C4 on `{(1,0,4),(2,1,2)}`, with quantum 0 and with quantum 2. -/
theorem rr_metrics_quantum_guard_witness :
    (∀ fuel, rr_metrics fuel [mkProc 1 0 4, mkProc 2 1 2] 0 = .error Fault.quantum) ∧
    ∃ m, ∀ fuel, rr_fuel [mkProc 1 0 4, mkProc 2 1 2] ≤ fuel →
      rr_metrics fuel [mkProc 1 0 4, mkProc 2 1 2] 2 = .ok m :=
  ⟨(rr_metrics_quantum_guard [mkProc 1 0 4, mkProc 2 1 2] 0).1 (by decide),
   (rr_metrics_quantum_guard [mkProc 1 0 4, mkProc 2 1 2] 2).2 (by decide) (by decide)⟩

/-- Instance of C9 on `{(1,3,4),(2,1,2)}` with quantum 2, a run that starts with
an idle pass from time 0 to time 1. -/
theorem rr_loop_terminates_witness :
    (∃ s, (∀ fuel, rr_fuel [mkProc 1 3 4, mkProc 2 1 2] ≤ fuel →
        rr_loop 2 fuel (rr_init [mkProc 1 3 4, mkProc 2 1 2]) = .ok s) ∧
      s.finished = [mkProc 1 3 4, mkProc 2 1 2].length ∧
      s.p.length = [mkProc 1 3 4, mkProc 2 1 2].length ∧
      (∀ x ∈ s.p, x.remainingTime = 0) ∧
      (∀ k, k < [mkProc 1 3 4, mkProc 2 1 2].length → rr_completions s.log k = 1)) ∧
    ((0 : Int) = (rr_init [mkProc 1 3 4, mkProc 2 1 2]).current ∧
      (1 : Int) = ({ rr_init [mkProc 1 3 4, mkProc 2 1 2] with
          current := 1, log := [RrEvent.idle 0 1] } : RrState).current ∧
      (rr_init [mkProc 1 3 4, mkProc 2 1 2]).current <
        ({ rr_init [mkProc 1 3 4, mkProc 2 1 2] with
          current := 1, log := [RrEvent.idle 0 1] } : RrState).current ∧
      ({ rr_init [mkProc 1 3 4, mkProc 2 1 2] with
          current := 1, log := [RrEvent.idle 0 1] } : RrState).nextArr =
        (rr_init [mkProc 1 3 4, mkProc 2 1 2]).nextArr ∧
      ({ rr_init [mkProc 1 3 4, mkProc 2 1 2] with
          current := 1, log := [RrEvent.idle 0 1] } : RrState).finished =
        (rr_init [mkProc 1 3 4, mkProc 2 1 2]).finished ∧
      ∃ pn, (rr_init [mkProc 1 3 4, mkProc 2 1 2]).p[
            (rr_init [mkProc 1 3 4, mkProc 2 1 2]).nextArr]? = some pn ∧
        ({ rr_init [mkProc 1 3 4, mkProc 2 1 2] with
          current := 1, log := [RrEvent.idle 0 1] } : RrState).current = pn.arrivalTime ∧
        ∀ (k : Nat) (x : Process), (rr_init [mkProc 1 3 4, mkProc 2 1 2]).nextArr ≤ k →
          (rr_init [mkProc 1 3 4, mkProc 2 1 2]).p[k]? = some x →
          pn.arrivalTime ≤ x.arrivalTime) :=
  ⟨(rr_loop_terminates [mkProc 1 3 4, mkProc 2 1 2] 2 (by decide) (by decide)).1,
   (rr_loop_terminates [mkProc 1 3 4, mkProc 2 1 2] 2 (by decide) (by decide)).2
     (rr_init [mkProc 1 3 4, mkProc 2 1 2])
     { rr_init [mkProc 1 3 4, mkProc 2 1 2] with current := 1, log := [RrEvent.idle 0 1] }
     0 1 RrReach.init (by decide) (by rfl) (by rfl)⟩

theorem sjf_loop_log_length (fuel : Nat) :
    ∀ (s s1 : SjfState), sjf_loop fuel s = .ok s1 → s1.log.length ≤ s.log.length + fuel := by
  induction fuel with
  | zero =>
    intro s s1 h
    by_cases hc : s.completed < s.p.length
    · simp [sjf_loop, hc] at h
    · simp only [sjf_loop, hc, if_false] at h
      cases h
      exact le_refl _
  | succ f ih =>
    intro s s1 h
    by_cases hc : s.completed < s.p.length
    · simp only [sjf_loop, hc, if_true] at h
      cases hp : sjf_pass s with
      | error e => rw [hp] at h; cases h
      | ok s2 =>
        rw [hp] at h
        have h1 := ih s2 s1 h
        have h2 : s2.log.length = s.log.length + 1 := by
          rcases sjf_pass_ok_cases s s2 hp with e | ⟨b, pb, _, e⟩
          · subst e; simp [sjf_idle_state]
          · subst e; simp [sjf_dispatch_state]
        omega
    · simp only [sjf_loop, hc, if_false] at h
      cases h
      omega

/-- Termination of the loop of `sjf_metrics` when every burst is below `INT_MAX`
(and every arrival is an `int`): `2 n` passes suffice, the log has at most `2 n`
entries and dispatches every process exactly once; a pass that finds no ready
process moves the cursor to the least arrival time of a process that is not done,
marks nothing done, and leaves a state in which a process is ready. -/
theorem sjf_loop_terminates (proc : List Process)
    (hb : ∀ x ∈ proc, x.burstTime < INT_MAX ∧ x.arrivalTime ≤ INT_MAX) :
    (∃ s, (∀ fuel, 2 * proc.length ≤ fuel → sjf_loop fuel (sjf_init proc) = .ok s) ∧
      s.completed = proc.length ∧ s.log.length ≤ 2 * proc.length ∧
      ∀ k, k < proc.length → (sjf_dispatched s.log).count k = 1) ∧
    (∀ s, SjfReach proc s → s.completed < s.p.length →
      (∀ j x, ¬ sjf_ready s.p s.done s.current j x) →
      sjf_pass s = .ok (sjf_idle_state s) ∧
      (sjf_idle_state s).done = s.done ∧ (sjf_idle_state s).completed = s.completed ∧
      (∀ (j : Nat) (x : Process), s.p[j]? = some x → s.done[j]? = some false →
        (sjf_idle_state s).current ≤ x.arrivalTime) ∧
      ∃ j x, sjf_ready (sjf_idle_state s).p (sjf_idle_state s).done
        (sjf_idle_state s).current j x) := by
  constructor
  · obtain ⟨s, h1, hinv, hc⟩ := sjf_loop_total proc hb
    have hlog := sjf_loop_log_length _ _ _ (h1 (2 * proc.length) (le_refl _))
    refine ⟨s, h1, hc, by simpa [sjf_init] using hlog, ?_⟩
    intro k hk
    have hcnt : s.done.count true = s.done.length := by
      have h2 := hinv.count
      have h3 := hinv.len_done
      omega
    have hall := List.count_eq_length.mp hcnt
    have hkl : k < s.done.length := by rw [hinv.len_done]; exact hk
    have hd : s.done[k]? = some true := by
      rw [List.getElem?_eq_getElem hkl]
      exact congrArg some (hall _ (List.getElem_mem hkl)).symm
    exact List.count_eq_one_of_mem hinv.disp_nodup ((hinv.disp_done k).mpr hd)
  · intro s hreach hc hno
    have hinv := sjf_reach_inv proc s hreach
    have hlen : s.done.length = s.p.length := by rw [hinv.len_done, hinv.len_p]
    have hpass : sjf_pass s = .ok (sjf_idle_state s) := by
      rcases sjf_pass_cases s hlen (sjf_inv_bursts hinv (fun x hx => (hb x hx).1)) with
        ⟨_, hp⟩ | ⟨b, pb, hr, _, _⟩
      · exact hp
      · exact absurd hr (hno b pb)
    refine ⟨hpass, rfl, rfl, ?_, ?_⟩
    · intro j x hx hd
      exact sjf_next_arrival_le s.p s.done j x hx hd
    · have hcnt : s.done.count true < s.done.length := by
        rw [← hinv.count, hinv.len_done, ← hinv.len_p]; exact hc
      obtain ⟨k, hk⟩ := exists_false_of_count_lt s.done hcnt
      have hkl : k < s.p.length := by
        have := (List.getElem?_eq_some.mp hk).1; omega
      have hpk : s.p[k]? = some s.p[k] := List.getElem?_eq_getElem hkl
      have hkmax : s.p[k].arrivalTime ≤ INT_MAX := by
        obtain ⟨y, hy, _, e2, _⟩ := hinv.input k _ hpk
        rw [e2]; exact (hb y (List.mem_iff_getElem?.mpr ⟨k, hy⟩)).2
      obtain ⟨i, y, hy1, hy2, hy3⟩ :=
        sjf_next_arrival_attained s.p s.done k _ hpk hk hkmax
      exact ⟨i, y, hy1, hy2, le_of_eq hy3⟩

theorem rr_gaps_le (quantum : Int) (hq : 0 < quantum) (proc : List Process)
    (hpos : ∀ x ∈ proc, 0 < x.burstTime) (bound : Int) (h0 : 0 ≤ bound)
    (hbound : ∀ x ∈ proc, x.arrivalTime ≤ bound) (s : RrState)
    (hreach : RrReach quantum proc s) : rr_gaps s.log ≤ bound := by
  induction hreach with
  | init => exact h0
  | step s s1 hr hfin hpass ih =>
    obtain ⟨ks, hinv⟩ := rr_reach_inv quantum hq proc hpos s hr
    obtain ⟨s2, ks2, hpass2, _, _, hdesc⟩ := rr_pass_spec quantum hq _ s ks hinv hfin
    rw [hpass] at hpass2
    cases hpass2
    rcases hdesc with ⟨rq1, pn, _, _, hpn, _, e⟩ | ⟨i, cur, rq3, j1, j2, ks3, _, _, _, _, _, _, e⟩
    · subst e
      simp only [rr_idle_state, rr_gaps_append, rr_gaps, add_zero]
      have hclock := hinv.clock
      have htot : 0 ≤ rr_total s.log := by
        rw [hinv.total]
        apply List.sum_nonneg
        intro v hv
        obtain ⟨x, hx, rfl⟩ := List.mem_map.mp hv
        obtain ⟨k, hk⟩ := List.mem_iff_getElem?.mp hx
        have := (hinv.procs k x hk).rem_le
        omega
      obtain ⟨y, hy, _, e2, _⟩ := rr_input_valid quantum proc s ks hinv pn
        (List.mem_iff_getElem?.mpr ⟨_, hpn⟩)
      have := hbound y hy
      omega
    · subst e
      simp only [rr_run_state, rr_gaps_append, rr_gaps, add_zero]
      exact ih

/-- The idle-gap example of the specification: the single process
`(pid=1, arr=5, burst=2)` is dispatched at time 5 after one idle pass. -/
theorem sjf_idle_gap_example :
    sjf_loop 2 (sjf_init [mkProc 1 5 2]) =
      .ok { p := [⟨1, 5, 2, 0, 5, 7⟩], done := [true], completed := 1, current := 7
            sumTa := 2, sumWait := 0, sumResp := 0
            log := [SjfEvent.idle 0 5, SjfEvent.dispatch 0 5] } := by
  rfl

theorem sum_done_replicate (f : Process → Int) (p : List Process) (n : Nat) :
    sum_done f p (List.replicate n false) = 0 := by
  induction p generalizing n with
  | nil => cases n <;> rfl
  | cons x p ih =>
    cases n with
    | zero => rfl
    | succ n => simp [List.replicate_succ, sum_done, ih]

theorem sum_done_set (f : Process → Int) (p : List Process) (done : List Bool) (b : Nat)
    (x : Process) (hb : b < p.length) (hd : done[b]? = some false) :
    sum_done f (p.set b x) (done.set b true) = sum_done f p done + f x := by
  induction p generalizing done b with
  | nil => simp at hb
  | cons y p ih =>
    cases done with
    | nil => simp at hd
    | cons d done =>
      cases b with
      | zero =>
        simp only [List.getElem?_cons_zero, Option.some.injEq] at hd
        subst hd
        simp only [List.set_cons_zero, sum_done, if_true, Bool.false_eq_true, if_false]
        ring
      | succ b =>
        simp only [List.getElem?_cons_succ] at hd
        simp only [List.set_cons_succ, sum_done]
        rw [ih done b (by simpa using hb) hd]
        ring

theorem sum_done_all (f : Process → Int) (p : List Process) (done : List Bool)
    (hlen : done.length = p.length) (hall : ∀ d ∈ done, d = true) :
    sum_done f p done = (p.map f).sum := by
  induction p generalizing done with
  | nil => cases done <;> rfl
  | cons x p ih =>
    cases done with
    | nil => simp at hlen
    | cons d done =>
      have hd : d = true := hall d (List.mem_cons_self _ _)
      subst hd
      simp only [sum_done, if_true, List.map_cons, List.sum_cons]
      rw [ih done (by simpa using hlen) (fun d hd => hall d (List.mem_cons_of_mem _ hd))]

theorem sjf_reach_sums (proc : List Process) (s : SjfState) (hreach : SjfReach proc s) :
    SjfSums s := by
  induction hreach with
  | init =>
    refine ⟨rfl, ?_, ?_⟩
    · simp only [sjf_init]; rw [sum_done_replicate]
    · simp only [sjf_init]; rw [sum_done_replicate]
  | step s s1 hr _ hpass ih =>
    rcases sjf_pass_ok_cases s s1 hpass with e | ⟨b, pb, hrb, e⟩
    · subst e
      exact ⟨ih.resp_wait, ih.wait, ih.ta⟩
    · subst e
      have hbl : b < s.p.length := sjf_ready_lt hrb
      refine ⟨?_, ?_, ?_⟩
      · simp only [sjf_dispatch_state]; rw [ih.resp_wait]
      · simp only [sjf_dispatch_state]
        rw [sum_done_set _ _ _ _ _ hbl hrb.2.1, ih.wait]
      · simp only [sjf_dispatch_state]
        rw [sum_done_set _ _ _ _ _ hbl hrb.2.1, ih.ta]

theorem sjf_all_done (proc : List Process) (s : SjfState) (hinv : SjfInv proc s)
    (hc : ¬ s.completed < s.p.length) : ∀ d ∈ s.done, d = true := by
  have hle : s.done.count true ≤ s.done.length := List.count_le_length _ _
  have hcnt : s.done.count true = s.done.length := by
    have h1 := hinv.count
    have h2 := hinv.len_p
    have h3 := hinv.len_done
    omega
  intro d hd
  exact (List.count_eq_length.mp hcnt d hd).symm

theorem sjf_final_sums (proc : List Process) (fuel : Nat) (s : SjfState)
    (hs : sjf_loop fuel (sjf_init proc) = .ok s) :
    s.sumResp = s.sumWait ∧
    s.sumWait = (s.p.map fun x => x.startTime - x.arrivalTime).sum ∧
    s.sumTa = (s.p.map fun x => x.completionTime - x.arrivalTime).sum := by
  obtain ⟨hreach, hc⟩ := sjf_loop_reach proc fuel _ s SjfReach.init hs
  have hinv := sjf_reach_inv proc s hreach
  have hsum := sjf_reach_sums proc s hreach
  have hlen : s.done.length = s.p.length := by rw [hinv.len_done, hinv.len_p]
  have hall := sjf_all_done proc s hinv hc
  refine ⟨hsum.resp_wait, ?_, ?_⟩
  · rw [hsum.wait, sum_done_all _ _ _ hlen hall]
  · rw [hsum.ta, sum_done_all _ _ _ hlen hall]

theorem fcfs_fold_wait (l : List Process) (s : FcfsState)
    (h1 : s.sumResp = s.sumWait)
    (h2 : s.sumWait = (s.out.map fun x => x.startTime - x.arrivalTime).sum) :
    (l.foldl fcfs_step s).sumResp = (l.foldl fcfs_step s).sumWait ∧
    (l.foldl fcfs_step s).sumWait =
      ((l.foldl fcfs_step s).out.map fun x => x.startTime - x.arrivalTime).sum := by
  induction l generalizing s with
  | nil => exact ⟨h1, h2⟩
  | cons a rest ih =>
    simp only [List.foldl_cons]
    apply ih
    · simp only [fcfs_step]; rw [h1]
    · simp only [fcfs_step, List.map_append, List.sum_append, List.map_cons, List.map_nil,
        List.sum_cons, List.sum_nil, add_zero]
      rw [h2]

theorem q_pop_empty (q : Queue) (h : q_empty q = true) : q_pop q = .error Fault.underflow := by
  unfold q_pop
  rw [if_pos h]

theorem q_run_refines (ops : List QOp) (q : Queue) (hwf : q_wf q) :
    q_abs (q_run ops q) = fifo_run ops (q_contents q) ∧
    (∀ q1 out, q_run ops q = .ok (q1, out) → q_wf q1) := by
  induction ops generalizing q with
  | nil =>
    refine ⟨rfl, ?_⟩
    intro q1 out h
    simp only [q_run, Except.ok.injEq, Prod.mk.injEq] at h
    rw [← h.1]
    exact hwf
  | cons op ops ih =>
    cases op with
    | push v =>
      obtain ⟨hw1, hc1⟩ := q_push_spec q v hwf
      have := ih (q_push q v) hw1
      rw [hc1] at this
      exact this
    | pop =>
      cases he : q_empty q with
      | true =>
        have hc : q_contents q = [] := (q_empty_iff q hwf).mp he
        simp only [q_run, q_pop_empty q he, hc, fifo_run, q_abs, true_and]
        intro q1 out h
        cases h
      | false =>
        obtain ⟨v, q1, hp, hw1, hc1⟩ := q_pop_spec q hwf he
        obtain ⟨ih1, ih2⟩ := ih q1 hw1
        simp only [q_run, hp, hc1, fifo_run]
        rw [← ih1]
        cases hr : q_run ops q1 with
        | error e =>
          simp only [q_abs, true_and]
          intro q2 out h
          cases h
        | ok r =>
          obtain ⟨q2, out⟩ := r
          simp only [q_abs, true_and]
          intro q3 out3 h
          simp only [Except.ok.injEq, Prod.mk.injEq] at h
          rw [← h.1]
          exact ih2 q2 out hr

theorem q_run_fault (ops : List QOp) (q : Queue) (hwf : q_wf q) (e : Fault)
    (h : q_run ops q = .error e) : e = Fault.underflow := by
  induction ops generalizing q e with
  | nil => simp only [q_run] at h; cases h
  | cons op ops ih =>
    cases op with
    | push v => exact ih (q_push q v) (q_push_spec q v hwf).1 e h
    | pop =>
      cases he : q_empty q with
      | true =>
        simp only [q_run, q_pop_empty q he, Except.error.injEq] at h
        exact h.symm
      | false =>
        obtain ⟨v, q1, hp, hw1, _⟩ := q_pop_spec q hwf he
        simp only [q_run, hp] at h
        cases hr : q_run ops q1 with
        | error e1 =>
          rw [hr] at h
          simp only [Except.error.injEq] at h
          rw [← h]
          exact ih q1 hw1 e1 hr
        | ok r =>
          rw [hr] at h
          cases h

theorem fifo_run_order (ops : List QOp) (m m1 out : List Int)
    (h : fifo_run ops m = .ok (m1, out)) : out ++ m1 = m ++ q_pushed ops := by
  induction ops generalizing m m1 out with
  | nil =>
    simp only [fifo_run, Except.ok.injEq, Prod.mk.injEq] at h
    simp only [q_pushed, ← h.1, ← h.2, List.nil_append, List.append_nil]
  | cons op ops ih =>
    cases op with
    | push v =>
      simp only [fifo_run] at h
      rw [ih _ _ _ h]
      simp only [q_pushed, List.append_assoc, List.singleton_append]
    | pop =>
      cases m with
      | nil => simp only [fifo_run] at h; cases h
      | cons x m =>
        simp only [fifo_run] at h
        cases hr : fifo_run ops m with
        | error e => rw [hr] at h; cases h
        | ok r =>
          obtain ⟨m2, out2⟩ := r
          rw [hr] at h
          simp only [Except.ok.injEq, Prod.mk.injEq] at h
          rw [← h.1, ← h.2]
          simp only [q_pushed, List.cons_append, ih _ _ _ hr]

/-- C13. The ready queue refines a list FIFO.  For every sequence `ops` of
`q_push` and `q_pop` calls run from `q_create`, the run agrees with the list
model `fifo_run` (same popped values, live contents `buf[head..tail)` equal to
the model list, and the same underflow error at the same call); the only error
of a run is the underflow of `q_pop` on an empty queue; and after the calls
`head <= tail <= cap` holds, `q_empty` is true exactly when the contents are
empty, `q_pop` on the empty queue is the underflow error, `q_push` appends at
the tail, `q_pop` on a non-empty queue returns and removes the oldest element,
and the popped values followed by the contents are the pushed values in push
order, so the k-th successful pop returns the k-th pushed value whatever the
number of buffer growths.  Every prefix of a sequence of calls is itself a
sequence of calls, so this holds after every operation. -/
theorem queue_refines_fifo (ops : List QOp) :
    q_abs (q_run ops q_create) = fifo_run ops [] ∧
    (∀ e, q_run ops q_create = .error e → e = Fault.underflow) ∧
    (∀ q out, q_run ops q_create = .ok (q, out) →
      q.head ≤ q.tail ∧ q.tail ≤ q.cap ∧
      (q_empty q = true ↔ q_contents q = []) ∧
      (q_contents q = [] → q_pop q = .error Fault.underflow) ∧
      (∀ v, q_contents (q_push q v) = q_contents q ++ [v]) ∧
      (∀ x rest, q_contents q = x :: rest →
        ∃ q1, q_pop q = .ok (x, q1) ∧ q_contents q1 = rest) ∧
      out ++ q_contents q = q_pushed ops ∧
      ∀ k, k < out.length → out[k]? = (q_pushed ops)[k]?) := by
  obtain ⟨h1, h2⟩ := q_run_refines ops q_create q_create_wf
  rw [q_create_contents] at h1
  refine ⟨h1, fun e he => q_run_fault ops q_create q_create_wf e he, ?_⟩
  intro q out hr
  have hwf : q_wf q := h2 q out hr
  have hiff := q_empty_iff q hwf
  have hord : out ++ q_contents q = q_pushed ops := by
    rw [hr] at h1
    simp only [q_abs] at h1
    have := fifo_run_order ops [] _ _ h1.symm
    simpa using this
  refine ⟨hwf.1, hwf.2.1, hiff, ?_, ?_, ?_, hord, ?_⟩
  · intro hc
    exact q_pop_empty q (hiff.mpr hc)
  · intro v
    exact (q_push_spec q v hwf).2
  · intro x rest hc
    have hne : q_empty q = false := by
      cases he : q_empty q with
      | false => rfl
      | true => rw [hiff.mp he] at hc; cases hc
    obtain ⟨v, q1, hp, _, hc1⟩ := q_pop_spec q hwf hne
    rw [hc] at hc1
    simp only [List.cons.injEq] at hc1
    refine ⟨q1, ?_, hc1.2.symm⟩
    rw [hp, hc1.1]
  · intro k hk
    rw [← hord, List.getElem?_append_left hk]

/-- Instance of C13 on the calls push 3, push 5, pop. -/
theorem queue_refines_fifo_witness :
    q_abs (q_run [QOp.push 3, QOp.push 5, QOp.pop] q_create) =
      fifo_run [QOp.push 3, QOp.push 5, QOp.pop] [] ∧
    (∀ e, q_run [QOp.push 3, QOp.push 5, QOp.pop] q_create = .error e →
      e = Fault.underflow) ∧
    (∀ q out, q_run [QOp.push 3, QOp.push 5, QOp.pop] q_create = .ok (q, out) →
      q.head ≤ q.tail ∧ q.tail ≤ q.cap ∧
      (q_empty q = true ↔ q_contents q = []) ∧
      (q_contents q = [] → q_pop q = .error Fault.underflow) ∧
      (∀ v, q_contents (q_push q v) = q_contents q ++ [v]) ∧
      (∀ x rest, q_contents q = x :: rest →
        ∃ q1, q_pop q = .ok (x, q1) ∧ q_contents q1 = rest) ∧
      out ++ q_contents q = q_pushed [QOp.push 3, QOp.push 5, QOp.pop] ∧
      ∀ k, k < out.length → out[k]? = (q_pushed [QOp.push 3, QOp.push 5, QOp.pop])[k]?) :=
  queue_refines_fifo [QOp.push 3, QOp.push 5, QOp.pop]

/-- Seventeen pushes followed by seventeen pops: the buffer grows twice (to 16
and to 32 cells) and the pops return the pushed values in push order. -/
theorem q_run_growth_example :
    (q_run ((List.range 17).map (fun (i : Nat) => QOp.push (i : Int)) ++
        List.replicate 17 QOp.pop) q_create).toOption.map
      (fun r => (r.1.cap, r.2)) =
    some (32, (List.range 17).map (fun (i : Nat) => (i : Int))) := by
  decide

theorem rr_pass_shape (quantum : Int) (s : RrState) (hsh : RrShape s)
    (hfin : s.finished < s.p.length) :
    rr_pass_safe s ∧ ∃ s1, rr_pass quantum s = .ok s1 ∧ RrShape s1 ∧
      s1.p.length = s.p.length := by
  obtain ⟨hwf, hnext, hcount, hidx⟩ := hsh
  obtain ⟨j, rq1, he, hj, hwf1, hc1, _, _⟩ :=
    rr_enqueue_spec s.current (s.p.drop s.nextArr) s.rq s.nextArr hwf
  have hjn : s.nextArr + j ≤ s.p.length := by
    simp only [List.length_drop] at hj
    omega
  have hlen1 : (q_contents rq1).length = (q_contents s.rq).length + j := by
    rw [hc1]
    simp only [List.length_append, List.length_map, List.length_range']
  have hidx1 : ∀ v ∈ q_contents rq1, 0 ≤ v ∧ v.toNat < s.nextArr + j := by
    intro v hv
    rw [hc1, List.mem_append] at hv
    rcases hv with hv | hv
    · have := hidx v hv
      omega
    · simp only [List.mem_map, List.mem_range'_1] at hv
      obtain ⟨k, hk, rfl⟩ := hv
      simp only [Int.toNat_ofNat]
      omega
  unfold rr_pass_safe
  rw [he]
  cases hempty : q_empty rq1 with
  | true =>
    have hnil : q_contents rq1 = [] := (q_empty_iff rq1 hwf1).mp hempty
    rw [hnil] at hlen1
    simp only [List.length_nil] at hlen1
    have hlt : s.nextArr + j < s.p.length := by omega
    obtain ⟨pn, hpn⟩ : ∃ pn, s.p[s.nextArr + j]? = some pn :=
      ⟨s.p[s.nextArr + j], List.getElem?_eq_getElem hlt⟩
    refine ⟨⟨fun _ => hlt, fun h => by cases h⟩, rr_idle_state s rq1 (s.nextArr + j) pn,
      rr_pass_idle_eq quantum s rq1 _ pn he hempty hpn, ⟨hwf1, hjn, ?_, ?_⟩, rfl⟩
    · show s.finished + (q_contents rq1).length = s.nextArr + j
      rw [hnil]
      simp only [List.length_nil]
      omega
    · intro v hv
      exact hidx1 v hv
  | false =>
    obtain ⟨v, rq2, hpop, hwf2, hc2⟩ := q_pop_spec rq1 hwf1 hempty
    have hv := hidx1 v (by rw [hc2]; exact List.mem_cons_self _ _)
    have hvi : v = ((v.toNat : Nat) : Int) := (Int.toNat_of_nonneg hv.1).symm
    have hlt : v.toNat < s.p.length := by omega
    refine ⟨⟨fun h => (by cases h), fun _ => ⟨v, rq2, hpop, hv.1, hlt⟩⟩, ?_⟩
    obtain ⟨cur, hcur⟩ : ∃ cur, s.p[v.toNat]? = some cur :=
      ⟨s.p[v.toNat], List.getElem?_eq_getElem hlt⟩
    obtain ⟨j2, rq3, he2, hj2, hwf3, hc3, _, _⟩ :=
      rr_enqueue_spec (s.current + rr_slice quantum cur) (s.p.drop (s.nextArr + j)) rq2
        (s.nextArr + j) hwf2
    have hjn2 : s.nextArr + j + j2 ≤ s.p.length := by
      simp only [List.length_drop] at hj2
      omega
    rw [hvi] at hpop
    have hlen2 : (q_contents rq1).length = (q_contents rq2).length + 1 := by
      rw [hc2, List.length_cons]
    have hlen3 : (q_contents rq3).length = (q_contents rq2).length + j2 := by
      rw [hc3]
      simp only [List.length_append, List.length_map, List.length_range']
    have hidx3 : ∀ w ∈ q_contents rq3, 0 ≤ w ∧ w.toNat < s.nextArr + j + j2 := by
      intro w hw
      rw [hc3, List.mem_append] at hw
      rcases hw with hw | hw
      · have := hidx1 w (by rw [hc2]; exact List.mem_cons_of_mem _ hw)
        omega
      · simp only [List.mem_map, List.mem_range'_1] at hw
        obtain ⟨k, hk, rfl⟩ := hw
        simp only [Int.toNat_ofNat]
        omega
    refine ⟨rr_run_state quantum s v.toNat cur rq3 (s.nextArr + j + j2),
      rr_pass_run_eq quantum s rq1 rq2 rq3 _ _ v.toNat cur he hempty hpop hcur hv.2 he2,
      ?_, ?_⟩
    · by_cases hrem : cur.remainingTime - rr_slice quantum cur > 0
      · obtain ⟨hw4, hc4⟩ := q_push_spec rq3 (v.toNat : Int) hwf3
        simp only [RrShape, rr_run_state, hrem, not_true_eq_false, decide_False,
          Bool.false_eq_true, if_false, List.length_set]
        refine ⟨hw4, hjn2, ?_, ?_⟩
        · rw [hc4, List.length_append, List.length_singleton]
          omega
        · intro w hw
          rw [hc4, List.mem_append, List.mem_singleton] at hw
          rcases hw with hw | hw
          · exact hidx3 w hw
          · rw [hw]
            simp only [Int.toNat_ofNat]
            omega
      · simp only [RrShape, rr_run_state, hrem, not_false_eq_true, decide_True, if_true,
          List.length_set]
        refine ⟨hwf3, hjn2, ?_, hidx3⟩
        omega
    · simp only [rr_run_state, List.length_set]

theorem rr_init_shape (proc : List Process) : RrShape (rr_init proc) := by
  refine ⟨q_create_wf, Nat.zero_le _, ?_, ?_⟩
  · simp only [rr_init, q_create_contents, List.length_nil]
  · intro v hv
    simp only [rr_init, q_create_contents, List.not_mem_nil] at hv

theorem rr_reach_shape (quantum : Int) (proc : List Process) (s : RrState)
    (hreach : RrReach quantum proc s) : RrShape s := by
  induction hreach with
  | init => exact rr_init_shape proc
  | step s s1 _ hfin hpass ih =>
    obtain ⟨_, s2, h2, hsh, _⟩ := rr_pass_shape quantum s ih hfin
    rw [hpass] at h2
    cases h2
    exact hsh

theorem rr_loop_fault (quantum : Int) (fuel : Nat) (s : RrState) (hsh : RrShape s) (e : Fault)
    (h : rr_loop quantum fuel s = .error e) : e = Fault.outOfFuel := by
  induction fuel generalizing s with
  | zero =>
    simp only [rr_loop] at h
    split_ifs at h
    cases h
    rfl
  | succ fuel ih =>
    simp only [rr_loop] at h
    by_cases hfin : s.finished < s.p.length
    · obtain ⟨_, s1, h1, hsh1, _⟩ := rr_pass_shape quantum s hsh hfin
      rw [if_pos hfin, h1] at h
      exact ih s1 hsh1 h
    · rw [if_neg hfin] at h
      cases h

/-- C15. For every process list and every quantum `> 0`, the error branches of
the loop of `rr_metrics` are unreachable.  In every state that the loop reaches,
`nextArr = finished + queue length`, `nextArr <= n` and the queue holds indices
below `n`; in every pass from such a state with `finished < n`, the idle branch
reads `p[nextArr]` with `nextArr < n`, `q_pop` (called on a non-empty queue
only) returns an index `< n`, and the pass completes without a fault.  So the
loop and `rr_metrics` never stop on a queue underflow or an out-of-bounds
access, whatever the number of passes. -/
theorem rr_error_branches_unreachable (proc : List Process) (quantum : Int)
    (hq : 0 < quantum) :
    (∀ s, RrReach quantum proc s →
      s.nextArr = s.finished + (q_contents s.rq).length ∧ s.nextArr ≤ s.p.length ∧
      s.p.length = proc.length ∧
      (∀ v ∈ q_contents s.rq, 0 ≤ v ∧ v.toNat < s.p.length) ∧
      (s.finished < s.p.length →
        rr_pass_safe s ∧ ∃ s1, rr_pass quantum s = .ok s1)) ∧
    (∀ fuel e, rr_loop quantum fuel (rr_init proc) = .error e → e = Fault.outOfFuel) ∧
    (∀ fuel e, rr_metrics fuel proc quantum = .error e → e = Fault.outOfFuel) := by
  refine ⟨?_, ?_, ?_⟩
  · intro s hreach
    have hsh := rr_reach_shape quantum proc s hreach
    have hlen : s.p.length = proc.length := by
      clear hsh
      induction hreach with
      | init => exact rr_init_length proc
      | step s s1 hr hfin hpass ih =>
        obtain ⟨_, s2, h2, _, hl⟩ :=
          rr_pass_shape quantum s (rr_reach_shape quantum proc s hr) hfin
        rw [hpass] at h2
        cases h2
        rw [hl, ih]
    refine ⟨hsh.2.2.1.symm, hsh.2.1, hlen, ?_, ?_⟩
    · intro v hv
      have := hsh.2.2.2 v hv
      have := hsh.2.1
      omega
    · intro hfin
      obtain ⟨h1, s1, h2, _, _⟩ := rr_pass_shape quantum s hsh hfin
      exact ⟨h1, s1, h2⟩
  · intro fuel e h
    exact rr_loop_fault quantum fuel _ (rr_init_shape proc) e h
  · intro fuel e h
    unfold rr_metrics at h
    rw [if_neg (not_le.mpr hq)] at h
    cases hl : rr_loop quantum fuel (rr_init proc) with
    | ok s => rw [hl] at h; cases h
    | error e1 =>
      rw [hl] at h
      simp only [Except.error.injEq] at h
      rw [← h]
      exact rr_loop_fault quantum fuel _ (rr_init_shape proc) e1 hl

/-- Instance of C15 on a list with a zero burst and a negative arrival time,
with quantum 2. -/
theorem rr_error_branches_unreachable_witness :
    (∀ s, RrReach 2 [mkProc 1 5 0, mkProc 2 (-3) 4] s →
      s.nextArr = s.finished + (q_contents s.rq).length ∧ s.nextArr ≤ s.p.length ∧
      s.p.length = [mkProc 1 5 0, mkProc 2 (-3) 4].length ∧
      (∀ v ∈ q_contents s.rq, 0 ≤ v ∧ v.toNat < s.p.length) ∧
      (s.finished < s.p.length →
        rr_pass_safe s ∧ ∃ s1, rr_pass 2 s = .ok s1)) ∧
    (∀ fuel e, rr_loop 2 fuel (rr_init [mkProc 1 5 0, mkProc 2 (-3) 4]) = .error e →
      e = Fault.outOfFuel) ∧
    (∀ fuel e, rr_metrics fuel [mkProc 1 5 0, mkProc 2 (-3) 4] 2 = .error e →
      e = Fault.outOfFuel) :=
  rr_error_branches_unreachable [mkProc 1 5 0, mkProc 2 (-3) 4] 2 (by decide)

theorem wrap32_id (x : Int) (h1 : -2147483648 ≤ x) (h2 : x ≤ 2147483647) : wrap32 x = x := by
  unfold wrap32
  omega

/-- When the difference of the two pids fits a 32-bit `int` (as it does for
pids of equal sign), the 32-bit comparator is the exact one and orders by
(arrivalTime, pid). -/
theorem cmp_arrival_pid32_exact (a b : Process)
    (ha : 0 ≤ a.arrivalTime ∧ a.arrivalTime ≤ INT_MAX)
    (hb : 0 ≤ b.arrivalTime ∧ b.arrivalTime ≤ INT_MAX)
    (hp : is_int32 (a.pid - b.pid)) :
    cmp_arrival_pid32 a b = cmp_arrival_pid a b ∧
    (cmp_arrival_pid32 a b ≤ 0 ↔ spec_before a b) := by
  have e : cmp_arrival_pid32 a b = cmp_arrival_pid a b := by
    unfold cmp_arrival_pid32 cmp_arrival_pid
    unfold INT_MAX at ha hb
    unfold is_int32 INT_MAX at hp
    by_cases h : a.arrivalTime ≠ b.arrivalTime
    · rw [if_pos h, if_pos h]
      exact wrap32_id _ (by omega) (by omega)
    · rw [if_neg h, if_neg h]
      exact wrap32_id _ hp.1 hp.2
  refine ⟨e, ?_⟩
  rw [e]
  exact cmp_le_iff_spec_before a b

/-- C16, failing input. For the records `a = (pid = -2147483648, arrivalTime =
0)` and `b = (pid = 1, arrivalTime = 0)`, whose fields are 32-bit ints with
arrivalTime `>= 0`, the pair of `a` is lexicographically less than the pair of
`b`, but the 32-bit subtraction `a.pid - b.pid` wraps to `2147483647`: the
comparator returns a positive value for `(a, b)` and a negative one for
`(b, a)`, the reverse of the (arrivalTime, pid) order. -/
theorem cmp_arrival_pid32_pid_overflow :
    is_int32 (mkProc (-2147483648) 0 1).pid ∧ is_int32 (mkProc 1 0 1).pid ∧
    (mkProc (-2147483648) 0 1).arrivalTime = (mkProc 1 0 1).arrivalTime ∧
    (mkProc (-2147483648) 0 1).pid < (mkProc 1 0 1).pid ∧
    cmp_arrival_pid32 (mkProc (-2147483648) 0 1) (mkProc 1 0 1) = 2147483647 ∧
    cmp_arrival_pid32 (mkProc 1 0 1) (mkProc (-2147483648) 0 1) = -2147483647 := by
  decide

theorem sjf_scan_step_acc (p : List Process) (done : List Bool) (current : Int)
    (acc acc1 : Int × Int) (k : Nat)
    (h : sjf_scan_step p done current acc k = .ok acc1) :
    acc1 = acc ∨ acc1.1 = (k : Int) := by
  unfold sjf_scan_step at h
  cases hp : p[k]? with
  | none => simp only [hp] at h; cases h
  | some pk =>
    cases hd : done[k]? with
    | none => simp only [hp, hd] at h; cases h
    | some d =>
      simp only [hp, hd] at h
      by_cases h1 : d = false ∧ pk.arrivalTime ≤ current
      · rw [if_pos h1] at h
        by_cases h2 : pk.burstTime < acc.2
        · rw [if_pos h2] at h
          cases h
          right; rfl
        · rw [if_neg h2] at h
          by_cases h3 : pk.burstTime = acc.2
          · rw [if_pos h3] at h
            by_cases h4 : acc.1 < 0
            · rw [if_pos h4] at h
              cases h
            · rw [if_neg h4] at h
              cases hb : p[acc.1.toNat]? with
              | none => simp only [hb] at h; cases h
              | some pb =>
                simp only [hb] at h
                by_cases h5 : pk.arrivalTime < pb.arrivalTime
                · rw [if_pos h5] at h
                  cases h
                  right; rfl
                · rw [if_neg h5] at h
                  cases h
                  left; rfl
          · rw [if_neg h3] at h
            cases h
            left; rfl
      · rw [if_neg h1] at h
        cases h
        left; rfl

theorem sjf_scan_acc_shape (p : List Process) (done : List Bool) (current : Int) (k : Nat) :
    ∀ acc, (List.range k).foldlM (sjf_scan_step p done current) (-1, INT_MAX) = .ok acc →
      acc = (-1, INT_MAX) ∨ 0 ≤ acc.1 := by
  induction k with
  | zero =>
    intro acc h
    simp only [List.range_zero, List.foldlM_nil] at h
    cases h
    left; rfl
  | succ k ih =>
    intro acc h
    rw [foldlM_range_succ] at h
    cases hpre : (List.range k).foldlM (sjf_scan_step p done current) (-1, INT_MAX) with
    | error e => rw [hpre] at h; cases h
    | ok a =>
      rw [hpre] at h
      rcases sjf_scan_step_acc p done current a acc k h with e | e
      · rw [e]
        exact ih a hpre
      · right
        rw [e]
        exact Int.ofNat_nonneg k

/-- C19. In the selection scan of `sjf_metrics`, run from any state that the
loop reaches: when every `burstTime` of the input is below `INT_MAX` the scan
completes, and whenever the body at index `k` evaluates `p[best].arrivalTime`,
`0 <= best < n`.  For every input, a body that evaluates `p[best].arrivalTime`
with `best < 0` is entered with `(best, bestBurst) = (-1, INT_MAX)`, no
candidate chosen yet, at an eligible process `k` with `burstTime == INT_MAX`. -/
theorem sjf_tie_break_read_valid (proc : List Process) (s : SjfState)
    (hreach : SjfReach proc s) :
    ((∀ x ∈ proc, x.burstTime < INT_MAX) →
      (∃ r, sjf_select s.p s.done s.current = .ok r) ∧
      ∀ (k : Nat) (acc : Int × Int), k < s.p.length →
        (List.range k).foldlM (sjf_scan_step s.p s.done s.current) (-1, INT_MAX) = .ok acc →
        sjf_reads_best s.p s.done s.current acc k →
        0 ≤ acc.1 ∧ acc.1.toNat < s.p.length) ∧
    (∀ (k : Nat) (acc : Int × Int), k < s.p.length →
      (List.range k).foldlM (sjf_scan_step s.p s.done s.current) (-1, INT_MAX) = .ok acc →
      sjf_reads_best s.p s.done s.current acc k → acc.1 < 0 →
      acc = (-1, INT_MAX) ∧
        ∃ x, sjf_ready s.p s.done s.current k x ∧ x.burstTime = INT_MAX) := by
  have hinv := sjf_reach_inv proc s hreach
  have hlen : s.done.length = s.p.length := by rw [hinv.len_done, hinv.len_p]
  refine ⟨?_, ?_⟩
  · intro hb
    have hbs := sjf_inv_bursts hinv hb
    obtain ⟨r, hr, _⟩ := sjf_select_spec s.p s.done s.current hlen hbs
    refine ⟨⟨r, hr⟩, ?_⟩
    intro k acc hk hfold ⟨x, hx, _, hxe⟩
    obtain ⟨acc1, h1, h2⟩ := sjf_scan_prefix s.p s.done s.current hlen hbs k (le_of_lt hk)
    rw [hfold] at h1
    cases h1
    rcases h2 with ⟨_, h2, _⟩ | ⟨b, pb, hb1, hb2, _⟩
    · have := hbs x (List.mem_iff_getElem?.mpr ⟨_, hx.1⟩)
      omega
    · rw [hb1]
      simp only [Int.toNat_ofNat]
      exact ⟨Int.ofNat_nonneg b, by omega⟩
  · intro k acc hk hfold ⟨x, hx, _, hxe⟩ hneg
    rcases sjf_scan_acc_shape s.p s.done s.current k acc hfold with e | e
    · refine ⟨e, x, hx, ?_⟩
      rw [hxe, e]
    · omega

/-- Instance of C19 at the initial state of the run on `{(1,0,3),(2,0,3)}`,
where the body at index 1 evaluates `p[best].arrivalTime` with `best = 0`. -/
theorem sjf_tie_break_read_valid_witness :
    ((∀ x ∈ [mkProc 1 0 3, mkProc 2 0 3], x.burstTime < INT_MAX) →
      (∃ r, sjf_select (sjf_init [mkProc 1 0 3, mkProc 2 0 3]).p
        (sjf_init [mkProc 1 0 3, mkProc 2 0 3]).done
        (sjf_init [mkProc 1 0 3, mkProc 2 0 3]).current = .ok r) ∧
      ∀ (k : Nat) (acc : Int × Int), k < (sjf_init [mkProc 1 0 3, mkProc 2 0 3]).p.length →
        (List.range k).foldlM (sjf_scan_step (sjf_init [mkProc 1 0 3, mkProc 2 0 3]).p
          (sjf_init [mkProc 1 0 3, mkProc 2 0 3]).done
          (sjf_init [mkProc 1 0 3, mkProc 2 0 3]).current) (-1, INT_MAX) = .ok acc →
        sjf_reads_best (sjf_init [mkProc 1 0 3, mkProc 2 0 3]).p
          (sjf_init [mkProc 1 0 3, mkProc 2 0 3]).done
          (sjf_init [mkProc 1 0 3, mkProc 2 0 3]).current acc k →
        0 ≤ acc.1 ∧ acc.1.toNat < (sjf_init [mkProc 1 0 3, mkProc 2 0 3]).p.length) ∧
    (∀ (k : Nat) (acc : Int × Int), k < (sjf_init [mkProc 1 0 3, mkProc 2 0 3]).p.length →
      (List.range k).foldlM (sjf_scan_step (sjf_init [mkProc 1 0 3, mkProc 2 0 3]).p
        (sjf_init [mkProc 1 0 3, mkProc 2 0 3]).done
        (sjf_init [mkProc 1 0 3, mkProc 2 0 3]).current) (-1, INT_MAX) = .ok acc →
      sjf_reads_best (sjf_init [mkProc 1 0 3, mkProc 2 0 3]).p
        (sjf_init [mkProc 1 0 3, mkProc 2 0 3]).done
        (sjf_init [mkProc 1 0 3, mkProc 2 0 3]).current acc k → acc.1 < 0 →
      acc = (-1, INT_MAX) ∧
        ∃ x, sjf_ready (sjf_init [mkProc 1 0 3, mkProc 2 0 3]).p
          (sjf_init [mkProc 1 0 3, mkProc 2 0 3]).done
          (sjf_init [mkProc 1 0 3, mkProc 2 0 3]).current k x ∧ x.burstTime = INT_MAX) :=
  sjf_tie_break_read_valid [mkProc 1 0 3, mkProc 2 0 3] (sjf_init [mkProc 1 0 3, mkProc 2 0 3])
    SjfReach.init

/-- The tie-break operand is really evaluated in the run on `{(1,0,3),(2,0,3)}`:
at index 1 of the first scan, entered with `(best, bestBurst) = (0, 3)`. -/
theorem sjf_reads_best_example :
    (List.range 1).foldlM (sjf_scan_step (sjf_init [mkProc 1 0 3, mkProc 2 0 3]).p
      (sjf_init [mkProc 1 0 3, mkProc 2 0 3]).done 0) (-1, INT_MAX) = .ok (0, 3) ∧
    sjf_reads_best (sjf_init [mkProc 1 0 3, mkProc 2 0 3]).p
      (sjf_init [mkProc 1 0 3, mkProc 2 0 3]).done 0 (0, 3) 1 :=
  ⟨rfl, mkProc 2 0 3, by decide, by decide, by decide⟩

/-- The read with `best = -1` does happen when a burst is `INT_MAX`: on the
single process `(1, 0, INT_MAX)` the body at index 0 is entered with
`(best, bestBurst) = (-1, INT_MAX)` and evaluates `p[best].arrivalTime`. -/
theorem sjf_reads_best_int_max_example :
    sjf_reads_best (sjf_init [mkProc 1 0 INT_MAX]).p (sjf_init [mkProc 1 0 INT_MAX]).done 0
      (-1, INT_MAX) 0 ∧
    sjf_scan_step (sjf_init [mkProc 1 0 INT_MAX]).p (sjf_init [mkProc 1 0 INT_MAX]).done 0
      (-1, INT_MAX) 0 = .error Fault.outOfBounds :=
  ⟨⟨mkProc 1 0 INT_MAX, by decide, by decide, by decide⟩, rfl⟩

theorem fcfs_step_cursor (s : FcfsState) (x : Process) (hb : 0 ≤ x.burstTime) :
    s.current ≤ (fcfs_step s x).current := by
  simp only [fcfs_step]
  split_ifs <;> omega

theorem fcfs_step_excl (s : FcfsState) (x : Process) (hb : 0 < x.burstTime)
    (h : FcfsExcl s) : FcfsExcl (fcfs_step s x) := by
  obtain ⟨h1, h2⟩ := h
  have hc := fcfs_step_cursor s x (le_of_lt hb)
  refine ⟨?_, ?_⟩
  · simp only [fcfs_step, List.pairwise_append, List.pairwise_cons, List.not_mem_nil,
      false_implies, implies_true, List.Pairwise.nil, and_self, true_and, List.mem_singleton,
      forall_eq]
    refine ⟨h1, ?_⟩
    intro y hy
    have := (h2 y hy).2
    split_ifs <;> omega
  · intro y hy
    simp only [fcfs_step, List.mem_append, List.mem_singleton] at hy
    rcases hy with hy | hy
    · exact ⟨(h2 y hy).1, le_trans (h2 y hy).2 hc⟩
    · subst hy
      simp only [fcfs_step]
      constructor
      · omega
      · exact le_refl _

theorem fcfs_fold_excl (l : List Process) (s : FcfsState) (hb : ∀ x ∈ l, 0 < x.burstTime)
    (h : FcfsExcl s) : FcfsExcl (l.foldl fcfs_step s) := by
  induction l generalizing s with
  | nil => exact h
  | cons a rest ih =>
    simp only [List.foldl_cons]
    exact ih _ (fun x hx => hb x (List.mem_cons_of_mem _ hx))
      (fcfs_step_excl s a (hb a (List.mem_cons_self _ _)) h)

theorem fcfs_loop_take_cursor (l : List Process) (hb : ∀ x ∈ l, 0 < x.burstTime) (k : Nat) :
    (fcfs_loop (l.take k)).current ≤ (fcfs_loop (l.take (k + 1))).current := by
  unfold fcfs_loop
  rw [List.take_succ, List.foldl_append]
  cases hk : l[k]? with
  | none => simp only [Option.toList, List.foldl_nil, le_refl]
  | some x =>
    simp only [Option.toList, List.foldl_cons, List.foldl_nil]
    exact fcfs_step_cursor _ x (le_of_lt (hb x (List.mem_iff_getElem?.mpr ⟨k, hk⟩)))

theorem sjf_scan_step_ready (p : List Process) (done : List Bool) (current : Int) (k : Nat)
    (x : Process) (acc1 : Int × Int) (hx : sjf_ready p done current k x)
    (hmax : x.burstTime ≤ INT_MAX)
    (h : sjf_scan_step p done current (-1, INT_MAX) k = .ok acc1) : acc1.1 = (k : Int) := by
  obtain ⟨hp, hd, ha⟩ := hx
  unfold sjf_scan_step at h
  simp only [hp, hd] at h
  rw [if_pos ⟨trivial, ha⟩] at h
  by_cases h2 : x.burstTime < INT_MAX
  · rw [if_pos h2] at h
    cases h
    rfl
  · rw [if_neg h2] at h
    have h3 : x.burstTime = INT_MAX := by omega
    rw [if_pos h3, if_pos (by decide)] at h
    cases h

theorem sjf_scan_none (p : List Process) (done : List Bool) (current : Int)
    (hmax : ∀ x ∈ p, x.burstTime ≤ INT_MAX) (k : Nat) :
    ∀ acc, (List.range k).foldlM (sjf_scan_step p done current) (-1, INT_MAX) = .ok acc →
      acc.1 < 0 → ∀ (j : Nat) (x : Process), j < k → ¬ sjf_ready p done current j x := by
  induction k with
  | zero =>
    intro acc _ _ j x hj
    omega
  | succ k ih =>
    intro acc h hneg j x hj hr
    rw [foldlM_range_succ] at h
    cases hpre : (List.range k).foldlM (sjf_scan_step p done current) (-1, INT_MAX) with
    | error e => rw [hpre] at h; cases h
    | ok a =>
      rw [hpre] at h
      have hstep : sjf_scan_step p done current a k = .ok acc := h
      rcases sjf_scan_step_acc p done current a acc k hstep with e | e
      · rw [e] at hneg
        by_cases hjk : j < k
        · exact ih a hpre hneg j x hjk hr
        · have hjk2 : j = k := by omega
          subst hjk2
          rcases sjf_scan_acc_shape p done current j a hpre with e1 | e1
          · rw [e1] at hstep
            have := sjf_scan_step_ready p done current j x acc hr
              (hmax x (List.mem_iff_getElem?.mpr ⟨j, hr.1⟩)) hstep
            rw [e] at this
            omega
          · omega
      · have := Int.ofNat_nonneg k
        omega

theorem sjf_pass_ok_idle (s s1 : SjfState) (hmax : ∀ x ∈ s.p, x.burstTime ≤ INT_MAX)
    (h : sjf_pass s = .ok s1) :
    (s1 = sjf_idle_state s ∧ ∀ (j : Nat) (x : Process), ¬ sjf_ready s.p s.done s.current j x) ∨
    ∃ b pb, sjf_ready s.p s.done s.current b pb ∧ s1 = sjf_dispatch_state s b pb := by
  have h0 := h
  unfold sjf_pass at h
  cases hsel : sjf_select s.p s.done s.current with
  | error e => rw [hsel] at h; cases h
  | ok acc =>
    obtain ⟨best, bb⟩ := acc
    rw [hsel] at h
    simp only at h
    by_cases hneg : best < 0
    · left
      rw [if_pos hneg] at h
      refine ⟨(Except.ok.inj h).symm, ?_⟩
      intro j x hr
      exact sjf_scan_none s.p s.done s.current hmax s.p.length (best, bb) hsel hneg j x
        (sjf_ready_lt hr) hr
    · right
      rcases sjf_pass_ok_cases s s1 h0 with e | e
      · exfalso
        rw [if_neg hneg] at h
        cases hb : s.p[best.toNat]? with
        | none => rw [hb] at h; cases h
        | some pb =>
          rw [hb] at h
          have h2 := Except.ok.inj h
          rw [e] at h2
          have h3 := congrArg SjfState.completed h2
          simp only [sjf_idle_state] at h3
          omega
      · exact e

theorem sjf_pass_cursor (proc : List Process)
    (hvalid : ∀ x ∈ proc, x.arrivalTime ≤ INT_MAX ∧ 0 ≤ x.burstTime ∧ x.burstTime ≤ INT_MAX)
    (s s1 : SjfState) (hinv : SjfInv proc s) (hc : s.completed < s.p.length)
    (hpass : sjf_pass s = .ok s1) : s.current ≤ s1.current := by
  have hin : ∀ (k : Nat) (x : Process), s.p[k]? = some x →
      x.arrivalTime ≤ INT_MAX ∧ 0 ≤ x.burstTime ∧ x.burstTime ≤ INT_MAX := by
    intro k x hx
    obtain ⟨y, hy, _, e2, e3⟩ := hinv.input k x hx
    rw [e2, e3]
    exact hvalid y (List.mem_iff_getElem?.mpr ⟨k, hy⟩)
  have hmax : ∀ x ∈ s.p, x.burstTime ≤ INT_MAX := by
    intro x hx
    obtain ⟨k, hk⟩ := List.mem_iff_getElem?.mp hx
    exact (hin k x hk).2.2
  rcases sjf_pass_ok_idle s s1 hmax hpass with ⟨e, hno⟩ | ⟨b, pb, hr, e⟩
  · subst e
    have hcnt : s.done.count true < s.done.length := by
      rw [← hinv.count, hinv.len_done, ← hinv.len_p]; exact hc
    obtain ⟨k, hk⟩ := exists_false_of_count_lt s.done hcnt
    have hkl : k < s.p.length := by
      have := (List.getElem?_eq_some.mp hk).1
      have := hinv.len_done
      have := hinv.len_p
      omega
    have hpk : s.p[k]? = some s.p[k] := List.getElem?_eq_getElem hkl
    obtain ⟨i, y, hy1, hy2, hy3⟩ :=
      sjf_next_arrival_attained s.p s.done k _ hpk hk (hin k _ hpk).1
    have hnr := hno i y
    simp only [sjf_ready, hy1, hy2, true_and, not_le] at hnr
    simp only [sjf_idle_state]
    omega
  · subst e
    have := (hin b pb hr.1).2.1
    simp only [sjf_dispatch_state]
    omega

theorem sjf_init_excl (proc : List Process) : SjfExcl (sjf_init proc) where
  done_le := by
    intro k x _ hd
    simp only [sjf_init] at hd
    have := List.getElem?_eq_some.mp hd
    obtain ⟨hk, e⟩ := this
    simp only [List.getElem_replicate] at e
    cases e
  disjoint := by
    intro i j xi xj _ _ _ hd _
    simp only [sjf_init] at hd
    obtain ⟨hk, e⟩ := List.getElem?_eq_some.mp hd
    simp only [List.getElem_replicate] at e
    cases e
  order := by
    simp only [sjf_init, sjf_dispatched]
    exact List.Pairwise.nil

theorem sjf_idle_excl (s : SjfState) (h : SjfExcl s)
    (hc : s.current ≤ (sjf_idle_state s).current) : SjfExcl (sjf_idle_state s) where
  done_le := by
    intro k x hx hd
    have := h.done_le k x hx hd
    exact ⟨this.1, le_trans this.2 hc⟩
  disjoint := h.disjoint
  order := by
    simp only [sjf_idle_state, sjf_dispatched_append, sjf_dispatched, List.append_nil]
    exact h.order

theorem sjf_dispatch_excl (proc : List Process) (s : SjfState) (hinv : SjfInv proc s)
    (h : SjfExcl s) (b : Nat) (pb : Process) (hr : sjf_ready s.p s.done s.current b pb)
    (hb : 0 < pb.burstTime) : SjfExcl (sjf_dispatch_state s b pb) where
  done_le := by
    intro k x hx hd
    simp only [sjf_dispatch_state] at hx hd ⊢
    rcases getElem?_set_some hx with ⟨_, _, e⟩ | ⟨hne, hx1⟩
    · subst e
      simp only
      omega
    · rw [List.getElem?_set_ne hne] at hd
      have := h.done_le k x hx1 hd
      omega
  disjoint := by
    intro i j xi xj hij hxi hxj hdi hdj
    simp only [sjf_dispatch_state] at hxi hxj hdi hdj
    rcases getElem?_set_some hxi with ⟨ei, _, e1⟩ | ⟨hnei, hxi1⟩
    · rcases getElem?_set_some hxj with ⟨ej, _, _⟩ | ⟨hnej, hxj1⟩
      · omega
      · rw [List.getElem?_set_ne hnej] at hdj
        have := h.done_le j xj hxj1 hdj
        subst e1
        right
        simp only
        omega
    · rw [List.getElem?_set_ne hnei] at hdi
      rcases getElem?_set_some hxj with ⟨ej, _, e2⟩ | ⟨hnej, hxj1⟩
      · have := h.done_le i xi hxi1 hdi
        subst e2
        left
        simp only
        omega
      · rw [List.getElem?_set_ne hnej] at hdj
        exact h.disjoint i j xi xj hij hxi1 hxj1 hdi hdj
  order := by
    have hbl : b < s.p.length := sjf_ready_lt hr
    have hnb : ∀ i ∈ sjf_dispatched s.log, b ≠ i := by
      intro i hi e
      subst e
      have := (hinv.disp_done b).mp hi
      rw [hr.2.1] at this
      cases this
    simp only [sjf_dispatch_state, sjf_dispatched_append, sjf_dispatched, List.pairwise_append,
      List.pairwise_cons, List.not_mem_nil, false_implies, implies_true, List.Pairwise.nil,
      and_self, true_and, List.mem_singleton, forall_eq]
    refine ⟨?_, ?_⟩
    · refine List.Pairwise.imp_of_mem ?_ h.order
      intro i j hi hj ⟨xi, xj, h1, h2, h3⟩
      refine ⟨xi, xj, ?_, ?_, h3⟩
      · rw [List.getElem?_set_ne (hnb i hi)]; exact h1
      · rw [List.getElem?_set_ne (hnb j hj)]; exact h2
    · intro i hi
      have hdi := (hinv.disp_done i).mp hi
      have hil : i < s.p.length := by
        have := (List.getElem?_eq_some.mp hdi).1
        have := hinv.len_done
        have := hinv.len_p
        omega
      have hpi : s.p[i]? = some s.p[i] := List.getElem?_eq_getElem hil
      refine ⟨s.p[i], { pb with startTime := s.current
                                completionTime := s.current + pb.burstTime }, ?_, ?_, ?_⟩
      · rw [List.getElem?_set_ne (hnb i hi)]; exact hpi
      · rw [List.getElem?_set_eq_of_lt _ hbl]
      · exact (h.done_le i _ hpi hdi).2

theorem sjf_reach_excl (proc : List Process)
    (hvalid : ∀ x ∈ proc, x.arrivalTime ≤ INT_MAX ∧ 0 < x.burstTime ∧ x.burstTime ≤ INT_MAX)
    (s : SjfState) (hreach : SjfReach proc s) : SjfExcl s := by
  induction hreach with
  | init => exact sjf_init_excl proc
  | step s s1 hr hc hpass ih =>
    have hinv := sjf_reach_inv proc s hr
    have hcur := sjf_pass_cursor proc
      (fun x hx => ⟨(hvalid x hx).1, le_of_lt (hvalid x hx).2.1, (hvalid x hx).2.2⟩)
      s s1 hinv hc hpass
    rcases sjf_pass_ok_cases s s1 hpass with e | ⟨b, pb, hrb, e⟩
    · subst e
      exact sjf_idle_excl s ih hcur
    · subst e
      have hpos : 0 < pb.burstTime := by
        obtain ⟨y, hy, _, _, e3⟩ := hinv.input b pb hrb.1
        rw [e3]
        exact (hvalid y (List.mem_iff_getElem?.mpr ⟨b, hy⟩)).2.1
      exact sjf_dispatch_excl proc s hinv ih b pb hrb hpos

theorem rr_dispatched_append (l1 l2 : List RrEvent) :
    rr_dispatched (l1 ++ l2) = rr_dispatched l1 ++ rr_dispatched l2 := by
  induction l1 with
  | nil => rfl
  | cons e rest ih =>
    cases e with
    | idle a b => simpa [rr_dispatched] using ih
    | run i t sl fin => simp [rr_dispatched, ih]

theorem rr_pass_run_detail (quantum : Int) (hq : 0 < quantum) (p0 : List Process)
    (s s1 : RrState) (ks : List Nat) (hinv : RrInv quantum p0 s ks)
    (hfin : s.finished < s.p.length)
    (hpass : rr_pass quantum s = .ok s1) (i : Nat) (t sl : Int) (fin : Bool)
    (hlog : s1.log = s.log ++ [RrEvent.run i t sl fin]) :
    ∃ (cur : Process) (rq1 rq2 rq3 : Queue) (j1 j2 : Nat) (ks2 : List Nat),
      rr_enqueue s.current (s.p.drop s.nextArr) s.rq s.nextArr = (rq1, s.nextArr + j1) ∧
      q_pop rq1 = .ok ((i : Int), rq2) ∧
      q_contents rq2 = ks2.map (fun (k : Nat) => (k : Int)) ∧
      ks ++ List.range' s.nextArr j1 = i :: ks2 ∧
      s.p[i]? = some cur ∧ 0 < cur.remainingTime ∧ i < s.nextArr + j1 ∧
      t = s.current ∧ sl = rr_slice quantum cur ∧
      fin = decide (¬ (cur.remainingTime - rr_slice quantum cur > 0)) ∧
      (∀ x : Process, s.p[s.nextArr + j1]? = some x → s.current < x.arrivalTime) ∧
      (∀ (k : Nat) (x : Process), s.nextArr + j1 ≤ k → k < s.nextArr + j1 + j2 →
        s.p[k]? = some x → x.arrivalTime ≤ s.current + sl) ∧
      (∀ x : Process, s.p[s.nextArr + j1 + j2]? = some x → s.current + sl < x.arrivalTime) ∧
      s1 = rr_run_state quantum s i cur rq3 (s.nextArr + j1 + j2) ∧
      RrInv quantum p0 s1 (ks2 ++ List.range' (s.nextArr + j1) j2 ++
        (if cur.remainingTime - rr_slice quantum cur > 0 then [i] else [])) := by
  obtain ⟨j1, rq1, he1, hj1, hw1, hc1, ha1, hn1⟩ :=
    rr_enqueue_spec s.current (s.p.drop s.nextArr) s.rq s.nextArr hinv.wf
  have hnl := hinv.next_le
  have hj1' : s.nextArr + j1 ≤ s.p.length := by
    simp only [List.length_drop] at hj1; omega
  rw [hinv.contents, ← List.map_append] at hc1
  have ha1' : ∀ (k : Nat) (x : Process), s.nextArr ≤ k → k < s.nextArr + j1 →
      s.p[k]? = some x → x.arrivalTime ≤ s.current := by
    intro k x h1 h2 hx
    refine ha1 (k - s.nextArr) x (by omega) ?_
    rw [List.getElem?_drop]
    have : s.nextArr + (k - s.nextArr) = k := by omega
    rw [this]; exact hx
  have hn1' : ∀ x : Process, s.p[s.nextArr + j1]? = some x → s.current < x.arrivalTime := by
    intro x hx
    refine hn1 x ?_
    rw [List.getElem?_drop]; exact hx
  by_cases hempty : q_empty rq1 = true
  · exfalso
    have hnil := (q_empty_iff rq1 hw1).mp hempty
    rw [hnil] at hc1
    have hks : ks ++ List.range' s.nextArr j1 = [] := by
      have := congrArg List.length hc1
      simp only [List.length_nil, List.length_map] at this
      exact List.eq_nil_of_length_eq_zero this.symm
    obtain ⟨hk0, hr0⟩ := List.append_eq_nil.mp hks
    have hj0 : j1 = 0 := by
      have := congrArg List.length hr0
      simpa using this
    subst hk0 hj0
    have hcnt := hinv.count
    simp only [List.length_nil, add_zero] at hcnt
    have hlt : s.nextArr < s.p.length := by omega
    have hpn : s.p[s.nextArr]? = some s.p[s.nextArr] := List.getElem?_eq_getElem hlt
    simp only [add_zero] at he1
    have h2 := rr_pass_idle_eq quantum s rq1 s.nextArr _ he1 hempty hpn
    rw [hpass] at h2
    have h3 := Except.ok.inj h2
    rw [h3] at hlog
    simp only [rr_idle_state, List.append_cancel_left_eq, List.cons.injEq, and_true] at hlog
    cases hlog
  · have hempty' : q_empty rq1 = false := by
      cases h : q_empty rq1
      · rfl
      · exact absurd h hempty
    obtain ⟨v, rq2, hpop, hw2, hc2⟩ := q_pop_spec rq1 hw1 hempty'
    rw [hc1] at hc2
    obtain ⟨i0, ks2, hks1, hv, hc2'⟩ : ∃ i0 ks2, ks ++ List.range' s.nextArr j1 = i0 :: ks2 ∧
        v = (i0 : Int) ∧ q_contents rq2 = ks2.map (fun (k : Nat) => (k : Int)) := by
      cases hl : ks ++ List.range' s.nextArr j1 with
      | nil => rw [hl] at hc2; simp at hc2
      | cons i0 ks2 =>
        rw [hl] at hc2
        simp only [List.map_cons, List.cons.injEq] at hc2
        exact ⟨i0, ks2, rfl, hc2.1.symm, hc2.2.symm⟩
    subst hv
    have hmem : i0 ∈ ks ++ List.range' s.nextArr j1 := by
      rw [hks1]; exact List.mem_cons_self _ _
    have hi1 : i0 < s.nextArr + j1 := by
      rcases List.mem_append.mp hmem with h | h
      · have := ((hinv.queued i0).mp h).1; omega
      · exact (List.mem_range'_1.mp h).2
    have hilen : i0 < s.p.length := by omega
    have hcur : s.p[i0]? = some s.p[i0] := List.getElem?_eq_getElem hilen
    obtain ⟨j2, rq3, he2, hj2, hw3, hc3, ha2, hn2⟩ :=
      rr_enqueue_spec (s.current + rr_slice quantum s.p[i0]) (s.p.drop (s.nextArr + j1)) rq2
        (s.nextArr + j1) hw2
    have hj2' : s.nextArr + j1 + j2 ≤ s.p.length := by
      simp only [List.length_drop] at hj2; omega
    rw [hc2', ← List.map_append] at hc3
    have ha2' : ∀ (k : Nat) (x : Process), s.nextArr + j1 ≤ k → k < s.nextArr + j1 + j2 →
        s.p[k]? = some x → x.arrivalTime ≤ s.current + rr_slice quantum s.p[i0] := by
      intro k x h1 h2 hx
      refine ha2 (k - (s.nextArr + j1)) x (by omega) ?_
      rw [List.getElem?_drop]
      have : s.nextArr + j1 + (k - (s.nextArr + j1)) = k := by omega
      rw [this]; exact hx
    have hn2' : ∀ x : Process, s.p[s.nextArr + j1 + j2]? = some x →
        s.current + rr_slice quantum s.p[i0] < x.arrivalTime := by
      intro x hx
      refine hn2 x ?_
      rw [List.getElem?_drop]; exact hx
    obtain ⟨hrem, _, hinv1⟩ := rr_run_inv quantum hq p0 s ks ks2 i0 s.p[i0] rq3 j1 j2 hinv hks1
      hj1' ha1' hcur hw3 hc3 hj2' ha2'
    have h2 := rr_pass_run_eq quantum s rq1 rq2 rq3 _ _ i0 _ he1 hempty' hpop hcur hi1 he2
    rw [hpass] at h2
    have h3 := Except.ok.inj h2
    have hlog2 := hlog
    rw [h3] at hlog2
    simp only [rr_run_state, List.append_cancel_left_eq, List.cons.injEq, and_true,
      RrEvent.run.injEq] at hlog2
    obtain ⟨e1, e2, e3, e4⟩ := hlog2
    subst e1
    refine ⟨s.p[i0], rq1, rq2, rq3, j1, j2, ks2, he1, hpop, hc2', hks1, hcur, hrem, hi1, e2.symm,
      e3.symm, e4.symm, hn1', ?_, ?_, h3, ?_⟩
    · rw [← e3]; exact ha2'
    · rw [← e3]; exact hn2'
    · rw [h3]; exact hinv1

theorem rr_fifo (quantum : Int) (hq : 0 < quantum) (p0 : List Process) (s : RrState)
    (pre post : List Nat) (i : Nat) (hinv : RrInv quantum p0 s (pre ++ i :: post))
    (s2 : RrState) (hsteps : RrSteps quantum s s2) :
    ∃ (d ks2 : List Nat), rr_dispatched s2.log = rr_dispatched s.log ++ d ∧
      RrInv quantum p0 s2 ks2 ∧
      ((i ∉ d ∧ ∃ done pre1 post1, pre = done ++ pre1 ∧ ks2 = pre1 ++ i :: post1 ∧
          ∀ k ∈ done, k ∈ d) ∨
       (∃ d1 d2, d = d1 ++ i :: d2 ∧ i ∉ d1 ∧ ∀ k ∈ pre, k ∈ d1)) := by
  induction hsteps with
  | refl =>
    refine ⟨[], pre ++ i :: post, by simp, hinv, Or.inl ⟨by simp, [], pre, post, rfl, rfl, ?_⟩⟩
    intro k hk
    cases hk
  | step s1 s3 _ hfin hpass ih =>
    obtain ⟨d, ks, hd, hinv1, hcase⟩ := ih
    obtain ⟨s4, ks4, hp4, hinv4, _, hdisj⟩ := rr_pass_spec quantum hq p0 s1 ks hinv1 hfin
    rw [hpass] at hp4
    cases hp4
    rcases hdisj with ⟨rq1, pn, hk0, _, _, _, e⟩ |
      ⟨i1, cur, rq3, j1, j2, ks2, _, _, hks, hks1, _, _, e⟩
    · refine ⟨d, ks4, ?_, hinv4, ?_⟩
      · rw [e]
        simp only [rr_idle_state, rr_dispatched_append, rr_dispatched, List.append_nil]
        exact hd
      · rcases hcase with ⟨_, done, pre1, post1, _, hk, _⟩ | hB
        · rw [hk0] at hk
          cases pre1 <;> cases hk
        · exact Or.inr hB
    · refine ⟨d ++ [i1], ks4, ?_, hinv4, ?_⟩
      · rw [e]
        simp only [rr_run_state, rr_dispatched_append, rr_dispatched, hd, List.append_assoc]
      · rcases hcase with ⟨hnd, done, pre1, post1, hpre, hk, hdone⟩ | ⟨d1, d2, hd12, hn1, hall⟩
        · cases pre1 with
          | nil =>
            rw [hk] at hks
            simp only [List.nil_append, List.cons_append, List.cons.injEq] at hks
            right
            refine ⟨d, [], ?_, hnd, ?_⟩
            · rw [hks.1]
            · intro k hk1
              rw [hpre, List.append_nil] at hk1
              exact hdone k hk1
          | cons j pre2 =>
            have hnodup := hinv1.nodup
            rw [hk] at hks hnodup
            simp only [List.cons_append, List.cons.injEq] at hks
            obtain ⟨hj, hrest⟩ := hks
            have hji : i ≠ j := by
              intro e1
              rw [List.cons_append, List.nodup_cons] at hnodup
              apply hnodup.1
              rw [← e1]
              simp only [List.mem_append, List.mem_cons, true_or, or_true]
            left
            refine ⟨?_, done ++ [j], pre2,
              post1 ++ List.range' s1.nextArr j1 ++ List.range' (s1.nextArr + j1) j2 ++
                (if cur.remainingTime - rr_slice quantum cur > 0 then [i1] else []), ?_, ?_, ?_⟩
            · simp only [List.mem_append, List.mem_singleton, not_or]
              exact ⟨hnd, by rw [← hj]; exact hji⟩
            · rw [hpre]
              simp only [List.append_assoc, List.singleton_append]
            · rw [hks1, ← hrest]
              simp only [List.append_assoc, List.cons_append]
            · intro k hk1
              simp only [List.mem_append, List.mem_singleton] at hk1 ⊢
              rcases hk1 with h | h
              · exact Or.inl (hdone k h)
              · right
                rw [h, hj]
        · right
          refine ⟨d1, d2 ++ [i1], ?_, hn1, hall⟩
          rw [hd12]
          simp only [List.append_assoc, List.cons_append]

theorem rr_sorted_spec (quantum : Int) (proc : List Process) (s : RrState) (ks : List Nat)
    (hinv : RrInv quantum (rr_init proc).p s ks) (i j : Nat) (x y : Process) (hij : i < j)
    (hx : s.p[i]? = some x) (hy : s.p[j]? = some y) : spec_before x y := by
  obtain ⟨x0, hx0, e1, e2, _⟩ := hinv.input i x hx
  obtain ⟨y0, hy0, e3, e4, _⟩ := hinv.input j y hy
  have hs : (rr_init proc).p.Pairwise spec_before := by
    show (qsort cmp_arrival_pid _).Pairwise spec_before
    rw [qsort_eq_spec_order]
    haveI : IsTotal Process spec_before := ⟨spec_before_total⟩
    haveI : IsTrans Process spec_before := ⟨spec_before_trans⟩
    exact List.sorted_insertionSort spec_before _
  obtain ⟨hi, e5⟩ := List.getElem?_eq_some.mp hx0
  obtain ⟨hj, e6⟩ := List.getElem?_eq_some.mp hy0
  have := List.pairwise_iff_getElem.mp hs i j hi hj hij
  rw [e5, e6] at this
  unfold spec_before at this ⊢
  rw [e1, e2, e3, e4]
  exact this

/-- The order of the newcomers with exact `int` arithmetic and the exact
comparator.  In a pass of the exact loop of `rr_metrics` on a valid input that
dispatches `p[i]` at time `t` for `sl` units and preempts it (the log gains
`run i t sl false`): the first enqueue loop leaves the queue `rq1` and the
counter `a`, `q_pop` returns `i` and leaves the indices `front`; the cursor after
the slice is `t + sl`; the queue after the pass holds `front`, then the indices
`a, a+1, ..` below the new `nextArr`, then `i`.  Those indices are exactly the
processes not enqueued before the slice whose `arrivalTime <=` the cursor after
the slice (equality included), and ascending index is ascending
(arrivalTime, pid).  In every continuation of the loop, the first later dispatch
of `i` comes after a dispatch of every index of `front` and of every such
newcomer. -/
theorem rr_newcomers_before_preempted (proc : List Process) (quantum : Int) (hq : 0 < quantum)
    (hvalid : ∀ x ∈ proc, 0 ≤ x.arrivalTime ∧ 0 < x.burstTime)
    (s s1 : RrState) (hreach : RrReach quantum proc s) (hfin : s.finished < s.p.length)
    (hpass : rr_pass quantum s = .ok s1) (i : Nat) (t sl : Int)
    (hlog : s1.log = s.log ++ [RrEvent.run i t sl false]) :
    ∃ (rq1 rq2 : Queue) (a : Nat) (front : List Nat),
      rr_enqueue s.current (s.p.drop s.nextArr) s.rq s.nextArr = (rq1, a) ∧
      q_pop rq1 = .ok ((i : Int), rq2) ∧
      q_contents rq2 = front.map (fun (k : Nat) => (k : Int)) ∧
      t = s.current ∧ s1.current = t + sl ∧ 0 < sl ∧ i < a ∧ a ≤ s1.nextArr ∧
      (∃ x, s1.p[i]? = some x ∧ 0 < x.remainingTime) ∧
      q_contents s1.rq =
        (front ++ List.range' a (s1.nextArr - a) ++ [i]).map (fun (k : Nat) => (k : Int)) ∧
      (∀ (k : Nat) (x : Process), a ≤ k → s1.p[k]? = some x →
        (k < s1.nextArr ↔ x.arrivalTime ≤ s1.current)) ∧
      (∀ (k : Nat) (x : Process), a ≤ k → s1.p[k]? = some x → t < x.arrivalTime) ∧
      (∀ (k1 k2 : Nat) (x1 x2 : Process), k1 < k2 → s1.p[k1]? = some x1 →
        s1.p[k2]? = some x2 → spec_before x1 x2) ∧
      (∀ s2, RrSteps quantum s1 s2 →
        ∃ d, rr_dispatched s2.log = rr_dispatched s1.log ++ d ∧
          (i ∈ d → ∃ d1 d2, d = d1 ++ i :: d2 ∧ i ∉ d1 ∧
            ∀ k ∈ front ++ List.range' a (s1.nextArr - a), k ∈ d1)) := by
  obtain ⟨ks, hinv⟩ := rr_reach_inv quantum hq proc (fun x hx => (hvalid x hx).2) s hreach
  obtain ⟨cur, rq1, rq2, rq3, j1, j2, ks2, he1, hpop, hc2, _, hcur, hrem, hi1, et, esl, efin,
    hn1, _, hn2, es1, hinv1⟩ :=
    rr_pass_run_detail quantum hq _ s s1 ks hinv hfin hpass i t sl false hlog
  have hpre : cur.remainingTime - rr_slice quantum cur > 0 := by
    by_contra hc
    simp only [hc, not_false_eq_true, decide_True] at efin
    cases efin
  rw [if_pos hpre] at hinv1
  have hnext : s1.nextArr = s.nextArr + j1 + j2 := by rw [es1]; rfl
  have hcurr : s1.current = s.current + sl := by rw [es1, esl]; rfl
  have hsub : s1.nextArr - (s.nextArr + j1) = j2 := by omega
  obtain ⟨sl1, _, _, _⟩ := rr_slice_bounds quantum hq cur hrem
  have hset : ∀ (k : Nat), s.nextArr + j1 ≤ k → s1.p[k]? = s.p[k]? := by
    intro k hk
    rw [es1]
    simp only [rr_run_state]
    rw [List.getElem?_set_ne (by omega)]
  have hafter : ∀ (k : Nat) (x : Process), s.nextArr + j1 ≤ k → s1.p[k]? = some x →
      s.current < x.arrivalTime := by
    intro k x hk hx
    have hkl : s.nextArr + j1 < s1.p.length := by
      have := (List.getElem?_eq_some.mp hx).1
      omega
    have hy : s1.p[s.nextArr + j1]? = some s1.p[s.nextArr + j1] := List.getElem?_eq_getElem hkl
    have h1 := hn1 _ (by rw [← hset _ (le_refl _)]; exact hy)
    have h2 := rr_sorted quantum proc s1 _ hinv1 _ k _ x hk hy hx
    omega
  refine ⟨rq1, rq2, s.nextArr + j1, ks2, he1, hpop, hc2, et, ?_, ?_, hi1, by omega, ?_, ?_, ?_,
    ?_, ?_, ?_⟩
  · rw [hcurr, et]
  · rw [esl]; omega
  · have := (hinv1.queued i).mp (by simp)
    exact this.2
  · rw [hinv1.contents, hsub]
  · intro k x hk hx
    constructor
    · intro hlt
      exact (hinv1.procs k x hx).arrived hlt
    · intro harr
      by_contra hge
      have hkl : s1.nextArr < s1.p.length := by
        have := (List.getElem?_eq_some.mp hx).1
        omega
      have hy : s1.p[s1.nextArr]? = some s1.p[s1.nextArr] := List.getElem?_eq_getElem hkl
      have h1 := hn2 _ (by rw [← hnext, ← hset _ (by omega)]; exact hy)
      have h2 := rr_sorted quantum proc s1 _ hinv1 _ k _ x (by omega) hy hx
      omega
  · intro k x hk hx
    rw [et]
    exact hafter k x hk hx
  · intro k1 k2 x1 x2 h12 h1 h2
    exact rr_sorted_spec quantum proc s1 _ hinv1 k1 k2 x1 x2 h12 h1 h2
  · intro s2 hsteps
    obtain ⟨d, _, hd, _, hcase⟩ := rr_fifo quantum hq _ s1
      (ks2 ++ List.range' (s.nextArr + j1) j2) [] i hinv1 s2 hsteps
    refine ⟨d, hd, ?_⟩
    intro hid
    rcases hcase with ⟨hnd, _⟩ | hB
    · exact absurd hid hnd
    · rw [hsub]
      exact hB

theorem qsort_map_reset (l : List Process) :
    qsort cmp_arrival_pid (l.map rr_reset) = (qsort cmp_arrival_pid l).map rr_reset := by
  unfold qsort
  exact (List.map_insertionSort (fun a b => cmp_arrival_pid a b ≤ 0)
    (fun a b => cmp_arrival_pid a b ≤ 0) rr_reset l (fun a _ b _ => Iff.rfl)).symm

theorem range'_glue (k a j : Nat) (h : k ≤ a) :
    List.range' k (a - k) ++ List.range' a j = List.range' k (a + j - k) := by
  have e : a = k + (a - k) := by omega
  conv_lhs => rw [e]
  rw [← e]
  have := List.range'_append_1 k (a - k) j
  rw [← e] at this
  rw [this]
  congr 1
  omega

theorem fcfs_loop_take_succ (P : List Process) (k : Nat) (x : Process) (hx : P[k]? = some x) :
    fcfs_loop (P.take (k + 1)) = fcfs_step (fcfs_loop (P.take k)) x := by
  unfold fcfs_loop
  rw [List.take_succ, List.foldl_append, hx]
  rfl

theorem rr_init_sim (proc : List Process) :
    RrFcfsSim (qsort cmp_arrival_pid (duplicate_proc_array proc)) (rr_init proc) where
  wf := q_create_wf
  len := by
    simp only [rr_init, qsort_map_reset, List.length_map]
  fin_le := le_refl _
  next_le := Nat.zero_le _
  contents := by simp [rr_init, q_create_contents]
  fresh := by
    intro j x _ hx
    simp only [rr_init, qsort_map_reset, List.getElem?_map, hx, Option.map_some']
  arrived := by
    intro j x _ hj
    simp only [rr_init] at hj
    omega
  sum_ta := rfl
  sum_wait := rfl
  sum_resp := rfl
  cursor := Or.inl rfl

theorem rr_fcfs_sim_idle (P : List Process) (s : RrState) (h : RrFcfsSim P s)
    (rq1 : Queue) (x0 : Process) (hw1 : q_wf rq1) (hc1 : q_contents rq1 = [])
    (hnext : s.nextArr = s.finished) (hx0 : P[s.finished]? = some x0)
    (hlt : s.current < x0.arrivalTime) :
    RrFcfsSim P (rr_idle_state s rq1 s.nextArr (rr_reset x0)) where
  wf := hw1
  len := h.len
  fin_le := h.fin_le
  next_le := h.next_le
  contents := by
    show q_contents rq1 =
      (List.range' s.finished (s.nextArr - s.finished)).map (fun (k : Nat) => (k : Int))
    rw [hc1, hnext, Nat.sub_self]
    rfl
  fresh := h.fresh
  arrived := by
    intro j x h1 h2 _
    have h3 : j < s.nextArr := h2
    have h4 : s.finished ≤ j := h1
    omega
  sum_ta := h.sum_ta
  sum_wait := h.sum_wait
  sum_resp := h.sum_resp
  cursor := by
    right
    refine ⟨x0, hx0, ?_, rfl⟩
    rcases h.cursor with e | ⟨x, hx, _, e⟩
    · show (fcfs_loop (P.take s.finished)).current < x0.arrivalTime
      rw [← e]; exact hlt
    · rw [hx0] at hx
      cases hx
      omega

theorem rr_fcfs_sim_run (quantum : Int) (P : List Process) (s : RrState) (h : RrFcfsSim P s)
    (rq3 : Queue) (x0 : Process) (n2 : Nat) (hw3 : q_wf rq3)
    (hx0 : P[s.finished]? = some x0) (hb : 0 < x0.burstTime ∧ x0.burstTime ≤ quantum)
    (hfn : s.finished < n2) (hn2 : n2 ≤ P.length)
    (hc3 : q_contents rq3 =
      (List.range' (s.finished + 1) (n2 - (s.finished + 1))).map (fun (k : Nat) => (k : Int)))
    (harr0 : x0.arrivalTime ≤ s.current)
    (harr : ∀ (j : Nat) (x : Process), s.nextArr ≤ j → j < n2 → P[j]? = some x →
      x.arrivalTime ≤ s.current + x0.burstTime) :
    RrFcfsSim P (rr_run_state quantum s s.finished (rr_reset x0) rq3 n2) := by
  have hsl : rr_slice quantum (rr_reset x0) = x0.burstTime := by
    unfold rr_slice rr_reset
    simp only
    rw [if_neg (by omega)]
  have hfinb : decide (¬ ((rr_reset x0).remainingTime - rr_slice quantum (rr_reset x0) > 0)) =
      true := by
    rw [hsl]
    simp only [rr_reset, sub_self, gt_iff_lt, lt_self_iff_false, not_false_eq_true, decide_True]
  have hstart : (rr_reset x0).startTime < 0 := by
    simp only [rr_reset]; decide
  have hst : (if (fcfs_loop (P.take s.finished)).current < x0.arrivalTime then x0.arrivalTime
      else (fcfs_loop (P.take s.finished)).current) = s.current := by
    rcases h.cursor with e | ⟨x, hx, h1, e⟩
    · rw [← e, if_neg (by omega)]
    · rw [hx0] at hx
      cases hx
      rw [if_pos h1, e]
  have hstep := fcfs_loop_take_succ P s.finished x0 hx0
  constructor
  · show q_wf (if _ then rq3 else _)
    rw [hfinb]; exact hw3
  · simp only [rr_run_state, List.length_set]; exact h.len
  · show (if _ then s.finished + 1 else s.finished) ≤ n2
    rw [hfinb]; exact hfn
  · exact hn2
  · show q_contents (if _ then rq3 else _) =
      (List.range' (if _ then s.finished + 1 else s.finished)
        (n2 - (if _ then s.finished + 1 else s.finished))).map _
    rw [hfinb]; exact hc3
  · intro j x hj hx
    have hj1 : s.finished + 1 ≤ j := by
      have : (if decide (¬ ((rr_reset x0).remainingTime -
          rr_slice quantum (rr_reset x0) > 0)) = true then s.finished + 1 else s.finished) ≤ j := hj
      rw [hfinb] at this
      exact this
    show (s.p.set s.finished _)[j]? = _
    rw [List.getElem?_set_ne (by omega)]
    exact h.fresh j x (by omega) hx
  · intro j x hj hjn hx
    have hj1 : s.finished + 1 ≤ j := by
      have : (if decide (¬ ((rr_reset x0).remainingTime -
          rr_slice quantum (rr_reset x0) > 0)) = true then s.finished + 1 else s.finished) ≤ j := hj
      rw [hfinb] at this
      exact this
    have hjn2 : j < n2 := hjn
    show x.arrivalTime ≤ s.current + rr_slice quantum (rr_reset x0)
    rw [hsl]
    by_cases hlt : j < s.nextArr
    · have := h.arrived j x (by omega) hlt hx
      omega
    · exact harr j x (by omega) hjn2 hx
  · show (if _ then s.sumTa + _ else s.sumTa) = (fcfs_loop (P.take (if _ then _ else _))).sumTa
    rw [hfinb]
    simp only [if_true]
    rw [hsl, hstep]
    simp only [fcfs_step, hst, h.sum_ta, rr_reset]
  · show (if _ then s.sumWait + _ else s.sumWait) =
      (fcfs_loop (P.take (if _ then _ else _))).sumWait
    rw [hfinb]
    simp only [if_true]
    rw [hsl, hstep]
    simp only [fcfs_step, hst, h.sum_wait, rr_reset]
    ring
  · have hfd : (rr_run_state quantum s s.finished (rr_reset x0) rq3 n2).finished =
        s.finished + 1 := by
      show (if _ then s.finished + 1 else s.finished) = _
      rw [hfinb]; rfl
    have hresp : (rr_run_state quantum s s.finished (rr_reset x0) rq3 n2).sumResp =
        s.sumResp + (s.current - x0.arrivalTime) := by
      show (if (rr_reset x0).startTime < 0 then
        s.sumResp + (s.current - (rr_reset x0).arrivalTime) else s.sumResp) = _
      rw [if_pos hstart]; rfl
    rw [hfd, hresp, hstep]
    simp only [fcfs_step, hst, h.sum_resp]
  · left
    have hfd : (rr_run_state quantum s s.finished (rr_reset x0) rq3 n2).finished =
        s.finished + 1 := by
      show (if _ then s.finished + 1 else s.finished) = _
      rw [hfinb]; rfl
    have hcurr : (rr_run_state quantum s s.finished (rr_reset x0) rq3 n2).current =
        s.current + x0.burstTime := by
      show s.current + rr_slice quantum (rr_reset x0) = _
      rw [hsl]
    rw [hfd, hcurr, hstep]
    simp only [fcfs_step, hst]

theorem rr_fcfs_sim_step (quantum : Int) (P : List Process)
    (hb : ∀ x ∈ P, 0 < x.burstTime ∧ x.burstTime ≤ quantum) (s : RrState)
    (h : RrFcfsSim P s) (hfin : s.finished < s.p.length) :
    ∃ s1, rr_pass quantum s = .ok s1 ∧ RrFcfsSim P s1 := by
  have hlen := h.len
  have hfl := h.fin_le
  have hnl := h.next_le
  have hkl : s.finished < P.length := by omega
  have hx0 : P[s.finished]? = some P[s.finished] := List.getElem?_eq_getElem hkl
  have hcur := h.fresh s.finished _ (le_refl _) hx0
  obtain ⟨j1, rq1, he1, hj1, hw1, hc1, ha1, hn1⟩ :=
    rr_enqueue_spec s.current (s.p.drop s.nextArr) s.rq s.nextArr h.wf
  have hj1' : s.nextArr + j1 ≤ P.length := by
    simp only [List.length_drop] at hj1; omega
  rw [h.contents, ← List.map_append, range'_glue _ _ _ hfl] at hc1
  have ha1' : ∀ (k : Nat) (x : Process), s.nextArr ≤ k → k < s.nextArr + j1 →
      P[k]? = some x → x.arrivalTime ≤ s.current := by
    intro k x h1 h2 hx
    have := ha1 (k - s.nextArr) (rr_reset x) (by omega) (by
      rw [List.getElem?_drop]
      have e : s.nextArr + (k - s.nextArr) = k := by omega
      rw [e]
      exact h.fresh k x (by omega) hx)
    exact this
  by_cases hempty : q_empty rq1 = true
  · have hnil := (q_empty_iff rq1 hw1).mp hempty
    have hz : s.nextArr + j1 - s.finished = 0 := by
      have := congrArg List.length hc1
      rw [hnil] at this
      simp only [List.length_nil, List.length_map, List.length_range'] at this
      omega
    have hj0 : j1 = 0 := by omega
    have hnext : s.nextArr = s.finished := by omega
    subst hj0
    simp only [add_zero] at he1 hn1
    have hlt : s.current < (P[s.finished]).arrivalTime := by
      have := hn1 (rr_reset P[s.finished]) (by
        rw [List.getElem?_drop, add_zero, hnext]; exact hcur)
      exact this
    refine ⟨rr_idle_state s rq1 s.nextArr (rr_reset P[s.finished]),
      rr_pass_idle_eq quantum s rq1 s.nextArr _ he1 hempty (by rw [hnext]; exact hcur), ?_⟩
    exact rr_fcfs_sim_idle P s h rq1 _ hw1 hnil hnext hx0 hlt
  · have hempty' : q_empty rq1 = false := by
      cases hq : q_empty rq1
      · rfl
      · exact absurd hq hempty
    obtain ⟨v, rq2, hpop, hw2, hc2⟩ := q_pop_spec rq1 hw1 hempty'
    rw [hc1] at hc2
    obtain ⟨m, hm⟩ : ∃ m, s.nextArr + j1 - s.finished = m + 1 := by
      cases hm : s.nextArr + j1 - s.finished with
      | zero => rw [hm] at hc2; simp at hc2
      | succ m => exact ⟨m, rfl⟩
    rw [hm, List.range'_succ, List.map_cons, List.cons.injEq] at hc2
    obtain ⟨hv, hc2'⟩ := hc2
    subst hv
    have hi1 : s.finished < s.nextArr + j1 := by omega
    obtain ⟨j2, rq3, he2, hj2, hw3, hc3, ha2, _⟩ :=
      rr_enqueue_spec (s.current + rr_slice quantum (rr_reset P[s.finished]))
        (s.p.drop (s.nextArr + j1)) rq2 (s.nextArr + j1) hw2
    have hj2' : s.nextArr + j1 + j2 ≤ P.length := by
      simp only [List.length_drop] at hj2; omega
    have hbk := hb _ (List.getElem_mem hkl)
    have hsl : rr_slice quantum (rr_reset P[s.finished]) = (P[s.finished]).burstTime := by
      unfold rr_slice rr_reset
      simp only
      rw [if_neg (by omega)]
    refine ⟨_, rr_pass_run_eq quantum s rq1 rq2 rq3 _ _ s.finished _ he1 hempty' hpop hcur hi1
      he2, ?_⟩
    refine rr_fcfs_sim_run quantum P s h rq3 _ _ hw3 hx0 hbk (by omega) hj2' ?_ ?_ ?_
    · rw [hc3, ← hc2', ← List.map_append]
      have e1 : m = s.nextArr + j1 - (s.finished + 1) := by omega
      rw [e1, range'_glue _ _ _ (by omega)]
    · by_cases hlt : s.finished < s.nextArr
      · exact h.arrived _ _ (le_refl _) hlt hx0
      · exact ha1' _ _ (by omega) hi1 hx0
    · intro j x hj hjn hx
      by_cases hlt : j < s.nextArr + j1
      · have := ha1' j x hj hlt hx
        omega
      · rw [← hsl]
        exact ha2 (j - (s.nextArr + j1)) (rr_reset x) (by omega) (by
          rw [List.getElem?_drop]
          have e : s.nextArr + j1 + (j - (s.nextArr + j1)) = j := by omega
          rw [e]
          exact h.fresh j x (by omega) hx)

theorem rr_reach_sim (quantum : Int) (proc : List Process)
    (hb : ∀ x ∈ proc, 0 < x.burstTime ∧ x.burstTime ≤ quantum) (s : RrState)
    (hreach : RrReach quantum proc s) :
    RrFcfsSim (qsort cmp_arrival_pid (duplicate_proc_array proc)) s := by
  have hb1 : ∀ x ∈ qsort cmp_arrival_pid (duplicate_proc_array proc),
      0 < x.burstTime ∧ x.burstTime ≤ quantum := by
    intro x hx
    exact hb x ((qsort_perm cmp_arrival_pid (duplicate_proc_array proc)).mem_iff.mp hx)
  induction hreach with
  | init => exact rr_init_sim proc
  | step s s1 _ hfin hpass ih =>
    obtain ⟨s2, h2, hsim⟩ := rr_fcfs_sim_step quantum _ hb1 s ih hfin
    rw [hpass] at h2
    cases h2
    exact hsim

theorem sjf_pending_mem (p : List Process) (done : List Bool) (k : Int × Int) :
    k ∈ sjf_pending p done ↔
      ∃ (j : Nat) (x : Process), p[j]? = some x ∧ done[j]? = some false ∧ sjf_key x = k := by
  induction p generalizing done with
  | nil =>
    simp [sjf_pending]
  | cons y p ih =>
    cases done with
    | nil =>
      simp [sjf_pending]
    | cons d done =>
      constructor
      · intro hk
        simp only [sjf_pending] at hk
        by_cases hd : d = false
        · rw [if_pos hd, List.mem_cons] at hk
          rcases hk with e | hk
          · exact ⟨0, y, by simp, by simp [hd], e.symm⟩
          · obtain ⟨j, x, h1, h2, h3⟩ := (ih done).mp hk
            exact ⟨j + 1, x, by simpa using h1, by simpa using h2, h3⟩
        · rw [if_neg hd] at hk
          obtain ⟨j, x, h1, h2, h3⟩ := (ih done).mp hk
          exact ⟨j + 1, x, by simpa using h1, by simpa using h2, h3⟩
      · intro ⟨j, x, h1, h2, h3⟩
        simp only [sjf_pending]
        cases j with
        | zero =>
          simp only [List.getElem?_cons_zero, Option.some.injEq] at h1 h2
          rw [if_pos h2, h1, h3]
          exact List.mem_cons_self _ _
        | succ j =>
          simp only [List.getElem?_cons_succ] at h1 h2
          have := (ih done).mpr ⟨j, x, h1, h2, h3⟩
          by_cases hd : d = false
          · rw [if_pos hd]; exact List.mem_cons_of_mem _ this
          · rw [if_neg hd]; exact this

theorem sjf_pending_set (p : List Process) (done : List Bool) (b : Nat) (pb x : Process)
    (hp : p[b]? = some pb) (hd : done[b]? = some false) :
    (sjf_pending p done).Perm (sjf_key pb :: sjf_pending (p.set b x) (done.set b true)) := by
  induction p generalizing done b with
  | nil => simp at hp
  | cons y p ih =>
    cases done with
    | nil => simp at hd
    | cons d done =>
      cases b with
      | zero =>
        simp only [List.getElem?_cons_zero, Option.some.injEq] at hp hd
        subst hp hd
        simp only [List.set_cons_zero, sjf_pending, if_true, Bool.true_eq_false, if_false]
        exact List.Perm.refl _
      | succ b =>
        simp only [List.getElem?_cons_succ] at hp hd
        have := ih done b hp hd
        simp only [List.set_cons_succ, sjf_pending]
        by_cases hd1 : d = false
        · rw [if_pos hd1, if_pos hd1]
          exact (List.Perm.cons _ this).trans (List.Perm.swap _ _ _)
        · rw [if_neg hd1, if_neg hd1]
          exact this

theorem sjf_pending_init (p : List Process) :
    sjf_pending p (List.replicate p.length false) = p.map sjf_key := by
  induction p with
  | nil => rfl
  | cons y p ih =>
    simp only [List.length_cons, List.replicate_succ, sjf_pending, if_true, List.map_cons, ih]

theorem sjf_same_symm {s t : SjfState} (h : SjfSame s t) : SjfSame t s where
  current := h.current.symm
  completed := h.completed.symm
  len := h.len.symm
  sum_ta := h.sum_ta.symm
  sum_wait := h.sum_wait.symm
  sum_resp := h.sum_resp.symm
  pending := h.pending.symm

theorem sjf_same_pending {s t : SjfState} (h : SjfSame s t) (j : Nat) (x : Process)
    (hx : s.p[j]? = some x) (hd : s.done[j]? = some false) :
    ∃ (i : Nat) (y : Process), t.p[i]? = some y ∧ t.done[i]? = some false ∧
      y.arrivalTime = x.arrivalTime ∧ y.burstTime = x.burstTime := by
  have hm : sjf_key x ∈ sjf_pending s.p s.done :=
    (sjf_pending_mem s.p s.done _).mpr ⟨j, x, hx, hd, rfl⟩
  obtain ⟨i, y, h1, h2, h3⟩ := (sjf_pending_mem t.p t.done _).mp (h.pending.mem_iff.mp hm)
  simp only [sjf_key, Prod.mk.injEq] at h3
  exact ⟨i, y, h1, h2, h3.1, h3.2⟩

theorem sjf_same_ready {s t : SjfState} (h : SjfSame s t) (j : Nat) (x : Process)
    (hr : sjf_ready s.p s.done s.current j x) :
    ∃ (i : Nat) (y : Process), sjf_ready t.p t.done t.current i y ∧
      y.arrivalTime = x.arrivalTime ∧ y.burstTime = x.burstTime := by
  obtain ⟨i, y, h1, h2, h3, h4⟩ := sjf_same_pending h j x hr.1 hr.2.1
  refine ⟨i, y, ⟨h1, h2, ?_⟩, h3, h4⟩
  rw [h3, ← h.current]
  exact hr.2.2

theorem sjf_same_next_le {s t : SjfState} (h : SjfSame s t) (j : Nat) (x : Process)
    (hx : s.p[j]? = some x) (hd : s.done[j]? = some false) (hmax : x.arrivalTime ≤ INT_MAX) :
    sjf_next_arrival t.p t.done ≤ sjf_next_arrival s.p s.done := by
  obtain ⟨i, y, hy1, hy2, hy3⟩ := sjf_next_arrival_attained s.p s.done j x hx hd hmax
  obtain ⟨i1, y1, h1, h2, h3, _⟩ := sjf_same_pending h i y hy1 hy2
  have := sjf_next_arrival_le t.p t.done i1 y1 h1 h2
  omega

theorem sjf_same_idle {s t : SjfState} (h : SjfSame s t) (j : Nat) (x : Process)
    (hx : s.p[j]? = some x) (hd : s.done[j]? = some false) (hmax : x.arrivalTime ≤ INT_MAX) :
    SjfSame (sjf_idle_state s) (sjf_idle_state t) where
  current := by
    obtain ⟨i, y, h1, h2, h3, _⟩ := sjf_same_pending h j x hx hd
    have a := sjf_same_next_le h j x hx hd hmax
    have b := sjf_same_next_le (sjf_same_symm h) i y h1 h2 (by omega)
    exact le_antisymm b a
  completed := h.completed
  len := h.len
  sum_ta := h.sum_ta
  sum_wait := h.sum_wait
  sum_resp := h.sum_resp
  pending := h.pending

theorem sjf_same_dispatch {s t : SjfState} (h : SjfSame s t) (b c : Nat) (pb pc : Process)
    (hb : sjf_ready s.p s.done s.current b pb) (hc : sjf_ready t.p t.done t.current c pc)
    (e1 : pb.arrivalTime = pc.arrivalTime) (e2 : pb.burstTime = pc.burstTime) :
    SjfSame (sjf_dispatch_state s b pb) (sjf_dispatch_state t c pc) where
  current := by simp only [sjf_dispatch_state, h.current, e2]
  completed := by simp only [sjf_dispatch_state, h.completed]
  len := by simp only [sjf_dispatch_state, List.length_set, h.len]
  sum_ta := by simp only [sjf_dispatch_state, h.current, h.sum_ta, e1, e2]
  sum_wait := by simp only [sjf_dispatch_state, h.current, h.sum_wait, e1]
  sum_resp := by simp only [sjf_dispatch_state, h.current, h.sum_resp, e1]
  pending := by
    have h1 := sjf_pending_set s.p s.done b pb
      { pb with startTime := s.current, completionTime := s.current + pb.burstTime } hb.1 hb.2.1
    have h2 := sjf_pending_set t.p t.done c pc
      { pc with startTime := t.current, completionTime := t.current + pc.burstTime } hc.1 hc.2.1
    have hk : sjf_key pb = sjf_key pc := by simp only [sjf_key, e1, e2]
    rw [hk] at h1
    exact List.Perm.cons_inv ((h1.symm.trans h.pending).trans h2)

theorem sjf_same_pass (proc proc1 : List Process)
    (hv : ∀ x ∈ proc, x.burstTime < INT_MAX ∧ x.arrivalTime ≤ INT_MAX)
    (hv1 : ∀ x ∈ proc1, x.burstTime < INT_MAX ∧ x.arrivalTime ≤ INT_MAX)
    (s t : SjfState) (hs : SjfInv proc s) (ht : SjfInv proc1 t) (hsame : SjfSame s t)
    (hc : s.completed < s.p.length) (s1 : SjfState) (hpass : sjf_pass s = .ok s1) :
    ∃ t1, sjf_pass t = .ok t1 ∧ SjfSame s1 t1 ∧ SjfInv proc s1 ∧ SjfInv proc1 t1 := by
  have hlen : s.done.length = s.p.length := by rw [hs.len_done, hs.len_p]
  have hlen1 : t.done.length = t.p.length := by rw [ht.len_done, ht.len_p]
  rcases sjf_pass_cases s hlen (sjf_inv_bursts hs (fun x hx => (hv x hx).1)) with
    ⟨hno, hp⟩ | ⟨b, pb, hr, hleast, hp⟩
  · rw [hpass] at hp
    cases hp
    rcases sjf_pass_cases t hlen1 (sjf_inv_bursts ht (fun x hx => (hv1 x hx).1)) with
      ⟨_, hp1⟩ | ⟨c, pc, hr1, _, _⟩
    · refine ⟨_, hp1, ?_, sjf_idle_inv hs, sjf_idle_inv ht⟩
      have hcnt : s.done.count true < s.done.length := by
        rw [← hs.count, hlen]; exact hc
      obtain ⟨k, hk⟩ := exists_false_of_count_lt s.done hcnt
      have hkl : k < s.p.length := by
        have := (List.getElem?_eq_some.mp hk).1; omega
      have hpk : s.p[k]? = some s.p[k] := List.getElem?_eq_getElem hkl
      have hkmax : s.p[k].arrivalTime ≤ INT_MAX := by
        obtain ⟨y, hy, _, e2, _⟩ := hs.input k _ hpk
        rw [e2]; exact (hv y (List.mem_iff_getElem?.mpr ⟨k, hy⟩)).2
      exact sjf_same_idle hsame k _ hpk hk hkmax
    · obtain ⟨i, y, hy, _, _⟩ := sjf_same_ready (sjf_same_symm hsame) c pc hr1
      exact absurd hy (hno i y)
  · rw [hpass] at hp
    cases hp
    rcases sjf_pass_cases t hlen1 (sjf_inv_bursts ht (fun x hx => (hv1 x hx).1)) with
      ⟨hno1, _⟩ | ⟨c, pc, hr1, hleast1, hp1⟩
    · obtain ⟨i, y, hy, _, _⟩ := sjf_same_ready hsame b pb hr
      exact absurd hy (hno1 i y)
    · refine ⟨_, hp1, ?_, sjf_dispatch_inv hs hr, sjf_dispatch_inv ht hr1⟩
      obtain ⟨i, y, hy, ya, yb⟩ := sjf_same_ready hsame b pb hr
      obtain ⟨i1, y1, hy1, y1a, y1b⟩ := sjf_same_ready (sjf_same_symm hsame) c pc hr1
      have l1 := (hleast i1 y1 hy1).1
      have l2 := (hleast1 i y hy).1
      exact sjf_same_dispatch hsame b c pb pc hr hr1 (by omega) (by omega)

theorem sjf_same_loop (proc proc1 : List Process)
    (hv : ∀ x ∈ proc, x.burstTime < INT_MAX ∧ x.arrivalTime ≤ INT_MAX)
    (hv1 : ∀ x ∈ proc1, x.burstTime < INT_MAX ∧ x.arrivalTime ≤ INT_MAX) (fuel : Nat) :
    ∀ (s t r : SjfState), SjfInv proc s → SjfInv proc1 t → SjfSame s t →
      sjf_loop fuel s = .ok r → ∃ r1, sjf_loop fuel t = .ok r1 ∧ SjfSame r r1 := by
  induction fuel with
  | zero =>
    intro s t r _ _ hsame hr
    simp only [sjf_loop] at hr ⊢
    by_cases hc : s.completed < s.p.length
    · rw [if_pos hc] at hr; cases hr
    · rw [if_neg hc] at hr
      cases hr
      rw [if_neg (by rw [← hsame.completed, ← hsame.len]; exact hc)]
      exact ⟨t, rfl, hsame⟩
  | succ fuel ih =>
    intro s t r hs ht hsame hr
    simp only [sjf_loop] at hr ⊢
    by_cases hc : s.completed < s.p.length
    · rw [if_pos hc] at hr
      rw [if_pos (by rw [← hsame.completed, ← hsame.len]; exact hc)]
      cases hp : sjf_pass s with
      | error e => rw [hp] at hr; cases hr
      | ok s1 =>
        rw [hp] at hr
        obtain ⟨t1, hp1, hsame1, hs1, ht1⟩ := sjf_same_pass proc proc1 hv hv1 s t hs ht hsame hc
          s1 hp
        rw [hp1]
        exact ih s1 t1 r hs1 ht1 hsame1 hr
    · rw [if_neg hc] at hr
      cases hr
      rw [if_neg (by rw [← hsame.completed, ← hsame.len]; exact hc)]
      exact ⟨t, rfl, hsame⟩

theorem sjf_init_same (proc proc1 : List Process)
    (hperm : (proc1.map sjf_key).Perm (proc.map sjf_key)) :
    SjfSame (sjf_init proc) (sjf_init proc1) where
  current := rfl
  completed := rfl
  len := by
    have := hperm.length_eq
    simp only [List.length_map] at this
    simp only [sjf_init, duplicate_proc_array, this]
  sum_ta := rfl
  sum_wait := rfl
  sum_resp := rfl
  pending := by
    simp only [sjf_init, duplicate_proc_array, sjf_pending_init]
    exact hperm.symm

/-- C18. `sjf_metrics` does not depend on the order of its input or on pids.
For every process list `proc` with `0 <= arrivalTime` and `0 < burstTime <
INT_MAX` (fields within the range of `int`) and every list `proc1` with the
same multiset of (arrivalTime, burstTime) pairs, that is, every permutation
of `proc` under any relabelling of pids, the two calls return the same Metrics
(from `2 n` passes on), and the two loops end with the same three sums and the
same cursor.  Yet the scan is index-sensitive: in every reachable
state with a ready process, the process dispatched has the lowest index among
the ready processes with its burstTime and arrivalTime. -/
theorem sjf_metrics_order_independent (proc proc1 : List Process)
    (hvalid : ∀ x ∈ proc, 0 ≤ x.arrivalTime ∧ x.arrivalTime ≤ INT_MAX ∧
      0 < x.burstTime ∧ x.burstTime < INT_MAX)
    (hperm : (proc1.map sjf_key).Perm (proc.map sjf_key)) :
    (∃ m, ∀ fuel, 2 * proc.length ≤ fuel →
      sjf_metrics fuel proc = .ok m ∧ sjf_metrics fuel proc1 = .ok m) ∧
    (∃ s t, (∀ fuel, 2 * proc.length ≤ fuel →
        sjf_loop fuel (sjf_init proc) = .ok s ∧ sjf_loop fuel (sjf_init proc1) = .ok t) ∧
      s.sumTa = t.sumTa ∧ s.sumWait = t.sumWait ∧ s.sumResp = t.sumResp ∧
      s.current = t.current) ∧
    (∀ s, SjfReach proc s → ∀ (i : Nat) (y : Process), sjf_ready s.p s.done s.current i y →
      ∃ (b : Nat) (pb : Process), sjf_ready s.p s.done s.current b pb ∧
        sjf_pass s = .ok (sjf_dispatch_state s b pb) ∧
        ∀ (j : Nat) (x : Process), sjf_ready s.p s.done s.current j x →
          x.burstTime = pb.burstTime → x.arrivalTime = pb.arrivalTime → b ≤ j) := by
  have hv : ∀ x ∈ proc, x.burstTime < INT_MAX ∧ x.arrivalTime ≤ INT_MAX :=
    fun x hx => ⟨(hvalid x hx).2.2.2, (hvalid x hx).2.1⟩
  have hv1 : ∀ x ∈ proc1, x.burstTime < INT_MAX ∧ x.arrivalTime ≤ INT_MAX := by
    intro x hx
    have hm : sjf_key x ∈ proc.map sjf_key := hperm.mem_iff.mp (List.mem_map_of_mem _ hx)
    obtain ⟨y, hy, e⟩ := List.mem_map.mp hm
    simp only [sjf_key, Prod.mk.injEq] at e
    have := hv y hy
    rw [← e.1, ← e.2]
    exact this
  have hlen : proc1.length = proc.length := by
    have := hperm.length_eq
    simpa only [List.length_map] using this
  obtain ⟨s, hs, _, _⟩ := sjf_loop_total proc hv
  obtain ⟨t, ht, _, _⟩ := sjf_loop_total proc1 hv1
  obtain ⟨r1, hr1, hsame⟩ := sjf_same_loop proc proc1 hv hv1 (2 * proc.length)
    (sjf_init proc) (sjf_init proc1) s (sjf_init_inv proc) (sjf_init_inv proc1)
    (sjf_init_same proc proc1 hperm) (hs _ (le_refl _))
  rw [ht _ (by rw [hlen])] at hr1
  cases hr1
  refine ⟨?_, ?_, ?_⟩
  · refine ⟨make_metrics s.sumTa s.sumWait s.sumResp proc.length, ?_⟩
    intro fuel hfuel
    constructor
    · simp only [sjf_metrics, hs fuel hfuel]
    · simp only [sjf_metrics, ht fuel (by rw [hlen]; exact hfuel), hlen, hsame.sum_ta,
        hsame.sum_wait, hsame.sum_resp]
  · exact ⟨s, t, fun fuel hfuel => ⟨hs fuel hfuel, ht fuel (by rw [hlen]; exact hfuel)⟩,
      hsame.sum_ta, hsame.sum_wait, hsame.sum_resp, hsame.current⟩
  · intro s hreach i y hy
    have hinv := sjf_reach_inv proc s hreach
    have hl : s.done.length = s.p.length := by rw [hinv.len_done, hinv.len_p]
    rcases sjf_pass_cases s hl (sjf_inv_bursts hinv (fun x hx => (hv x hx).1)) with
      ⟨hno, _⟩ | ⟨b, pb, hr, hleast, hp⟩
    · exact absurd hy (hno i y)
    · refine ⟨b, pb, hr, hp, ?_⟩
      intro j x hx e1 e2
      by_contra hlt
      have := (hleast j x hx).2 (by omega)
      omega

/-- Instance of C18 on `{(1,0,3),(2,1,2)}` and its reversal with pids 7 and 9. -/
theorem sjf_metrics_order_independent_witness :
    (∃ m, ∀ fuel, 2 * [mkProc 1 0 3, mkProc 2 1 2].length ≤ fuel →
      sjf_metrics fuel [mkProc 1 0 3, mkProc 2 1 2] = .ok m ∧
      sjf_metrics fuel [mkProc 7 1 2, mkProc 9 0 3] = .ok m) ∧
    (∃ s t, (∀ fuel, 2 * [mkProc 1 0 3, mkProc 2 1 2].length ≤ fuel →
        sjf_loop fuel (sjf_init [mkProc 1 0 3, mkProc 2 1 2]) = .ok s ∧
        sjf_loop fuel (sjf_init [mkProc 7 1 2, mkProc 9 0 3]) = .ok t) ∧
      s.sumTa = t.sumTa ∧ s.sumWait = t.sumWait ∧ s.sumResp = t.sumResp ∧
      s.current = t.current) ∧
    (∀ s, SjfReach [mkProc 1 0 3, mkProc 2 1 2] s →
      ∀ (i : Nat) (y : Process), sjf_ready s.p s.done s.current i y →
      ∃ (b : Nat) (pb : Process), sjf_ready s.p s.done s.current b pb ∧
        sjf_pass s = .ok (sjf_dispatch_state s b pb) ∧
        ∀ (j : Nat) (x : Process), sjf_ready s.p s.done s.current j x →
          x.burstTime = pb.burstTime → x.arrivalTime = pb.arrivalTime → b ≤ j) :=
  sjf_metrics_order_independent [mkProc 1 0 3, mkProc 2 1 2] [mkProc 7 1 2, mkProc 9 0 3]
    (by decide) (List.Perm.swap _ _ _)

/-- Two processes with equal burstTime and arrivalTime: the first scan of
`sjf_metrics` dispatches index 0, whichever pid stands there. -/
theorem sjf_tie_lowest_index_example :
    sjf_pass (sjf_init [mkProc 2 0 3, mkProc 1 0 3]) =
      .ok (sjf_dispatch_state (sjf_init [mkProc 2 0 3, mkProc 1 0 3]) 0 (mkProc 2 0 3)) := by
  rfl

theorem max_arrival_nonneg (proc : List Process) : 0 ≤ max_arrival proc := by
  induction proc with
  | nil => exact le_refl _
  | cons x rest ih => exact le_trans ih (le_max_right _ _)

theorem le_max_arrival (proc : List Process) (x : Process) (hx : x ∈ proc) :
    x.arrivalTime ≤ max_arrival proc := by
  induction proc with
  | nil => cases hx
  | cons y rest ih =>
    rcases List.mem_cons.mp hx with e | h
    · subst e; exact le_max_left _ _
    · exact le_trans (ih h) (le_max_right _ _)

theorem max_arrival_le (proc : List Process) (m : Int) (h0 : 0 ≤ m)
    (h : ∀ x ∈ proc, x.arrivalTime ≤ m) : max_arrival proc ≤ m := by
  induction proc with
  | nil => exact h0
  | cons y rest ih =>
    exact max_le (h y (List.mem_cons_self _ _)) (ih fun x hx => h x (List.mem_cons_of_mem _ hx))

theorem max_arrival_perm {l1 l2 : List Process} (h : l1.Perm l2) :
    max_arrival l1 = max_arrival l2 := by
  apply le_antisymm
  · exact max_arrival_le l1 _ (max_arrival_nonneg l2)
      (fun x hx => le_max_arrival l2 x (h.mem_iff.mp hx))
  · exact max_arrival_le l2 _ (max_arrival_nonneg l1)
      (fun x hx => le_max_arrival l1 x (h.mem_iff.mpr hx))

theorem burst_le_sum (proc : List Process) (hb : ∀ x ∈ proc, 0 ≤ x.burstTime) (x : Process)
    (hx : x ∈ proc) : x.burstTime ≤ (proc.map fun y => y.burstTime).sum := by
  induction proc with
  | nil => cases hx
  | cons y rest ih =>
    have hrest : 0 ≤ (rest.map fun y => y.burstTime).sum :=
      List.sum_nonneg (by
        intro v hv
        obtain ⟨z, hz, e⟩ := List.mem_map.mp hv
        rw [← e]
        exact hb z (List.mem_cons_of_mem _ hz))
    simp only [List.map_cons, List.sum_cons]
    rcases List.mem_cons.mp hx with e | h
    · subst e; omega
    · have := ih (fun z hz => hb z (List.mem_cons_of_mem _ hz)) h
      have := hb y (List.mem_cons_self _ _)
      omega

theorem orderedInsert_congr (r1 r2 : Process → Process → Prop) [DecidableRel r1]
    [DecidableRel r2] (a : Process) (l : List Process) (h : ∀ b ∈ l, r1 a b ↔ r2 a b) :
    l.orderedInsert r1 a = l.orderedInsert r2 a := by
  induction l with
  | nil => rfl
  | cons b rest ih =>
    have hb := h b (List.mem_cons_self _ _)
    simp only [List.orderedInsert]
    by_cases h1 : r1 a b
    · rw [if_pos h1, if_pos (hb.mp h1)]
    · rw [if_neg h1, if_neg (fun h2 => h1 (hb.mpr h2)),
        ih (fun c hc => h c (List.mem_cons_of_mem _ hc))]

theorem insertionSort_congr (r1 r2 : Process → Process → Prop) [DecidableRel r1]
    [DecidableRel r2] (l : List Process) (h : ∀ a ∈ l, ∀ b ∈ l, r1 a b ↔ r2 a b) :
    l.insertionSort r1 = l.insertionSort r2 := by
  induction l with
  | nil => rfl
  | cons a rest ih =>
    simp only [List.insertionSort]
    rw [ih (fun x hx y hy => h x (List.mem_cons_of_mem _ hx) y (List.mem_cons_of_mem _ hy))]
    apply orderedInsert_congr
    intro b hb
    have hb1 : b ∈ rest := (List.perm_insertionSort r2 rest).mem_iff.mp hb
    exact h a (List.mem_cons_self _ _) b (List.mem_cons_of_mem _ hb1)

/-- Where no subtraction of the comparator overflows, sorting with the 32-bit
comparator is sorting with the exact one. -/
theorem qsort32_eq (l : List Process)
    (harr : ∀ x ∈ l, 0 ≤ x.arrivalTime ∧ x.arrivalTime ≤ INT_MAX) (hpid : pids_fit l) :
    qsort cmp_arrival_pid32 l = qsort cmp_arrival_pid l := by
  unfold qsort
  apply insertionSort_congr
  intro a ha b hb
  rw [(cmp_arrival_pid32_exact a b (harr a ha) (harr b hb) (hpid a ha b hb)).1]

theorem fcfs_step32_eq (s : FcfsState) (x : Process) (h0 : 0 ≤ s.current)
    (ha : 0 ≤ x.arrivalTime) (hb : 0 ≤ x.burstTime)
    (hmax : max s.current x.arrivalTime + x.burstTime ≤ INT_MAX) :
    fcfs_step32 s x = fcfs_step s x := by
  unfold INT_MAX at hmax
  have hc : (if s.current < x.arrivalTime then x.arrivalTime else s.current) =
      max s.current x.arrivalTime := by
    split_ifs with h
    · rw [max_eq_right (le_of_lt h)]
    · rw [max_eq_left (by omega)]
  have hm1 := le_max_left s.current x.arrivalTime
  have hm2 := le_max_right s.current x.arrivalTime
  simp only [fcfs_step32, fcfs_step, hc]
  rw [wrap32_id (max s.current x.arrivalTime + x.burstTime) (by omega) (by omega),
    wrap32_id (max s.current x.arrivalTime + x.burstTime - x.arrivalTime) (by omega) (by omega),
    wrap32_id (max s.current x.arrivalTime - x.arrivalTime) (by omega) (by omega)]

theorem fcfs_fold32_eq (l : List Process) (s : FcfsState) (m : Int) (h0 : 0 ≤ s.current)
    (hl : ∀ x ∈ l, 0 ≤ x.arrivalTime ∧ x.arrivalTime ≤ m ∧ 0 ≤ x.burstTime)
    (hmax : max s.current m + (l.map fun x => x.burstTime).sum ≤ INT_MAX) :
    l.foldl fcfs_step32 s = l.foldl fcfs_step s := by
  induction l generalizing s with
  | nil => rfl
  | cons a rest ih =>
    obtain ⟨ha0, ham, hab⟩ := hl a (List.mem_cons_self _ _)
    have hrest : 0 ≤ (rest.map fun y => y.burstTime).sum :=
      List.sum_nonneg (by
        intro v hv
        obtain ⟨z, hz, e⟩ := List.mem_map.mp hv
        rw [← e]
        exact (hl z (List.mem_cons_of_mem _ hz)).2.2)
    simp only [List.map_cons, List.sum_cons] at hmax
    have hm1 := le_max_left s.current m
    have hm2 := le_max_right s.current m
    have hle : max s.current a.arrivalTime ≤ max s.current m := max_le hm1 (le_trans ham hm2)
    have hstep := fcfs_step32_eq s a h0 ha0 hab (by omega)
    simp only [List.foldl_cons, hstep]
    apply ih
    · simp only [fcfs_step]
      split_ifs <;> omega
    · intro x hx; exact hl x (List.mem_cons_of_mem _ hx)
    · have hcur : (fcfs_step s a).current = max s.current a.arrivalTime + a.burstTime := by
        simp only [fcfs_step]
        split_ifs with h
        · rw [max_eq_right (le_of_lt h)]
        · rw [max_eq_left (by omega)]
      rw [hcur]
      have : max (max s.current a.arrivalTime + a.burstTime) m ≤
          max s.current m + a.burstTime := max_le (by omega) (by omega)
      omega

theorem sum_done_nonneg (f : Process → Int) (p : List Process) (done : List Bool)
    (hf : ∀ x ∈ p, 0 ≤ f x) : 0 ≤ sum_done f p done := by
  induction p generalizing done with
  | nil => cases done <;> exact le_refl _
  | cons x p ih =>
    cases done with
    | nil => exact le_refl _
    | cons d done =>
      simp only [sum_done]
      have := ih done (fun y hy => hf y (List.mem_cons_of_mem _ hy))
      have := hf x (List.mem_cons_self _ _)
      split_ifs <;> omega

theorem sum_done_le (f : Process → Int) (p : List Process) (done : List Bool)
    (hf : ∀ x ∈ p, 0 ≤ f x) : sum_done f p done ≤ (p.map f).sum := by
  induction p generalizing done with
  | nil => cases done <;> exact le_refl _
  | cons x p ih =>
    have hx := hf x (List.mem_cons_self _ _)
    have hrest : 0 ≤ (p.map f).sum := List.sum_nonneg (by
      intro v hv
      obtain ⟨z, hz, e⟩ := List.mem_map.mp hv
      rw [← e]
      exact hf z (List.mem_cons_of_mem _ hz))
    cases done with
    | nil =>
      simp only [sum_done, List.map_cons, List.sum_cons]
      omega
    | cons d done =>
      simp only [sum_done, List.map_cons, List.sum_cons]
      have := ih done (fun y hy => hf y (List.mem_cons_of_mem _ hy))
      split_ifs <;> omega

theorem sum_done_add_le (f : Process → Int) (p : List Process) (done : List Bool) (b : Nat)
    (pb : Process) (hf : ∀ x ∈ p, 0 ≤ f x) (hp : p[b]? = some pb)
    (hd : done[b]? = some false) : sum_done f p done + f pb ≤ (p.map f).sum := by
  have hbl : b < p.length := (List.getElem?_eq_some.mp hp).1
  have h1 := sum_done_set f p done b pb hbl hd
  have e : p.set b pb = p := by
    apply List.ext_getElem?
    intro i
    by_cases hi : b = i
    · subst hi
      rw [List.getElem?_set_eq_of_lt _ hbl, hp]
    · rw [List.getElem?_set_ne hi]
  rw [e] at h1
  rw [← h1]
  exact sum_done_le f p _ hf

theorem sjf_bursts_eq {proc : List Process} {s : SjfState} (hinv : SjfInv proc s) :
    (s.p.map fun x => x.burstTime) = proc.map fun x => x.burstTime := by
  apply List.ext_getElem?
  intro k
  simp only [List.getElem?_map]
  cases hk : s.p[k]? with
  | none =>
    have h1 : s.p.length ≤ k := List.getElem?_eq_none_iff.mp hk
    rw [hinv.len_p] at h1
    rw [List.getElem?_eq_none_iff.mpr h1]
  | some x =>
    obtain ⟨y, hy, _, _, e3⟩ := hinv.input k x hk
    rw [hy]
    simp only [Option.map_some', e3]

theorem sjf_inv_valid {proc : List Process} {s : SjfState} (hinv : SjfInv proc s)
    (hvalid : ∀ x ∈ proc, 0 ≤ x.arrivalTime ∧ 0 ≤ x.burstTime) :
    ∀ x ∈ s.p, 0 ≤ x.arrivalTime ∧ x.arrivalTime ≤ max_arrival proc ∧ 0 ≤ x.burstTime := by
  intro x hx
  obtain ⟨k, hk⟩ := List.mem_iff_getElem?.mp hx
  obtain ⟨y, hy, _, e2, e3⟩ := hinv.input k x hk
  have hym : y ∈ proc := List.mem_iff_getElem?.mpr ⟨k, hy⟩
  rw [e2, e3]
  exact ⟨(hvalid y hym).1, le_max_arrival proc y hym, (hvalid y hym).2⟩

theorem sjf_dispatch32_eq (proc : List Process)
    (hvalid : ∀ x ∈ proc, 0 ≤ x.arrivalTime ∧ 0 ≤ x.burstTime) (hno : no_overflow proc)
    (s : SjfState) (hinv : SjfInv proc s) (hbound : SjfBound proc s) (b : Nat) (pb : Process)
    (hr : sjf_ready s.p s.done s.current b pb) :
    0 ≤ s.current + pb.burstTime ∧ s.current + pb.burstTime ≤ INT_MAX ∧
    0 ≤ pb.arrivalTime ∧ pb.arrivalTime ≤ s.current ∧ 0 ≤ pb.burstTime := by
  have hv := sjf_inv_valid hinv hvalid
  obtain ⟨h1, h2, h3⟩ := hv pb (List.mem_iff_getElem?.mpr ⟨b, hr.1⟩)
  have hs := sum_done_add_le (fun x => x.burstTime) s.p s.done b pb
    (fun x hx => (hv x hx).2.2) hr.1 hr.2.1
  rw [sjf_bursts_eq hinv] at hs
  simp only at hs
  unfold no_overflow at hno
  obtain ⟨hb1, hb2⟩ := hbound
  have := hr.2.2
  refine ⟨by omega, by omega, h1, this, h3⟩

theorem sjf_pass32_eq (proc : List Process)
    (hvalid : ∀ x ∈ proc, 0 ≤ x.arrivalTime ∧ 0 ≤ x.burstTime) (hno : no_overflow proc)
    (s : SjfState) (hinv : SjfInv proc s) (hbound : SjfBound proc s) :
    sjf_pass32 s = sjf_pass s := by
  unfold sjf_pass32 sjf_pass
  cases hsel : sjf_select s.p s.done s.current with
  | error e => rfl
  | ok acc =>
    obtain ⟨best, bb⟩ := acc
    simp only
    rcases sjf_select_ok s.p s.done s.current _ hsel with h1 | ⟨b, pb, h1, h2⟩
    · simp only at h1
      subst h1
      rfl
    · simp only at h1
      subst h1
      have hnn : ¬ ((b : Int) < 0) := not_lt.mpr (Int.ofNat_nonneg b)
      have hbn : (b : Int).toNat = b := Int.toNat_ofNat b
      obtain ⟨r1, r2, r3, r4, r5⟩ := sjf_dispatch32_eq proc hvalid hno s hinv hbound b pb h2
      unfold INT_MAX at r2
      simp only [if_neg hnn, hbn, h2.1]
      rw [wrap32_id (s.current + pb.burstTime) (by omega) (by omega),
        wrap32_id (s.current + pb.burstTime - pb.arrivalTime) (by omega) (by omega),
        wrap32_id (s.current - pb.arrivalTime) (by omega) (by omega)]

theorem sjf_pass_bound (proc : List Process)
    (hvalid : ∀ x ∈ proc, 0 ≤ x.arrivalTime ∧ 0 ≤ x.burstTime) (hno : no_overflow proc)
    (s s1 : SjfState) (hinv : SjfInv proc s) (hbound : SjfBound proc s)
    (hc : s.completed < s.p.length) (hpass : sjf_pass s = .ok s1) : SjfBound proc s1 := by
  have hv := sjf_inv_valid hinv hvalid
  have hsn := sum_done_nonneg (fun x => x.burstTime) s.p s.done (fun x hx => (hv x hx).2.2)
  rcases sjf_pass_ok_cases s s1 hpass with e | ⟨b, pb, hr, e⟩
  · subst e
    have hcnt : s.done.count true < s.done.length := by
      rw [← hinv.count, hinv.len_done, ← hinv.len_p]; exact hc
    obtain ⟨k, hk⟩ := exists_false_of_count_lt s.done hcnt
    have hkl : k < s.p.length := by
      have := (List.getElem?_eq_some.mp hk).1
      have := hinv.len_done
      have := hinv.len_p
      omega
    have hpk : s.p[k]? = some s.p[k] := List.getElem?_eq_getElem hkl
    have hkv := hv _ (List.getElem_mem hkl)
    have hmx : max_arrival proc ≤ INT_MAX := by
      unfold no_overflow at hno
      have : 0 ≤ (proc.map fun x => x.burstTime).sum := List.sum_nonneg (by
        intro v hv1
        obtain ⟨z, hz, e⟩ := List.mem_map.mp hv1
        rw [← e]
        exact (hvalid z hz).2)
      omega
    obtain ⟨i, y, hy1, _, hy3⟩ :=
      sjf_next_arrival_attained s.p s.done k _ hpk hk (by omega)
    have hyv := hv y (List.mem_iff_getElem?.mpr ⟨i, hy1⟩)
    refine ⟨?_, ?_⟩
    · show 0 ≤ sjf_next_arrival s.p s.done
      omega
    · show sjf_next_arrival s.p s.done ≤ _
      have : (sjf_idle_state s).p = s.p := rfl
      have : (sjf_idle_state s).done = s.done := rfl
      simp only [sjf_idle_state]
      omega
  · subst e
    obtain ⟨r1, _, _, _, _⟩ := sjf_dispatch32_eq proc hvalid hno s hinv hbound b pb hr
    refine ⟨r1, ?_⟩
    simp only [sjf_dispatch_state]
    rw [sum_done_set _ _ _ _ _ (sjf_ready_lt hr) hr.2.1]
    have := hbound.2
    simp only
    omega

theorem sjf_init_bound (proc : List Process) : SjfBound proc (sjf_init proc) := by
  refine ⟨le_refl _, ?_⟩
  simp only [sjf_init]
  rw [sum_done_replicate]
  have := max_arrival_nonneg proc
  omega

theorem sjf_reach_bound (proc : List Process)
    (hvalid : ∀ x ∈ proc, 0 ≤ x.arrivalTime ∧ 0 ≤ x.burstTime) (hno : no_overflow proc)
    (s : SjfState) (hreach : SjfReach proc s) : SjfBound proc s := by
  induction hreach with
  | init => exact sjf_init_bound proc
  | step s s1 hr hc hpass ih =>
    exact sjf_pass_bound proc hvalid hno s s1 (sjf_reach_inv proc s hr) ih hc hpass

theorem sjf_reach32_reach (proc : List Process)
    (hvalid : ∀ x ∈ proc, 0 ≤ x.arrivalTime ∧ 0 ≤ x.burstTime) (hno : no_overflow proc)
    (s : SjfState) (hreach : SjfReach32 proc s) : SjfReach proc s := by
  induction hreach with
  | init => exact SjfReach.init
  | step s s1 _ hc hpass ih =>
    rw [sjf_pass32_eq proc hvalid hno s (sjf_reach_inv proc s ih)
      (sjf_reach_bound proc hvalid hno s ih)] at hpass
    exact SjfReach.step s s1 ih hc hpass

theorem sjf_loop32_eq (proc : List Process)
    (hvalid : ∀ x ∈ proc, 0 ≤ x.arrivalTime ∧ 0 ≤ x.burstTime) (hno : no_overflow proc)
    (fuel : Nat) :
    ∀ s, SjfReach proc s → sjf_loop32 fuel s = sjf_loop fuel s := by
  induction fuel with
  | zero => intro s _; rfl
  | succ fuel ih =>
    intro s hreach
    simp only [sjf_loop32, sjf_loop]
    by_cases hc : s.completed < s.p.length
    · rw [if_pos hc, if_pos hc, sjf_pass32_eq proc hvalid hno s (sjf_reach_inv proc s hreach)
        (sjf_reach_bound proc hvalid hno s hreach)]
      cases hp : sjf_pass s with
      | error e => rfl
      | ok s1 => exact ih s1 (SjfReach.step s s1 hreach hc hp)
    · rw [if_neg hc, if_neg hc]

theorem rr_pass32_eq (quantum : Int) (hq : 0 < quantum) (s : RrState) (hr : RrRange s) :
    rr_pass32 quantum s = rr_pass quantum s := by
  obtain ⟨hc0, hall⟩ := hr
  unfold rr_pass32 rr_pass
  cases he : rr_enqueue s.current (s.p.drop s.nextArr) s.rq s.nextArr with
  | mk rq1 nextArr1 =>
    simp only
    by_cases hempty : q_empty rq1 = true
    · rw [if_pos hempty, if_pos hempty]
    · rw [if_neg hempty, if_neg hempty]
      cases hpop : q_pop rq1 with
      | error e => rfl
      | ok r =>
        obtain ⟨idx, rq2⟩ := r
        simp only
        by_cases hneg : idx < 0
        · rw [if_pos hneg, if_pos hneg]
        · rw [if_neg hneg, if_neg hneg]
          cases hcur : s.p[idx.toNat]? with
          | none => rfl
          | some cur =>
            obtain ⟨a0, b0, ab, r0, cr⟩ := hall cur (List.mem_iff_getElem?.mpr ⟨_, hcur⟩)
            unfold INT_MAX at ab cr
            have hsl : 0 ≤ (if cur.remainingTime > quantum then quantum else cur.remainingTime) ∧
                (if cur.remainingTime > quantum then quantum else cur.remainingTime) ≤
                  cur.remainingTime := by
              split_ifs with h
              · exact ⟨le_of_lt hq, le_of_lt h⟩
              · exact ⟨r0, le_refl _⟩
            have e1 : wrap32 (s.current - cur.arrivalTime) = s.current - cur.arrivalTime :=
              wrap32_id _ (by omega) (by omega)
            have e2 : wrap32 (cur.remainingTime -
                (if cur.remainingTime > quantum then quantum else cur.remainingTime)) =
                cur.remainingTime -
                  (if cur.remainingTime > quantum then quantum else cur.remainingTime) :=
              wrap32_id _ (by omega) (by omega)
            have e3 : wrap32 (s.current +
                (if cur.remainingTime > quantum then quantum else cur.remainingTime)) =
                s.current +
                  (if cur.remainingTime > quantum then quantum else cur.remainingTime) :=
              wrap32_id _ (by omega) (by omega)
            have e4 : wrap32 (s.current +
                (if cur.remainingTime > quantum then quantum else cur.remainingTime) -
                  cur.arrivalTime) =
                s.current +
                  (if cur.remainingTime > quantum then quantum else cur.remainingTime) -
                  cur.arrivalTime :=
              wrap32_id _ (by omega) (by omega)
            have e5 : wrap32 (s.current +
                (if cur.remainingTime > quantum then quantum else cur.remainingTime) -
                  cur.arrivalTime - cur.burstTime) =
                s.current +
                  (if cur.remainingTime > quantum then quantum else cur.remainingTime) -
                  cur.arrivalTime - cur.burstTime :=
              wrap32_id _ (by omega) (by omega)
            by_cases hfirst : cur.startTime < 0
            · simp only [hfirst, decide_True, if_true, e1, e2, e3, e4, e5]
            · simp only [hfirst, decide_False, Bool.false_eq_true, if_false, e2, e3, e4, e5]

theorem sum_granted_add_le (l : List Process)
    (h : ∀ y ∈ l, 0 ≤ y.remainingTime ∧ y.remainingTime ≤ y.burstTime) (x : Process)
    (hx : x ∈ l) :
    (l.map fun y => y.burstTime - y.remainingTime).sum + x.remainingTime ≤
      (l.map fun y => y.burstTime).sum := by
  induction l with
  | nil => cases hx
  | cons a rest ih =>
    have ha := h a (List.mem_cons_self _ _)
    have hrest : (rest.map fun y => y.burstTime - y.remainingTime).sum ≤
        (rest.map fun y => y.burstTime).sum := by
      apply List.sum_le_sum
      intro y hy
      have := h y (List.mem_cons_of_mem _ hy)
      omega
    simp only [List.map_cons, List.sum_cons]
    rcases List.mem_cons.mp hx with e | hm
    · subst e; omega
    · have := ih (fun y hy => h y (List.mem_cons_of_mem _ hy)) hm
      omega

theorem sum_bursts_nonneg (proc : List Process) (hb : ∀ x ∈ proc, 0 ≤ x.burstTime) :
    0 ≤ (proc.map fun x => x.burstTime).sum :=
  List.sum_nonneg (by
    intro v hv
    obtain ⟨z, hz, e⟩ := List.mem_map.mp hv
    rw [← e]
    exact hb z hz)

theorem rr_reach_range (quantum : Int) (hq : 0 < quantum) (proc : List Process)
    (hvalid : ∀ x ∈ proc, 0 ≤ x.arrivalTime ∧ 0 < x.burstTime) (hno : no_overflow proc)
    (s : RrState) (hreach : RrReach quantum proc s) : RrRange s := by
  obtain ⟨ks, hinv⟩ := rr_reach_inv quantum hq proc (fun x hx => (hvalid x hx).2) s hreach
  have hgaps := rr_gaps_le quantum hq proc (fun x hx => (hvalid x hx).2) (max_arrival proc)
    (max_arrival_nonneg proc) (le_max_arrival proc) s hreach
  have hsum : (s.p.map fun x => x.burstTime).sum = (proc.map fun x => x.burstTime).sum := by
    rw [rr_bursts_eq quantum _ s ks hinv, rr_init_bursts]
  have hrem : ∀ y ∈ s.p, 0 ≤ y.remainingTime ∧ y.remainingTime ≤ y.burstTime := by
    intro y hy
    obtain ⟨k, hk⟩ := List.mem_iff_getElem?.mp hy
    exact ⟨(hinv.procs k y hk).rem_nonneg, (hinv.procs k y hk).rem_le⟩
  have hpos := sum_bursts_nonneg proc (fun x hx => le_of_lt (hvalid x hx).2)
  unfold no_overflow at hno
  refine ⟨hinv.cur_nonneg, ?_⟩
  intro x hx
  obtain ⟨y, hy, _, e2, e3⟩ := rr_input_valid quantum proc s ks hinv x hx
  have hym := le_max_arrival proc y hy
  have hyb := burst_le_sum proc (fun x hx => le_of_lt (hvalid x hx).2) y hy
  have hv := hvalid y hy
  have hg := sum_granted_add_le s.p hrem x hx
  have hclock := hinv.clock
  have htotal := hinv.total
  rw [hsum] at hg
  refine ⟨by omega, by omega, by omega, (hrem x hx).1, by omega⟩

theorem rr_init32_eq (proc : List Process)
    (harr : ∀ x ∈ proc, 0 ≤ x.arrivalTime ∧ x.arrivalTime ≤ INT_MAX) (hpid : pids_fit proc) :
    rr_init32 proc = rr_init proc := by
  unfold rr_init32 rr_init
  rw [qsort32_eq]
  · intro x hx
    obtain ⟨y, hy, e⟩ := List.mem_map.mp hx
    rw [← e]
    exact harr y hy
  · intro x hx z hz
    obtain ⟨y, hy, e⟩ := List.mem_map.mp hx
    obtain ⟨w, hw, e1⟩ := List.mem_map.mp hz
    rw [← e, ← e1]
    exact hpid y hy w hw

theorem arrival_le_int_max (proc : List Process)
    (hvalid : ∀ x ∈ proc, 0 ≤ x.arrivalTime ∧ 0 ≤ x.burstTime) (hno : no_overflow proc) :
    ∀ x ∈ proc, 0 ≤ x.arrivalTime ∧ x.arrivalTime ≤ INT_MAX := by
  intro x hx
  have := le_max_arrival proc x hx
  have := sum_bursts_nonneg proc (fun x hx => (hvalid x hx).2)
  unfold no_overflow at hno
  exact ⟨(hvalid x hx).1, by omega⟩

theorem rr_loop32_eq (quantum : Int) (hq : 0 < quantum) (proc : List Process)
    (hvalid : ∀ x ∈ proc, 0 ≤ x.arrivalTime ∧ 0 < x.burstTime) (hno : no_overflow proc)
    (fuel : Nat) :
    ∀ s, RrReach quantum proc s → rr_loop32 quantum fuel s = rr_loop quantum fuel s := by
  induction fuel with
  | zero => intro s _; rfl
  | succ fuel ih =>
    intro s hreach
    simp only [rr_loop32, rr_loop]
    by_cases hc : s.finished < s.p.length
    · rw [if_pos hc, if_pos hc,
        rr_pass32_eq quantum hq s (rr_reach_range quantum hq proc hvalid hno s hreach)]
      cases hp : rr_pass quantum s with
      | error e => rfl
      | ok s1 => exact ih s1 (RrReach.step s s1 hreach hc hp)
    · rw [if_neg hc, if_neg hc]

theorem rr_reach32_reach (quantum : Int) (hq : 0 < quantum) (proc : List Process)
    (hvalid : ∀ x ∈ proc, 0 ≤ x.arrivalTime ∧ 0 < x.burstTime) (hno : no_overflow proc)
    (hpid : pids_fit proc) (s : RrState) (hreach : RrReach32 quantum proc s) :
    RrReach quantum proc s := by
  induction hreach with
  | init =>
    rw [rr_init32_eq proc (arrival_le_int_max proc
      (fun x hx => ⟨(hvalid x hx).1, le_of_lt (hvalid x hx).2⟩) hno) hpid]
    exact RrReach.init
  | step s s1 _ hc hpass ih =>
    rw [rr_pass32_eq quantum hq s (rr_reach_range quantum hq proc hvalid hno s ih)] at hpass
    exact RrReach.step s s1 ih hc hpass

/-- Without overflow the 32-bit loop of `rr_metrics` is the exact one. -/
theorem rr_run32_eq (quantum : Int) (hq : 0 < quantum) (proc : List Process)
    (hvalid : ∀ x ∈ proc, 0 ≤ x.arrivalTime ∧ 0 < x.burstTime) (hno : no_overflow proc)
    (hpid : pids_fit proc) (fuel : Nat) :
    rr_loop32 quantum fuel (rr_init32 proc) = rr_loop quantum fuel (rr_init proc) := by
  rw [rr_init32_eq proc (arrival_le_int_max proc
    (fun x hx => ⟨(hvalid x hx).1, le_of_lt (hvalid x hx).2⟩) hno) hpid]
  exact rr_loop32_eq quantum hq proc hvalid hno fuel _ RrReach.init

/-- Without overflow the 32-bit loop of `sjf_metrics` is the exact one. -/
theorem sjf_run32_eq (proc : List Process)
    (hvalid : ∀ x ∈ proc, 0 ≤ x.arrivalTime ∧ 0 ≤ x.burstTime) (hno : no_overflow proc)
    (fuel : Nat) :
    sjf_loop32 fuel (sjf_init proc) = sjf_loop fuel (sjf_init proc) :=
  sjf_loop32_eq proc hvalid hno fuel _ SjfReach.init

theorem int_log2_eq (x : ℚ) (e : Int) (h1 : (2 : ℚ) ^ e ≤ x) (h2 : x < (2 : ℚ) ^ (e + 1)) :
    Int.log 2 x = e := by
  have hx : 0 < x := lt_of_lt_of_le (zpow_pos (by norm_num) e) h1
  have a : e ≤ Int.log 2 x := by
    rw [← Int.zpow_le_iff_le_log (by norm_num) hx]
    simpa using h1
  have b : Int.log 2 x < e + 1 := by
    rw [← Int.lt_zpow_iff_log_lt (by norm_num) hx]
    simpa using h2
  omega

theorem round_half_even_eval (y : ℚ) (f : Int) (hf1 : (f : ℚ) ≤ y) (hf2 : y < f + 1) :
    round_half_even y =
      if y - f < 1 / 2 then f else if 1 / 2 < y - f then f + 1
      else if f % 2 = 0 then f else f + 1 := by
  have hfl : ⌊y⌋ = f := Int.floor_eq_iff.mpr ⟨hf1, hf2⟩
  unfold round_half_even
  rw [hfl]

theorem fp_round_eval (p : Nat) (x : ℚ) (e m : Int) (he1 : (2 : ℚ) ^ e ≤ |x|)
    (he2 : |x| < (2 : ℚ) ^ (e + 1))
    (hm : round_half_even (x / 2 ^ (e - ((p : Int) - 1))) = m) :
    fp_round p x = (m : ℚ) * 2 ^ (e - ((p : Int) - 1)) := by
  have hx : x ≠ 0 := by
    intro h
    rw [h, abs_zero] at he1
    exact absurd he1 (not_le.mpr (zpow_pos (by norm_num) e))
  unfold fp_round
  rw [if_neg hx, int_log2_eq |x| e he1 he2, hm]

theorem fp_round_eval_pos (p : Nat) (x : ℚ) (e m : Int) (he1 : (2 : ℚ) ^ e ≤ x)
    (he2 : x < (2 : ℚ) ^ (e + 1))
    (hm : round_half_even (x / 2 ^ (e - ((p : Int) - 1))) = m) :
    fp_round p x = (m : ℚ) * 2 ^ (e - ((p : Int) - 1)) := by
  have hx : 0 < x := lt_of_lt_of_le (zpow_pos (by norm_num) e) he1
  exact fp_round_eval p x e m (by rw [abs_of_pos hx]; exact he1)
    (by rw [abs_of_pos hx]; exact he2) hm

theorem fp_round_eval_neg (p : Nat) (x : ℚ) (e m : Int) (he1 : (2 : ℚ) ^ e ≤ -x)
    (he2 : -x < (2 : ℚ) ^ (e + 1))
    (hm : round_half_even (x / 2 ^ (e - ((p : Int) - 1))) = m) :
    fp_round p x = (m : ℚ) * 2 ^ (e - ((p : Int) - 1)) := by
  have hx : x < 0 := by
    have := lt_of_lt_of_le (zpow_pos (by norm_num : (0 : ℚ) < 2) e) he1
    linarith
  exact fp_round_eval p x e m (by rw [abs_of_neg hx]; exact he1)
    (by rw [abs_of_neg hx]; exact he2) hm

theorem fp_cast_zero : fp_cast 0 = Fp.fin 0 := by
  have h : fp_round 53 0 = 0 := by unfold fp_round; rw [if_pos rfl]
  have h2 : fp_round 24 0 = 0 := by unfold fp_round; rw [if_pos rfl]
  unfold fp_cast
  rw [h, h2, abs_zero, if_neg (by norm_num)]

theorem fp_avg_zero (n : Nat) (hn : n ≠ 0) : fp_avg 0 n = Fp.fin 0 := by
  unfold fp_avg
  rw [if_neg hn]
  simp only [Int.cast_zero, zero_div]
  exact fp_cast_zero

theorem round_half_even_int (z : Int) : round_half_even (z : ℚ) = z := by
  rw [round_half_even_eval (z : ℚ) z (le_refl _) (by linarith)]
  rw [if_pos (by norm_num)]

/-- A number `m * 2^k` whose `m` has at most `p` bits is its own rounding. -/
theorem fp_round_exact (p : Nat) (m k : Int) (hm : |m| < 2 ^ p) :
    fp_round p ((m : ℚ) * 2 ^ k) = (m : ℚ) * 2 ^ k := by
  by_cases h0 : m = 0
  · subst h0
    unfold fp_round
    rw [if_pos (by simp)]
    simp
  have h2 : (0 : ℚ) < 2 := by norm_num
  have hx : ((m : ℚ) * 2 ^ k) ≠ 0 :=
    mul_ne_zero (Int.cast_ne_zero.mpr h0) (zpow_ne_zero k (by norm_num))
  have habs : |(m : ℚ) * 2 ^ k| = (|m| : ℚ) * 2 ^ k := by
    rw [abs_mul, abs_of_pos (zpow_pos h2 k)]
  have hlt : |(m : ℚ) * 2 ^ k| < (2 : ℚ) ^ ((p : Int) + k) := by
    rw [habs, zpow_add₀ (by norm_num : (2 : ℚ) ≠ 0)]
    apply mul_lt_mul_of_pos_right _ (zpow_pos h2 k)
    have : ((|m| : Int) : ℚ) < ((2 ^ p : Int) : ℚ) := Int.cast_lt.mpr hm
    simpa using this
  have hlog : Int.log 2 |(m : ℚ) * 2 ^ k| < (p : Int) + k := by
    rw [← Int.lt_zpow_iff_log_lt (by norm_num) (abs_pos.mpr hx)]
    simpa using hlt
  obtain ⟨j, hj⟩ : ∃ j : Nat, (j : Int) = k - (Int.log 2 |(m : ℚ) * 2 ^ k| - ((p : Int) - 1)) :=
    ⟨(k - (Int.log 2 |(m : ℚ) * 2 ^ k| - ((p : Int) - 1))).toNat, Int.toNat_of_nonneg (by omega)⟩
  have hdiv : (m : ℚ) * 2 ^ k / 2 ^ (Int.log 2 |(m : ℚ) * 2 ^ k| - ((p : Int) - 1)) =
      ((m * 2 ^ j : Int) : ℚ) := by
    rw [mul_div_assoc, ← zpow_sub₀ (by norm_num : (2 : ℚ) ≠ 0), ← hj]
    push_cast
    rw [zpow_natCast]
  unfold fp_round
  rw [if_neg hx]
  rw [hdiv, round_half_even_int]
  push_cast
  rw [mul_assoc, ← zpow_natCast, hj, ← zpow_add₀ (by norm_num : (2 : ℚ) ≠ 0)]
  congr 2
  omega

/-- An integer of at most 24 bits is its own `float`. -/
theorem fp_cast_int (z : Int) (hz : |z| ≤ 2 ^ 24) : fp_cast (z : ℚ) = Fp.fin (z : ℚ) := by
  have h53 : fp_round 53 (z : ℚ) = z := by
    have := fp_round_exact 53 z 0 (by
      have : (2 : Int) ^ 24 < 2 ^ 53 := by norm_num
      omega)
    simpa using this
  have h24 : fp_round 24 (z : ℚ) = z := by
    rcases lt_or_eq_of_le hz with h | h
    · have := fp_round_exact 24 z 0 h
      simpa using this
    · have hz2 : z = 2 ^ 24 ∨ z = -2 ^ 24 := by
        rcases abs_cases z with ⟨e, _⟩ | ⟨e, _⟩
        · left; omega
        · right; omega
      rcases hz2 with e | e
      · have := fp_round_exact 24 1 24 (by norm_num)
        rw [e]
        norm_num at this ⊢
        exact this
      · have := fp_round_exact 24 (-1) 24 (by norm_num)
        rw [e]
        norm_num at this ⊢
        exact this
  unfold fp_cast
  rw [h53, h24]
  have hb : |(z : ℚ)| < 2 ^ 128 := by
    have h1 : |(z : ℚ)| ≤ 2 ^ 24 := by
      have : ((|z| : Int) : ℚ) ≤ ((2 ^ 24 : Int) : ℚ) := Int.cast_le.mpr hz
      simpa using this
    have : (2 : ℚ) ^ 24 < 2 ^ 128 := by norm_num
    linarith
  rw [if_neg (not_le.mpr hb)]

theorem fp_avg_eq_cast (sum : Int) (n : Nat) (hn : n ≠ 0) :
    fp_avg sum n = fp_cast ((sum : ℚ) / (n : ℚ)) := by
  unfold fp_avg
  rw [if_neg hn]

/-- The schedule of the specification and the run of the code on
`{(1,0,INT_MAX),(2,0,1)}`: the second completion time is `INT_MAX + 1`, which
the code holds as `-2147483648`. -/
theorem fcfs_overflow_run :
    fcfs_loop32 (qsort cmp_arrival_pid32 [mkProc 1 0 INT_MAX, mkProc 2 0 1]) =
      ⟨[⟨1, 0, 2147483647, 0, 0, 2147483647⟩, ⟨2, 0, 1, 0, 2147483647, -2147483648⟩],
        -2147483648, -1, 2147483647, 2147483647⟩ ∧
    spec_fcfs_schedule 0 ([mkProc 1 0 INT_MAX, mkProc 2 0 1].insertionSort spec_before) =
      [⟨0, 2147483647, 0, 2147483647⟩, ⟨0, 1, 2147483647, 2147483648⟩] := by
  constructor <;> decide

theorem rr_loop32_mono (quantum : Int) (fuel : Nat) :
    ∀ (s s1 : RrState), rr_loop32 quantum fuel s = .ok s1 →
      ∀ fuel1, fuel ≤ fuel1 → rr_loop32 quantum fuel1 s = .ok s1 := by
  induction fuel with
  | zero =>
    intro s s1 h fuel1 _
    by_cases hfin : s.finished < s.p.length
    · simp [rr_loop32, hfin] at h
    · cases fuel1 with
      | zero => exact h
      | succ f => simpa [rr_loop32, hfin] using h
  | succ f ih =>
    intro s s1 h fuel1 hle
    obtain ⟨f1, rfl⟩ : ∃ f1, fuel1 = f1 + 1 := ⟨fuel1 - 1, by omega⟩
    by_cases hfin : s.finished < s.p.length
    · simp only [rr_loop32, hfin, if_true] at h ⊢
      cases hp : rr_pass32 quantum s with
      | error e => rw [hp] at h; cases h
      | ok s2 =>
        rw [hp] at h
        exact ih s2 s1 h f1 (by omega)
    · simpa [rr_loop32, hfin] using h

theorem rr_overflow_run (fuel : Nat) (hfuel : 2 ≤ fuel) :
    rr_loop32 INT_MAX fuel (rr_init32 [mkProc 1 0 INT_MAX, mkProc 2 0 1]) =
      .ok rr_overflow_final :=
  rr_loop32_mono INT_MAX 2 _ _ (by rfl) fuel hfuel

theorem rr_init32_mem (proc : List Process) (x : Process) (hx : x ∈ (rr_init32 proc).p) :
    ∃ y ∈ proc, x = rr_reset y := by
  have h1 : x ∈ (duplicate_proc_array proc).map rr_reset :=
    (qsort_perm cmp_arrival_pid32 _).mem_iff.mp hx
  obtain ⟨y, hy, e⟩ := List.mem_map.mp h1
  exact ⟨y, hy, e.symm⟩

theorem rr_init32_length (proc : List Process) : (rr_init32 proc).p.length = proc.length := by
  have := (qsort_perm cmp_arrival_pid32 ((duplicate_proc_array proc).map rr_reset)).length_eq
  simpa [rr_init32, duplicate_proc_array] using this

theorem rr_init32_bursts (proc : List Process) :
    ((rr_init32 proc).p.map fun x => x.burstTime).sum =
      (proc.map fun x => x.burstTime).sum := by
  have hperm := qsort_perm cmp_arrival_pid32 ((duplicate_proc_array proc).map rr_reset)
  have := (hperm.map (fun x : Process => x.burstTime)).sum_eq
  simp only [rr_init32]
  rw [this]
  simp only [duplicate_proc_array, List.map_map]
  rfl

theorem rr_init32_measure (proc : List Process) :
    rr_measure (rr_init32 proc) ≤ rr_fuel proc := by
  have hperm := qsort_perm cmp_arrival_pid32 ((duplicate_proc_array proc).map rr_reset)
  have h1 : ((rr_init32 proc).p.map fun x => x.remainingTime.toNat).sum =
      (proc.map fun x => x.burstTime.toNat).sum := by
    have := (hperm.map (fun x : Process => x.remainingTime.toNat)).sum_eq
    simp only [rr_init32]
    rw [this]
    simp only [duplicate_proc_array, List.map_map]
    rfl
  have h2 : rr_next_flag (rr_init32 proc).p (rr_init32 proc).nextArr
      (rr_init32 proc).current ≤ 1 := by
    unfold rr_next_flag
    cases (rr_init32 proc).p[(rr_init32 proc).nextArr]? with
    | none => exact le_refl _
    | some x => simp only; split_ifs <;> omega
  have h3 := rr_init32_length proc
  simp only [rr_measure, rr_fuel]
  rw [h1, h3]
  omega

theorem rr_init32_inv (quantum : Int) (proc : List Process)
    (hpos : ∀ x ∈ proc, 0 < x.burstTime) :
    RrInv quantum (rr_init32 proc).p (rr_init32 proc) [] := by
  have hmem : ∀ (k : Nat) (x : Process), (rr_init32 proc).p[k]? = some x →
      0 < x.burstTime ∧ x.remainingTime = x.burstTime ∧ x.startTime = -1 := by
    intro k x hx
    obtain ⟨y, hy, e⟩ := rr_init32_mem proc x (List.mem_iff_getElem?.mpr ⟨k, hx⟩)
    subst e
    exact ⟨hpos y hy, rfl, rfl⟩
  have hmem1 : ∀ x ∈ (rr_init32 proc).p,
      0 < x.burstTime ∧ x.remainingTime = x.burstTime ∧ x.startTime = -1 := by
    intro x hx
    obtain ⟨k, hk⟩ := List.mem_iff_getElem?.mp hx
    exact hmem k x hk
  constructor
  · exact q_create_wf
  · exact q_create_contents
  · exact List.nodup_nil
  · intro k
    constructor
    · intro h; cases h
    · rintro ⟨h, _⟩
      exact absurd h (Nat.not_lt_zero k)
  · exact Nat.zero_le _
  · rfl
  · rfl
  · intro k x hx
    exact ⟨x, hx, rfl, rfl, rfl⟩
  · exact le_refl _
  · intro k x hx
    obtain ⟨h1, h2, h3⟩ := hmem k x hx
    constructor
    · exact h1
    · omega
    · omega
    · intro h; exact absurd h (Nat.not_lt_zero k)
    · intro _; exact ⟨h3, h2⟩
    · intro _; exact ⟨h3, h2⟩
    · intro h; omega
    · intro h; omega
  · intro i t sl fin h; cases h
  · intro a b h; cases h
  · intro k x hx
    obtain ⟨_, h2, _⟩ := hmem k x hx
    show (0 : Int) = _
    omega
  · intro k x hx
    obtain ⟨h1, h2, _⟩ := hmem k x hx
    rw [if_neg (by omega)]
    rfl
  · show (0 : Int) = _
    rw [sum_map_eq_zero]
    intro x hx
    obtain ⟨_, h2, _⟩ := hmem1 x hx
    omega
  · rfl
  · show (0 : Int) = _
    rw [sum_map_eq_zero]
    intro x hx
    obtain ⟨h1, h2, _⟩ := hmem1 x hx
    rw [if_neg (by omega)]
  · show (0 : Int) = _
    rw [sum_map_eq_zero]
    intro x hx
    obtain ⟨h1, h2, _⟩ := hmem1 x hx
    rw [if_neg (by omega)]
  · show (0 : Int) = _
    rw [sum_map_eq_zero]
    intro x hx
    obtain ⟨_, _, h3⟩ := hmem1 x hx
    rw [if_neg (by omega)]

theorem rr_input_valid32 (quantum : Int) (proc : List Process) (s : RrState) (ks : List Nat)
    (hinv : RrInv quantum (rr_init32 proc).p s ks) (x : Process) (hx : x ∈ s.p) :
    ∃ y ∈ proc, same_input x y := by
  obtain ⟨k, hk⟩ := List.mem_iff_getElem?.mp hx
  obtain ⟨x0, hx0, e1, e2, e3⟩ := hinv.input k x hk
  obtain ⟨y, hy, e⟩ := rr_init32_mem proc x0 (List.mem_iff_getElem?.mpr ⟨k, hx0⟩)
  subst e
  exact ⟨y, hy, e1, e2, e3⟩

theorem rr_init32_ok (quantum : Int) (proc : List Process)
    (hpos : ∀ x ∈ proc, 0 < x.burstTime) : RrOk32 quantum proc (rr_init32 proc) :=
  ⟨[], rr_init32_inv quantum proc hpos, max_arrival_nonneg proc⟩

/-- Without overflow the fields of a state of `rr_metrics` stay in the range of
`int`. -/
theorem rr_ok32_range (quantum : Int) (proc : List Process)
    (hvalid : ∀ x ∈ proc, 0 ≤ x.arrivalTime ∧ 0 < x.burstTime) (hno : no_overflow proc)
    (s : RrState) (hok : RrOk32 quantum proc s) : RrRange s := by
  obtain ⟨ks, hinv, hgaps⟩ := hok
  have hsum : (s.p.map fun x => x.burstTime).sum = (proc.map fun x => x.burstTime).sum := by
    rw [rr_bursts_eq quantum _ s ks hinv, rr_init32_bursts]
  have hrem : ∀ y ∈ s.p, 0 ≤ y.remainingTime ∧ y.remainingTime ≤ y.burstTime := by
    intro y hy
    obtain ⟨k, hk⟩ := List.mem_iff_getElem?.mp hy
    exact ⟨(hinv.procs k y hk).rem_nonneg, (hinv.procs k y hk).rem_le⟩
  have hpos := sum_bursts_nonneg proc (fun x hx => le_of_lt (hvalid x hx).2)
  unfold no_overflow at hno
  refine ⟨hinv.cur_nonneg, ?_⟩
  intro x hx
  obtain ⟨y, hy, _, e2, e3⟩ := rr_input_valid32 quantum proc s ks hinv x hx
  have hym := le_max_arrival proc y hy
  have hyb := burst_le_sum proc (fun x hx => le_of_lt (hvalid x hx).2) y hy
  have hv := hvalid y hy
  have hg := sum_granted_add_le s.p hrem x hx
  have hclock := hinv.clock
  have htotal := hinv.total
  rw [hsum] at hg
  refine ⟨by omega, by omega, by omega, (hrem x hx).1, by omega⟩

/-- One pass of the loop of `rr_metrics` without overflow: the 32-bit pass is
the exact pass, it returns, and it keeps `RrOk32`. -/
theorem rr_ok32_pass (quantum : Int) (hq : 0 < quantum) (proc : List Process)
    (hvalid : ∀ x ∈ proc, 0 ≤ x.arrivalTime ∧ 0 < x.burstTime) (hno : no_overflow proc)
    (s : RrState) (hok : RrOk32 quantum proc s) (hfin : s.finished < s.p.length) :
    ∃ s1, rr_pass32 quantum s = .ok s1 ∧ rr_pass quantum s = .ok s1 ∧
      RrOk32 quantum proc s1 ∧ rr_measure s1 < rr_measure s := by
  have hrange := rr_ok32_range quantum proc hvalid hno s hok
  obtain ⟨ks, hinv, hgaps⟩ := hok
  obtain ⟨s1, ks1, hpass, hinv1, hlt, hdesc⟩ := rr_pass_spec quantum hq _ s ks hinv hfin
  refine ⟨s1, ?_, hpass, ⟨ks1, hinv1, ?_⟩, hlt⟩
  · rw [rr_pass32_eq quantum hq s hrange]
    exact hpass
  · rcases hdesc with ⟨rq1, pn, _, _, hpn, _, e⟩ | ⟨i, cur, rq3, j1, j2, ks3, _, _, _, _, _, _, e⟩
    · subst e
      simp only [rr_idle_state, rr_gaps_append, rr_gaps, add_zero]
      have hclock := hinv.clock
      have htot : 0 ≤ rr_total s.log := by
        rw [hinv.total]
        apply List.sum_nonneg
        intro v hv
        obtain ⟨x, hx, rfl⟩ := List.mem_map.mp hv
        obtain ⟨k, hk⟩ := List.mem_iff_getElem?.mp hx
        have := (hinv.procs k x hk).rem_le
        omega
      obtain ⟨y, hy, _, e2, _⟩ := rr_input_valid32 quantum proc s ks hinv pn
        (List.mem_iff_getElem?.mpr ⟨_, hpn⟩)
      have := le_max_arrival proc y hy
      omega
    · subst e
      simp only [rr_run_state, rr_gaps_append, rr_gaps, add_zero]
      exact hgaps

theorem rr_reach32_ok (quantum : Int) (hq : 0 < quantum) (proc : List Process)
    (hvalid : ∀ x ∈ proc, 0 ≤ x.arrivalTime ∧ 0 < x.burstTime) (hno : no_overflow proc)
    (s : RrState) (hreach : RrReach32 quantum proc s) : RrOk32 quantum proc s := by
  induction hreach with
  | init => exact rr_init32_ok quantum proc (fun x hx => (hvalid x hx).2)
  | step s s1 _ hfin hpass ih =>
    obtain ⟨s2, h2, _, hok, _⟩ := rr_ok32_pass quantum hq proc hvalid hno s ih hfin
    rw [hpass] at h2
    cases h2
    exact hok

theorem rr_loop32_runs (quantum : Int) (hq : 0 < quantum) (proc : List Process)
    (hvalid : ∀ x ∈ proc, 0 ≤ x.arrivalTime ∧ 0 < x.burstTime) (hno : no_overflow proc)
    (fuel : Nat) :
    ∀ (s : RrState), RrOk32 quantum proc s → RrReach32 quantum proc s →
      rr_measure s ≤ fuel →
      ∃ s1, rr_loop32 quantum fuel s = .ok s1 ∧ RrOk32 quantum proc s1 ∧
        RrReach32 quantum proc s1 ∧ ¬ s1.finished < s1.p.length := by
  induction fuel with
  | zero =>
    intro s hok hreach hm
    by_cases hfin : s.finished < s.p.length
    · obtain ⟨s1, _, _, _, hlt⟩ := rr_ok32_pass quantum hq proc hvalid hno s hok hfin
      omega
    · exact ⟨s, by simp [rr_loop32, hfin], hok, hreach, hfin⟩
  | succ f ih =>
    intro s hok hreach hm
    by_cases hfin : s.finished < s.p.length
    · obtain ⟨s1, hpass, _, hok1, hlt⟩ := rr_ok32_pass quantum hq proc hvalid hno s hok hfin
      obtain ⟨s2, h1, h2, h3, h4⟩ := ih s1 hok1
        (RrReach32.step s s1 hreach hfin hpass) (by omega)
      refine ⟨s2, ?_, h2, h3, h4⟩
      simp only [rr_loop32, hfin, if_true, hpass]
      exact h1
    · exact ⟨s, by simp [rr_loop32, hfin], hok, hreach, hfin⟩

/-- Without overflow the 32-bit loop of `rr_metrics` returns, from `rr_fuel proc`
passes on, a state that satisfies the invariant, with every process finished. -/
theorem rr_loop32_total (quantum : Int) (hq : 0 < quantum) (proc : List Process)
    (hvalid : ∀ x ∈ proc, 0 ≤ x.arrivalTime ∧ 0 < x.burstTime) (hno : no_overflow proc) :
    ∃ s, (∀ fuel, rr_fuel proc ≤ fuel → rr_loop32 quantum fuel (rr_init32 proc) = .ok s) ∧
      RrInv quantum (rr_init32 proc).p s [] ∧ RrReach32 quantum proc s ∧ RrRange s ∧
      s.finished = proc.length ∧ s.p.length = proc.length := by
  obtain ⟨s1, h1, hok, h3, h4⟩ := rr_loop32_runs quantum hq proc hvalid hno (rr_fuel proc)
    (rr_init32 proc) (rr_init32_ok quantum proc (fun x hx => (hvalid x hx).2)) RrReach32.init
    (rr_init32_measure proc)
  have hrange := rr_ok32_range quantum proc hvalid hno s1 hok
  obtain ⟨ks1, h2, _⟩ := hok
  obtain ⟨e1, _, e3, _⟩ := rr_final quantum _ s1 ks1 h2 h4
  subst e1
  have hlen : s1.p.length = proc.length := by rw [h2.len, rr_init32_length]
  refine ⟨s1, ?_, h2, h3, hrange, by omega, hlen⟩
  intro fuel hfuel
  exact rr_loop32_mono quantum _ _ _ h1 fuel hfuel

theorem sum_take_le (f : Process → Int) (l : List Process) (hf : ∀ x ∈ l, 0 ≤ f x) (k : Nat) :
    ((l.take k).map f).sum ≤ (l.map f).sum := by
  induction l generalizing k with
  | nil => simp
  | cons a rest ih =>
    cases k with
    | zero =>
      simp only [List.take_zero, List.map_nil, List.sum_nil, List.map_cons, List.sum_cons]
      have h1 := hf a (List.mem_cons_self _ _)
      have h2 : 0 ≤ (rest.map f).sum := List.sum_nonneg (by
        intro v hv
        obtain ⟨z, hz, e⟩ := List.mem_map.mp hv
        rw [← e]
        exact hf z (List.mem_cons_of_mem _ hz))
      omega
    | succ k =>
      simp only [List.take_succ_cons, List.map_cons, List.sum_cons]
      have := ih (fun x hx => hf x (List.mem_cons_of_mem _ hx)) k
      omega

/-- Without overflow the 32-bit loop of `fcfs_metrics` is the exact loop on the
working copy that the 32-bit comparator has sorted, and so is every prefix of
it. -/
theorem fcfs_sorted32_eq (proc : List Process)
    (hvalid : ∀ x ∈ proc, 0 ≤ x.arrivalTime ∧ 0 ≤ x.burstTime) (hno : no_overflow proc)
    (k : Nat) :
    fcfs_loop32 ((qsort cmp_arrival_pid32 (duplicate_proc_array proc)).take k) =
      fcfs_loop ((qsort cmp_arrival_pid32 (duplicate_proc_array proc)).take k) := by
  have hperm := qsort_perm cmp_arrival_pid32 proc
  simp only [duplicate_proc_array, List.map_id]
  unfold fcfs_loop32 fcfs_loop
  have hq : ∀ x ∈ qsort cmp_arrival_pid32 proc,
      0 ≤ x.arrivalTime ∧ x.arrivalTime ≤ max_arrival proc ∧ 0 ≤ x.burstTime := by
    intro x hx
    have hx1 := hperm.mem_iff.mp hx
    exact ⟨(hvalid x hx1).1, le_max_arrival proc x hx1, (hvalid x hx1).2⟩
  apply fcfs_fold32_eq _ _ (max_arrival proc) (le_refl _)
  · intro x hx
    exact hq x (List.mem_of_mem_take hx)
  · have hs : ((qsort cmp_arrival_pid32 proc).map fun x => x.burstTime).sum =
        (proc.map fun x => x.burstTime).sum := (hperm.map _).sum_eq
    have ht := sum_take_le (fun x => x.burstTime) (qsort cmp_arrival_pid32 proc)
      (fun x hx => (hq x hx).2.2) k
    rw [hs] at ht
    unfold no_overflow at hno
    have : max fcfs_init.current (max_arrival proc) = max_arrival proc :=
      max_eq_right (max_arrival_nonneg proc)
    rw [this]
    omega

theorem fcfs_sorted32_loop (proc : List Process)
    (hvalid : ∀ x ∈ proc, 0 ≤ x.arrivalTime ∧ 0 ≤ x.burstTime) (hno : no_overflow proc) :
    fcfs_loop32 (qsort cmp_arrival_pid32 (duplicate_proc_array proc)) =
      fcfs_loop (qsort cmp_arrival_pid32 (duplicate_proc_array proc)) := by
  have h := fcfs_sorted32_eq proc hvalid hno
    (qsort cmp_arrival_pid32 (duplicate_proc_array proc)).length
  rw [List.take_length] at h
  exact h

/-- The records that the exact loop of `fcfs_metrics` writes for the working
copy sorted by the 32-bit comparator. -/
theorem fcfs_out32_spec (proc : List Process) :
    (fcfs_loop (qsort cmp_arrival_pid32 (duplicate_proc_array proc))).out.length =
      proc.length ∧
    ∀ x ∈ (fcfs_loop (qsort cmp_arrival_pid32 (duplicate_proc_array proc))).out,
      ∃ y ∈ proc, same_input x y ∧ x.arrivalTime ≤ x.startTime ∧
        x.completionTime = x.startTime + x.burstTime := by
  obtain ⟨h1, h2⟩ := fcfs_fold_out (qsort cmp_arrival_pid32 (duplicate_proc_array proc)) fcfs_init
  have hperm := qsort_perm cmp_arrival_pid32 (duplicate_proc_array proc)
  refine ⟨?_, ?_⟩
  · unfold fcfs_loop
    rw [h1, hperm.length_eq]
    simp [fcfs_init, duplicate_proc_array]
  · intro x hx
    rcases h2 x hx with h | ⟨y, hy, h⟩
    · simp [fcfs_init] at h
    · have hy1 := hperm.mem_iff.mp hy
      simp only [duplicate_proc_array, List.map_id] at hy1
      exact ⟨y, hy1, h⟩

/-- C10 (amended). Conservation of CPU time, for every process list with
`arrivalTime >= 0` and `burstTime > 0` in which the largest arrivalTime plus the
sum of the bursts is at most `INT_MAX` (no `int` addition overflows), and every
quantum `> 0`.  In `rr_metrics` the loop returns; every slice in the log lies
between 1 and the quantum, the slices of each process sum to its `burstTime`, and
the total cursor advance caused by dispatches is the sum of all bursts; each
dispatch grants `min(remainingTime, quantum)` and moves the cursor by that
amount.  In `fcfs_metrics` the loop leaves one record for every process of the
input, each with `completionTime - startTime = burstTime`; so does the loop of
`sjf_metrics`, which returns within `2 n` passes when every burst is below
`INT_MAX`. -/
theorem cpu32_time_conservation (proc : List Process) (quantum : Int) (hq : 0 < quantum)
    (hvalid : ∀ x ∈ proc, 0 ≤ x.arrivalTime ∧ 0 < x.burstTime) (hno : no_overflow proc) :
    (∃ s, (∀ fuel, rr_fuel proc ≤ fuel → rr_loop32 quantum fuel (rr_init32 proc) = .ok s) ∧
      s.p.length = proc.length ∧
      (∀ (i : Nat) (t sl : Int) (fin : Bool), RrEvent.run i t sl fin ∈ s.log →
        1 ≤ sl ∧ sl ≤ quantum) ∧
      (∀ (k : Nat) (x : Process), s.p[k]? = some x → rr_granted s.log k = x.burstTime) ∧
      rr_total s.log = (proc.map fun x => x.burstTime).sum ∧
      s.current = rr_total s.log + rr_gaps s.log) ∧
    (∀ (s s1 : RrState) (i : Nat) (t sl : Int) (fin : Bool), RrReach32 quantum proc s →
      s.finished < s.p.length → rr_pass32 quantum s = .ok s1 →
      s1.log = s.log ++ [RrEvent.run i t sl fin] →
      ∃ cur cur1, s.p[i]? = some cur ∧ s1.p[i]? = some cur1 ∧
        sl = min cur.remainingTime quantum ∧ 1 ≤ sl ∧ sl ≤ quantum ∧
        cur1.remainingTime = cur.remainingTime - sl ∧
        t = s.current ∧ s1.current = s.current + sl) ∧
    ((fcfs_loop32 (qsort cmp_arrival_pid32 (duplicate_proc_array proc))).out.length =
        proc.length ∧
      ∀ x ∈ (fcfs_loop32 (qsort cmp_arrival_pid32 (duplicate_proc_array proc))).out,
        (∃ y ∈ proc, same_input x y) ∧ x.completionTime - x.startTime = x.burstTime) ∧
    ((∀ x ∈ proc, x.burstTime < INT_MAX) →
      ∃ s, (∀ fuel, 2 * proc.length ≤ fuel → sjf_loop32 fuel (sjf_init proc) = .ok s) ∧
        s.p.length = proc.length ∧
        ∀ x ∈ s.p, (∃ y ∈ proc, same_input x y) ∧
          x.completionTime - x.startTime = x.burstTime) := by
  have hvalid0 : ∀ x ∈ proc, 0 ≤ x.arrivalTime ∧ 0 ≤ x.burstTime :=
    fun x hx => ⟨(hvalid x hx).1, le_of_lt (hvalid x hx).2⟩
  refine ⟨?_, ?_, ?_, ?_⟩
  · obtain ⟨s, h1, hinv, _, _, hfin, hlen⟩ := rr_loop32_total quantum hq proc hvalid hno
    obtain ⟨_, _, _, hall⟩ := rr_final quantum _ s [] hinv (by omega)
    refine ⟨s, h1, hlen, ?_, ?_, ?_, hinv.clock⟩
    · intro i t sl fin hmem
      obtain ⟨a1, a2, _⟩ := hinv.log_run i t sl fin hmem
      exact ⟨a1, a2⟩
    · intro k x hx
      rw [hinv.granted k x hx, (hall k x hx).1]
      omega
    · rw [hinv.total, ← rr_init32_bursts proc, ← rr_bursts_eq quantum _ s [] hinv]
      congr 1
      apply List.map_congr_left
      intro x hx
      obtain ⟨k, hk⟩ := List.mem_iff_getElem?.mp hx
      rw [(hall k x hk).1]
      omega
  · intro s s1 i t sl fin hreach hfin hpass hlog
    have hok := rr_reach32_ok quantum hq proc hvalid hno s hreach
    rw [rr_pass32_eq quantum hq s (rr_ok32_range quantum proc hvalid hno s hok)] at hpass
    obtain ⟨ks, hinv, _⟩ := hok
    obtain ⟨s2, ks2, hpass2, _, _, hdesc⟩ := rr_pass_spec quantum hq _ s ks hinv hfin
    rw [hpass] at hpass2
    cases hpass2
    rcases hdesc with ⟨rq1, pn, _, _, _, _, e⟩ |
      ⟨i1, cur, rq3, j1, j2, ks3, hcur, hrem, _, _, _, _, e⟩
    · subst e
      simp only [rr_idle_state] at hlog
      have := List.append_cancel_left hlog
      simp at this
    · subst e
      simp only [rr_run_state] at hlog
      have := List.append_cancel_left hlog
      simp only [List.cons.injEq, RrEvent.run.injEq, and_true] at this
      obtain ⟨e1, e2, e3, _⟩ := this
      subst e1 e2 e3
      obtain ⟨b1, b2, _, b4⟩ := rr_slice_bounds quantum hq cur hrem
      have hil : i1 < s.p.length := (List.getElem?_eq_some.mp hcur).1
      refine ⟨cur, rr_ran quantum s.current cur, hcur, ?_, b4, b1, b2, rfl, rfl, rfl⟩
      simp only [rr_run_state]
      exact List.getElem?_set_self hil
  · rw [fcfs_sorted32_loop proc hvalid0 hno]
    obtain ⟨h1, h2⟩ := fcfs_out32_spec proc
    refine ⟨h1, ?_⟩
    intro x hx
    obtain ⟨y, hy, hin, _, hc⟩ := h2 x hx
    exact ⟨⟨y, hy, hin⟩, by omega⟩
  · intro hb
    have harr := arrival_le_int_max proc hvalid0 hno
    obtain ⟨s, h1, hinv, hcomp⟩ := sjf_loop_total proc
      (fun x hx => ⟨hb x hx, (harr x hx).2⟩)
    refine ⟨s, ?_, ?_, ?_⟩
    · intro fuel hfuel
      rw [sjf_run32_eq proc hvalid0 hno fuel]
      exact h1 fuel hfuel
    · exact hinv.len_p
    · intro x hx
      obtain ⟨y, hy, hin, _, hc⟩ := sjf_final proc s hinv (by rw [hcomp, hinv.len_p]; omega) x hx
      exact ⟨⟨y, hy, hin⟩, by omega⟩

/-- Instance of C10 (amended) on `{(1,0,4),(2,1,2)}` with quantum 2: the whole
run of `rr_metrics`, its first dispatch, and the records of `fcfs_metrics`. -/
theorem cpu32_time_conservation_witness :
    (∃ s, (∀ fuel, rr_fuel [mkProc 1 0 4, mkProc 2 1 2] ≤ fuel →
        rr_loop32 2 fuel (rr_init32 [mkProc 1 0 4, mkProc 2 1 2]) = .ok s) ∧
      s.p.length = [mkProc 1 0 4, mkProc 2 1 2].length ∧
      (∀ (i : Nat) (t sl : Int) (fin : Bool), RrEvent.run i t sl fin ∈ s.log →
        1 ≤ sl ∧ sl ≤ 2) ∧
      (∀ (k : Nat) (x : Process), s.p[k]? = some x → rr_granted s.log k = x.burstTime) ∧
      rr_total s.log = ([mkProc 1 0 4, mkProc 2 1 2].map fun x => x.burstTime).sum ∧
      s.current = rr_total s.log + rr_gaps s.log) ∧
    (∃ cur cur1, (rr_init32 [mkProc 1 0 4, mkProc 2 1 2]).p[0]? = some cur ∧
      rr_example_pass1.p[0]? = some cur1 ∧
      (2 : Int) = min cur.remainingTime 2 ∧ (1 : Int) ≤ 2 ∧ (2 : Int) ≤ 2 ∧
      cur1.remainingTime = cur.remainingTime - 2 ∧
      (0 : Int) = (rr_init32 [mkProc 1 0 4, mkProc 2 1 2]).current ∧
      rr_example_pass1.current = (rr_init32 [mkProc 1 0 4, mkProc 2 1 2]).current + 2) ∧
    ((fcfs_loop32 (qsort cmp_arrival_pid32
        (duplicate_proc_array [mkProc 1 0 4, mkProc 2 1 2]))).out.length = 2 ∧
      ∀ x ∈ (fcfs_loop32 (qsort cmp_arrival_pid32
          (duplicate_proc_array [mkProc 1 0 4, mkProc 2 1 2]))).out,
        (∃ y ∈ [mkProc 1 0 4, mkProc 2 1 2], same_input x y) ∧
          x.completionTime - x.startTime = x.burstTime) :=
  ⟨(cpu32_time_conservation [mkProc 1 0 4, mkProc 2 1 2] 2 (by decide) (by decide)
      (by decide)).1,
   (cpu32_time_conservation [mkProc 1 0 4, mkProc 2 1 2] 2 (by decide) (by decide)
      (by decide)).2.1
     (rr_init32 [mkProc 1 0 4, mkProc 2 1 2]) rr_example_pass1 0 0 2 false
     RrReach32.init (by decide) (by rfl) (by rfl),
   (cpu32_time_conservation [mkProc 1 0 4, mkProc 2 1 2] 2 (by decide) (by decide)
      (by decide)).2.2.1⟩

/-- C10, as stated, fails on `{(1,0,INT_MAX),(2,0,1)}`, a list with
`burstTime > 0`.  In `fcfs_metrics` the second record is left with
`startTime = 2147483647` and `completionTime = -2147483648`, so
`completionTime - startTime` is `-4294967295`, not the burst 1.  In `rr_metrics`
with quantum `INT_MAX` the dispatches grant `2147483648` in total, the sum of the
bursts, but the cursor ends at `-2147483648`. -/
theorem cpu32_overflow_not_conserved :
    (∀ x ∈ [mkProc 1 0 INT_MAX, mkProc 2 0 1], 0 < x.burstTime) ∧
    (∃ x ∈ (fcfs_loop32 (qsort cmp_arrival_pid32
        (duplicate_proc_array [mkProc 1 0 INT_MAX, mkProc 2 0 1]))).out,
      x.burstTime = 1 ∧ x.completionTime - x.startTime = -4294967295 ∧
        ¬ x.completionTime - x.startTime = x.burstTime) ∧
    (∀ fuel, 2 ≤ fuel →
        rr_loop32 INT_MAX fuel (rr_init32 [mkProc 1 0 INT_MAX, mkProc 2 0 1]) =
          .ok rr_overflow_final) ∧
    rr_total rr_overflow_final.log = 2147483648 ∧ rr_gaps rr_overflow_final.log = 0 ∧
    rr_overflow_final.current = -2147483648 ∧
    ¬ rr_overflow_final.current =
      rr_total rr_overflow_final.log + rr_gaps rr_overflow_final.log := by
  refine ⟨by decide, ⟨⟨2, 0, 1, 0, 2147483647, -2147483648⟩, ?_, rfl, by decide, by decide⟩,
    rr_overflow_run, by decide, by decide, rfl, by decide⟩
  simp only [duplicate_proc_array, List.map_id, fcfs_overflow_run.1]
  simp

/-- C20 (amended). Single-CPU exclusivity in the non-preemptive engines, for
every process list with `0 <= arrivalTime` and `0 < burstTime` in which the
largest arrivalTime plus the sum of the bursts is at most `INT_MAX` (no `int`
addition overflows).  In `fcfs_metrics` the cursor after `k + 1` iterations is at
least the cursor after `k`, and the records written by the loop, one for each
process, in dispatch order, have non-empty intervals with
`completionTime <= startTime` of every later one.  In `sjf_metrics` no pass
decreases the cursor; in every state that the loop reaches the processes that are
done ran on pairwise disjoint intervals that ended by the cursor, each starting
at or after the completionTime of those dispatched before it (`SjfExcl`); and
when the loop returns, the intervals `[startTime, completionTime)` of any two
distinct records are non-empty and disjoint.  The loop returns within `2 n`
passes when every burst is below `INT_MAX`. -/
theorem single_cpu32_exclusive (proc : List Process)
    (hvalid : ∀ x ∈ proc, 0 ≤ x.arrivalTime ∧ 0 < x.burstTime) (hno : no_overflow proc) :
    (∀ k : Nat,
      (fcfs_loop32 ((qsort cmp_arrival_pid32 (duplicate_proc_array proc)).take k)).current ≤
      (fcfs_loop32
        ((qsort cmp_arrival_pid32 (duplicate_proc_array proc)).take (k + 1))).current) ∧
    (fcfs_loop32 (qsort cmp_arrival_pid32 (duplicate_proc_array proc))).out.length =
      proc.length ∧
    List.Pairwise (fun x y => x.completionTime ≤ y.startTime)
      (fcfs_loop32 (qsort cmp_arrival_pid32 (duplicate_proc_array proc))).out ∧
    (∀ x ∈ (fcfs_loop32 (qsort cmp_arrival_pid32 (duplicate_proc_array proc))).out,
      x.startTime < x.completionTime) ∧
    (∀ s s1, SjfReach32 proc s → s.completed < s.p.length → sjf_pass32 s = .ok s1 →
      s.current ≤ s1.current) ∧
    (∀ s, SjfReach32 proc s → SjfExcl s) ∧
    (∀ fuel s, sjf_loop32 fuel (sjf_init proc) = .ok s →
      s.p.length = proc.length ∧
      ∀ (i j : Nat) (xi xj : Process), i ≠ j → s.p[i]? = some xi → s.p[j]? = some xj →
        xi.startTime < xi.completionTime ∧
        (xi.completionTime ≤ xj.startTime ∨ xj.completionTime ≤ xi.startTime)) ∧
    ((∀ x ∈ proc, x.burstTime < INT_MAX) →
      ∃ s, ∀ fuel, 2 * proc.length ≤ fuel → sjf_loop32 fuel (sjf_init proc) = .ok s) := by
  have hvalid0 : ∀ x ∈ proc, 0 ≤ x.arrivalTime ∧ 0 ≤ x.burstTime :=
    fun x hx => ⟨(hvalid x hx).1, le_of_lt (hvalid x hx).2⟩
  have harr := arrival_le_int_max proc hvalid0 hno
  have hv2 : ∀ x ∈ proc, x.arrivalTime ≤ INT_MAX ∧ 0 < x.burstTime ∧
      x.burstTime ≤ INT_MAX := by
    intro x hx
    have h1 := burst_le_sum proc (fun x hx => (hvalid0 x hx).2) x hx
    have h2 := max_arrival_nonneg proc
    unfold no_overflow at hno
    simp only at h1
    exact ⟨(harr x hx).2, (hvalid x hx).2, by omega⟩
  have hsorted : ∀ x ∈ qsort cmp_arrival_pid32 (duplicate_proc_array proc),
      0 < x.burstTime := by
    intro x hx
    have hx1 := (qsort_perm cmp_arrival_pid32 (duplicate_proc_array proc)).mem_iff.mp hx
    simp only [duplicate_proc_array, List.map_id] at hx1
    exact (hvalid x hx1).2
  have hf : FcfsExcl (fcfs_loop (qsort cmp_arrival_pid32 (duplicate_proc_array proc))) :=
    fcfs_fold_excl _ fcfs_init hsorted
      ⟨List.Pairwise.nil, fun x hx => absurd hx (List.not_mem_nil x)⟩
  refine ⟨?_, ?_, ?_, ?_, ?_, ?_, ?_, ?_⟩
  · intro k
    rw [fcfs_sorted32_eq proc hvalid0 hno k, fcfs_sorted32_eq proc hvalid0 hno (k + 1)]
    exact fcfs_loop_take_cursor _ hsorted k
  · rw [fcfs_sorted32_loop proc hvalid0 hno]
    exact (fcfs_out32_spec proc).1
  · rw [fcfs_sorted32_loop proc hvalid0 hno]
    exact hf.1
  · rw [fcfs_sorted32_loop proc hvalid0 hno]
    exact fun x hx => (hf.2 x hx).1
  · intro s s1 hreach hc hpass
    have hr := sjf_reach32_reach proc hvalid0 hno s hreach
    rw [sjf_pass32_eq proc hvalid0 hno s (sjf_reach_inv proc s hr)
      (sjf_reach_bound proc hvalid0 hno s hr)] at hpass
    exact sjf_pass_cursor proc
      (fun x hx => ⟨(hv2 x hx).1, le_of_lt (hv2 x hx).2.1, (hv2 x hx).2.2⟩)
      s s1 (sjf_reach_inv proc s hr) hc hpass
  · intro s hreach
    exact sjf_reach_excl proc hv2 s (sjf_reach32_reach proc hvalid0 hno s hreach)
  · intro fuel s hs
    rw [sjf_run32_eq proc hvalid0 hno fuel] at hs
    obtain ⟨hreach, hc⟩ := sjf_loop_reach proc fuel _ s SjfReach.init hs
    have hinv := sjf_reach_inv proc s hreach
    have hex := sjf_reach_excl proc hv2 s hreach
    have hall := sjf_all_done proc s hinv hc
    have hdone : ∀ (k : Nat) (x : Process), s.p[k]? = some x → s.done[k]? = some true := by
      intro k x hk
      have hkl : k < s.done.length := by
        have := (List.getElem?_eq_some.mp hk).1
        have := hinv.len_done
        have := hinv.len_p
        omega
      rw [List.getElem?_eq_getElem hkl, hall _ (List.getElem_mem hkl)]
    refine ⟨hinv.len_p, ?_⟩
    intro i j xi xj hij hxi hxj
    exact ⟨(hex.done_le i xi hxi (hdone i xi hxi)).1,
      hex.disjoint i j xi xj hij hxi hxj (hdone i xi hxi) (hdone j xj hxj)⟩
  · intro hb
    obtain ⟨s, h, _⟩ := sjf_loop_total proc (fun x hx => ⟨hb x hx, (hv2 x hx).1⟩)
    refine ⟨s, ?_⟩
    intro fuel hfuel
    rw [sjf_run32_eq proc hvalid0 hno fuel]
    exact h fuel hfuel

/-- Instance of C20 (amended) on `{(1,0,5),(2,1,3)}`. -/
theorem single_cpu32_exclusive_witness :
    (∀ k : Nat,
      (fcfs_loop32 ((qsort cmp_arrival_pid32
        (duplicate_proc_array [mkProc 1 0 5, mkProc 2 1 3])).take k)).current ≤
      (fcfs_loop32 ((qsort cmp_arrival_pid32
        (duplicate_proc_array [mkProc 1 0 5, mkProc 2 1 3])).take (k + 1))).current) ∧
    (fcfs_loop32 (qsort cmp_arrival_pid32
        (duplicate_proc_array [mkProc 1 0 5, mkProc 2 1 3]))).out.length =
      [mkProc 1 0 5, mkProc 2 1 3].length ∧
    List.Pairwise (fun x y => x.completionTime ≤ y.startTime)
      (fcfs_loop32 (qsort cmp_arrival_pid32
        (duplicate_proc_array [mkProc 1 0 5, mkProc 2 1 3]))).out ∧
    (∀ x ∈ (fcfs_loop32 (qsort cmp_arrival_pid32
        (duplicate_proc_array [mkProc 1 0 5, mkProc 2 1 3]))).out,
      x.startTime < x.completionTime) ∧
    (∀ s s1, SjfReach32 [mkProc 1 0 5, mkProc 2 1 3] s → s.completed < s.p.length →
      sjf_pass32 s = .ok s1 → s.current ≤ s1.current) ∧
    (∀ s, SjfReach32 [mkProc 1 0 5, mkProc 2 1 3] s → SjfExcl s) ∧
    (∀ fuel s, sjf_loop32 fuel (sjf_init [mkProc 1 0 5, mkProc 2 1 3]) = .ok s →
      s.p.length = [mkProc 1 0 5, mkProc 2 1 3].length ∧
      ∀ (i j : Nat) (xi xj : Process), i ≠ j → s.p[i]? = some xi → s.p[j]? = some xj →
        xi.startTime < xi.completionTime ∧
        (xi.completionTime ≤ xj.startTime ∨ xj.completionTime ≤ xi.startTime)) ∧
    ((∀ x ∈ [mkProc 1 0 5, mkProc 2 1 3], x.burstTime < INT_MAX) →
      ∃ s, ∀ fuel, 2 * [mkProc 1 0 5, mkProc 2 1 3].length ≤ fuel →
        sjf_loop32 fuel (sjf_init [mkProc 1 0 5, mkProc 2 1 3]) = .ok s) :=
  single_cpu32_exclusive [mkProc 1 0 5, mkProc 2 1 3] (by decide) (by decide)

/-- C20, as stated, fails on `{(1,0,INT_MAX),(2,0,1)}`, a list with
`arrivalTime >= 0` and `burstTime > 0`: in `fcfs_metrics` the cursor is
`2147483647` after the first iteration and `-2147483648` after the second, so it
decreases, and the second record has `completionTime = -2147483648` below its
`startTime = 2147483647`. -/
theorem fcfs_loop32_cursor_decreases :
    (∀ x ∈ [mkProc 1 0 INT_MAX, mkProc 2 0 1], 0 ≤ x.arrivalTime ∧ 0 < x.burstTime) ∧
    (fcfs_loop32 ((qsort cmp_arrival_pid32
      (duplicate_proc_array [mkProc 1 0 INT_MAX, mkProc 2 0 1])).take 1)).current =
        2147483647 ∧
    (fcfs_loop32 ((qsort cmp_arrival_pid32
      (duplicate_proc_array [mkProc 1 0 INT_MAX, mkProc 2 0 1])).take 2)).current =
        -2147483648 ∧
    ¬ (fcfs_loop32 ((qsort cmp_arrival_pid32
      (duplicate_proc_array [mkProc 1 0 INT_MAX, mkProc 2 0 1])).take 1)).current ≤
      (fcfs_loop32 ((qsort cmp_arrival_pid32
        (duplicate_proc_array [mkProc 1 0 INT_MAX, mkProc 2 0 1])).take (1 + 1))).current ∧
    ∃ x ∈ (fcfs_loop32 (qsort cmp_arrival_pid32
        (duplicate_proc_array [mkProc 1 0 INT_MAX, mkProc 2 0 1]))).out,
      x.startTime = 2147483647 ∧ x.completionTime = -2147483648 ∧
        ¬ x.startTime < x.completionTime := by
  refine ⟨by decide, by decide, by decide, by decide,
    ⟨2, 0, 1, 0, 2147483647, -2147483648⟩, ?_, rfl, rfl, by decide⟩
  simp only [duplicate_proc_array, List.map_id, fcfs_overflow_run.1]
  simp

theorem fp_cast_ne_nan (x : ℚ) : fp_cast x ≠ Fp.nan := by
  unfold fp_cast
  split_ifs <;> simp

theorem fp_avg_ne_nan (sum : Int) (n : Nat) (hn : n ≠ 0) : fp_avg sum n ≠ Fp.nan := by
  unfold fp_avg
  rw [if_neg hn]
  exact fp_cast_ne_nan _

theorem fcfs_fold32_resp (l : List Process) (s : FcfsState) (h1 : s.sumResp = s.sumWait) :
    (l.foldl fcfs_step32 s).sumResp = (l.foldl fcfs_step32 s).sumWait ∧
    (l.foldl fcfs_step32 s).out.length = s.out.length + l.length := by
  induction l generalizing s with
  | nil => exact ⟨h1, rfl⟩
  | cons a rest ih =>
    simp only [List.foldl_cons]
    obtain ⟨e1, e2⟩ := ih (fcfs_step32 s a) (by simp only [fcfs_step32]; rw [h1])
    refine ⟨e1, ?_⟩
    rw [e2]
    simp only [fcfs_step32, List.length_append, List.length_cons, List.length_nil]
    omega

theorem sjf_pass32_resp (s s1 : SjfState) (h : sjf_pass32 s = .ok s1)
    (h1 : s.sumResp = s.sumWait) : s1.sumResp = s1.sumWait := by
  unfold sjf_pass32 at h
  cases hsel : sjf_select s.p s.done s.current with
  | error e => rw [hsel] at h; cases h
  | ok acc =>
    obtain ⟨best, bb⟩ := acc
    rw [hsel] at h
    simp only at h
    by_cases hb : best < 0
    · rw [if_pos hb] at h
      cases h
      exact h1
    · rw [if_neg hb] at h
      cases hp : s.p[best.toNat]? with
      | none => rw [hp] at h; cases h
      | some pb =>
        rw [hp] at h
        cases h
        simp only
        rw [h1]

theorem sjf_loop32_resp (fuel : Nat) :
    ∀ (s s1 : SjfState), sjf_loop32 fuel s = .ok s1 → s.sumResp = s.sumWait →
      s1.sumResp = s1.sumWait := by
  induction fuel with
  | zero =>
    intro s s1 h h1
    by_cases hc : s.completed < s.p.length
    · simp [sjf_loop32, hc] at h
    · simp only [sjf_loop32, hc, if_false] at h
      cases h
      exact h1
  | succ f ih =>
    intro s s1 h h1
    by_cases hc : s.completed < s.p.length
    · simp only [sjf_loop32, hc, if_true] at h
      cases hp : sjf_pass32 s with
      | error e => rw [hp] at h; cases h
      | ok s2 =>
        rw [hp] at h
        exact ih s2 s1 h (sjf_pass32_resp s s2 hp h1)
    · simp only [sjf_loop32, hc, if_false] at h
      cases h
      exact h1

/-- C12 (amended). For every non-empty input `fcfs_metrics` returns avgResponse
equal to avgWaiting (as `float` values, under `==`), and so does `sjf_metrics`
whenever it returns; in both loops `sumResp = sumWait`.  When moreover every
`arrivalTime >= 0`, every `burstTime >= 0`, and the largest arrivalTime plus the
sum of the bursts is at most `INT_MAX` (no `int` addition overflows): the loop of
`fcfs_metrics` and the loop of `sjf_metrics`, which returns within `2 n` passes
when every burst is below `INT_MAX`, leave one record for every process, the
waiting that they sum is `startTime - arrivalTime` per process, and that equals
`(completionTime - arrivalTime) - burstTime` for every record. -/
theorem response32_eq_waiting_fcfs_sjf (proc : List Process) (hne : proc ≠ []) :
    (fp_eq (fcfs_metrics32 proc).avgResponse (fcfs_metrics32 proc).avgWaiting ∧
      (fcfs_loop32 (qsort cmp_arrival_pid32 (duplicate_proc_array proc))).sumResp =
        (fcfs_loop32 (qsort cmp_arrival_pid32 (duplicate_proc_array proc))).sumWait ∧
      (fcfs_loop32 (qsort cmp_arrival_pid32 (duplicate_proc_array proc))).out.length =
        proc.length) ∧
    (∀ fuel m, sjf_metrics32 fuel proc = .ok m → fp_eq m.avgResponse m.avgWaiting) ∧
    (∀ fuel s, sjf_loop32 fuel (sjf_init proc) = .ok s → s.sumResp = s.sumWait) ∧
    ((∀ x ∈ proc, 0 ≤ x.arrivalTime ∧ 0 ≤ x.burstTime) → no_overflow proc →
      ((fcfs_loop32 (qsort cmp_arrival_pid32 (duplicate_proc_array proc))).sumWait =
          ((fcfs_loop32 (qsort cmp_arrival_pid32 (duplicate_proc_array proc))).out.map
            fun x => x.startTime - x.arrivalTime).sum ∧
        ∀ x ∈ (fcfs_loop32 (qsort cmp_arrival_pid32 (duplicate_proc_array proc))).out,
          x.startTime - x.arrivalTime =
            (x.completionTime - x.arrivalTime) - x.burstTime) ∧
      ((∀ x ∈ proc, x.burstTime < INT_MAX) →
        ∃ s m, (∀ fuel, 2 * proc.length ≤ fuel → sjf_loop32 fuel (sjf_init proc) = .ok s) ∧
          (∀ fuel, 2 * proc.length ≤ fuel → sjf_metrics32 fuel proc = .ok m) ∧
          fp_eq m.avgResponse m.avgWaiting ∧
          s.sumResp = s.sumWait ∧
          s.sumWait = (s.p.map fun x => x.startTime - x.arrivalTime).sum ∧
          s.p.length = proc.length ∧
          ∀ x ∈ s.p,
            x.startTime - x.arrivalTime =
              (x.completionTime - x.arrivalTime) - x.burstTime)) := by
  have hn : proc.length ≠ 0 := fun h => hne (List.length_eq_zero.mp h)
  have hperm := qsort_perm cmp_arrival_pid32 (duplicate_proc_array proc)
  obtain ⟨f1, f2⟩ := fcfs_fold32_resp (qsort cmp_arrival_pid32 (duplicate_proc_array proc))
    fcfs_init rfl
  have hsjf : ∀ fuel s, sjf_loop32 fuel (sjf_init proc) = .ok s → s.sumResp = s.sumWait :=
    fun fuel s hs => sjf_loop32_resp fuel _ s hs rfl
  refine ⟨⟨⟨?_, ?_⟩, f1, ?_⟩, ?_, hsjf, ?_⟩
  · simp only [fcfs_metrics32, make_metrics32]
    unfold fcfs_loop32
    rw [f1]
  · simp only [fcfs_metrics32, make_metrics32]
    exact fp_avg_ne_nan _ _ hn
  · unfold fcfs_loop32
    rw [f2, hperm.length_eq]
    simp [fcfs_init, duplicate_proc_array]
  · intro fuel m hm
    unfold sjf_metrics32 at hm
    cases hs : sjf_loop32 fuel (sjf_init proc) with
    | error e => rw [hs] at hm; cases hm
    | ok s =>
      rw [hs] at hm
      cases hm
      simp only [make_metrics32]
      rw [hsjf fuel s hs]
      exact ⟨rfl, fp_avg_ne_nan _ _ hn⟩
  · intro hvalid hno
    refine ⟨?_, ?_⟩
    · rw [fcfs_sorted32_loop proc hvalid hno]
      obtain ⟨_, g2⟩ := fcfs_fold_wait (qsort cmp_arrival_pid32 (duplicate_proc_array proc))
        fcfs_init rfl rfl
      refine ⟨g2, ?_⟩
      intro x hx
      obtain ⟨_, _, _, _, h⟩ := (fcfs_out32_spec proc).2 x hx
      omega
    · intro hb
      have harr := arrival_le_int_max proc hvalid hno
      obtain ⟨s, h, _⟩ := sjf_loop_total proc (fun x hx => ⟨hb x hx, (harr x hx).2⟩)
      have h32 : ∀ fuel, 2 * proc.length ≤ fuel → sjf_loop32 fuel (sjf_init proc) = .ok s := by
        intro fuel hfuel
        rw [sjf_run32_eq proc hvalid hno fuel]
        exact h fuel hfuel
      have hs := h _ (le_refl (2 * proc.length))
      obtain ⟨hreach, hc⟩ := sjf_loop_reach proc _ _ s SjfReach.init hs
      have hinv := sjf_reach_inv proc s hreach
      have c1 := (sjf_final_sums proc _ s hs).1
      have c2 := (sjf_final_sums proc _ s hs).2.1
      refine ⟨s, make_metrics32 s.sumTa s.sumWait s.sumResp proc.length, h32, ?_, ?_,
        c1, c2, hinv.len_p, ?_⟩
      · intro fuel hfuel
        simp only [sjf_metrics32, h32 fuel hfuel]
      · simp only [make_metrics32]
        rw [c1]
        exact ⟨rfl, fp_avg_ne_nan _ _ hn⟩
      · intro x hx
        obtain ⟨_, _, _, _, h⟩ := sjf_final proc s hinv hc x hx
        omega

/-- Instance of C12 (amended) on `{(1,0,5),(2,1,3)}`. -/
theorem response32_eq_waiting_fcfs_sjf_witness :
    (fp_eq (fcfs_metrics32 [mkProc 1 0 5, mkProc 2 1 3]).avgResponse
        (fcfs_metrics32 [mkProc 1 0 5, mkProc 2 1 3]).avgWaiting ∧
      (fcfs_loop32 (qsort cmp_arrival_pid32
          (duplicate_proc_array [mkProc 1 0 5, mkProc 2 1 3]))).sumResp =
        (fcfs_loop32 (qsort cmp_arrival_pid32
          (duplicate_proc_array [mkProc 1 0 5, mkProc 2 1 3]))).sumWait ∧
      (fcfs_loop32 (qsort cmp_arrival_pid32
          (duplicate_proc_array [mkProc 1 0 5, mkProc 2 1 3]))).out.length =
        [mkProc 1 0 5, mkProc 2 1 3].length) ∧
    ((fcfs_loop32 (qsort cmp_arrival_pid32
          (duplicate_proc_array [mkProc 1 0 5, mkProc 2 1 3]))).sumWait =
        ((fcfs_loop32 (qsort cmp_arrival_pid32
          (duplicate_proc_array [mkProc 1 0 5, mkProc 2 1 3]))).out.map
            fun x => x.startTime - x.arrivalTime).sum ∧
      ∀ x ∈ (fcfs_loop32 (qsort cmp_arrival_pid32
          (duplicate_proc_array [mkProc 1 0 5, mkProc 2 1 3]))).out,
        x.startTime - x.arrivalTime = (x.completionTime - x.arrivalTime) - x.burstTime) ∧
    (∃ s m, (∀ fuel, 2 * [mkProc 1 0 5, mkProc 2 1 3].length ≤ fuel →
          sjf_loop32 fuel (sjf_init [mkProc 1 0 5, mkProc 2 1 3]) = .ok s) ∧
        (∀ fuel, 2 * [mkProc 1 0 5, mkProc 2 1 3].length ≤ fuel →
          sjf_metrics32 fuel [mkProc 1 0 5, mkProc 2 1 3] = .ok m) ∧
        fp_eq m.avgResponse m.avgWaiting ∧
        s.sumResp = s.sumWait ∧
        s.sumWait = (s.p.map fun x => x.startTime - x.arrivalTime).sum ∧
        s.p.length = [mkProc 1 0 5, mkProc 2 1 3].length ∧
        ∀ x ∈ s.p,
          x.startTime - x.arrivalTime = (x.completionTime - x.arrivalTime) - x.burstTime) :=
  ⟨(response32_eq_waiting_fcfs_sjf [mkProc 1 0 5, mkProc 2 1 3] (List.cons_ne_nil _ _)).1,
   ((response32_eq_waiting_fcfs_sjf [mkProc 1 0 5, mkProc 2 1 3]
      (List.cons_ne_nil _ _)).2.2.2 (by decide) (by decide)).1,
   ((response32_eq_waiting_fcfs_sjf [mkProc 1 0 5, mkProc 2 1 3]
      (List.cons_ne_nil _ _)).2.2.2 (by decide) (by decide)).2 (by decide)⟩

/-- C12, as stated for every input, fails on two inputs.  On the empty list
`fcfs_metrics` and `sjf_metrics` divide `0.0` by `0`: avgResponse and avgWaiting
are not-a-number, which is equal to nothing.  On `{(1,0,INT_MAX),(2,0,1)}` the
loop of `fcfs_metrics` leaves a record with `startTime = 2147483647`,
`completionTime = -2147483648` and burst 1: the waiting that it sums is
`2147483647`, and `(completionTime - arrivalTime) - burstTime` is
`-2147483649`. -/
theorem response32_not_eq_waiting :
    (fcfs_metrics32 []).avgResponse = Fp.nan ∧ (fcfs_metrics32 []).avgWaiting = Fp.nan ∧
    ¬ fp_eq (fcfs_metrics32 []).avgResponse (fcfs_metrics32 []).avgWaiting ∧
    sjf_metrics32 0 [] = .ok ⟨Fp.nan, Fp.nan, Fp.nan⟩ ∧
    ¬ fp_eq (Fp.nan) (Fp.nan) ∧
    ∃ x ∈ (fcfs_loop32 (qsort cmp_arrival_pid32
        (duplicate_proc_array [mkProc 1 0 INT_MAX, mkProc 2 0 1]))).out,
      x.startTime - x.arrivalTime = 2147483647 ∧
      (x.completionTime - x.arrivalTime) - x.burstTime = -2147483649 ∧
      ¬ x.startTime - x.arrivalTime = (x.completionTime - x.arrivalTime) - x.burstTime := by
  refine ⟨by decide, by decide, by decide, by rfl, by decide,
    ⟨2, 0, 1, 0, 2147483647, -2147483648⟩, ?_, by decide, by decide, by decide⟩
  simp only [duplicate_proc_array, List.map_id, fcfs_overflow_run.1]
  simp

theorem rr_wrap_run (fuel : Nat) (hfuel : 3 ≤ fuel) :
    rr_loop32 INT_MAX fuel
      (rr_init32 [mkProc 1 0 INT_MAX, mkProc 2 0 1, mkProc 3 0 1]) = .ok rr_wrap_final :=
  rr_loop32_mono INT_MAX 3 _ _ (by rfl) fuel hfuel

theorem rr_wrap_short (fuel : Nat) (hfuel : fuel < 3) :
    rr_loop32 INT_MAX fuel
      (rr_init32 [mkProc 1 0 INT_MAX, mkProc 2 0 1, mkProc 3 0 1]) =
        .error Fault.outOfFuel := by
  interval_cases fuel <;> rfl

theorem fcfs_wrap_run :
    fcfs_loop32 (qsort cmp_arrival_pid32
      (duplicate_proc_array [mkProc 1 0 INT_MAX, mkProc 2 0 1, mkProc 3 0 1])) =
      ⟨[⟨1, 0, 2147483647, 0, 0, 2147483647⟩, ⟨2, 0, 1, 0, 2147483647, -2147483648⟩,
        ⟨3, 0, 1, 0, 0, 1⟩], 1, 0, 2147483647, 2147483647⟩ := by
  decide

theorem fp_cast_wrap_mean : fp_cast (-2147483648 / 3) = Fp.fin (-715827904) := by
  have hm53 : round_half_even ((-2147483648 / 3 : ℚ) /
      2 ^ ((29 : Int) - (((53 : Nat) : Int) - 1))) = -6004799503160661 := by
    rw [round_half_even_eval _ (-6004799503160662) (by norm_num) (by norm_num)]
    norm_num
  have h53 : fp_round 53 (-2147483648 / 3) = -6004799503160661 / 8388608 := by
    rw [fp_round_eval_neg 53 _ 29 _ (by norm_num) (by norm_num) hm53]
    norm_num
  have hm24 : round_half_even ((-6004799503160661 / 8388608 : ℚ) /
      2 ^ ((29 : Int) - (((24 : Nat) : Int) - 1))) = -11184811 := by
    rw [round_half_even_eval _ (-11184811) (by norm_num) (by norm_num)]
    norm_num
  have h24 : fp_round 24 (-6004799503160661 / 8388608) = -715827904 := by
    rw [fp_round_eval_neg 24 _ 29 _ (by norm_num) (by norm_num) hm24]
    norm_num
  unfold fp_cast
  rw [h53, h24, if_neg (by norm_num)]

theorem qsort32_map_reset (l : List Process) :
    qsort cmp_arrival_pid32 (l.map rr_reset) = (qsort cmp_arrival_pid32 l).map rr_reset := by
  unfold qsort
  exact (List.map_insertionSort (fun a b => cmp_arrival_pid32 a b ≤ 0)
    (fun a b => cmp_arrival_pid32 a b ≤ 0) rr_reset l (fun a _ b _ => Iff.rfl)).symm

theorem rr_init32_sim (proc : List Process) :
    RrFcfsSim (qsort cmp_arrival_pid32 (duplicate_proc_array proc)) (rr_init32 proc) where
  wf := q_create_wf
  len := by
    simp only [rr_init32, qsort32_map_reset, List.length_map]
  fin_le := le_refl _
  next_le := Nat.zero_le _
  contents := by simp [rr_init32, q_create_contents]
  fresh := by
    intro j x _ hx
    simp only [rr_init32, qsort32_map_reset, List.getElem?_map, hx, Option.map_some']
  arrived := by
    intro j x _ hj
    simp only [rr_init32] at hj
    omega
  sum_ta := rfl
  sum_wait := rfl
  sum_resp := rfl
  cursor := Or.inl rfl

theorem rr_reach32_sim (quantum : Int) (hq : 0 < quantum) (proc : List Process)
    (hvalid : ∀ x ∈ proc, 0 ≤ x.arrivalTime ∧ 0 < x.burstTime ∧ x.burstTime ≤ quantum)
    (hno : no_overflow proc) (s : RrState) (hreach : RrReach32 quantum proc s) :
    RrFcfsSim (qsort cmp_arrival_pid32 (duplicate_proc_array proc)) s := by
  have hv1 : ∀ x ∈ proc, 0 ≤ x.arrivalTime ∧ 0 < x.burstTime :=
    fun x hx => ⟨(hvalid x hx).1, (hvalid x hx).2.1⟩
  have hb1 : ∀ x ∈ qsort cmp_arrival_pid32 (duplicate_proc_array proc),
      0 < x.burstTime ∧ x.burstTime ≤ quantum := by
    intro x hx
    have hx1 := (qsort_perm cmp_arrival_pid32 (duplicate_proc_array proc)).mem_iff.mp hx
    simp only [duplicate_proc_array, List.map_id] at hx1
    exact (hvalid x hx1).2
  induction hreach with
  | init => exact rr_init32_sim proc
  | step s s1 hr hfin hpass ih =>
    have hok := rr_reach32_ok quantum hq proc hv1 hno s hr
    rw [rr_pass32_eq quantum hq s (rr_ok32_range quantum proc hv1 hno s hok)] at hpass
    obtain ⟨s2, h2, hsim⟩ := rr_fcfs_sim_step quantum _ hb1 s ih hfin
    rw [hpass] at h2
    cases h2
    exact hsim

/-- C17 (amended). When the quantum is at least every burst, Round-Robin
degenerates to FCFS: for every process list with `arrivalTime >= 0`,
`burstTime > 0` and distinct (arrivalTime, pid) pairs, in which the largest
arrivalTime plus the sum of the bursts is at most `INT_MAX` (no `int` addition
overflows), and every quantum `> 0` that is `>=` every `burstTime`, `rr_metrics`
returns, from `rr_fuel proc` passes on, exactly the Metrics that `fcfs_metrics`
returns, and the three sums of the two loops are equal. -/
theorem rr32_degenerates_to_fcfs (proc : List Process) (quantum : Int) (hq : 0 < quantum)
    (hvalid : ∀ x ∈ proc, 0 ≤ x.arrivalTime ∧ 0 < x.burstTime ∧ x.burstTime ≤ quantum)
    (_hdistinct : (proc.map fun x => (x.arrivalTime, x.pid)).Nodup)
    (hno : no_overflow proc) :
    (∀ fuel, rr_fuel proc ≤ fuel →
      rr_metrics32 fuel proc quantum = .ok (fcfs_metrics32 proc)) ∧
    ∃ s, (∀ fuel, rr_fuel proc ≤ fuel → rr_loop32 quantum fuel (rr_init32 proc) = .ok s) ∧
      s.sumTa = (fcfs_loop32 (qsort cmp_arrival_pid32 (duplicate_proc_array proc))).sumTa ∧
      s.sumWait =
        (fcfs_loop32 (qsort cmp_arrival_pid32 (duplicate_proc_array proc))).sumWait ∧
      s.sumResp =
        (fcfs_loop32 (qsort cmp_arrival_pid32 (duplicate_proc_array proc))).sumResp := by
  have hv1 : ∀ x ∈ proc, 0 ≤ x.arrivalTime ∧ 0 < x.burstTime :=
    fun x hx => ⟨(hvalid x hx).1, (hvalid x hx).2.1⟩
  have hv0 : ∀ x ∈ proc, 0 ≤ x.arrivalTime ∧ 0 ≤ x.burstTime :=
    fun x hx => ⟨(hvalid x hx).1, le_of_lt (hvalid x hx).2.1⟩
  obtain ⟨s, hloop, _, hreach, _, hfin, _⟩ := rr_loop32_total quantum hq proc hv1 hno
  have hsim := rr_reach32_sim quantum hq proc hvalid hno s hreach
  have htake : (qsort cmp_arrival_pid32 (duplicate_proc_array proc)).take s.finished =
      qsort cmp_arrival_pid32 (duplicate_proc_array proc) := by
    apply List.take_of_length_le
    rw [hfin, (qsort_perm cmp_arrival_pid32 (duplicate_proc_array proc)).length_eq]
    simp [duplicate_proc_array]
  have h1 := hsim.sum_ta
  have h2 := hsim.sum_wait
  have h3 := hsim.sum_resp
  rw [htake] at h1 h2 h3
  rw [fcfs_sorted32_loop proc hv0 hno]
  refine ⟨?_, s, hloop, h1, h2, h3⟩
  intro fuel hfuel
  unfold rr_metrics32
  rw [if_neg (not_le.mpr hq), hloop fuel hfuel]
  simp only [fcfs_metrics32, fcfs_sorted32_loop proc hv0 hno, h1, h2, h3]

/-- Instance of C17 (amended) on `{(1,0,5),(2,1,3)}` with quantum 5. -/
theorem rr32_degenerates_to_fcfs_witness :
    (∀ fuel, rr_fuel [mkProc 1 0 5, mkProc 2 1 3] ≤ fuel →
      rr_metrics32 fuel [mkProc 1 0 5, mkProc 2 1 3] 5 =
        .ok (fcfs_metrics32 [mkProc 1 0 5, mkProc 2 1 3])) ∧
    ∃ s, (∀ fuel, rr_fuel [mkProc 1 0 5, mkProc 2 1 3] ≤ fuel →
        rr_loop32 5 fuel (rr_init32 [mkProc 1 0 5, mkProc 2 1 3]) = .ok s) ∧
      s.sumTa = (fcfs_loop32 (qsort cmp_arrival_pid32
        (duplicate_proc_array [mkProc 1 0 5, mkProc 2 1 3]))).sumTa ∧
      s.sumWait = (fcfs_loop32 (qsort cmp_arrival_pid32
        (duplicate_proc_array [mkProc 1 0 5, mkProc 2 1 3]))).sumWait ∧
      s.sumResp = (fcfs_loop32 (qsort cmp_arrival_pid32
        (duplicate_proc_array [mkProc 1 0 5, mkProc 2 1 3]))).sumResp :=
  rr32_degenerates_to_fcfs [mkProc 1 0 5, mkProc 2 1 3] 5 (by decide) (by decide) (by decide)
    (by decide)

/-- C17, as stated, fails on `{(1,0,INT_MAX),(2,0,1),(3,0,1)}` with quantum
`INT_MAX`: a list with `arrivalTime >= 0`, `burstTime > 0` and distinct
(arrivalTime, pid) pairs, and a quantum `>=` every burst.  After the second
dispatch the cursor `INT_MAX + 1` is held as `-2147483648`; `fcfs_metrics` resets
it to the arrival time 0 of the third process, `rr_metrics` dispatches the third
process at `-2147483648`.  The sums of `fcfs_metrics` are
`(0, 2147483647, 2147483647)`, those of `rr_metrics` are
`(-2147483648, -1, -1)`; avgTurnaround is `0` in one and `-715827904` in the
other, and for no number of passes does `rr_metrics` return the Metrics of
`fcfs_metrics`. -/
theorem rr32_overflow_not_fcfs :
    (∀ x ∈ [mkProc 1 0 INT_MAX, mkProc 2 0 1, mkProc 3 0 1],
      0 ≤ x.arrivalTime ∧ 0 < x.burstTime ∧ x.burstTime ≤ INT_MAX) ∧
    ([mkProc 1 0 INT_MAX, mkProc 2 0 1, mkProc 3 0 1].map
      fun x => (x.arrivalTime, x.pid)).Nodup ∧
    (∀ fuel, 3 ≤ fuel →
      rr_loop32 INT_MAX fuel (rr_init32 [mkProc 1 0 INT_MAX, mkProc 2 0 1, mkProc 3 0 1]) =
        .ok rr_wrap_final) ∧
    (rr_wrap_final.sumTa, rr_wrap_final.sumWait, rr_wrap_final.sumResp) =
      (-2147483648, -1, -1) ∧
    ((fcfs_loop32 (qsort cmp_arrival_pid32
        (duplicate_proc_array [mkProc 1 0 INT_MAX, mkProc 2 0 1, mkProc 3 0 1]))).sumTa,
      (fcfs_loop32 (qsort cmp_arrival_pid32
        (duplicate_proc_array [mkProc 1 0 INT_MAX, mkProc 2 0 1, mkProc 3 0 1]))).sumWait,
      (fcfs_loop32 (qsort cmp_arrival_pid32
        (duplicate_proc_array [mkProc 1 0 INT_MAX, mkProc 2 0 1, mkProc 3 0 1]))).sumResp) =
      (0, 2147483647, 2147483647) ∧
    (fcfs_metrics32 [mkProc 1 0 INT_MAX, mkProc 2 0 1, mkProc 3 0 1]).avgTurnaround =
      Fp.fin 0 ∧
    (∀ fuel m, rr_metrics32 fuel [mkProc 1 0 INT_MAX, mkProc 2 0 1, mkProc 3 0 1] INT_MAX =
      .ok m → m.avgTurnaround = Fp.fin (-715827904)) ∧
    ∀ fuel, rr_metrics32 fuel [mkProc 1 0 INT_MAX, mkProc 2 0 1, mkProc 3 0 1] INT_MAX ≠
      .ok (fcfs_metrics32 [mkProc 1 0 INT_MAX, mkProc 2 0 1, mkProc 3 0 1]) := by
  have hf : (fcfs_metrics32 [mkProc 1 0 INT_MAX, mkProc 2 0 1, mkProc 3 0 1]).avgTurnaround =
      Fp.fin 0 := by
    simp only [fcfs_metrics32, fcfs_wrap_run, make_metrics32]
    exact fp_avg_zero _ (by decide)
  have hr : ∀ fuel m,
      rr_metrics32 fuel [mkProc 1 0 INT_MAX, mkProc 2 0 1, mkProc 3 0 1] INT_MAX = .ok m →
        m.avgTurnaround = Fp.fin (-715827904) := by
    intro fuel m hm
    unfold rr_metrics32 at hm
    rw [if_neg (by decide)] at hm
    by_cases hfuel : 3 ≤ fuel
    · rw [rr_wrap_run fuel hfuel] at hm
      cases hm
      simp only [make_metrics32, rr_wrap_final, List.length_cons, List.length_nil, zero_add,
        Nat.reduceAdd]
      rw [fp_avg_eq_cast _ 3 (by decide)]
      have := fp_cast_wrap_mean
      norm_num at this ⊢
      exact this
    · rw [rr_wrap_short fuel (by omega)] at hm
      cases hm
  refine ⟨by decide, by decide, rr_wrap_run, rfl, ?_, hf, hr, ?_⟩
  · rw [fcfs_wrap_run]
  · intro fuel h
    have h1 := hr fuel _ h
    rw [hf] at h1
    have h2 := Fp.fin.inj h1
    norm_num at h2

/-- C14. On `{(5,0,4),(INT_MIN,1,1),(1,1,1)}` with quantum 2, a list with
`arrivalTime >= 0` and `burstTime > 0`, the first pass of the loop of
`rr_metrics` runs `p[0]` on `[0,2)` and preempts it; the two processes that
arrived at 1 are appended to the ready queue before the index 0, but the one of
pid 1 before the one of pid `INT_MIN`, which is not the ascending
(arrivalTime, pid) order: `qsort` has placed them so because
`cmp_arrival_pid` returns `1 - INT_MIN`, held as `-2147483647`.  The loop then
dispatches pid 1, then pid `INT_MIN`, then `p[0]` again. -/
theorem rr_pass32_newcomers_pid_order :
    (∀ x ∈ [mkProc 5 0 4, mkProc (-2147483648) 1 1, mkProc 1 1 1],
      0 ≤ x.arrivalTime ∧ 0 < x.burstTime) ∧
    cmp_arrival_pid32 (mkProc 1 1 1) (mkProc (-2147483648) 1 1) = -2147483647 ∧
    (rr_init32 [mkProc 5 0 4, mkProc (-2147483648) 1 1, mkProc 1 1 1]).p.map
      (fun x => (x.arrivalTime, x.pid)) = [(0, 5), (1, 1), (1, -2147483648)] ∧
    rr_pass32 2 (rr_init32 [mkProc 5 0 4, mkProc (-2147483648) 1 1, mkProc 1 1 1]) =
      .ok rr_pid_order_pass1 ∧
    rr_pid_order_pass1.log = [RrEvent.run 0 0 2 false] ∧
    q_contents rr_pid_order_pass1.rq = [1, 2, 0] ∧
    (∃ x1 x2, rr_pid_order_pass1.p[1]? = some x1 ∧ rr_pid_order_pass1.p[2]? = some x2 ∧
      x1.arrivalTime ≤ rr_pid_order_pass1.current ∧
      x2.arrivalTime ≤ rr_pid_order_pass1.current ∧
      x1.arrivalTime = x2.arrivalTime ∧ x2.pid < x1.pid ∧ ¬ spec_before x1 x2) ∧
    ∃ s, rr_loop32 2 4 (rr_init32 [mkProc 5 0 4, mkProc (-2147483648) 1 1, mkProc 1 1 1]) =
        .ok s ∧
      rr_dispatched s.log = [0, 1, 2, 0] := by
  refine ⟨by decide, by decide, by decide, by rfl, rfl, by decide,
    ⟨⟨1, 1, 1, 1, -1, 0⟩, ⟨-2147483648, 1, 1, 1, -1, 0⟩, rfl, rfl, by decide, by decide,
      by decide, by decide, by decide⟩, ?_⟩
  refine ⟨{ p := [⟨5, 0, 4, 0, 0, 6⟩, ⟨1, 1, 1, 0, 2, 3⟩, ⟨-2147483648, 1, 1, 0, 3, 4⟩]
            rq := ⟨[0, 1, 2, 0, 0, 0, 0, 0, 0, 0, 0, 0, 0, 0, 0, 0], 16, 4, 4⟩
            nextArr := 3, finished := 3, current := 6
            sumTa := 11, sumWait := 5, sumResp := 3
            log := [RrEvent.run 0 0 2 false, RrEvent.run 1 2 1 true, RrEvent.run 2 3 1 true,
              RrEvent.run 0 4 2 true] }, by rfl, by decide⟩

theorem rr_steps32_steps (quantum : Int) (hq : 0 < quantum) (proc : List Process)
    (hvalid : ∀ x ∈ proc, 0 ≤ x.arrivalTime ∧ 0 < x.burstTime) (hno : no_overflow proc)
    (s1 s2 : RrState) (hreach : RrReach quantum proc s1) (hsteps : RrSteps32 quantum s1 s2) :
    RrSteps quantum s1 s2 ∧ RrReach quantum proc s2 := by
  induction hsteps with
  | refl => exact ⟨RrSteps.refl, hreach⟩
  | step s3 s4 _ hfin hpass ih =>
    obtain ⟨h1, h2⟩ := ih
    rw [rr_pass32_eq quantum hq s3 (rr_reach_range quantum hq proc hvalid hno s3 h2)] at hpass
    exact ⟨RrSteps.step s3 s4 h1 hfin hpass, RrReach.step s3 s4 h2 hfin hpass⟩

/-- The order of the newcomers where the comparator is exact.  For a process
list with `arrivalTime >= 0` and `burstTime > 0` in which the largest arrivalTime
plus the sum of the bursts is at most `INT_MAX` and the differences of the pids
fit an `int`: in a pass of `rr_metrics` that dispatches `p[i]` at time `t` for
`sl` units and preempts it, the queue after the pass holds the indices `front`
that were waiting, then the indices `a, a+1, ..` below the new `nextArr`, then
`i`.  Those indices are exactly the processes not enqueued before the slice
whose `arrivalTime <=` the cursor after the slice, ascending index is ascending
(arrivalTime, pid), and in every continuation of the loop the first later
dispatch of `i` comes after a dispatch of every index of `front` and of every
such newcomer. -/
theorem rr32_newcomers_before_preempted (proc : List Process) (quantum : Int)
    (hq : 0 < quantum) (hvalid : ∀ x ∈ proc, 0 ≤ x.arrivalTime ∧ 0 < x.burstTime)
    (hno : no_overflow proc) (hpid : pids_fit proc)
    (s s1 : RrState) (hreach : RrReach32 quantum proc s) (hfin : s.finished < s.p.length)
    (hpass : rr_pass32 quantum s = .ok s1) (i : Nat) (t sl : Int)
    (hlog : s1.log = s.log ++ [RrEvent.run i t sl false]) :
    ∃ (rq1 rq2 : Queue) (a : Nat) (front : List Nat),
      rr_enqueue s.current (s.p.drop s.nextArr) s.rq s.nextArr = (rq1, a) ∧
      q_pop rq1 = .ok ((i : Int), rq2) ∧
      q_contents rq2 = front.map (fun (k : Nat) => (k : Int)) ∧
      t = s.current ∧ s1.current = t + sl ∧ 0 < sl ∧ i < a ∧ a ≤ s1.nextArr ∧
      (∃ x, s1.p[i]? = some x ∧ 0 < x.remainingTime) ∧
      q_contents s1.rq =
        (front ++ List.range' a (s1.nextArr - a) ++ [i]).map (fun (k : Nat) => (k : Int)) ∧
      (∀ (k : Nat) (x : Process), a ≤ k → s1.p[k]? = some x →
        (k < s1.nextArr ↔ x.arrivalTime ≤ s1.current)) ∧
      (∀ (k : Nat) (x : Process), a ≤ k → s1.p[k]? = some x → t < x.arrivalTime) ∧
      (∀ (k1 k2 : Nat) (x1 x2 : Process), k1 < k2 → s1.p[k1]? = some x1 →
        s1.p[k2]? = some x2 → spec_before x1 x2) ∧
      (∀ s2, RrSteps32 quantum s1 s2 →
        ∃ d, rr_dispatched s2.log = rr_dispatched s1.log ++ d ∧
          (i ∈ d → ∃ d1 d2, d = d1 ++ i :: d2 ∧ i ∉ d1 ∧
            ∀ k ∈ front ++ List.range' a (s1.nextArr - a), k ∈ d1)) := by
  have hr := rr_reach32_reach quantum hq proc hvalid hno hpid s hreach
  rw [rr_pass32_eq quantum hq s (rr_reach_range quantum hq proc hvalid hno s hr)] at hpass
  obtain ⟨rq1, rq2, a, front, c1, c2, c3, c4, c5, c6, c7, c8, c9, c10, c11, c12, c13, c14⟩ :=
    rr_newcomers_before_preempted proc quantum hq hvalid s s1 hr hfin hpass i t sl hlog
  refine ⟨rq1, rq2, a, front, c1, c2, c3, c4, c5, c6, c7, c8, c9, c10, c11, c12, c13, ?_⟩
  intro s2 hsteps
  exact c14 s2 (rr_steps32_steps quantum hq proc hvalid hno s1 s2
    (RrReach.step s s1 hr hfin hpass) hsteps).1

/-- The order of the newcomers on `{(1,0,4),(2,2,2)}` with quantum 2: the first
pass runs process 0 on `[0,2)` and preempts it, and process 1, which arrives
exactly at the slice end, is enqueued before process 0. -/
theorem rr32_newcomers_example :
    ∃ (rq1 rq2 : Queue) (a : Nat) (front : List Nat),
      rr_enqueue (rr_init32 [mkProc 1 0 4, mkProc 2 2 2]).current
        ((rr_init32 [mkProc 1 0 4, mkProc 2 2 2]).p.drop
          (rr_init32 [mkProc 1 0 4, mkProc 2 2 2]).nextArr)
        (rr_init32 [mkProc 1 0 4, mkProc 2 2 2]).rq
        (rr_init32 [mkProc 1 0 4, mkProc 2 2 2]).nextArr = (rq1, a) ∧
      q_pop rq1 = .ok (((0 : Nat) : Int), rq2) ∧
      q_contents rq2 = front.map (fun (k : Nat) => (k : Int)) ∧
      (0 : Int) = (rr_init32 [mkProc 1 0 4, mkProc 2 2 2]).current ∧
      rr_example_newcomer.current = 0 + 2 ∧ (0 : Int) < 2 ∧ 0 < a ∧
      a ≤ rr_example_newcomer.nextArr ∧
      (∃ x, rr_example_newcomer.p[0]? = some x ∧ 0 < x.remainingTime) ∧
      q_contents rr_example_newcomer.rq =
        (front ++ List.range' a (rr_example_newcomer.nextArr - a) ++ [0]).map
          (fun (k : Nat) => (k : Int)) ∧
      (∀ (k : Nat) (x : Process), a ≤ k → rr_example_newcomer.p[k]? = some x →
        (k < rr_example_newcomer.nextArr ↔ x.arrivalTime ≤ rr_example_newcomer.current)) ∧
      (∀ (k : Nat) (x : Process), a ≤ k → rr_example_newcomer.p[k]? = some x →
        0 < x.arrivalTime) ∧
      (∀ (k1 k2 : Nat) (x1 x2 : Process), k1 < k2 → rr_example_newcomer.p[k1]? = some x1 →
        rr_example_newcomer.p[k2]? = some x2 → spec_before x1 x2) ∧
      (∀ s2, RrSteps32 2 rr_example_newcomer s2 →
        ∃ d, rr_dispatched s2.log = rr_dispatched rr_example_newcomer.log ++ d ∧
          (0 ∈ d → ∃ d1 d2, d = d1 ++ 0 :: d2 ∧ 0 ∉ d1 ∧
            ∀ k ∈ front ++ List.range' a (rr_example_newcomer.nextArr - a), k ∈ d1)) :=
  rr32_newcomers_before_preempted [mkProc 1 0 4, mkProc 2 2 2] 2 (by decide) (by decide)
    (by decide) (by decide)
    (rr_init32 [mkProc 1 0 4, mkProc 2 2 2]) rr_example_newcomer RrReach32.init (by decide) rfl
    0 0 2 rfl

theorem rr_loop32_done (quantum : Int) (n : Nat) (s : RrState)
    (h : ¬ s.finished < s.p.length) : rr_loop32 quantum n s = .ok s := by
  cases n with
  | zero => simp only [rr_loop32, h, if_false]
  | succ n => simp only [rr_loop32, h, if_false]

/-- A dispatch pass of the 32-bit loop of `rr_metrics` on a single process. -/
theorem rr_pass32_single (quantum : Int) (s : RrState) (c : Process) (rq1 rq2 : Queue)
    (hp : s.p = [c])
    (he : rr_enqueue s.current (s.p.drop s.nextArr) s.rq s.nextArr = (rq1, 1))
    (hempty : q_empty rq1 = false) (hpop : q_pop rq1 = .ok (0, rq2)) :
    ∃ s1 c1, rr_pass32 quantum s = .ok s1 ∧ s1.p = [c1] ∧
      c1.arrivalTime = c.arrivalTime ∧ c1.burstTime = c.burstTime ∧
      c1.startTime = (if c.startTime < 0 then s.current else c.startTime) ∧
      c1.remainingTime = wrap32 (c.remainingTime - rr_slice quantum c) ∧
      s1.current = wrap32 (s.current + rr_slice quantum c) ∧ s1.nextArr = 1 ∧
      s1.sumResp = (if c.startTime < 0 then s.sumResp + wrap32 (s.current - c.arrivalTime)
        else s.sumResp) ∧
      (0 < c1.remainingTime → s1.rq = q_push rq2 0 ∧ s1.finished = s.finished ∧
        s1.sumTa = s.sumTa ∧ s1.sumWait = s.sumWait) ∧
      (¬ 0 < c1.remainingTime → s1.finished = s.finished + 1 ∧
        s1.sumTa = s.sumTa + wrap32 (s1.current - c.arrivalTime) ∧
        s1.sumWait = s.sumWait + wrap32 (wrap32 (s1.current - c.arrivalTime) - c.burstTime)) := by
  unfold rr_pass32
  rw [he]
  simp only [hempty, hpop, hp, Bool.false_eq_true, if_false, lt_self_iff_false,
    Int.toNat_zero, List.getElem?_cons_zero, List.set_cons_zero, List.drop_succ_cons,
    List.drop_zero, rr_enqueue]
  by_cases hfirst : c.startTime < 0
  · simp only [hfirst, decide_True, if_true]
    by_cases hrem : wrap32 (c.remainingTime -
        if c.remainingTime > quantum then quantum else c.remainingTime) > 0
    · simp only [hrem, if_true]
      refine ⟨_, _, rfl, rfl, rfl, rfl, rfl, rfl, rfl, rfl, rfl, ?_, ?_⟩
      · intro _; exact ⟨rfl, rfl, rfl, rfl⟩
      · intro h; exact absurd hrem h
    · simp only [hrem, if_false]
      refine ⟨_, _, rfl, rfl, rfl, rfl, rfl, rfl, rfl, rfl, rfl, ?_, ?_⟩
      · intro h; exact absurd h hrem
      · intro _; exact ⟨rfl, rfl, rfl⟩
  · simp only [hfirst, decide_False, Bool.false_eq_true, if_false]
    by_cases hrem : wrap32 (c.remainingTime -
        if c.remainingTime > quantum then quantum else c.remainingTime) > 0
    · simp only [hrem, if_true]
      refine ⟨_, _, rfl, rfl, rfl, rfl, rfl, rfl, rfl, rfl, rfl, ?_, ?_⟩
      · intro _; exact ⟨rfl, rfl, rfl, rfl⟩
      · intro h; exact absurd hrem h
    · simp only [hrem, if_false]
      refine ⟨_, _, rfl, rfl, rfl, rfl, rfl, rfl, rfl, rfl, rfl, ?_, ?_⟩
      · intro h; exact absurd h hrem
      · intro _; exact ⟨rfl, rfl, rfl⟩

/-- The 32-bit loop of `rr_metrics` on a single process, from a pass that
dispatches it: it ends with the sums `(burstTime, 0, 0)`, whether or not the
cursor wraps. -/
theorem rr_loop32_single (quantum : Int) (hq : 0 < quantum) (a b : Int) (ha : 0 ≤ a)
    (hb : b ≤ INT_MAX) :
    ∀ (n : Nat) (s : RrState) (c : Process) (rq1 : Queue),
      s.p = [c] → c.arrivalTime = a → c.burstTime = b → 0 < c.remainingTime →
      c.remainingTime ≤ b → (c.startTime = a ∨ (c.startTime = -1 ∧ s.current = a)) →
      rr_enqueue s.current (s.p.drop s.nextArr) s.rq s.nextArr = (rq1, 1) →
      q_wf rq1 → q_contents rq1 = [0] → s.finished = 0 →
      s.current = wrap32 (a + (b - c.remainingTime)) →
      s.sumTa = 0 → s.sumWait = 0 → s.sumResp = 0 → c.remainingTime.toNat ≤ n + 1 →
      ∃ s1, rr_loop32 quantum (n + 1) s = .ok s1 ∧ s1.sumTa = b ∧ s1.sumWait = 0 ∧
        s1.sumResp = 0 := by
  intro n
  induction n with
  | zero =>
    intro s c rq1 hp hca hcb hr0 hrb hst he hwf hcont hfin hcur hta hwt hrs hfuel
    have hempty : q_empty rq1 = false := by
      cases h : q_empty rq1 with
      | false => rfl
      | true =>
        have := (q_empty_iff rq1 hwf).mp h
        rw [hcont] at this
        cases this
    obtain ⟨v, rq2, hpop, hwf2, hc2⟩ := q_pop_spec rq1 hwf hempty
    rw [hcont] at hc2
    obtain ⟨hv, _⟩ := List.cons.inj hc2
    subst hv
    obtain ⟨s1, c1, hpass, hp1, e1, e2, e3, e4, e5, e6, e7, e8, e9⟩ :=
      rr_pass32_single quantum s c rq1 rq2 hp he hempty hpop
    have hsl : rr_slice quantum c = c.remainingTime := by
      unfold rr_slice
      split_ifs with h
      · omega
      · rfl
    rw [hsl] at e4 e5
    have hr1 : c1.remainingTime = 0 := by
      rw [e4]; unfold wrap32; omega
    obtain ⟨f1, f2, f3⟩ := e9 (by omega)
    have hlen : s.finished < s.p.length := by rw [hfin, hp]; simp
    refine ⟨s1, ?_, ?_, ?_, ?_⟩
    · rw [rr_loop32]
      simp only [hlen, if_true, hpass]
      apply rr_loop32_done
      rw [f1, hp1, hfin]; simp
    · rw [f2, hta, e5, hcur, hca]
      unfold INT_MAX at hb
      unfold wrap32; omega
    · rw [f3, hwt, e5, hcur, hca, hcb]
      unfold INT_MAX at hb
      unfold wrap32; omega
    · rw [e7, hrs]
      split_ifs with h
      · rcases hst with h1 | ⟨_, h2⟩
        · omega
        · rw [h2, hca]; unfold wrap32; omega
      · rfl
  | succ n ih =>
    intro s c rq1 hp hca hcb hr0 hrb hst he hwf hcont hfin hcur hta hwt hrs hfuel
    have hempty : q_empty rq1 = false := by
      cases h : q_empty rq1 with
      | false => rfl
      | true =>
        have := (q_empty_iff rq1 hwf).mp h
        rw [hcont] at this
        cases this
    obtain ⟨v, rq2, hpop, hwf2, hc2⟩ := q_pop_spec rq1 hwf hempty
    rw [hcont] at hc2
    obtain ⟨hv, hc3⟩ := List.cons.inj hc2
    subst hv
    obtain ⟨s1, c1, hpass, hp1, e1, e2, e3, e4, e5, e6, e7, e8, e9⟩ :=
      rr_pass32_single quantum s c rq1 rq2 hp he hempty hpop
    have hlen : s.finished < s.p.length := by rw [hfin, hp]; simp
    have hsl1 : 1 ≤ rr_slice quantum c ∧ rr_slice quantum c ≤ c.remainingTime := by
      unfold rr_slice
      split_ifs with h
      · omega
      · omega
    have hr1 : c1.remainingTime = c.remainingTime - rr_slice quantum c := by
      rw [e4]
      unfold INT_MAX at hb
      unfold wrap32; omega
    have hresp : s1.sumResp = 0 := by
      rw [e7, hrs]
      split_ifs with h
      · rcases hst with h1 | ⟨_, h2⟩
        · omega
        · rw [h2, hca]; unfold wrap32; omega
      · rfl
    have hcur1 : s1.current = wrap32 (a + (b - c1.remainingTime)) := by
      rw [e5, hcur, hr1]
      unfold wrap32; omega
    have hstart1 : c1.startTime = a := by
      rw [e3]
      split_ifs with h
      · rcases hst with h1 | ⟨_, h2⟩
        · omega
        · exact h2
      · rcases hst with h1 | ⟨h1, _⟩
        · exact h1
        · omega
    by_cases hrem : 0 < c1.remainingTime
    · obtain ⟨f1, f2, f3, f4⟩ := e8 hrem
      obtain ⟨g1, g2⟩ := q_push_spec rq2 0 hwf2
      rw [← hc3] at g2
      have he1 : rr_enqueue s1.current (s1.p.drop s1.nextArr) s1.rq s1.nextArr =
          (q_push rq2 0, 1) := by
        rw [hp1, e6, f1]
        rfl
      obtain ⟨s2, h2, r1, r2, r3⟩ := ih s1 c1 (q_push rq2 0) hp1 (by rw [e1, hca])
        (by rw [e2, hcb]) hrem (by omega) (Or.inl hstart1) he1 g1 (by simpa using g2)
        (by rw [f2, hfin]) hcur1 (by rw [f3, hta]) (by rw [f4, hwt]) hresp (by omega)
      refine ⟨s2, ?_, r1, r2, r3⟩
      rw [rr_loop32]
      simp only [hlen, if_true, hpass]
      exact h2
    · obtain ⟨f1, f2, f3⟩ := e9 hrem
      have hr0' : c1.remainingTime = 0 := by omega
      refine ⟨s1, ?_, ?_, ?_, hresp⟩
      · rw [rr_loop32]
        simp only [hlen, if_true, hpass]
        apply rr_loop32_done
        rw [f1, hp1, hfin]; simp
      · rw [f2, hta, hcur1, hr0', hca]
        unfold INT_MAX at hb
        unfold wrap32; omega
      · rw [f3, hwt, hcur1, hr0', hca, hcb]
        unfold INT_MAX at hb
        unfold wrap32; omega

/-- The 32-bit loop of `rr_metrics` on a single process whose fields are `int`
values: from `rr_fuel` passes on it ends with the sums `(burstTime, 0, 0)`. -/
theorem rr_loop32_single_sums (x : Process) (ha : 0 ≤ x.arrivalTime)
    (ha1 : x.arrivalTime ≤ INT_MAX) (hb : 0 < x.burstTime) (hb1 : x.burstTime ≤ INT_MAX)
    (quantum : Int) (hq : 0 < quantum) (fuel : Nat) (hfuel : rr_fuel [x] ≤ fuel) :
    ∃ s1, rr_loop32 quantum fuel (rr_init32 [x]) = .ok s1 ∧ s1.sumTa = x.burstTime ∧
      s1.sumWait = 0 ∧ s1.sumResp = 0 := by
  have hinit : rr_init32 [x] =
      { p := [rr_reset x], rq := q_create, nextArr := 0, finished := 0, current := 0
        sumTa := 0, sumWait := 0, sumResp := 0, log := [] } := by
    simp [rr_init32, duplicate_proc_array, qsort, List.insertionSort, List.orderedInsert]
  have hf : rr_fuel [x] = x.burstTime.toNat + 3 := by
    simp [rr_fuel]
  obtain ⟨g1, g2⟩ := q_push_spec q_create 0 q_create_wf
  rw [q_create_contents] at g2
  have hw0 : wrap32 (x.arrivalTime + (x.burstTime - x.burstTime)) = x.arrivalTime := by
    unfold INT_MAX at ha1
    unfold wrap32; omega
  rw [hinit]
  by_cases ha0 : x.arrivalTime ≤ 0
  · have hz : x.arrivalTime = 0 := by omega
    obtain ⟨n, rfl⟩ : ∃ n, fuel = n + 1 := ⟨fuel - 1, by omega⟩
    apply rr_loop32_single quantum hq x.arrivalTime x.burstTime ha hb1 n _ (rr_reset x)
      (q_push q_create 0) rfl rfl rfl hb (le_refl _) (Or.inr ⟨rfl, hz.symm⟩) _ g1
      (by simpa using g2) rfl _ rfl rfl rfl
    · show (rr_reset x).remainingTime.toNat ≤ n + 1
      simp only [rr_reset]
      omega
    · show rr_enqueue 0 ([rr_reset x].drop 0) q_create 0 = (q_push q_create 0, 1)
      simp only [List.drop_zero, rr_enqueue, rr_reset, ha0, if_true, Nat.cast_zero, zero_add]
    · show (0 : Int) = wrap32 (x.arrivalTime + (x.burstTime - (rr_reset x).remainingTime))
      simp only [rr_reset]
      rw [hw0, hz]
  · obtain ⟨n, rfl⟩ : ∃ n, fuel = n + 2 := ⟨fuel - 2, by omega⟩
    have hpass : rr_pass32 quantum
        { p := [rr_reset x], rq := q_create, nextArr := 0, finished := 0, current := 0
          sumTa := 0, sumWait := 0, sumResp := 0, log := [] } =
        .ok { p := [rr_reset x], rq := q_create, nextArr := 0, finished := 0
              current := x.arrivalTime
              sumTa := 0, sumWait := 0, sumResp := 0
              log := [RrEvent.idle 0 x.arrivalTime] } := by
      unfold rr_pass32
      simp only [List.drop_zero, rr_enqueue, rr_reset, ha0, if_false]
      rfl
    rw [rr_loop32]
    simp only [List.length_singleton, zero_lt_one, if_true, hpass]
    apply rr_loop32_single quantum hq x.arrivalTime x.burstTime ha hb1 n _ (rr_reset x)
      (q_push q_create 0) rfl rfl rfl hb (le_refl _) (Or.inr ⟨rfl, rfl⟩) _ g1
      (by simpa using g2) rfl _ rfl rfl rfl
    · show (rr_reset x).remainingTime.toNat ≤ n + 1
      simp only [rr_reset]
      omega
    · show rr_enqueue x.arrivalTime ([rr_reset x].drop 0) q_create 0 = (q_push q_create 0, 1)
      simp only [List.drop_zero, rr_enqueue, rr_reset, le_refl, if_true, Nat.cast_zero,
        zero_add]
    · show x.arrivalTime = wrap32 (x.arrivalTime + (x.burstTime - (rr_reset x).remainingTime))
      simp only [rr_reset]
      rw [hw0]

/-- The two outcomes of a pass of the 32-bit loop of `sjf_metrics` when every
burst is below `INT_MAX`. -/
theorem sjf_pass32_cases (s : SjfState) (hlen : s.done.length = s.p.length)
    (hb : ∀ x ∈ s.p, x.burstTime < INT_MAX) :
    ((∀ j x, ¬ sjf_ready s.p s.done s.current j x) ∧
      sjf_pass32 s = .ok (sjf_idle_state s)) ∨
    (∃ b pb, sjf_ready s.p s.done s.current b pb ∧
      sjf_pass32 s = .ok
        { p := s.p.set b { pb with startTime := s.current
                                   completionTime := wrap32 (s.current + pb.burstTime) }
          done := s.done.set b true
          completed := s.completed + 1
          current := wrap32 (s.current + pb.burstTime)
          sumTa := s.sumTa + wrap32 (wrap32 (s.current + pb.burstTime) - pb.arrivalTime)
          sumWait := s.sumWait + wrap32 (s.current - pb.arrivalTime)
          sumResp := s.sumResp + wrap32 (s.current - pb.arrivalTime)
          log := s.log ++ [SjfEvent.dispatch b s.current] }) := by
  obtain ⟨acc, hsel, hinv⟩ := sjf_select_spec s.p s.done s.current hlen hb
  obtain ⟨best, bb⟩ := acc
  rcases hinv with ⟨h1, _, h3⟩ | ⟨b, pb, h1, h2, h3, h4, h5⟩
  · left
    simp only at h1
    refine ⟨fun j x hx => h3 j x (sjf_ready_lt hx) hx, ?_⟩
    unfold sjf_pass32
    rw [hsel]
    simp only [h1]
    rfl
  · right
    simp only at h1
    refine ⟨b, pb, h3, ?_⟩
    unfold sjf_pass32
    rw [hsel]
    have hnn : ¬ (best < 0) := by rw [h1]; exact not_lt.mpr (Int.ofNat_nonneg b)
    have hbn : best.toNat = b := by rw [h1]; exact Int.toNat_ofNat b
    simp only [if_neg hnn, hbn, h3.1]

theorem sjf_loop32_done (n : Nat) (s : SjfState) (h : ¬ s.completed < s.p.length) :
    sjf_loop32 n s = .ok s := by
  cases n with
  | zero => simp only [sjf_loop32, h, if_false]
  | succ n => simp only [sjf_loop32, h, if_false]

theorem sjf_loop32_mono (fuel : Nat) :
    ∀ (s s1 : SjfState), sjf_loop32 fuel s = .ok s1 →
      ∀ fuel1, fuel ≤ fuel1 → sjf_loop32 fuel1 s = .ok s1 := by
  induction fuel with
  | zero =>
    intro s s1 h fuel1 _
    by_cases hc : s.completed < s.p.length
    · simp [sjf_loop32, hc] at h
    · rw [sjf_loop32_done fuel1 s hc]
      simpa [sjf_loop32, hc] using h
  | succ f ih =>
    intro s s1 h fuel1 hle
    obtain ⟨f1, rfl⟩ : ∃ f1, fuel1 = f1 + 1 := ⟨fuel1 - 1, by omega⟩
    by_cases hc : s.completed < s.p.length
    · simp only [sjf_loop32, hc, if_true] at h ⊢
      cases hp : sjf_pass32 s with
      | error e => rw [hp] at h; cases h
      | ok s2 =>
        rw [hp] at h
        exact ih s2 s1 h f1 (by omega)
    · rw [sjf_loop32_done (f1 + 1) s hc]
      simpa [sjf_loop32, hc] using h

/-- The 32-bit loop of `sjf_metrics` on a single process whose fields are `int`
values and whose burst is below `INT_MAX`: from two passes on it ends with the
sums `(burstTime, 0, 0)`. -/
theorem sjf_loop32_single_sums (x : Process) (ha : 0 ≤ x.arrivalTime)
    (ha1 : x.arrivalTime ≤ INT_MAX) (hb : 0 < x.burstTime) (hb1 : x.burstTime < INT_MAX)
    (fuel : Nat) (hfuel : 2 ≤ fuel) :
    ∃ s1, sjf_loop32 fuel (sjf_init [x]) = .ok s1 ∧ s1.sumTa = x.burstTime ∧
      s1.sumWait = 0 ∧ s1.sumResp = 0 := by
  have hone : ∀ (c : Int) (b : Nat) (pb : Process), sjf_ready [x] [false] c b pb →
      b = 0 ∧ pb = x := by
    intro c b pb hr
    have hlt : b < 1 := by simpa using sjf_ready_lt hr
    have hb0 : b = 0 := by omega
    subst hb0
    have := hr.1
    simp only [List.getElem?_cons_zero, Option.some.injEq] at this
    exact ⟨rfl, this.symm⟩
  have hnext : sjf_next_arrival [x] [false] = x.arrivalTime := by
    simp only [sjf_next_arrival, List.zip_cons_cons, List.zip_nil_right, List.foldl_cons,
      List.foldl_nil, true_and]
    split_ifs with h
    · rfl
    · omega
  have hfinal : ∀ s : SjfState, s.p = [x] → s.done = [false] → s.completed = 0 →
      s.current = x.arrivalTime → s.sumTa = 0 → s.sumWait = 0 → s.sumResp = 0 →
      ∃ s1, sjf_loop32 1 s = .ok s1 ∧ s1.sumTa = x.burstTime ∧ s1.sumWait = 0 ∧
        s1.sumResp = 0 := by
    intro s hp hd hcm hcur h1 h2 h3
    have hlen : s.done.length = s.p.length := by rw [hp, hd]; rfl
    have hbs : ∀ y ∈ s.p, y.burstTime < INT_MAX := by
      intro y hy
      rw [hp] at hy
      rw [List.mem_singleton.mp hy]; exact hb1
    have hr : sjf_ready s.p s.done s.current 0 x := by
      rw [hp, hd, hcur]
      exact ⟨rfl, rfl, le_refl _⟩
    have hcs : s.completed < s.p.length := by rw [hp, hcm]; simp
    rcases sjf_pass32_cases s hlen hbs with ⟨hno, _⟩ | ⟨b, pb, hrb, hpass⟩
    · exact absurd hr (hno 0 x)
    · rw [hp, hd] at hrb
      obtain ⟨e1, e2⟩ := hone _ b pb hrb
      subst e1 e2
      cases hres : sjf_pass32 s with
      | error e => rw [hres] at hpass; cases hpass
      | ok s2 =>
        rw [hres] at hpass
        have e := Except.ok.inj hpass
        refine ⟨s2, ?_, ?_, ?_, ?_⟩
        · rw [sjf_loop32]
          simp only [hcs, if_true, hres]
          apply sjf_loop32_done
          rw [e]
          simp [hcm, hp]
        · rw [e]
          simp only [h1, hcur]
          unfold INT_MAX at hb1 ha1
          unfold wrap32; omega
        · rw [e]
          simp only [h2, hcur]
          unfold wrap32; omega
        · rw [e]
          simp only [h3, hcur]
          unfold wrap32; omega
  have hb0 : ∀ y ∈ (sjf_init [x]).p, y.burstTime < INT_MAX := by
    intro y hy
    have : y = x := by simpa [sjf_init, duplicate_proc_array] using hy
    rw [this]; exact hb1
  have hc0 : (sjf_init [x]).completed < (sjf_init [x]).p.length := by
    simp [sjf_init, duplicate_proc_array]
  have hrun : ∃ s1, sjf_loop32 2 (sjf_init [x]) = .ok s1 ∧ s1.sumTa = x.burstTime ∧
      s1.sumWait = 0 ∧ s1.sumResp = 0 := by
    rcases sjf_pass32_cases (sjf_init [x]) rfl hb0 with ⟨_, hpass⟩ | ⟨b, pb, hrb, _⟩
    · obtain ⟨s1, g1, g2⟩ := hfinal (sjf_idle_state (sjf_init [x])) rfl rfl rfl hnext
        rfl rfl rfl
      refine ⟨s1, ?_, g2⟩
      rw [sjf_loop32]
      simp only [hc0, if_true, hpass]
      exact g1
    · obtain ⟨e1, e2⟩ := hone _ b pb hrb
      subst e1 e2
      have h0 : pb.arrivalTime = 0 := by
        have := hrb.2.2
        simp only [sjf_init] at this
        omega
      obtain ⟨s1, g1, g2⟩ := hfinal (sjf_init [pb]) rfl rfl rfl h0.symm rfl rfl rfl
      exact ⟨s1, sjf_loop32_mono 1 _ _ g1 2 (by omega), g2⟩
  obtain ⟨s1, g1, g2⟩ := hrun
  exact ⟨s1, sjf_loop32_mono 2 _ _ g1 fuel hfuel, g2⟩

theorem fcfs_loop32_single_sums (x : Process) (ha : 0 ≤ x.arrivalTime)
    (hb : 0 < x.burstTime) (hb1 : x.burstTime ≤ INT_MAX) :
    (fcfs_loop32 (qsort cmp_arrival_pid32 (duplicate_proc_array [x]))).sumTa = x.burstTime ∧
    (fcfs_loop32 (qsort cmp_arrival_pid32 (duplicate_proc_array [x]))).sumWait = 0 ∧
    (fcfs_loop32 (qsort cmp_arrival_pid32 (duplicate_proc_array [x]))).sumResp = 0 := by
  have hcur : (if (0 : Int) < x.arrivalTime then x.arrivalTime else 0) = x.arrivalTime := by
    split_ifs with h
    · rfl
    · omega
  simp only [duplicate_proc_array, qsort, List.insertionSort, List.orderedInsert, fcfs_loop32,
    List.foldl_cons, List.foldl_nil, fcfs_step32, fcfs_init, hcur, List.map_cons, List.map_nil,
    id_eq, zero_add]
  unfold INT_MAX at hb1
  refine ⟨?_, ?_, ?_⟩ <;> (unfold wrap32; omega)

/-- C7 (amended). For every single-process input with `arrivalTime >= 0` and
`burstTime > 0` (the two fields being values of `int`), each of `fcfs_metrics`,
`rr_metrics` (for every quantum `> 0`) and `sjf_metrics` (when
`burstTime < INT_MAX`) returns avgTurnaround equal to `(float) burstTime`, the
`float` nearest to the burstTime, avgWaiting 0 and avgResponse 0, whatever the
arrival time is; `(float) burstTime` is the burstTime itself when
`burstTime <= 2^24`. -/
theorem single_process_metrics32 (x : Process) (ha : 0 ≤ x.arrivalTime)
    (ha1 : x.arrivalTime ≤ INT_MAX) (hb : 0 < x.burstTime) (hb1 : x.burstTime ≤ INT_MAX) :
    fcfs_metrics32 [x] =
      { avgTurnaround := fp_cast (x.burstTime : ℚ), avgWaiting := Fp.fin 0,
        avgResponse := Fp.fin 0 } ∧
    (∀ quantum : Int, 0 < quantum → ∀ fuel, rr_fuel [x] ≤ fuel →
      rr_metrics32 fuel [x] quantum =
        .ok { avgTurnaround := fp_cast (x.burstTime : ℚ), avgWaiting := Fp.fin 0,
              avgResponse := Fp.fin 0 }) ∧
    (x.burstTime < INT_MAX → ∀ fuel, 2 ≤ fuel →
      sjf_metrics32 fuel [x] =
        .ok { avgTurnaround := fp_cast (x.burstTime : ℚ), avgWaiting := Fp.fin 0,
              avgResponse := Fp.fin 0 }) ∧
    (x.burstTime ≤ 2 ^ 24 → fp_cast (x.burstTime : ℚ) = Fp.fin (x.burstTime : ℚ)) := by
  have hm : make_metrics32 x.burstTime 0 0 1 =
      { avgTurnaround := fp_cast (x.burstTime : ℚ), avgWaiting := Fp.fin 0,
        avgResponse := Fp.fin 0 } := by
    simp only [make_metrics32, fp_avg_zero 1 (by decide), fp_avg_eq_cast _ 1 (by decide)]
    simp
  refine ⟨?_, ?_, ?_, ?_⟩
  · obtain ⟨h1, h2, h3⟩ := fcfs_loop32_single_sums x ha hb hb1
    simp only [fcfs_metrics32, h1, h2, h3, List.length_singleton]
    exact hm
  · intro quantum hq fuel hfuel
    obtain ⟨s1, h, h1, h2, h3⟩ := rr_loop32_single_sums x ha ha1 hb hb1 quantum hq fuel hfuel
    simp only [rr_metrics32, if_neg (not_le.mpr hq), h, h1, h2, h3, List.length_singleton]
    rw [hm]
  · intro hlt fuel hfuel
    obtain ⟨s1, h, h1, h2, h3⟩ := sjf_loop32_single_sums x ha ha1 hb hlt fuel hfuel
    simp only [sjf_metrics32, h, h1, h2, h3, List.length_singleton]
    rw [hm]
  · intro h24
    exact fp_cast_int x.burstTime (by rw [abs_of_pos hb]; exact h24)

/-- Instance of C7 (amended) on the process `(pid=1, arr=5, burst=2)`. -/
theorem single_process_metrics32_witness :
    fcfs_metrics32 [mkProc 1 5 2] =
      { avgTurnaround := Fp.fin 2, avgWaiting := Fp.fin 0, avgResponse := Fp.fin 0 } ∧
    (∀ quantum : Int, 0 < quantum → ∀ fuel, rr_fuel [mkProc 1 5 2] ≤ fuel →
      rr_metrics32 fuel [mkProc 1 5 2] quantum =
        .ok { avgTurnaround := Fp.fin 2, avgWaiting := Fp.fin 0, avgResponse := Fp.fin 0 }) ∧
    (∀ fuel, 2 ≤ fuel →
      sjf_metrics32 fuel [mkProc 1 5 2] =
        .ok { avgTurnaround := Fp.fin 2, avgWaiting := Fp.fin 0, avgResponse := Fp.fin 0 }) := by
  obtain ⟨h1, h2, h3, h4⟩ := single_process_metrics32 (mkProc 1 5 2) (by decide) (by decide)
    (by decide) (by decide)
  have e : fp_cast (((mkProc 1 5 2).burstTime : Int) : ℚ) = Fp.fin 2 := by
    rw [h4 (by decide)]
    simp [mkProc]
  rw [e] at h1 h2 h3
  exact ⟨h1, h2, h3 (by decide)⟩

theorem fp_cast_odd25 : fp_cast 16777217 = Fp.fin 16777216 := by
  have h53 : fp_round 53 (16777217 : ℚ) = 16777217 := by
    have := fp_round_exact 53 16777217 0 (by norm_num)
    norm_num at this ⊢
    exact this
  have hm : round_half_even ((16777217 : ℚ) / 2 ^ ((24 : Int) - (((24 : Nat) : Int) - 1))) =
      8388608 := by
    rw [round_half_even_eval _ 8388608 (by norm_num) (by norm_num)]
    norm_num
  have h24 : fp_round 24 (16777217 : ℚ) = 16777216 := by
    rw [fp_round_eval_pos 24 _ 24 _ (by norm_num) (by norm_num) hm]
    norm_num
  unfold fp_cast
  rw [h53, h24, if_neg (by norm_num)]

/-- C7, as stated, fails on the single process `(pid=1, arr=0, burst=16777217)`:
the sum of the turnaround times is the burst `16777217 = 2^24 + 1`, which is not
a `float`, and the cast `(float)` of `make_metrics` rounds it to `16777216`;
`fcfs_metrics`, `sjf_metrics` and `rr_metrics` (quantum `16777217`) return
avgTurnaround `16777216`, not the burstTime. -/
theorem single_process_float_rounding :
    (0 : Int) ≤ (mkProc 1 0 16777217).arrivalTime ∧
    (0 : Int) < (mkProc 1 0 16777217).burstTime ∧
    fcfs_metrics32 [mkProc 1 0 16777217] = ⟨Fp.fin 16777216, Fp.fin 0, Fp.fin 0⟩ ∧
    sjf_metrics32 1 [mkProc 1 0 16777217] = .ok ⟨Fp.fin 16777216, Fp.fin 0, Fp.fin 0⟩ ∧
    rr_metrics32 1 [mkProc 1 0 16777217] 16777217 =
      .ok ⟨Fp.fin 16777216, Fp.fin 0, Fp.fin 0⟩ ∧
    (fcfs_metrics32 [mkProc 1 0 16777217]).avgTurnaround ≠
      Fp.fin (((mkProc 1 0 16777217).burstTime : Int) : ℚ) := by
  have hm : make_metrics32 16777217 0 0 1 = ⟨Fp.fin 16777216, Fp.fin 0, Fp.fin 0⟩ := by
    simp only [make_metrics32, fp_avg_zero 1 (by decide), fp_avg_eq_cast _ 1 (by decide)]
    have := fp_cast_odd25
    norm_num at this ⊢
    exact this
  have hf : fcfs_loop32 (qsort cmp_arrival_pid32 (duplicate_proc_array [mkProc 1 0 16777217])) =
      ⟨[⟨1, 0, 16777217, 0, 0, 16777217⟩], 16777217, 16777217, 0, 0⟩ := by decide
  have hs : sjf_loop32 1 (sjf_init [mkProc 1 0 16777217]) =
      .ok { p := [⟨1, 0, 16777217, 0, 0, 16777217⟩], done := [true], completed := 1
            current := 16777217, sumTa := 16777217, sumWait := 0, sumResp := 0
            log := [SjfEvent.dispatch 0 0] } := by rfl
  have hr : rr_loop32 16777217 1 (rr_init32 [mkProc 1 0 16777217]) =
      .ok { p := [⟨1, 0, 16777217, 0, 0, 16777217⟩]
            rq := ⟨[0, 0, 0, 0, 0, 0, 0, 0, 0, 0, 0, 0, 0, 0, 0, 0], 16, 1, 1⟩
            nextArr := 1, finished := 1, current := 16777217
            sumTa := 16777217, sumWait := 0, sumResp := 0
            log := [RrEvent.run 0 0 16777217 true] } := by rfl
  have h1 : fcfs_metrics32 [mkProc 1 0 16777217] =
      ⟨Fp.fin 16777216, Fp.fin 0, Fp.fin 0⟩ := by
    simp only [fcfs_metrics32, hf, List.length_singleton]
    exact hm
  refine ⟨by decide, by decide, h1, ?_, ?_, ?_⟩
  · simp only [sjf_metrics32, hs, List.length_singleton]
    rw [hm]
  · simp only [rr_metrics32, hr, List.length_singleton]
    rw [if_neg (by decide), hm]
  · rw [h1]
    intro h
    have h2 := Fp.fin.inj h
    simp only [mkProc] at h2
    norm_num at h2

end Scheduler
